import Mathlib

/-!
# Verification of the js-data-limbo staging layer

This file gives a shallow embedding of the second (current) `MiddlemanHandler`
implementation in `src/index.js` and settles the frozen claims about it.

Modelling conventions:
* JavaScript values are `JVal`; objects live in an explicit heap mapping
  addresses to `JObj` records (own properties with descriptors, an
  extensibility flag, and a flattened table of prototype-provided keys).
* The handler tree (`Handler`) mirrors the `MiddlemanHandler` instances.  The
  `parentHandler` / `propertyName` back-references of the source are encoded
  positionally: a node is addressed by its key path from the root, and the
  upward `setChanged` walk is performed by the path-application function.
  The `proxy` field is not stored: in the source it is non-`undefined`
  exactly when the buffered `principal` is a non-null object, which here is
  `JVal.addr _`.
* Mutation is explicit state passing; a thrown exception is a `none` / error
  result.
-/

/-- JavaScript runtime values.  Objects are heap addresses. -/
inductive JVal : Type where
  | undef : JVal
  | jnull : JVal
  | jbool : Bool → JVal
  | jnum : Int → JVal
  | jstr : String → JVal
  | addr : Nat → JVal
  | func : Nat → JVal
deriving DecidableEq

/-- The `typeof` operator. -/
def typeofStr : JVal → String
  | JVal.undef => "undefined"
  | JVal.jnull => "object"
  | JVal.jbool _ => "boolean"
  | JVal.jnum _ => "number"
  | JVal.jstr _ => "string"
  | JVal.addr _ => "object"
  | JVal.func _ => "function"

def isAddr : JVal → Bool
  | JVal.addr _ => true
  | _ => false

/-- An own property of a JS object: value plus descriptor flags. -/
structure JProp : Type where
  value : JVal
  writable : Bool
  enumerable : Bool
  configurable : Bool
deriving DecidableEq

/-- A JS object: insertion-ordered own properties, extensibility, and a
flattened table of the keys its prototype chain provides. -/
structure JObj : Type where
  props : List (String × JProp)
  extensible : Bool
  protoProps : List (String × JVal)
deriving DecidableEq

/-- Association-list lookup (first match). -/
def alook {α β : Type} [DecidableEq α] (k : α) : List (α × β) → Option β
  | [] => none
  | (k', v) :: rest => if k' = k then some v else alook k rest

/-- Association-list update in place (only when the key is present), keeping
the original position, as JS assignment to an existing key does. -/
def aupdate {α β : Type} [DecidableEq α] (k : α) (v : β) : List (α × β) → List (α × β)
  | [] => []
  | (k', v') :: rest => if k' = k then (k, v) :: rest else (k', v') :: aupdate k v rest

/-- Remove a key from an association list. -/
def aremove {α β : Type} [DecidableEq α] (k : α) : List (α × β) → List (α × β)
  | [] => []
  | (k', v') :: rest => if k' = k then rest else (k', v') :: aremove k rest

/-- Insert-or-replace for the handler `keyMap`: JS assignment keeps the
original position of an existing key and appends a fresh key at the end. -/
def ainsert {α β : Type} [DecidableEq α] (k : α) (v : β) : List (α × β) → List (α × β)
  | [] => [(k, v)]
  | (k', v') :: rest => if k' = k then (k, v) :: rest else (k', v') :: ainsert k v rest

abbrev Heap : Type := List (Nat × JObj)

def ownProp (o : JObj) (k : String) : Option JProp := alook k o.props

def hasOwn (o : JObj) (k : String) : Bool := (ownProp o k).isSome

/-- The `in` operator / `Reflect.has`: own property or prototype-provided. -/
def jsIn (o : JObj) (k : String) : Bool :=
  hasOwn o k || (alook k o.protoProps).isSome

/-- `Reflect.get`: own value first, then the prototype table, else undefined. -/
def reflectGet (o : JObj) (k : String) : JVal :=
  match ownProp o k with
  | some p => p.value
  | none => (alook k o.protoProps).getD JVal.undef

/-- `Reflect.ownKeys`. -/
def reflectOwnKeys (o : JObj) : List String := o.props.map Prod.fst

/-- `Reflect.set` on a plain object: overwrite a writable own property in
place, or append a fresh configurable/enumerable/writable property when the
object is extensible; `none` is JS returning `false`. -/
def reflectSet (o : JObj) (k : String) (v : JVal) : Option JObj :=
  match ownProp o k with
  | some p =>
      if p.writable then
        some ⟨aupdate k ⟨v, p.writable, p.enumerable, p.configurable⟩ o.props,
              o.extensible, o.protoProps⟩
      else none
  | none =>
      if o.extensible then
        some ⟨o.props ++ [(k, ⟨v, true, true, true⟩)], o.extensible, o.protoProps⟩
      else none

/-- `Reflect.deleteProperty`: removing an absent key succeeds; a
non-configurable own key makes it return `false` (here `none`). -/
def reflectDelete (o : JObj) (k : String) : Option JObj :=
  match ownProp o k with
  | some p =>
      if p.configurable then some ⟨aremove k o.props, o.extensible, o.protoProps⟩
      else none
  | none => some o

/-- A JS property-descriptor object as the source manipulates it.  The
`value` field is optional because the descriptor built inside the `set` trap
has no `value` entry, while `Reflect.getOwnPropertyDescriptor` yields one. -/
structure Desc : Type where
  value : Option JVal
  writable : Bool
  enumerable : Bool
  configurable : Bool
deriving DecidableEq

/-- `Reflect.getOwnPropertyDescriptor` for data properties. -/
def reflectGOPD (o : JObj) (k : String) : Option Desc :=
  (ownProp o k).map fun p => ⟨some p.value, p.writable, p.enumerable, p.configurable⟩

/-- The four property states of the staging layer. -/
inductive PState : Type where
  | RETAINED : PState
  | NEW : PState
  | DIRTY : PState
  | DELETED : PState
deriving DecidableEq

/-- The errors the source can raise.  `MiddlemanError`'s constructor body is
empty (`constructor(message, error) {}`), so an instance stores neither its
message nor its cause; faithfully, `middlemanError` is a nullary
constructor carrying no data. -/
inductive MErr : Type where
  | typeError : String → MErr
  | middlemanError : MErr
deriving DecidableEq

/-- A `MiddlemanHandler` node.  `birth` is a ghost creation timestamp used
only to state ordering claims; it does not influence any operation. -/
inductive Handler : Type where
  | mk : JVal → Option PState → Option Desc → Bool → Nat → List (String × Handler) → Handler

def Handler.principal : Handler → JVal
  | Handler.mk p _ _ _ _ _ => p

def Handler.propertyState : Handler → Option PState
  | Handler.mk _ s _ _ _ _ => s

def Handler.propertyDescriptor : Handler → Option Desc
  | Handler.mk _ _ d _ _ _ => d

def Handler.changed : Handler → Bool
  | Handler.mk _ _ _ c _ _ => c

def Handler.birth : Handler → Nat
  | Handler.mk _ _ _ _ b _ => b

def Handler.keyMap : Handler → List (String × Handler)
  | Handler.mk _ _ _ _ _ m => m

def Handler.withKeyMap : Handler → List (String × Handler) → Handler
  | Handler.mk p s d c b _, m => Handler.mk p s d c b m

def Handler.withChanged : Handler → Bool → Handler
  | Handler.mk p s d _ b m, c => Handler.mk p s d c b m

def Handler.withState : Handler → Option PState → Handler
  | Handler.mk p _ d c b m, s => Handler.mk p s d c b m

/-- `MiddlemanHandler.getOrRetainProperty`.  Returns the resolved child (if
any) together with the updated handler and ghost clock.  Note two quirks of
the source kept here: an own property whose stored value is `undefined` is
treated like an absent property ("no node"), and `delete descriptor.principal`
is a no-op on a property descriptor (whose data field is named `value`), so
the retained descriptor keeps the cached value. -/
def getOrRetainProperty (heap : Heap) (h : Handler) (k : String) (clk : Nat) :
    Option Handler × Handler × Nat :=
  match alook k h.keyMap with
  | some c => (some c, h, clk)
  | none =>
    match h.principal with
    | JVal.addr a =>
      match alook a heap with
      | some o =>
        match ownProp o k with
        | some p =>
          if p.value = JVal.undef then (none, h, clk)
          else
            let d : Desc := ⟨some p.value, p.writable, p.enumerable, p.configurable⟩
            let c := Handler.mk p.value (some PState.RETAINED) (some d) false clk []
            (some c, h.withKeyMap (h.keyMap ++ [(k, c)]), clk + 1)
        | none => (none, h, clk)
      | none => (none, h, clk)
    | _ => (none, h, clk)

/-- The `ownKeys` trap: the principal's own keys minus staged-`DELETED` ones,
followed by the `NEW` keys of the key map that are not `in` the principal. -/
def hOwnKeys (heap : Heap) (h : Handler) : List String :=
  match h.principal with
  | JVal.addr a =>
    match alook a heap with
    | some o =>
      let first := (reflectOwnKeys o).filter fun k =>
        match alook k h.keyMap with
        | some c => decide (c.propertyState ≠ some PState.DELETED)
        | none => true
      let second := (h.keyMap.filter fun kc =>
        decide (kc.2.propertyState = some PState.NEW) && !(jsIn o kc.1)).map Prod.fst
      first ++ second
    | none => []
  | _ => []

/-- The `has` trap. -/
def hHas (heap : Heap) (h : Handler) (k : String) : Bool :=
  match alook k h.keyMap with
  | some c => decide (c.propertyState ≠ some PState.DELETED)
  | none =>
    match h.principal with
    | JVal.addr a =>
      match alook a heap with
      | some o => jsIn o k
      | none => false
    | _ => false

/-- The `getOwnPropertyDescriptor` trap.  The source guards with
`retainedProp && retainedProp.state !== DELETED`, but the field is named
`propertyState`, so `.state` is always `undefined` and the `DELETED` test can
never fail: any existing child (deleted or not) answers with its stored
descriptor. -/
def hGOPD (heap : Heap) (h : Handler) (k : String) : Option Desc :=
  match alook k h.keyMap with
  | some c => c.propertyDescriptor
  | none =>
    match h.principal with
    | JVal.addr a =>
      match alook a heap with
      | some o => reflectGOPD o k
      | none => none
    | _ => none

/-- The node-level part of `testPrincipalEqual` for a non-root node: re-read
the live value at `k` from the parent's live principal with `Reflect.get` and
compare it by identity with the buffered principal. -/
def liveGet (heap : Heap) (pv : JVal) (k : String) : JVal :=
  match pv with
  | JVal.addr a =>
    match alook a heap with
    | some o => reflectGet o k
    | none => JVal.undef
  | _ => JVal.undef

def tpeNode (heap : Heap) (parentPrincipal : JVal) (k : String) (c : Handler) : Bool :=
  decide (liveGet heap parentPrincipal k = c.principal)

/-- The `$testPrincipalEqual(name)` surface call with an explicit name:
resolve (or materialize) the named child and compare; `none` is the
`undefined` returned when the key never existed. -/
def hTPE (heap : Heap) (h : Handler) (clk : Nat) (k : String) :
    Option Bool × Handler × Nat :=
  match getOrRetainProperty heap h k clk with
  | (some c, h', clk') => (some (tpeNode heap h.principal k c), h', clk')
  | (none, h', clk') => (none, h', clk')

/-- The `$propertyState(name)` surface call with an explicit name. -/
def hPropState (heap : Heap) (h : Handler) (clk : Nat) (k : String) :
    Option PState × Handler × Nat :=
  match getOrRetainProperty heap h k clk with
  | (some c, h', clk') => (c.propertyState, h', clk')
  | (none, h', clk') => (none, h', clk')

/-- `Reflect.set(this.principal, key, v)` through the heap. -/
def heapSet (heap : Heap) (pv : JVal) (k : String) (v : JVal) : Option Heap :=
  match pv with
  | JVal.addr a =>
    match alook a heap with
    | some o => (reflectSet o k v).map fun o' => aupdate a o' heap
    | none => none
  | _ => none

/-- `Reflect.deleteProperty(this.principal, key)` through the heap. -/
def heapDelete (heap : Heap) (pv : JVal) (k : String) : Option Heap :=
  match pv with
  | JVal.addr a =>
    match alook a heap with
    | some o => (reflectDelete o k).map fun o' => aupdate a o' heap
    | none => none
  | _ => none

mutual
/-- `MiddlemanHandler.commit`.  On an error the partially mutated heap and
key map are returned together with the raised error (no rollback). -/
def commitNode (heap : Heap) (h : Handler) : Heap × Handler × Option MErr :=
  match h with
  | Handler.mk p s d c b km =>
    if typeofStr p = "object" then
      match commitKids heap p km with
      | (heap', km', none) => (heap', Handler.mk p s d false b km', none)
      | (heap', km', some e) => (heap', Handler.mk p s d c b km', some e)
    else (heap, Handler.mk p s d c b km, some (MErr.typeError "Commit can only be called on the proxy of an object"))
termination_by sizeOf h

/-- The per-child commit loop: recursively commit changed children first,
then apply the child's state to the principal.  A committed deletion evicts
the child; a committed set retains it; a failure aborts the remaining list. -/
def commitKids (heap : Heap) (pv : JVal) : List (String × Handler) →
    Heap × List (String × Handler) × Option MErr
  | [] => (heap, [], none)
  | (k, c) :: rest =>
    let r := if c.changed then commitNode heap c else (heap, c, none)
    match r with
    | (heap₁, c₁, some e) => (heap₁, (k, c₁) :: rest, some e)
    | (heap₁, c₁, none) =>
      match c₁.propertyState with
      | some PState.DELETED =>
        match heapDelete heap₁ pv k with
        | some heap₂ => commitKids heap₂ pv rest
        | none => (heap₁, (k, c₁) :: rest, some MErr.middlemanError)
      | some PState.DIRTY =>
        match heapSet heap₁ pv k c₁.principal with
        | some heap₂ =>
          match commitKids heap₂ pv rest with
          | (heap₃, km', e') => (heap₃, (k, c₁.withState (some PState.RETAINED)) :: km', e')
        | none => (heap₁, (k, c₁) :: rest, some MErr.middlemanError)
      | some PState.NEW =>
        match heapSet heap₁ pv k c₁.principal with
        | some heap₂ =>
          match commitKids heap₂ pv rest with
          | (heap₃, km', e') => (heap₃, (k, c₁.withState (some PState.RETAINED)) :: km', e')
        | none => (heap₁, (k, c₁) :: rest, some MErr.middlemanError)
      | _ =>
        match commitKids heap₁ pv rest with
        | (heap₂, km', e') => (heap₂, (k, c₁) :: km', e')
termination_by km => sizeOf km
end

/-- The public constructor `middleman`: guard rejects exactly the values with
`typeof !== 'object'`; the result is `handler.proxy`, which is a staging view
only for a non-null object and `undefined` otherwise. -/
def middleman (v : JVal) : Except MErr (Option Handler) :=
  if typeofStr v = "object" then
    Except.ok (if isAddr v then some (Handler.mk v none none false 0 []) else none)
  else Except.error (MErr.typeError "Cannot create Middleman for a non-object value, Middleman is a Proxy.")

/-- A consumer-written literal value (the right-hand side of a staged write,
e.g. `tf.x = {}` or `tf.o.z = {name:'bing'}`).  Literals allocate fresh
objects, so a staged write can never alias an existing heap object. -/
inductive VLit : Type where
  | vundef : VLit
  | vnull : VLit
  | vbool : Bool → VLit
  | vnum : Int → VLit
  | vstr : String → VLit
  | vobj : List (String × VLit) → VLit

/-- The flattened prototype table given to consumer-allocated plain objects
(`Object.prototype` is modelled by its representative `toString`). -/
def protoDefault : List (String × JVal) := [("toString", JVal.func 0)]

mutual
/-- Allocate a literal into the heap, children first, returning the extended
heap, the next fresh address and the resulting value. -/
def allocLit (heap : Heap) (n : Nat) : VLit → Heap × Nat × JVal
  | VLit.vundef => (heap, n, JVal.undef)
  | VLit.vnull => (heap, n, JVal.jnull)
  | VLit.vbool b => (heap, n, JVal.jbool b)
  | VLit.vnum i => (heap, n, JVal.jnum i)
  | VLit.vstr s => (heap, n, JVal.jstr s)
  | VLit.vobj props =>
    match allocProps heap n props with
    | (heap₁, n₁, ps) => (heap₁ ++ [(n₁, ⟨ps, true, protoDefault⟩)], n₁ + 1, JVal.addr n₁)

def allocProps (heap : Heap) (n : Nat) : List (String × VLit) →
    Heap × Nat × List (String × JProp)
  | [] => (heap, n, [])
  | (k, l) :: rest =>
    match allocLit heap n l with
    | (heap₁, n₁, v) =>
      match allocProps heap₁ n₁ rest with
      | (heap₂, n₂, ps) => (heap₂, n₂, (k, ⟨v, true, true, true⟩) :: ps)
end

mutual
/-- Well-formedness of a literal: no duplicate keys at any object level. -/
def VLit.wf : VLit → Bool
  | VLit.vobj props => decide (props.map Prod.fst).Nodup && VLit.wfProps props
  | _ => true

def VLit.wfProps : List (String × VLit) → Bool
  | [] => true
  | (_, l) :: rest => l.wf && VLit.wfProps rest
end

/-- The `set` trap body at the node whose surface is written (its own
`changed` is set here; ancestors are handled by the path applier). -/
def hSet (heap : Heap) (h : Handler) (k : String) (v : JVal) (clk : Nat) :
    Option (Handler × Nat) :=
  match h.principal with
  | JVal.addr a =>
    match alook a heap with
    | some o =>
      let stt := if jsIn o k then PState.DIRTY else PState.NEW
      let c := Handler.mk v (some stt) (some ⟨none, true, true, true⟩) false clk []
      some ((h.withKeyMap (ainsert k c h.keyMap)).withChanged true, clk + 1)
    | none => none
  | _ => none

/-- Result of the `deleteProperty` trap. -/
inductive DelRes : Type where
  | noProp : DelRes
  | deleted : DelRes
deriving DecidableEq

/-- The `deleteProperty` trap body: materialize the key; report `false` when
it never existed; raise for a non-configurable descriptor (`none` here);
otherwise collapse the child to the tombstone shape (`DELETED`, no value, no
children, `changed = false`) keeping its descriptor, and mark this node
changed. -/
def hDelete (heap : Heap) (h : Handler) (k : String) (clk : Nat) :
    Option (DelRes × Handler × Nat) :=
  match getOrRetainProperty heap h k clk with
  | (none, h', clk') => some (DelRes.noProp, h', clk')
  | (some c, h', clk') =>
    match c.propertyDescriptor with
    | some d =>
      if d.configurable = false then none
      else
        let c' := Handler.mk JVal.undef (some PState.DELETED) (some d) false c.birth []
        some (DelRes.deleted, (h'.withKeyMap (ainsert k c' h'.keyMap)).withChanged true, clk')
    | none => none

/-- Apply an action at the node reached by following `path` through the
interception surface: each step resolves (or lazily materializes) the child
and requires it to be proxied (an object-valued principal), exactly as a
consumer navigating `midMan.o.…` does.  The returned flag records whether the
action called `setChanged`, which then marks every node along the path —
this is the positional encoding of the source's `parentHandler` walk. -/
def atPath (act : Heap → Handler → Nat → Option (Heap × Handler × Nat × Bool)) :
    List String → Heap → Handler → Nat → Option (Heap × Handler × Nat × Bool)
  | [], heap, h, clk => act heap h clk
  | k :: rest, heap, h, clk =>
    match getOrRetainProperty heap h k clk with
    | (some c, h₁, clk₁) =>
      if isAddr c.principal then
        match atPath act rest heap c clk₁ with
        | some (heap₂, c₂, clk₂, prop) =>
          some (heap₂, (h₁.withKeyMap (ainsert k c₂ h₁.keyMap)).withChanged
                  (h₁.changed || prop), clk₂, prop)
        | none => none
      else none
    | (none, _, _) => none

def readAct (k : String) : Heap → Handler → Nat → Option (Heap × Handler × Nat × Bool) :=
  fun heap h clk =>
    match getOrRetainProperty heap h k clk with
    | (_, h', clk') => some (heap, h', clk', false)

def writeAct (k : String) (v : JVal) : Heap → Handler → Nat → Option (Heap × Handler × Nat × Bool) :=
  fun heap h clk =>
    match hSet heap h k v clk with
    | some (h', clk') => some (heap, h', clk', true)
    | none => none

def delAct (k : String) : Heap → Handler → Nat → Option (Heap × Handler × Nat × Bool) :=
  fun heap h clk =>
    match hDelete heap h k clk with
    | some (DelRes.noProp, h', clk') => some (heap, h', clk', false)
    | some (DelRes.deleted, h', clk') => some (heap, h', clk', true)
    | none => none

def commitAct : Heap → Handler → Nat → Option (Heap × Handler × Nat × Bool) :=
  fun heap h clk =>
    match commitNode heap h with
    | (heap', h', none) => some (heap', h', clk, false)
    | (_, _, some _) => none

/-- The surface operations a consumer can perform through (possibly nested)
staged proxies.  `path` addresses the node whose surface is used. -/
inductive Op : Type where
  | read : List String → String → Op
  | write : List String → String → VLit → Op
  | del : List String → String → Op
  | commitAt : List String → Op

def Op.isCommit : Op → Bool
  | Op.commitAt _ => true
  | _ => false

/-- The whole staged-view state: the shared heap, the root handler, the next
fresh address, and ghost creation clock. -/
structure St : Type where
  heap : Heap
  root : Handler
  nextA : Nat
  clk : Nat

def step (st : St) : Op → Option St
  | Op.read path k =>
    (atPath (readAct k) path st.heap st.root st.clk).map fun r =>
      ⟨r.1, r.2.1, st.nextA, r.2.2.1⟩
  | Op.write path k v =>
    if v.wf then
      match allocLit st.heap st.nextA v with
      | (heap₁, n₁, val) =>
        (atPath (writeAct k val) path heap₁ st.root st.clk).map fun r =>
          ⟨r.1, r.2.1, n₁, r.2.2.1⟩
    else none
  | Op.del path k =>
    (atPath (delAct k) path st.heap st.root st.clk).map fun r =>
      ⟨r.1, r.2.1, st.nextA, r.2.2.1⟩
  | Op.commitAt path =>
    (atPath commitAct path st.heap st.root st.clk).map fun r =>
      ⟨r.1, r.2.1, st.nextA, r.2.2.1⟩

def run (st : St) : List Op → Option St
  | [] => some st
  | op :: rest => (step st op).bind fun st' => run st' rest

/-- The state `middleman(target)` produces: a root handler over the
principal at address `a` in the initial heap. -/
def mkInit (heap₀ : Heap) (a : Nat) (n : Nat) : St :=
  ⟨heap₀, Handler.mk (JVal.addr a) none none false 0 [], n, 1⟩

/-- A serialized value: the result of a full-tree read (the spec's
enumeration/serialization contract, §4.2/§6). -/
inductive SVal : Type where
  | prim : JVal → SVal
  | obj : List (String × SVal) → SVal

mutual
/-- Serialize a live value straight from the heap. -/
def serializeObj : Nat → Heap → JVal → Option SVal
  | 0, _, _ => none
  | fuel + 1, heap, JVal.addr a =>
    match alook a heap with
    | some o => (serProps fuel heap o.props).map SVal.obj
    | none => none
  | _ + 1, _, v => some (SVal.prim v)
termination_by fuel _ _ => (fuel, 0)

def serProps : Nat → Heap → List (String × JProp) → Option (List (String × SVal))
  | _, _, [] => some []
  | fuel, heap, (k, p) :: rest =>
    (serializeObj fuel heap p.value).bind fun s =>
      (serProps fuel heap rest).map fun l => (k, s) :: l
termination_by fuel _ l => (fuel, l.length + 1)
end

mutual
/-- Serialize a staged view: enumerate with the `ownKeys` trap, then read
each key through the surface (a child's staged view for staged keys, the
live own value for untouched keys). -/
def serializeStaged : Nat → Heap → Handler → Option SVal
  | 0, _, _ => none
  | fuel + 1, heap, h =>
    match h.principal with
    | JVal.addr a =>
      match alook a heap with
      | some o => (serKeys fuel heap o h (hOwnKeys heap h)).map SVal.obj
      | none => none
    | v => some (SVal.prim v)
termination_by fuel _ _ => (fuel, 0)

def serKeys : Nat → Heap → JObj → Handler → List String → Option (List (String × SVal))
  | _, _, _, _, [] => some []
  | fuel, heap, o, h, k :: rest =>
    let sv :=
      match alook k h.keyMap with
      | some c => serializeStaged fuel heap c
      | none => serializeObj fuel heap (reflectGet o k)
    sv.bind fun s => (serKeys fuel heap o h rest).map fun l => (k, s) :: l
termination_by fuel _ _ _ l => (fuel, l.length + 1)
end

/-- Extract a successful run result (used to name concrete states). -/
def runD (st : St) (ops : List Op) : St := (run st ops).getD (mkInit [] 0 0)

/-- The node addressed by a key path in the handler tree. -/
def nodeAt : Handler → List String → Option Handler
  | h, [] => some h
  | h, k :: rest => (alook k h.keyMap).bind fun c => nodeAt c rest

/-- All nodes along a path (the node itself included) are marked changed. -/
def changedAlong : Handler → List String → Prop
  | h, [] => h.changed = true
  | h, k :: rest => h.changed = true ∧ ∃ c, alook k h.keyMap = some c ∧ changedAlong c rest

/-- The values rejected by the `middleman` construction guard:
`typeof v !== 'object'`, i.e. exactly non-null primitives and functions. -/
def isNonObjectValue : JVal → Bool
  | JVal.undef => true
  | JVal.jbool _ => true
  | JVal.jnum _ => true
  | JVal.jstr _ => true
  | JVal.func _ => true
  | _ => false

/-- C10 (confirmed): `middleman(null)` raises no error and returns
`undefined` — `typeof null` is `'object'`, so the guard passes, while the
handler builds a proxy only for a non-null object, so `handler.proxy` is
`undefined`; the construction error is raised exactly for the values whose
`typeof` is not `'object'`, i.e. non-null primitives and functions. -/
theorem middleman_null_behavior :
    middleman JVal.jnull = Except.ok none
    ∧ (∀ v : JVal, (∃ e, middleman v = Except.error e) ↔ isNonObjectValue v = true)
    ∧ (∀ v : JVal, isNonObjectValue v = true ↔ typeofStr v ≠ "object")
    ∧ (∀ b : Nat, ∃ h : Handler, middleman (JVal.addr b) = Except.ok (some h)) := by
  refine ⟨rfl, ?_, ?_, ?_⟩
  · intro v
    cases v <;> simp [middleman, typeofStr, isNonObjectValue, isAddr]
  · intro v
    cases v <;> simp [typeofStr, isNonObjectValue]
  · intro b
    exact ⟨Handler.mk (JVal.addr b) none none false 0 [], rfl⟩

/-- A root handler over address `a`, as `middleman` constructs it. -/
def rootOver (a : Nat) : Handler := Handler.mk (JVal.addr a) none none false 0 []

/-- A principal whose own key `u` stores the value `undefined`. -/
def undefObj : JObj := ⟨[("u", ⟨JVal.undef, true, true, true⟩)], true, protoDefault⟩

def undefHeap : Heap := [(0, undefObj)]

/-- C8 counterexample: the claim says `getOrRetainProperty` returns a node
for an own key whose stored value is `undefined`, but the source tests
`retained === undefined` on the looked-up value, so the own key `u` of
`undefObj` (an own property, value `undefined`) yields "no node". -/
theorem lazy_materialization_undefined_cex :
    hasOwn undefObj "u" = true
    ∧ (getOrRetainProperty undefHeap (rootOver 0) "u" 1).1 = none := by
  exact ⟨rfl, rfl⟩

/-- C8 amended: for a key with no existing child node, `getOrRetainProperty`
returns a freshly created `RETAINED` child if and only if the key is an own
property of the principal AND its stored value is not `undefined` (an own
key holding `undefined` is conflated with an absent key and yields no node);
a key only reachable through the prototype chain yields no node. -/
theorem lazy_materialization_amended (heap : Heap) (h : Handler) (k : String)
    (clk a : Nat) (o : JObj) (hp : h.principal = JVal.addr a)
    (ho : alook a heap = some o) (hn : alook k h.keyMap = none) :
    ((getOrRetainProperty heap h k clk).1.isSome = true ↔
      ∃ p, ownProp o k = some p ∧ p.value ≠ JVal.undef)
    ∧ (∀ p, ownProp o k = some p → p.value ≠ JVal.undef →
        (getOrRetainProperty heap h k clk).1 =
          some (Handler.mk p.value (some PState.RETAINED)
            (some ⟨some p.value, p.writable, p.enumerable, p.configurable⟩) false clk []))
    ∧ (ownProp o k = none → (getOrRetainProperty heap h k clk).1 = none) := by
  refine ⟨?_, ?_, ?_⟩
  · cases hop : ownProp o k with
    | none => simp [getOrRetainProperty, hn, hp, ho, hop]
    | some p =>
      by_cases hu : p.value = JVal.undef
      · simp [getOrRetainProperty, hn, hp, ho, hop, hu]
      · simp [getOrRetainProperty, hn, hp, ho, hop, hu]
  · intro p hop hu
    simp [getOrRetainProperty, hn, hp, ho, hop, hu]
  · intro hop
    simp [getOrRetainProperty, hn, hp, ho, hop]

/-- C8 witness: the amended characterization applied to `undefHeap` at the
prototype-only key `toString` and to a normal own key. -/
theorem lazy_materialization_amended_witness :
    (getOrRetainProperty undefHeap (rootOver 0) "toString" 1).1 = none := by
  exact (lazy_materialization_amended undefHeap (rootOver 0) "toString" 1 0 undefObj
    rfl rfl rfl).2.2 rfl

/-- A principal with a non-writable, non-enumerable own key `a` and an
ordinary own key `b`. -/
def descObj : JObj :=
  ⟨[("a", ⟨JVal.jnum 1, false, false, true⟩),
    ("b", ⟨JVal.jnum 5, true, true, true⟩)], true, protoDefault⟩

def descHeap : Heap := [(0, descObj)]

/-- The state after staging `a = 2`, deleting `a`, and reading `b` over
`descHeap`. -/
def descSt : St :=
  runD (mkInit descHeap 0 1)
    [Op.write [] "a" (VLit.vnum 2), Op.del [] "a", Op.read [] "b"]

/-- C9 (code bug): the descriptor query.  The source guards with
`retainedProp.state !== DELETED`, but the field is `propertyState` (so the
guard can never exclude a `DELETED` child), and the retained descriptor keeps
its cached `value` because `delete descriptor.principal` misses the `value`
field.  Concretely: after staging `a = 2` and deleting `a`, the child for
`a` is `DELETED`, yet the query answers with the stored set-trap descriptor
instead of deferring to the principal's own descriptor for `a`; and the
descriptor stored for the merely-read key `b` contains the cached value. -/
theorem descriptor_query_code_bug_eval :
    run (mkInit descHeap 0 1)
        [Op.write [] "a" (VLit.vnum 2), Op.del [] "a", Op.read [] "b"] = some descSt
    ∧ (alook "a" descSt.root.keyMap).map Handler.propertyState
        = some (some PState.DELETED)
    ∧ hGOPD descSt.heap descSt.root "a" = some ⟨none, true, true, true⟩
    ∧ reflectGOPD descObj "a" = some ⟨some (JVal.jnum 1), false, false, true⟩
    ∧ hGOPD descSt.heap descSt.root "b" = some ⟨some (JVal.jnum 5), true, true, true⟩ := by
  exact ⟨rfl, rfl, rfl, rfl, rfl⟩

/-- A principal with no own keys whose prototype chain provides `pk`. -/
def protoObj : JObj := ⟨[], true, [("pk", JVal.jstr "inherited")]⟩

def protoHeap : Heap := [(0, protoObj)]

/-- The state after the single staged write `pk = 1` over `protoHeap`. -/
def protoSt : St := runD (mkInit protoHeap 0 1) [Op.write [] "pk" (VLit.vnum 1)]

/-- C3 counterexample: the claim says the replacement child is `DIRTY`
exactly when the key is an own property of the live principal, independent of
prototype-inherited properties; but the source computes `key in target`,
which consults the prototype chain: writing `pk` (provided only by the
prototype, not an own key) yields a `DIRTY` child. -/
theorem set_state_own_membership_cex :
    run (mkInit protoHeap 0 1) [Op.write [] "pk" (VLit.vnum 1)] = some protoSt
    ∧ (alook "pk" protoSt.root.keyMap).map Handler.propertyState
        = some (some PState.DIRTY)
    ∧ hasOwn protoObj "pk" = false := by
  exact ⟨rfl, rfl, rfl⟩

/-- An empty extensible principal (with the default prototype table). -/
def emptyObj : JObj := ⟨[], true, protoDefault⟩

def emptyHeap : Heap := [(0, emptyObj)]

/-- The state after staging `ka = 1`, `kb = 2`, `ka = 3` over an empty
principal: both keys end up `NEW`, and the second write to `ka` replaces its
node with one created after `kb`'s node. -/
def orderSt : St :=
  runD (mkInit emptyHeap 0 1)
    [Op.write [] "ka" (VLit.vnum 1), Op.write [] "kb" (VLit.vnum 2),
     Op.write [] "ka" (VLit.vnum 3)]

def insBirth (x : String × Handler) : List (String × Handler) → List (String × Handler)
  | [] => [x]
  | y :: rest => if x.2.birth ≤ y.2.birth then x :: y :: rest else y :: insBirth x rest

/-- Insertion sort by the ghost creation stamp. -/
def sortBirth : List (String × Handler) → List (String × Handler)
  | [] => []
  | x :: rest => insBirth x (sortBirth rest)

/-- The appended-`NEW`-keys part of an enumeration, sorted by the ghost
creation stamp of each key's current node — the reading "in the order those
nodes were created" of the claim. -/
def newKeysByBirth (heap : Heap) (h : Handler) : List String :=
  match h.principal with
  | JVal.addr a =>
    match alook a heap with
    | some o =>
      ((sortBirth (h.keyMap.filter fun kc =>
          decide (kc.2.propertyState = some PState.NEW) && !(jsIn o kc.1))).map Prod.fst)
    | none => []
  | _ => []

/-- C5 counterexample: after `set ka; set kb; set ka` on an empty principal,
both child nodes are `NEW`; `kb`'s node was created before `ka`'s current
node (the second write replaced `ka`'s node), so the claimed order "in the
order those nodes were created" is `[kb, ka]`, but the trap enumerates
`[ka, kb]`: JS assignment to an existing key of the key map keeps the key's
original position. -/
theorem ownKeys_creation_order_cex :
    run (mkInit emptyHeap 0 1)
        [Op.write [] "ka" (VLit.vnum 1), Op.write [] "kb" (VLit.vnum 2),
         Op.write [] "ka" (VLit.vnum 3)] = some orderSt
    ∧ (orderSt.root.keyMap.map fun kc => (kc.1, kc.2.propertyState, kc.2.birth))
        = [("ka", some PState.NEW, 3), ("kb", some PState.NEW, 2)]
    ∧ hOwnKeys orderSt.heap orderSt.root = ["ka", "kb"]
    ∧ newKeysByBirth orderSt.heap orderSt.root = ["kb", "ka"]
    ∧ hOwnKeys orderSt.heap orderSt.root ≠ newKeysByBirth orderSt.heap orderSt.root := by
  refine ⟨rfl, rfl, rfl, rfl, ?_⟩
  intro hcontra
  rw [show hOwnKeys orderSt.heap orderSt.root = ["ka", "kb"] from rfl,
    show newKeysByBirth orderSt.heap orderSt.root = ["kb", "ka"] from rfl] at hcontra
  simp at hcontra

/-- The state after the single staged write `b = 9` over `descHeap`. -/
def dirtySt : St := runD (mkInit descHeap 0 1) [Op.write [] "b" (VLit.vnum 9)]

/-- C6 counterexample: the claim says a node's `changed` flag is true iff
its own state is not `RETAINED` or a surface mutation happened in its
subtree; but the `set` trap builds the replacement child with
`changed = false` and calls `setChanged` only on the written-through node
and its ancestors, so a freshly written `DIRTY` child has
state ≠ `RETAINED` and `changed = false`. -/
theorem changed_flag_iff_cex :
    run (mkInit descHeap 0 1) [Op.write [] "b" (VLit.vnum 9)] = some dirtySt
    ∧ (alook "b" dirtySt.root.keyMap).map (fun c => (c.propertyState, c.changed))
        = some (some PState.DIRTY, false)
    ∧ dirtySt.root.changed = true := by
  exact ⟨rfl, rfl, rfl⟩

/-- The state after the proto-shadowing write `pk = 1`, committed. -/
def protoCommitSt : St := runD protoSt [Op.commitAt []]

/-- C2 counterexample: over `protoHeap` (no own keys, prototype-provided
`pk`) the staged write `pk = 1` buffers a `DIRTY` child — `pk in target` is
true through the prototype — which the staged enumeration omits (`pk` is
neither an own key nor `NEW`), so the staged view serializes to `{}`; the
commit then `Reflect.set`s `pk` as a fresh own property, and the principal
serializes to `{pk: 1}` afterwards: the two serialized forms differ even
though `commit()` raised no error. -/
theorem commit_convergence_proto_cex :
    run (mkInit protoHeap 0 1) [Op.write [] "pk" (VLit.vnum 1)] = some protoSt
    ∧ run protoSt [Op.commitAt []] = some protoCommitSt
    ∧ serializeStaged 5 protoSt.heap protoSt.root = some (SVal.obj [])
    ∧ serializeObj 5 protoCommitSt.heap protoCommitSt.root.principal
        = some (SVal.obj [("pk", SVal.prim (JVal.jnum 1))])
    ∧ SVal.obj [] ≠ SVal.obj [("pk", SVal.prim (JVal.jnum 1))] := by
  refine ⟨rfl, ?_, ?_, ?_, ?_⟩
  · simp [protoSt, protoCommitSt, runD, run, step, atPath, commitAct, commitNode,
      commitKids, heapSet, heapDelete, reflectSet, reflectDelete, ownProp, alook,
      aupdate, ainsert, mkInit, protoHeap, protoObj, allocLit, allocProps, VLit.wf,
      writeAct, hSet, jsIn, hasOwn, protoDefault, Handler.principal, Handler.keyMap,
      Handler.withKeyMap, Handler.withChanged, Handler.changed, Handler.propertyState,
      Handler.withState, typeofStr, isAddr, getOrRetainProperty]
  · simp [protoSt, runD, run, step, atPath, mkInit, protoHeap, protoObj, allocLit,
      allocProps, VLit.wf, writeAct, hSet, jsIn, hasOwn, protoDefault, Handler.principal,
      Handler.keyMap, Handler.withKeyMap, Handler.withChanged, Handler.changed,
      Handler.propertyState, typeofStr, isAddr, getOrRetainProperty, serializeStaged,
      serKeys, serializeObj, serProps, hOwnKeys, reflectOwnKeys, alook, ainsert, ownProp,
      aupdate, reflectGet]
  · simp [protoSt, protoCommitSt, runD, run, step, atPath, commitAct, commitNode,
      commitKids, heapSet, heapDelete, reflectSet, reflectDelete, ownProp, alook,
      aupdate, ainsert, mkInit, protoHeap, protoObj, allocLit, allocProps, VLit.wf,
      writeAct, hSet, jsIn, hasOwn, protoDefault, Handler.principal, Handler.keyMap,
      Handler.withKeyMap, Handler.withChanged, Handler.changed, Handler.propertyState,
      Handler.withState, typeofStr, isAddr, getOrRetainProperty, serializeStaged,
      serKeys, serializeObj, serProps, hOwnKeys, reflectOwnKeys, reflectGet]
  · intro hcontra
    injection hcontra with hlist
    simp at hlist

/-- A principal whose own key `b` is writable, own key `a` is non-writable,
and that is extensible — the shape that makes a commit fail mid-loop. -/
def frozenObj : JObj :=
  ⟨[("b", ⟨JVal.jnum 1, true, true, true⟩),
    ("a", ⟨JVal.jnum 1, false, true, true⟩)], true, protoDefault⟩

def frozenHeap : Heap := [(0, frozenObj)]

/-- The state after staging `b = 2`, `a = 5`, `c = 7` over `frozenHeap`. -/
def frozenSt : St :=
  runD (mkInit frozenHeap 0 1)
    [Op.write [] "b" (VLit.vnum 2), Op.write [] "a" (VLit.vnum 5),
     Op.write [] "c" (VLit.vnum 7)]

/-- A second failing state, over a different offending key `z`, used to show
the raised errors are indistinguishable. -/
def frozenObjZ : JObj := ⟨[("z", ⟨JVal.jnum 1, false, true, true⟩)], true, protoDefault⟩

def frozenStZ : St :=
  runD (mkInit [(0, frozenObjZ)] 0 1) [Op.write [] "z" (VLit.vnum 5)]

/-- C4 (code bug): committing `frozenSt` walks the key map `[b, a, c]`: the
set of `b` succeeds (applied to the principal, no rollback), the set of the
non-writable `a` is rejected, a `MiddlemanError` is raised synchronously,
`c` is left unprocessed (still `NEW`), and the node's `changed` flag is not
cleared.  But the error carries no key: `MiddlemanError`'s constructor body
is empty, so the error raised for offending key `a` here equals the error
raised for offending key `z` in a different commit — the claim's "carrying
the offending key" fails. -/
theorem commit_failure_eval :
    run (mkInit frozenHeap 0 1)
        [Op.write [] "b" (VLit.vnum 2), Op.write [] "a" (VLit.vnum 5),
         Op.write [] "c" (VLit.vnum 7)] = some frozenSt
    ∧ (commitNode frozenSt.heap frozenSt.root).2.2 = some MErr.middlemanError
    ∧ (alook 0 (commitNode frozenSt.heap frozenSt.root).1).map
        (fun o => o.props.map fun kp => (kp.1, kp.2.value))
        = some [("b", JVal.jnum 2), ("a", JVal.jnum 1)]
    ∧ ((commitNode frozenSt.heap frozenSt.root).2.1.keyMap.map
        fun kc => (kc.1, kc.2.propertyState))
        = [("b", some PState.RETAINED), ("a", some PState.DIRTY), ("c", some PState.NEW)]
    ∧ (commitNode frozenSt.heap frozenSt.root).2.1.changed = true
    ∧ (commitNode frozenStZ.heap frozenStZ.root).2.2 = some MErr.middlemanError
    ∧ (commitNode frozenSt.heap frozenSt.root).2.2
        = (commitNode frozenStZ.heap frozenStZ.root).2.2 := by
  refine ⟨rfl, ?_, ?_, ?_, ?_, ?_, ?_⟩ <;>
    simp [frozenSt, frozenStZ, frozenHeap, frozenObj, frozenObjZ, runD, run, step, atPath,
      commitAct, commitNode, commitKids, heapSet, heapDelete, reflectSet, reflectDelete,
      ownProp, alook, aupdate, ainsert, mkInit, allocLit, allocProps, VLit.wf, writeAct,
      hSet, jsIn, hasOwn, protoDefault, Handler.principal, Handler.keyMap,
      Handler.withKeyMap, Handler.withChanged, Handler.changed, Handler.propertyState,
      Handler.withState, typeofStr, isAddr, getOrRetainProperty]

theorem alook_append {α β : Type} [DecidableEq α] (k : α) (l₁ l₂ : List (α × β)) :
    alook k (l₁ ++ l₂) = ((alook k l₁).rec (alook k l₂) fun v => some v : Option β) := by
  induction l₁ with
  | nil => simp [alook]
  | cons x rest ih =>
    by_cases hk : x.1 = k
    · simp [alook, hk]
    · simpa [alook, hk] using ih

/-- What a fresh-literal allocation guarantees: the next address only grows,
existing addresses keep their objects, and every heap entry is either old or
freshly allocated in the window. -/
def AllocPost (heap : Heap) (n : Nat) (heap' : Heap) (n' : Nat) : Prop :=
  n ≤ n' ∧ (∀ b, b < n → alook b heap' = alook b heap)
  ∧ (∀ p, p ∈ heap' → p ∈ heap ∨ (n ≤ p.1 ∧ p.1 < n'))

theorem allocProps_mono : ∀ (heap : Heap) (n : Nat) (ps : List (String × VLit)),
    ∀ heap' n' out, allocProps heap n ps = (heap', n', out) → AllocPost heap n heap' n' := by
  refine allocProps.induct
    (fun heap n l => ∀ heap' n' v, allocLit heap n l = (heap', n', v) → AllocPost heap n heap' n')
    (fun heap n ps => ∀ heap' n' out, allocProps heap n ps = (heap', n', out) → AllocPost heap n heap' n')
    ?_ ?_ ?_ ?_ ?_ ?_ ?_ ?_
  · intro heap n heap' n' v h
    simp only [allocLit, Prod.mk.injEq] at h
    obtain ⟨h1, h2, h3⟩ := h
    subst h1; subst h2
    exact ⟨le_refl n, fun b hb => rfl, fun p hp => Or.inl hp⟩
  · intro heap n heap' n' v h
    simp only [allocLit, Prod.mk.injEq] at h
    obtain ⟨h1, h2, h3⟩ := h
    subst h1; subst h2
    exact ⟨le_refl n, fun b hb => rfl, fun p hp => Or.inl hp⟩
  · intro heap n b heap' n' v h
    simp only [allocLit, Prod.mk.injEq] at h
    obtain ⟨h1, h2, h3⟩ := h
    subst h1; subst h2
    exact ⟨le_refl n, fun b hb => rfl, fun p hp => Or.inl hp⟩
  · intro heap n i heap' n' v h
    simp only [allocLit, Prod.mk.injEq] at h
    obtain ⟨h1, h2, h3⟩ := h
    subst h1; subst h2
    exact ⟨le_refl n, fun b hb => rfl, fun p hp => Or.inl hp⟩
  · intro heap n s heap' n' v h
    simp only [allocLit, Prod.mk.injEq] at h
    obtain ⟨h1, h2, h3⟩ := h
    subst h1; subst h2
    exact ⟨le_refl n, fun b hb => rfl, fun p hp => Or.inl hp⟩
  · intro heap n props heap₁ n₁ ps hap ih heap' n' v h
    have ihp := ih heap₁ n₁ ps hap
    simp only [allocLit, hap, Prod.mk.injEq] at h
    obtain ⟨h1, h2, h3⟩ := h
    subst h1; subst h2
    have hle := ihp.1
    refine ⟨by omega, ?_, ?_⟩
    · intro b hb
      rw [alook_append, ihp.2.1 b hb]
      cases halt : alook b heap with
      | none =>
        have hne : (n₁ = b) = False := by
          simp only [eq_iff_iff, iff_false]
          intro hcontra
          have := ihp.1
          omega
        simp [alook, hne]
      | some o => simp
    · intro p hp
      rcases List.mem_append.mp hp with hp | hp
      · rcases ihp.2.2 p hp with hcase | hcase
        · exact Or.inl hcase
        · exact Or.inr ⟨hcase.1, by omega⟩
      · simp only [List.mem_singleton] at hp
        subst hp
        exact Or.inr ⟨ihp.1, by omega⟩
  · intro heap n heap' n' out h
    simp only [allocProps, Prod.mk.injEq] at h
    obtain ⟨h1, h2, h3⟩ := h
    subst h1; subst h2
    exact ⟨le_refl n, fun b hb => rfl, fun p hp => Or.inl hp⟩
  · intro heap n k l rest heap₁ n₁ v hal heap₂ n₂ ps hap ih₁ ih₂ heap' n' out h
    have p₁ := ih₁ heap₁ n₁ v hal
    have p₂ := ih₂ heap₂ n₂ ps hap
    simp only [allocProps, hal, hap, Prod.mk.injEq] at h
    obtain ⟨h1, h2, h3⟩ := h
    subst h1; subst h2
    refine ⟨le_trans p₁.1 p₂.1, ?_, ?_⟩
    · intro b hb
      rw [p₂.2.1 b (lt_of_lt_of_le hb p₁.1), p₁.2.1 b hb]
    · intro p hp
      rcases p₂.2.2 p hp with hcase | hcase
      · rcases p₁.2.2 p hcase with hc | hc
        · exact Or.inl hc
        · exact Or.inr ⟨hc.1, lt_of_lt_of_le hc.2 p₂.1⟩
      · exact Or.inr ⟨le_trans p₁.1 hcase.1, hcase.2⟩

theorem allocLit_mono : ∀ (heap : Heap) (n : Nat) (l : VLit),
    ∀ heap' n' v, allocLit heap n l = (heap', n', v) → AllocPost heap n heap' n' := by
  intro heap n l
  cases l with
  | vobj props =>
    intro heap' n' v h
    rcases hap : allocProps heap n props with ⟨heap₁, n₁, ps⟩
    have ihp := allocProps_mono heap n props heap₁ n₁ ps hap
    simp only [allocLit, hap, Prod.mk.injEq] at h
    obtain ⟨h1, h2, h3⟩ := h
    subst h1; subst h2
    have hle := ihp.1
    refine ⟨by omega, ?_, ?_⟩
    · intro b hb
      rw [alook_append, ihp.2.1 b hb]
      cases halt : alook b heap with
      | none =>
        have hne : (n₁ = b) = False := by
          simp only [eq_iff_iff, iff_false]
          intro hcontra
          have := ihp.1
          omega
        simp [alook, hne]
      | some o => simp
    · intro p hp
      rcases List.mem_append.mp hp with hp | hp
      · rcases ihp.2.2 p hp with hcase | hcase
        · exact Or.inl hcase
        · exact Or.inr ⟨hcase.1, by omega⟩
      · simp only [List.mem_singleton] at hp
        subst hp
        exact Or.inr ⟨ihp.1, by omega⟩
  | vundef =>
    intro heap' n' v h
    simp only [allocLit, Prod.mk.injEq] at h
    obtain ⟨h1, h2, h3⟩ := h
    subst h1; subst h2
    exact ⟨le_refl n, fun b hb => rfl, fun p hp => Or.inl hp⟩
  | vnull =>
    intro heap' n' v h
    simp only [allocLit, Prod.mk.injEq] at h
    obtain ⟨h1, h2, h3⟩ := h
    subst h1; subst h2
    exact ⟨le_refl n, fun b hb => rfl, fun p hp => Or.inl hp⟩
  | vbool b =>
    intro heap' n' v h
    simp only [allocLit, Prod.mk.injEq] at h
    obtain ⟨h1, h2, h3⟩ := h
    subst h1; subst h2
    exact ⟨le_refl n, fun b hb => rfl, fun p hp => Or.inl hp⟩
  | vnum i =>
    intro heap' n' v h
    simp only [allocLit, Prod.mk.injEq] at h
    obtain ⟨h1, h2, h3⟩ := h
    subst h1; subst h2
    exact ⟨le_refl n, fun b hb => rfl, fun p hp => Or.inl hp⟩
  | vstr s =>
    intro heap' n' v h
    simp only [allocLit, Prod.mk.injEq] at h
    obtain ⟨h1, h2, h3⟩ := h
    subst h1; subst h2
    exact ⟨le_refl n, fun b hb => rfl, fun p hp => Or.inl hp⟩

theorem atPath_heap_const
    (act : Heap → Handler → Nat → Option (Heap × Handler × Nat × Bool))
    (hact : ∀ heap h clk r, act heap h clk = some r → r.1 = heap) :
    ∀ (path : List String) (heap : Heap) (h : Handler) (clk : Nat) r,
      atPath act path heap h clk = some r → r.1 = heap := by
  intro path
  induction path with
  | nil => intro heap h clk r hr; exact hact heap h clk r hr
  | cons k rest ih =>
    intro heap h clk r hr
    simp only [atPath] at hr
    rcases hg : getOrRetainProperty heap h k clk with ⟨co, h₁, clk₁⟩
    rw [hg] at hr
    cases co with
    | none => simp at hr
    | some c =>
      simp only [] at hr
      by_cases hpr : isAddr c.principal = true
      · rw [if_pos hpr] at hr
        rcases hrec : atPath act rest heap c clk₁ with _ | r'
        · rw [hrec] at hr; simp at hr
        · rw [hrec] at hr
          simp only [Option.some.injEq] at hr
          have := ih heap c clk₁ r' hrec
          rw [← hr]
          exact this
      · rw [if_neg hpr] at hr; simp at hr

theorem readAct_heap_const (k : String) :
    ∀ heap h clk r, readAct k heap h clk = some r → r.1 = heap := by
  intro heap h clk r hr
  simp only [readAct] at hr
  rcases hg : getOrRetainProperty heap h k clk with ⟨co, h₁, clk₁⟩
  rw [hg] at hr
  simp only [Option.some.injEq] at hr
  rw [← hr]

theorem writeAct_heap_const (k : String) (v : JVal) :
    ∀ heap h clk r, writeAct k v heap h clk = some r → r.1 = heap := by
  intro heap h clk r hr
  simp only [writeAct] at hr
  rcases hg : hSet heap h k v clk with _ | p
  · rw [hg] at hr; simp at hr
  · rw [hg] at hr
    simp only [Option.some.injEq] at hr
    rw [← hr]

theorem delAct_heap_const (k : String) :
    ∀ heap h clk r, delAct k heap h clk = some r → r.1 = heap := by
  intro heap h clk r hr
  simp only [delAct] at hr
  rcases hg : hDelete heap h k clk with _ | p
  · rw [hg] at hr; simp at hr
  · rw [hg] at hr
    rcases p with ⟨dres, h', clk'⟩
    cases dres with
    | noProp => simp only [Option.some.injEq] at hr; rw [← hr]
    | deleted => simp only [Option.some.injEq] at hr; rw [← hr]

/-- A single non-commit step preserves every pre-existing heap address and
only allocates fresh ones. -/
theorem step_noncommit_heap (st st' : St) (op : Op) (hnc : op.isCommit = false)
    (hb : ∀ p, p ∈ st.heap → p.1 < st.nextA) (hstep : step st op = some st') :
    (∀ b, b < st.nextA → alook b st'.heap = alook b st.heap)
    ∧ st.nextA ≤ st'.nextA ∧ (∀ p, p ∈ st'.heap → p.1 < st'.nextA) := by
  cases op with
  | read path k =>
    simp only [step] at hstep
    rcases hat : atPath (readAct k) path st.heap st.root st.clk with _ | r
    · rw [hat] at hstep; simp at hstep
    · rw [hat] at hstep
      simp only [Option.map_some', Option.some.injEq] at hstep
      have hh := atPath_heap_const (readAct k) (readAct_heap_const k) path st.heap st.root st.clk r hat
      rw [← hstep]
      exact ⟨fun b _ => by rw [hh], le_refl _, fun p hp => hb p (by rw [hh] at hp; exact hp)⟩
  | del path k =>
    simp only [step] at hstep
    rcases hat : atPath (delAct k) path st.heap st.root st.clk with _ | r
    · rw [hat] at hstep; simp at hstep
    · rw [hat] at hstep
      simp only [Option.map_some', Option.some.injEq] at hstep
      have hh := atPath_heap_const (delAct k) (delAct_heap_const k) path st.heap st.root st.clk r hat
      rw [← hstep]
      exact ⟨fun b _ => by rw [hh], le_refl _, fun p hp => hb p (by rw [hh] at hp; exact hp)⟩
  | write path k v =>
    simp only [step] at hstep
    by_cases hwf : v.wf = true
    · rw [if_pos hwf] at hstep
      rcases hal : allocLit st.heap st.nextA v with ⟨heap₁, n₁, val⟩
      rw [hal] at hstep
      have hmono := allocLit_mono st.heap st.nextA v heap₁ n₁ val hal
      rcases hat : atPath (writeAct k val) path heap₁ st.root st.clk with _ | r
      · rw [hat] at hstep; simp at hstep
      · rw [hat] at hstep
        simp only [Option.map_some', Option.some.injEq] at hstep
        have hh := atPath_heap_const (writeAct k val) (writeAct_heap_const k val) path heap₁ st.root st.clk r hat
        rw [← hstep]
        refine ⟨fun b hblt => by rw [hh]; exact hmono.2.1 b hblt, hmono.1, ?_⟩
        intro p hp
        rw [hh] at hp
        rcases hmono.2.2 p hp with hc | hc
        · exact lt_of_lt_of_le (hb p hc) hmono.1
        · exact hc.2
    · rw [if_neg hwf] at hstep; simp at hstep
  | commitAt path => simp [Op.isCommit] at hnc

/-- C1 (confirmed): running any sequence of ordinary surface operations —
reads, set writes, deletes, through arbitrarily nested staged proxies — with
no `commit()` leaves every object of the initial heap, in particular the
live principal and all its nested objects, exactly as it was. -/
theorem isolation_principal_untouched (heap₀ : Heap) (a n : Nat) (ops : List Op)
    (st : St) (hb : ∀ p, p ∈ heap₀ → p.1 < n)
    (hnc : ∀ op, op ∈ ops → op.isCommit = false)
    (hrun : run (mkInit heap₀ a n) ops = some st) :
    ∀ b, b < n → alook b st.heap = alook b heap₀ := by
  suffices hgen : ∀ (ops : List Op) (st₀ st : St),
      (∀ op, op ∈ ops → op.isCommit = false) →
      (∀ p, p ∈ st₀.heap → p.1 < st₀.nextA) →
      run st₀ ops = some st →
      (∀ b, b < st₀.nextA → alook b st.heap = alook b st₀.heap) ∧ st₀.nextA ≤ st.nextA
        ∧ (∀ p, p ∈ st.heap → p.1 < st.nextA) by
    intro b hbn
    exact (hgen ops (mkInit heap₀ a n) st hnc hb hrun).1 b hbn
  intro ops
  induction ops with
  | nil =>
    intro st₀ st _ hb₀ hrun
    simp only [run, Option.some.injEq] at hrun
    subst hrun
    exact ⟨fun b _ => rfl, le_refl _, hb₀⟩
  | cons op rest ih =>
    intro st₀ st hnc₀ hb₀ hrun
    simp only [run] at hrun
    rcases hstep : step st₀ op with _ | st₁
    · rw [hstep] at hrun; simp at hrun
    · rw [hstep] at hrun
      simp only [Option.some_bind] at hrun
      have h₁ := step_noncommit_heap st₀ st₁ op (hnc₀ op (List.mem_cons_self op rest)) hb₀ hstep
      have h₂ := ih st₁ st (fun o ho => hnc₀ o (List.mem_cons_of_mem op ho)) h₁.2.2 hrun
      refine ⟨?_, le_trans h₁.2.1 h₂.2.1, h₂.2.2⟩
      intro b hblt
      rw [h₂.1 b (lt_of_lt_of_le hblt h₁.2.1), h₁.1 b hblt]

/-- C1 witness: the repository's own test scenario (`test.js`): principal
`{a:'A', o:{n:42, useless:'void'}, toDelete:42}` with the full mutation
sequence applied but not committed — the initial heap entries are intact. -/
def scenarioHeap : Heap :=
  [(0, ⟨[("a", ⟨JVal.jstr "A", true, true, true⟩),
         ("o", ⟨JVal.addr 1, true, true, true⟩),
         ("toDelete", ⟨JVal.jnum 42, true, true, true⟩)], true, protoDefault⟩),
   (1, ⟨[("n", ⟨JVal.jnum 42, true, true, true⟩),
         ("useless", ⟨JVal.jstr "void", true, true, true⟩)], true, protoDefault⟩)]

def scenarioOps : List Op :=
  [Op.write [] "a" (VLit.vstr "AA"),
   Op.write [] "x" (VLit.vobj []),
   Op.write [] "y" (VLit.vobj [("null", VLit.vnull)]),
   Op.write ["o"] "z" (VLit.vobj [("name", VLit.vstr "bing")]),
   Op.write [] "nn" (VLit.vstr "NNNN"),
   Op.del [] "toDelete",
   Op.del ["o"] "useless"]

def scenarioSt : St := runD (mkInit scenarioHeap 0 2) scenarioOps

theorem isolation_principal_untouched_witness :
    alook 0 scenarioSt.heap = alook 0 scenarioHeap
    ∧ alook 1 scenarioSt.heap = alook 1 scenarioHeap := by
  have h := isolation_principal_untouched scenarioHeap 0 2 scenarioOps scenarioSt
    (by decide) (by decide) rfl
  exact ⟨h 0 (by decide), h 1 (by decide)⟩

theorem alook_ainsert_self {α β : Type} [DecidableEq α] (k : α) (v : β) (l : List (α × β)) :
    alook k (ainsert k v l) = some v := by
  induction l with
  | nil => simp [ainsert, alook]
  | cons x rest ih =>
    by_cases hk : x.1 = k
    · rcases x with ⟨x1, x2⟩
      simp only at hk
      simp [ainsert, hk, alook]
    · rcases x with ⟨x1, x2⟩
      simp only at hk
      simp [ainsert, hk, alook, ih]

theorem alook_ainsert_other {α β : Type} [DecidableEq α] (k k' : α) (v : β)
    (l : List (α × β)) (hne : k' ≠ k) : alook k' (ainsert k v l) = alook k' l := by
  induction l with
  | nil => simp [ainsert, alook, Ne.symm hne]
  | cons x rest ih =>
    rcases x with ⟨x1, x2⟩
    by_cases hk : x1 = k
    · subst hk
      simp only [ainsert, if_pos rfl]
      simp [alook, Ne.symm hne]
    · simp only [ainsert, if_neg hk]
      by_cases hk' : x1 = k'
      · simp [alook, hk']
      · simp [alook, hk', ih]

/-- If a path action reports a `setChanged` and leaves its node marked
changed, then after the path application every node along the path down to
the target is marked changed — the embedded form of the source's upward
`setChanged` walk reaching `this` and every ancestor. -/
theorem atPath_changedAlong
    (act : Heap → Handler → Nat → Option (Heap × Handler × Nat × Bool))
    (hact : ∀ heap h clk r, act heap h clk = some r → r.2.2.2 = true →
      r.2.1.changed = true) :
    ∀ (path : List String) (heap : Heap) (h : Handler) (clk : Nat) r,
      atPath act path heap h clk = some r → r.2.2.2 = true →
      changedAlong r.2.1 path := by
  intro path
  induction path with
  | nil =>
    intro heap h clk r hr hprop
    exact hact heap h clk r hr hprop
  | cons k rest ih =>
    intro heap h clk r hr hprop
    simp only [atPath] at hr
    rcases hg : getOrRetainProperty heap h k clk with ⟨co, h₁, clk₁⟩
    rw [hg] at hr
    cases co with
    | none => simp at hr
    | some c =>
      simp only [] at hr
      by_cases hpr : isAddr c.principal = true
      · rw [if_pos hpr] at hr
        rcases hrec : atPath act rest heap c clk₁ with _ | ⟨heap₂, c₂, clk₂, prop⟩
        · rw [hrec] at hr; simp at hr
        · rw [hrec] at hr
          simp only [Option.some.injEq] at hr
          subst hr
          simp only [] at hprop
          subst hprop
          have hrecAlong := ih heap c clk₁ ⟨heap₂, c₂, clk₂, true⟩ hrec rfl
          simp only [changedAlong]
          constructor
          · rcases h₁ with ⟨p₁, s₁, d₁, ch₁, b₁, km₁⟩
            simp [Handler.withKeyMap, Handler.withChanged, Handler.changed]
          · refine ⟨c₂, ?_, hrecAlong⟩
            rcases h₁ with ⟨p₁, s₁, d₁, ch₁, b₁, km₁⟩
            simp only [Handler.withKeyMap, Handler.withChanged, Handler.keyMap]
            exact alook_ainsert_self k c₂ km₁
      · rw [if_neg hpr] at hr; simp at hr

theorem hSet_some_changed (heap : Heap) (h : Handler) (k : String) (v : JVal)
    (clk : Nat) (h' : Handler) (clk' : Nat)
    (hg : hSet heap h k v clk = some (h', clk')) : h'.changed = true := by
  simp only [hSet] at hg
  rcases hpp : h.principal with _ | _ | _ | _ | _ | a | _ <;> rw [hpp] at hg <;>
    try simp at hg
  rcases halo : alook a heap with _ | o <;> rw [halo] at hg
  · simp at hg
  · simp only [Option.some.injEq, Prod.mk.injEq] at hg
    rw [← hg.1]
    rcases h with ⟨hp, hs, hd, hc, hb, hm⟩
    simp [Handler.withKeyMap, Handler.withChanged, Handler.changed]

theorem writeAct_flag (k : String) (v : JVal) :
    ∀ heap h clk r, writeAct k v heap h clk = some r → r.2.2.2 = true := by
  intro heap h clk r hr
  simp only [writeAct] at hr
  rcases hg : hSet heap h k v clk with _ | p
  · rw [hg] at hr; simp at hr
  · rw [hg] at hr
    simp only [Option.some.injEq] at hr
    rw [← hr]

theorem writeAct_changed (k : String) (v : JVal) :
    ∀ heap h clk r, writeAct k v heap h clk = some r → r.2.2.2 = true →
      r.2.1.changed = true := by
  intro heap h clk r hr _
  simp only [writeAct] at hr
  rcases hg : hSet heap h k v clk with _ | ⟨h', clk'⟩
  · rw [hg] at hr; simp at hr
  · rw [hg] at hr
    simp only [Option.some.injEq] at hr
    rw [← hr]
    exact hSet_some_changed heap h k v clk h' clk' hg

/-- When the action always reports a `setChanged` on success, so does the
path application. -/
theorem atPath_prop_true
    (act : Heap → Handler → Nat → Option (Heap × Handler × Nat × Bool))
    (hact : ∀ heap h clk r, act heap h clk = some r → r.2.2.2 = true) :
    ∀ (path : List String) (heap : Heap) (h : Handler) (clk : Nat) r,
      atPath act path heap h clk = some r → r.2.2.2 = true := by
  intro path
  induction path with
  | nil => intro heap h clk r hr; exact hact heap h clk r hr
  | cons k rest ih =>
    intro heap h clk r hr
    simp only [atPath] at hr
    rcases hg : getOrRetainProperty heap h k clk with ⟨co, h₁, clk₁⟩
    rw [hg] at hr
    cases co with
    | none => simp at hr
    | some c =>
      simp only [] at hr
      by_cases hpr : isAddr c.principal = true
      · rw [if_pos hpr] at hr
        rcases hrec : atPath act rest heap c clk₁ with _ | ⟨heap₂, c₂, clk₂, prop⟩
        · rw [hrec] at hr; simp at hr
        · rw [hrec] at hr
          simp only [Option.some.injEq] at hr
          subst hr
          exact ih heap c clk₁ ⟨heap₂, c₂, clk₂, prop⟩ hrec
      · rw [if_neg hpr] at hr; simp at hr

/-- C3 amended: the replacement child's state is `DIRTY` exactly when
`key in principal` holds on the live principal — own or prototype-inherited
membership, the source's `key in target` — and `NEW` otherwise, independent
of any prior staged state for the key (the result is a function of the live
principal, key, and value alone, discarding any existing node); the child
carries the fresh descriptor `{configurable:true, enumerable:true,
writable:true}` (no value entry) and `changed = false` itself, while the
written-through node and all its ancestors along the path are marked
changed. -/
theorem set_creates_replacement_child_amended :
    (∀ (heap : Heap) (h : Handler) (k : String) (v : JVal) (clk a : Nat) (o : JObj),
      h.principal = JVal.addr a → alook a heap = some o →
      hSet heap h k v clk = some
        ((h.withKeyMap (ainsert k
          (Handler.mk v (some (if jsIn o k = true then PState.DIRTY else PState.NEW))
            (some ⟨none, true, true, true⟩) false clk []) h.keyMap)).withChanged true,
          clk + 1))
    ∧ (∀ (st st' : St) (path : List String) (k : String) (v : VLit),
        step st (Op.write path k v) = some st' → changedAlong st'.root path) := by
  constructor
  · intro heap h k v clk a o hp ho
    simp only [hSet, hp, ho]
  · intro st st' path k v hstep
    simp only [step] at hstep
    by_cases hwf : v.wf = true
    · rw [if_pos hwf] at hstep
      rcases hal : allocLit st.heap st.nextA v with ⟨heap₁, n₁, val⟩
      rw [hal] at hstep
      rcases hat : atPath (writeAct k val) path heap₁ st.root st.clk with _ | ⟨heap₂, r₂, clk₂, prop⟩
      · rw [hat] at hstep; simp at hstep
      · rw [hat] at hstep
        simp only [Option.map_some', Option.some.injEq] at hstep
        have hprop : prop = true :=
          atPath_prop_true (writeAct k val) (writeAct_flag k val) path heap₁ st.root
            st.clk ⟨heap₂, r₂, clk₂, prop⟩ hat
        subst hprop
        have hch := atPath_changedAlong (writeAct k val) (writeAct_changed k val)
          path heap₁ st.root st.clk ⟨heap₂, r₂, clk₂, true⟩ hat rfl
        rw [← hstep]
        exact hch
    · rw [if_neg hwf] at hstep; simp at hstep

/-- C3 witness: the amended characterization applied over `protoHeap` — the
prototype-provided key `pk` yields a `DIRTY` replacement child — and the
upward marking applied to a concrete root write. -/
theorem set_creates_replacement_child_amended_witness :
    hSet protoHeap (rootOver 0) "pk" (JVal.jnum 1) 1 = some
      (((rootOver 0).withKeyMap (ainsert "pk"
        (Handler.mk (JVal.jnum 1) (some (if jsIn protoObj "pk" = true then PState.DIRTY else PState.NEW))
          (some ⟨none, true, true, true⟩) false 1 []) (rootOver 0).keyMap)).withChanged true, 2)
    ∧ changedAlong protoSt.root [] := by
  constructor
  · exact (set_creates_replacement_child_amended).1 protoHeap (rootOver 0) "pk"
      (JVal.jnum 1) 1 0 protoObj rfl rfl
  · exact (set_creates_replacement_child_amended).2 (mkInit protoHeap 0 1) protoSt []
      "pk" (VLit.vnum 1) (by rfl)

/-- Generic structural induction over the handler tree. -/
theorem handler_ind (P : Handler → Prop)
    (istep : ∀ p s d ch b km, (∀ kc, kc ∈ km → P kc.2) → P (Handler.mk p s d ch b km)) :
    ∀ h, P h := by
  suffices hm : ∀ (m : Nat) (h : Handler), sizeOf h ≤ m → P h by
    intro h
    exact hm (sizeOf h) h (le_refl _)
  intro m
  induction m with
  | zero =>
    intro h hh
    rcases h with ⟨p, s, d, ch, b, km⟩
    simp only [Handler.mk.sizeOf_spec] at hh
    omega
  | succ m ihm =>
    intro h hh
    rcases h with ⟨p, s, d, ch, b, km⟩
    refine istep p s d ch b km ?_
    intro kc hmem
    refine ihm kc.2 ?_
    have h1 : sizeOf kc < sizeOf km := List.sizeOf_lt_of_mem hmem
    have h2 : sizeOf kc.2 < sizeOf kc := by
      rcases kc with ⟨k, c⟩
      simp only [Prod.mk.sizeOf_spec]
      omega
    simp only [Handler.mk.sizeOf_spec] at hh
    omega

/-- The non-recursive per-child conditions of handler well-formedness:
every child has a state and a descriptor; a changed or non-`RETAINED` child
forces the parent's `changed`; a `DELETED` child is the tombstone shape. -/
def KidOK (ch : Bool) (c : Handler) : Prop :=
  c.propertyState.isSome = true
  ∧ c.propertyDescriptor.isSome = true
  ∧ (c.changed = true → ch = true)
  ∧ (c.propertyState ≠ some PState.RETAINED → ch = true)
  ∧ (c.propertyState = some PState.DELETED →
      c.principal = JVal.undef ∧ c.keyMap = [] ∧ c.changed = false)

/-- Structural well-formedness of a handler tree, independent of the heap:
key-map keys are distinct; a non-object principal has no children and is
unflagged; and `KidOK` holds of every child, recursively. -/
inductive TreeWF : Handler → Prop where
  | mk : ∀ (p : JVal) (s : Option PState) (d : Option Desc) (ch : Bool) (b : Nat)
      (km : List (String × Handler)),
      (km.map Prod.fst).Nodup →
      (isAddr p = false → km = [] ∧ ch = false) →
      (∀ kc, kc ∈ km → KidOK ch kc.2) →
      (∀ kc, kc ∈ km → TreeWF kc.2) →
      TreeWF (Handler.mk p s d ch b km)

/-- Recursively quiet: unflagged at every level with every child `RETAINED`. -/
inductive Quiescent : Handler → Prop where
  | mk : ∀ (p : JVal) (s : Option PState) (d : Option Desc) (b : Nat)
      (km : List (String × Handler)),
      (∀ kc, kc ∈ km → kc.2.propertyState = some PState.RETAINED) →
      (∀ kc, kc ∈ km → Quiescent kc.2) →
      Quiescent (Handler.mk p s d false b km)

theorem TreeWF.nodupKeys {h : Handler} (hwf : TreeWF h) : (h.keyMap.map Prod.fst).Nodup := by
  cases hwf with
  | mk p s d ch b km h1 h2 h3 h4 => exact h1

theorem TreeWF.nonObj {h : Handler} (hwf : TreeWF h) (hp : isAddr h.principal = false) :
    h.keyMap = [] ∧ h.changed = false := by
  cases hwf with
  | mk p s d ch b km h1 h2 h3 h4 => exact h2 hp

theorem TreeWF.kidOK {h : Handler} (hwf : TreeWF h) {kc : String × Handler}
    (hmem : kc ∈ h.keyMap) : KidOK h.changed kc.2 := by
  cases hwf with
  | mk p s d ch b km h1 h2 h3 h4 => exact h3 kc hmem

theorem TreeWF.kidWF {h : Handler} (hwf : TreeWF h) {kc : String × Handler}
    (hmem : kc ∈ h.keyMap) : TreeWF kc.2 := by
  cases hwf with
  | mk p s d ch b km h1 h2 h3 h4 => exact h4 kc hmem

/-- An unflagged well-formed subtree is recursively quiet: nothing below a
`changed = false` node is pending. -/
theorem quiescent_of_unchanged : ∀ (h : Handler), TreeWF h → h.changed = false → Quiescent h := by
  refine handler_ind (fun h => TreeWF h → h.changed = false → Quiescent h) ?_
  intro p s d ch b km ih hwf hch
  simp only [Handler.changed] at hch
  subst hch
  refine Quiescent.mk p s d b km ?_ ?_
  · intro kc hmem
    by_contra hcontra
    have := (hwf.kidOK hmem).2.2.2.1 hcontra
    simp [Handler.changed] at this
  · intro kc hmem
    have hchkc : kc.2.changed = false := by
      rcases hc : kc.2.changed with _ | _
      · rfl
      · have := (hwf.kidOK hmem).2.2.1 hc
        simp [Handler.changed] at this
    exact ih kc hmem (hwf.kidWF hmem) hchkc

theorem Quiescent.unchanged {h : Handler} (hq : Quiescent h) : h.changed = false := by
  cases hq with
  | mk p s d b km hst hkids => rfl

theorem Quiescent.kidState {h : Handler} (hq : Quiescent h) {kc : String × Handler}
    (hmem : kc ∈ h.keyMap) : kc.2.propertyState = some PState.RETAINED := by
  cases hq with
  | mk p s d b km hst hkids => exact hst kc hmem

theorem Quiescent.kid {h : Handler} (hq : Quiescent h) {kc : String × Handler}
    (hmem : kc ∈ h.keyMap) : Quiescent kc.2 := by
  cases hq with
  | mk p s d b km hst hkids => exact hkids kc hmem

theorem alook_none_not_mem {α β : Type} [DecidableEq α] {k : α} {l : List (α × β)}
    (h : alook k l = none) : k ∉ l.map Prod.fst := by
  induction l with
  | nil => simp
  | cons x rest ih =>
    simp only [alook] at h
    by_cases hk : x.1 = k
    · rw [if_pos hk] at h; simp at h
    · rw [if_neg hk] at h
      simp only [List.map_cons, List.mem_cons]
      push_neg
      exact ⟨fun hc => hk hc.symm, ih h⟩

theorem alook_mem {α β : Type} [DecidableEq α] {k : α} {v : β} {l : List (α × β)}
    (h : alook k l = some v) : (k, v) ∈ l := by
  induction l with
  | nil => simp [alook] at h
  | cons x rest ih =>
    simp only [alook] at h
    by_cases hk : x.1 = k
    · rw [if_pos hk] at h
      simp only [Option.some.injEq] at h
      rcases x with ⟨x1, x2⟩
      simp only at hk h
      subst hk
      subst h
      exact List.mem_cons_self _ _
    · rw [if_neg hk] at h
      exact List.mem_cons_of_mem x (ih h)

/-- Exhaustive characterization of `getOrRetainProperty`: an existing child
is returned as is; otherwise the key is materialized as a fresh `RETAINED`
child exactly when it is an own property of the principal with a
non-`undefined` value, and nothing happens in every other case. -/
theorem getOrRetain_cases (heap : Heap) (h : Handler) (k : String) (clk : Nat) :
    (∃ c, alook k h.keyMap = some c ∧ getOrRetainProperty heap h k clk = (some c, h, clk))
    ∨ (alook k h.keyMap = none ∧ getOrRetainProperty heap h k clk = (none, h, clk))
    ∨ (∃ a o p, alook k h.keyMap = none ∧ h.principal = JVal.addr a
        ∧ alook a heap = some o ∧ ownProp o k = some p ∧ p.value ≠ JVal.undef
        ∧ getOrRetainProperty heap h k clk =
          (some (Handler.mk p.value (some PState.RETAINED)
              (some ⟨some p.value, p.writable, p.enumerable, p.configurable⟩) false clk []),
           h.withKeyMap (h.keyMap ++ [(k, Handler.mk p.value (some PState.RETAINED)
              (some ⟨some p.value, p.writable, p.enumerable, p.configurable⟩) false clk [])]),
           clk + 1)) := by
  rcases hkm : alook k h.keyMap with _ | c
  · rcases hpp : h.principal with _ | _ | _ | _ | _ | a | _
    case addr =>
      rcases halo : alook a heap with _ | o
      · exact Or.inr (Or.inl ⟨rfl, by simp [getOrRetainProperty, hkm, hpp, halo]⟩)
      · rcases hop : ownProp o k with _ | pr
        · exact Or.inr (Or.inl ⟨rfl, by simp [getOrRetainProperty, hkm, hpp, halo, hop]⟩)
        · by_cases hu : pr.value = JVal.undef
          · exact Or.inr (Or.inl ⟨rfl, by simp [getOrRetainProperty, hkm, hpp, halo, hop, hu]⟩)
          · refine Or.inr (Or.inr ⟨a, o, pr, rfl, rfl, halo, hop, hu, ?_⟩)
            simp [getOrRetainProperty, hkm, hpp, halo, hop, hu]
    all_goals exact Or.inr (Or.inl ⟨rfl, by simp [getOrRetainProperty, hkm, hpp]⟩)
  · exact Or.inl ⟨c, rfl, by simp [getOrRetainProperty, hkm]⟩

/-- `getOrRetainProperty` never changes the node's own fields. -/
theorem getOrRetain_own (heap : Heap) (h : Handler) (k : String) (clk : Nat)
    (co : Option Handler) (h' : Handler) (clk' : Nat)
    (hg : getOrRetainProperty heap h k clk = (co, h', clk')) :
    h'.principal = h.principal ∧ h'.propertyState = h.propertyState
    ∧ h'.propertyDescriptor = h.propertyDescriptor ∧ h'.changed = h.changed
    ∧ h'.birth = h.birth := by
  rcases getOrRetain_cases heap h k clk with ⟨c, hc, heq⟩ | ⟨hc, heq⟩ |
    ⟨a, o, pr, hc, hpp, halo, hop, hu, heq⟩ <;> rw [heq] at hg <;>
    simp only [Prod.mk.injEq] at hg <;> rw [← hg.2.1]
  · exact ⟨rfl, rfl, rfl, rfl, rfl⟩
  · exact ⟨rfl, rfl, rfl, rfl, rfl⟩
  · rcases h with ⟨p, s, d, ch, b, km⟩
    simp [Handler.withKeyMap, Handler.principal, Handler.propertyState,
      Handler.propertyDescriptor, Handler.changed, Handler.birth]

theorem mem_ainsert {α β : Type} [DecidableEq α] {x : α × β} {k : α} {v : β}
    {l : List (α × β)} (h : x ∈ ainsert k v l) : x = (k, v) ∨ x ∈ l := by
  induction l with
  | nil => simp [ainsert] at h; exact Or.inl h
  | cons y rest ih =>
    simp only [ainsert] at h
    by_cases hk : y.1 = k
    · rw [if_pos hk] at h
      rcases List.mem_cons.mp h with h | h
      · exact Or.inl h
      · exact Or.inr (List.mem_cons_of_mem y h)
    · rw [if_neg hk] at h
      rcases List.mem_cons.mp h with h | h
      · exact Or.inr (by rw [h]; exact List.mem_cons_self y rest)
      · rcases ih h with h | h
        · exact Or.inl h
        · exact Or.inr (List.mem_cons_of_mem y h)

theorem ainsert_map_fst {α β : Type} [DecidableEq α] (k : α) (v : β)
    (l : List (α × β)) :
    (ainsert k v l).map Prod.fst = l.map Prod.fst
    ∨ (ainsert k v l).map Prod.fst = l.map Prod.fst ++ [k] ∧ k ∉ l.map Prod.fst := by
  induction l with
  | nil => simp [ainsert]
  | cons y rest ih =>
    simp only [ainsert]
    by_cases hk : y.1 = k
    · rw [if_pos hk]
      left
      simp [hk]
    · rw [if_neg hk]
      rcases ih with h | ⟨h, hnm⟩
      · left
        simp [h]
      · right
        constructor
        · simp [h]
        · simp only [List.map_cons, List.mem_cons]
          push_neg
          exact ⟨fun hc => hk hc.symm, hnm⟩

theorem ainsert_nodup {α β : Type} [DecidableEq α] (k : α) (v : β)
    (l : List (α × β)) (hnd : (l.map Prod.fst).Nodup) :
    ((ainsert k v l).map Prod.fst).Nodup := by
  rcases ainsert_map_fst k v l with h | ⟨h, hnm⟩
  · rw [h]; exact hnd
  · rw [h]
    simp [List.nodup_append, hnd, hnm]

/-- `getOrRetainProperty` preserves tree well-formedness, and a returned
child is itself well-formed and registered in the key map. -/
theorem getOrRetain_TreeWF (heap : Heap) (h : Handler) (k : String) (clk : Nat)
    (co : Option Handler) (h' : Handler) (clk' : Nat)
    (hg : getOrRetainProperty heap h k clk = (co, h', clk')) (hwf : TreeWF h) :
    TreeWF h' ∧ (∀ c, co = some c → TreeWF c ∧ alook k h'.keyMap = some c) := by
  rcases getOrRetain_cases heap h k clk with ⟨c, hc, heq⟩ | ⟨hc, heq⟩ |
    ⟨a, o, pr, hc, hpp, halo, hop, hu, heq⟩ <;> rw [heq] at hg <;>
    simp only [Prod.mk.injEq] at hg
  · rw [← hg.2.1, ← hg.1]
    refine ⟨hwf, ?_⟩
    intro c' hc'
    simp only [Option.some.injEq] at hc'
    subst hc'
    exact ⟨hwf.kidWF (alook_mem hc), hc⟩
  · rw [← hg.2.1, ← hg.1]
    exact ⟨hwf, fun c hc => by simp at hc⟩
  · rw [← hg.2.1, ← hg.1]
    rcases h with ⟨p, s, d, ch, b, km⟩
    simp only [Handler.keyMap] at hc
    simp only [Handler.principal] at hpp
    subst hpp
    have hleafWF : TreeWF (Handler.mk pr.value (some PState.RETAINED)
        (some ⟨some pr.value, pr.writable, pr.enumerable, pr.configurable⟩) false clk []) := by
      refine TreeWF.mk _ _ _ _ _ _ (by simp) (fun _ => ⟨rfl, rfl⟩) ?_ ?_
      · intro kc hmem
        simp at hmem
      · intro kc hmem
        simp at hmem
    constructor
    · simp only [Handler.withKeyMap, Handler.keyMap]
      refine TreeWF.mk _ _ _ _ _ _ ?_ ?_ ?_ ?_
      · cases hwf with
        | mk _ _ _ _ _ _ h1 h2 h3 h4 =>
          simp only [List.map_append, List.map_cons, List.map_nil]
          simp only [List.nodup_append]
          refine ⟨h1, List.nodup_singleton _, ?_⟩
          intro x hx
          simp only [List.mem_singleton]
          intro hxk
          subst hxk
          exact alook_none_not_mem hc hx
      · intro hpfalse
        simp [isAddr] at hpfalse
      · intro kc hmem
        rcases List.mem_append.mp hmem with hmem | hmem
        · exact hwf.kidOK hmem
        · simp only [List.mem_singleton] at hmem
          subst hmem
          refine ⟨rfl, rfl, ?_, ?_, ?_⟩
          · intro hcontra
            simp [Handler.changed] at hcontra
          · intro hcontra
            simp [Handler.propertyState] at hcontra
          · intro hcontra
            simp [Handler.propertyState] at hcontra
      · intro kc hmem
        rcases List.mem_append.mp hmem with hmem | hmem
        · exact hwf.kidWF hmem
        · simp only [List.mem_singleton] at hmem
          subst hmem
          exact hleafWF
    · intro c hc'
      simp only [Option.some.injEq] at hc'
      subst hc'
      refine ⟨hleafWF, ?_⟩
      simp only [Handler.withKeyMap, Handler.keyMap]
      rw [alook_append, hc]
      simp [alook]

theorem KidOK_true {c : Handler} (hok : KidOK ch c) : KidOK true c :=
  ⟨hok.1, hok.2.1, fun _ => rfl, fun _ => rfl, hok.2.2.2.2⟩

theorem TreeWF_leaf (p : JVal) (s : Option PState) (d : Option Desc) (b : Nat) :
    TreeWF (Handler.mk p s d false b []) := by
  refine TreeWF.mk _ _ _ _ _ _ (by simp) (fun _ => ⟨rfl, rfl⟩) ?_ ?_ <;>
    intro kc hmem <;> simp at hmem

/-- The `set` trap preserves tree well-formedness, keeps the node's own
fields, and flags it changed. -/
theorem hSet_TreeWF (heap : Heap) (h : Handler) (k : String) (v : JVal) (clk : Nat)
    (h' : Handler) (clk' : Nat) (hg : hSet heap h k v clk = some (h', clk'))
    (hwf : TreeWF h) :
    TreeWF h' ∧ h'.principal = h.principal ∧ h'.propertyState = h.propertyState
    ∧ h'.propertyDescriptor = h.propertyDescriptor ∧ h'.birth = h.birth
    ∧ h'.changed = true := by
  rcases h with ⟨p, s, d, ch, b, km⟩
  simp only [hSet, Handler.principal] at hg
  rcases p with _ | _ | _ | _ | _ | a | _ <;> try simp at hg
  rcases halo : alook a heap with _ | o <;> rw [halo] at hg
  · simp at hg
  · simp only [Option.some.injEq, Prod.mk.injEq] at hg
    rw [← hg.1]
    refine ⟨?_, rfl, rfl, rfl, rfl, rfl⟩
    simp only [Handler.withKeyMap, Handler.withChanged, Handler.keyMap]
    refine TreeWF.mk _ _ _ _ _ _ ?_ ?_ ?_ ?_
    · exact ainsert_nodup _ _ _ hwf.nodupKeys
    · intro hpfalse
      simp [isAddr] at hpfalse
    · intro kc hmem
      rcases mem_ainsert hmem with hmem | hmem
      · subst hmem
        refine ⟨rfl, rfl, fun _ => rfl, fun _ => rfl, ?_⟩
        intro hcontra
        simp only [Handler.propertyState, Option.some.injEq] at hcontra
        by_cases hin : jsIn o k = true <;> simp [hin] at hcontra
      · exact KidOK_true (hwf.kidOK hmem)
    · intro kc hmem
      rcases mem_ainsert hmem with hmem | hmem
      · subst hmem
        exact TreeWF_leaf _ _ _ _
      · exact hwf.kidWF hmem

/-- The `deleteProperty` trap preserves tree well-formedness and the node's
own fields; on an actual staged deletion it flags the node changed, and the
key's child becomes the tombstone. -/
theorem hDelete_TreeWF (heap : Heap) (h : Handler) (k : String) (clk : Nat)
    (res : DelRes) (h' : Handler) (clk' : Nat)
    (hg : hDelete heap h k clk = some (res, h', clk')) (hwf : TreeWF h) :
    TreeWF h' ∧ h'.principal = h.principal ∧ h'.propertyState = h.propertyState
    ∧ h'.propertyDescriptor = h.propertyDescriptor ∧ h'.birth = h.birth
    ∧ (res = DelRes.noProp → h'.changed = h.changed)
    ∧ (res = DelRes.deleted → h'.changed = true ∧
        ∃ c, alook k h'.keyMap = some c ∧ c.propertyState = some PState.DELETED
          ∧ c.principal = JVal.undef ∧ c.keyMap = [] ∧ c.changed = false) := by
  simp only [hDelete] at hg
  rcases hgr : getOrRetainProperty heap h k clk with ⟨co, h₁, clk₁⟩
  rw [hgr] at hg
  have hown := getOrRetain_own heap h k clk co h₁ clk₁ hgr
  have hwf₁ := getOrRetain_TreeWF heap h k clk co h₁ clk₁ hgr hwf
  cases co with
  | none =>
    simp only [] at hg
    simp only [Option.some.injEq, Prod.mk.injEq] at hg
    rw [← hg.2.1]
    refine ⟨hwf₁.1, hown.1, hown.2.1, hown.2.2.1, hown.2.2.2.2, fun _ => hown.2.2.2.1, ?_⟩
    intro hres
    rw [← hg.1] at hres
    simp at hres
  | some c =>
    simp only [] at hg
    rcases hd : c.propertyDescriptor with _ | dd
    · rw [hd] at hg; simp at hg
    · rw [hd] at hg
      simp only [] at hg
      by_cases hcfg : dd.configurable = false
      · rw [if_pos hcfg] at hg; simp at hg
      · rw [if_neg hcfg] at hg
        simp only [Option.some.injEq, Prod.mk.injEq] at hg
        rw [← hg.2.1]
        rcases h₁ with ⟨p₁, s₁, d₁, ch₁, b₁, km₁⟩
        simp only [Handler.withKeyMap, Handler.withChanged, Handler.keyMap,
          Handler.principal, Handler.propertyState, Handler.propertyDescriptor,
          Handler.birth, Handler.changed] at hown ⊢
        refine ⟨?_, hown.1, hown.2.1, hown.2.2.1, hown.2.2.2.2, ?_, ?_⟩
        · refine TreeWF.mk _ _ _ _ _ _ ?_ ?_ ?_ ?_
          · exact ainsert_nodup _ _ _ hwf₁.1.nodupKeys
          · intro hpfalse
            have := hwf₁.1.nonObj (by simpa [Handler.principal] using hpfalse)
            simp only [Handler.keyMap] at this
            rw [this.1] at hwf₁
            have hc := (hwf₁.2 c rfl).2
            simp only [Handler.keyMap, alook] at hc
            exact absurd hc (by simp)
          · intro kc hmem
            rcases mem_ainsert hmem with hmem | hmem
            · subst hmem
              exact ⟨rfl, rfl, fun hcontra => by simp [Handler.changed] at hcontra,
                fun _ => rfl, fun _ => ⟨rfl, rfl, rfl⟩⟩
            · exact KidOK_true (hwf₁.1.kidOK hmem)
          · intro kc hmem
            rcases mem_ainsert hmem with hmem | hmem
            · subst hmem
              exact TreeWF_leaf _ _ _ _
            · exact hwf₁.1.kidWF hmem
        · intro hres
          rw [← hg.1] at hres
          simp at hres
        · intro hres
          refine ⟨by trivial, ?_⟩
          refine ⟨Handler.mk JVal.undef (some PState.DELETED) (some dd) false c.birth [], ?_, rfl, rfl, rfl, rfl⟩
          exact alook_ainsert_self _ _ _

theorem withState_fields (h : Handler) (s : Option PState) :
    (h.withState s).principal = h.principal ∧ (h.withState s).propertyState = s
    ∧ (h.withState s).propertyDescriptor = h.propertyDescriptor
    ∧ (h.withState s).changed = h.changed ∧ (h.withState s).birth = h.birth
    ∧ (h.withState s).keyMap = h.keyMap := by
  rcases h with ⟨p, st, d, ch, b, km⟩
  exact ⟨rfl, rfl, rfl, rfl, rfl, rfl⟩

theorem TreeWF_withState {h : Handler} (hwf : TreeWF h) (s : Option PState) :
    TreeWF (h.withState s) := by
  rcases h with ⟨p, st, d, ch, b, km⟩
  cases hwf with
  | mk _ _ _ _ _ _ h1 h2 h3 h4 => exact TreeWF.mk _ _ _ _ _ _ h1 h2 h3 h4

theorem Quiescent_withState {h : Handler} (hq : Quiescent h) (s : Option PState) :
    Quiescent (h.withState s) := by
  rcases h with ⟨p, st, d, ch, b, km⟩
  cases hq with
  | mk _ _ _ _ _ h1 h2 => exact Quiescent.mk _ _ _ _ _ h1 h2

/-- The per-child preconditions that `commitKids` needs of its input list. -/
def KidsWF (km : List (String × Handler)) : Prop :=
  ∀ kc, kc ∈ km → kc.2.propertyState.isSome = true
    ∧ kc.2.propertyDescriptor.isSome = true
    ∧ (kc.2.propertyState = some PState.DELETED →
        kc.2.principal = JVal.undef ∧ kc.2.keyMap = [] ∧ kc.2.changed = false)
    ∧ TreeWF kc.2

/-- How a child of the post-commit key map relates to the input list. -/
def KidRel (km : List (String × Handler)) (kc' : String × Handler) : Prop :=
  ∃ c₀, (kc'.1, c₀) ∈ km
    ∧ (kc'.2.changed = true → c₀.changed = true)
    ∧ (kc'.2.propertyState ≠ some PState.RETAINED → c₀.propertyState ≠ some PState.RETAINED)
    ∧ kc'.2.propertyState.isSome = true ∧ kc'.2.propertyDescriptor.isSome = true
    ∧ (kc'.2.propertyState = some PState.DELETED →
        kc'.2.principal = JVal.undef ∧ kc'.2.keyMap = [] ∧ kc'.2.changed = false)
    ∧ TreeWF kc'.2

theorem KidsWF_of_TreeWF {p : JVal} {s : Option PState} {d : Option Desc} {ch : Bool}
    {b : Nat} {km : List (String × Handler)} (hwf : TreeWF (Handler.mk p s d ch b km)) :
    KidsWF km := by
  intro kc hmem
  have h1 := hwf.kidOK (by simpa [Handler.keyMap] using hmem)
  have h2 := hwf.kidWF (by simpa [Handler.keyMap] using hmem)
  exact ⟨h1.1, h1.2.1, h1.2.2.2.2, h2⟩

/-- Facts about the head-child processing step of `commitKids` when it does
not raise: whether or not the child was recursively committed, the result is
well-formed, keeps the child's own fields, and is recursively quiet. -/
theorem commit_head_facts (heap : Heap) (c : Handler) (heap₁ : Heap) (c₁ : Handler)
    (hwfc : TreeWF c)
    (ihm1 : TreeWF c → ∀ heap' h' e, commitNode heap c = (heap', h', e) →
      TreeWF h' ∧ h'.principal = c.principal ∧ h'.propertyState = c.propertyState
      ∧ h'.propertyDescriptor = c.propertyDescriptor ∧ h'.birth = c.birth
      ∧ (h'.changed = true → c.changed = true)
      ∧ (e = none → Quiescent h')
      ∧ (List.Sublist (h'.keyMap.map Prod.fst) (c.keyMap.map Prod.fst)))
    (hr : (if c.changed = true then commitNode heap c else (heap, c, none))
      = (heap₁, c₁, none)) :
    TreeWF c₁ ∧ c₁.principal = c.principal ∧ c₁.propertyState = c.propertyState
    ∧ c₁.propertyDescriptor = c.propertyDescriptor ∧ c₁.birth = c.birth
    ∧ (c₁.changed = true → c.changed = true) ∧ Quiescent c₁
    ∧ (List.Sublist (c₁.keyMap.map Prod.fst) (c.keyMap.map Prod.fst)) := by
  by_cases hch : c.changed = true
  · rw [if_pos hch] at hr
    have hf := ihm1 hwfc heap₁ c₁ none hr
    exact ⟨hf.1, hf.2.1, hf.2.2.1, hf.2.2.2.1, hf.2.2.2.2.1, hf.2.2.2.2.2.1,
      hf.2.2.2.2.2.2.1 rfl, hf.2.2.2.2.2.2.2⟩
  · rw [if_neg hch] at hr
    simp only [Prod.mk.injEq] at hr
    obtain ⟨he1, he2, he3⟩ := hr
    subst he2
    simp only [Bool.not_eq_true] at hch
    exact ⟨hwfc, rfl, rfl, rfl, rfl, fun hh => hh,
      quiescent_of_unchanged c hwfc hch, List.Sublist.refl _⟩

/-- Commit preserves tree well-formedness and the node's own fields, never
turns `changed` on, and on success leaves the node recursively quiet: the
node's `changed` flag is cleared, every `DIRTY` or `NEW` child has become
`RETAINED` (deleted children being evicted), recursively below. -/
theorem commit_TreeWF : ∀ (heap : Heap) (h : Handler), TreeWF h →
    ∀ heap' h' e, commitNode heap h = (heap', h', e) →
      TreeWF h' ∧ h'.principal = h.principal ∧ h'.propertyState = h.propertyState
      ∧ h'.propertyDescriptor = h.propertyDescriptor ∧ h'.birth = h.birth
      ∧ (h'.changed = true → h.changed = true)
      ∧ (e = none → Quiescent h')
      ∧ (List.Sublist (h'.keyMap.map Prod.fst) (h.keyMap.map Prod.fst)) := by
  refine commitNode.induct
    (fun heap h => TreeWF h →
      ∀ heap' h' e, commitNode heap h = (heap', h', e) →
        TreeWF h' ∧ h'.principal = h.principal ∧ h'.propertyState = h.propertyState
        ∧ h'.propertyDescriptor = h.propertyDescriptor ∧ h'.birth = h.birth
        ∧ (h'.changed = true → h.changed = true)
        ∧ (e = none → Quiescent h')
        ∧ (List.Sublist (h'.keyMap.map Prod.fst) (h.keyMap.map Prod.fst)))
    (fun heap pv km => KidsWF km →
      ∀ heap' km' e, commitKids heap pv km = (heap', km', e) →
        List.Sublist (km'.map Prod.fst) (km.map Prod.fst)
        ∧ (∀ kc', kc' ∈ km' → KidRel km kc')
        ∧ (e = none → ∀ kc', kc' ∈ km' →
            kc'.2.propertyState = some PState.RETAINED ∧ Quiescent kc'.2))
    ?_ ?_ ?_ ?_ ?_ ?_ ?_ ?_ ?_ ?_ ?_ ?_
  · -- commitNode, object principal, kids succeed
    intro heap p s d ch b km htype heap₀ km₀ hkids ih hwf heap' h' e hcommit
    have hm := ih (KidsWF_of_TreeWF hwf)
    have hk := hm heap₀ km₀ none hkids
    simp only [commitNode, if_pos htype, hkids] at hcommit
    simp only [Prod.mk.injEq] at hcommit
    obtain ⟨he1, he2, he3⟩ := hcommit
    subst he1
    subst he3
    rw [← he2]
    refine ⟨?_, rfl, rfl, rfl, rfl, ?_, ?_, ?_⟩
    · refine TreeWF.mk _ _ _ _ _ _ ?_ ?_ ?_ ?_
      · exact List.Nodup.sublist hk.1 (by simpa [Handler.keyMap] using hwf.nodupKeys)
      · intro _
        constructor
        · have hkm : km = [] := by
            rcases hwf.nonObj (by assumption) with ⟨hh, _⟩
            simpa [Handler.keyMap] using hh
          subst hkm
          have := hk.1
          simpa using List.sublist_nil.mp (by simpa using hk.1)
        · rfl
      · intro kc hmem
        have hq := hk.2.2 rfl kc hmem
        rcases hk.2.1 kc hmem with ⟨c₀, _, _, _, _, hdsome, _, _⟩
        exact ⟨by simp [hq.1], hdsome,
          fun hcontra => absurd hcontra (by simp [hq.2.unchanged]),
          fun hcontra => absurd hq.1 hcontra,
          fun hcontra => absurd hq.1 (by simp [hcontra])⟩
      · intro kc hmem
        rcases hk.2.1 kc hmem with ⟨c₀, _, _, _, _, _, _, hcwf⟩
        exact hcwf
    · intro hcontra
      simp [Handler.changed] at hcontra
    · intro _
      refine Quiescent.mk _ _ _ _ _ ?_ ?_
      · intro kc hmem
        exact (hk.2.2 rfl kc hmem).1
      · intro kc hmem
        exact (hk.2.2 rfl kc hmem).2
    · simpa [Handler.keyMap] using hk.1
  · -- commitNode, object principal, kids fail
    intro heap p s d ch b km htype heap₀ km₀ e₀ hkids ih hwf heap' h' e hcommit
    have hm := ih (KidsWF_of_TreeWF hwf)
    have hk := hm heap₀ km₀ (some e₀) hkids
    simp only [commitNode, if_pos htype, hkids] at hcommit
    simp only [Prod.mk.injEq] at hcommit
    obtain ⟨he1, he2, he3⟩ := hcommit
    subst he1
    subst he3
    rw [← he2]
    refine ⟨?_, rfl, rfl, rfl, rfl, fun hh => hh, ?_, ?_⟩
    · refine TreeWF.mk _ _ _ _ _ _ ?_ ?_ ?_ ?_
      · exact List.Nodup.sublist hk.1 (by simpa [Handler.keyMap] using hwf.nodupKeys)
      · intro hpf
        constructor
        · have hkm : km = [] := by
            rcases hwf.nonObj (by assumption) with ⟨hh, _⟩
            simpa [Handler.keyMap] using hh
          subst hkm
          simpa using List.sublist_nil.mp (by simpa using hk.1)
        · exact (hwf.nonObj hpf).2
      · intro kc hmem
        rcases hk.2.1 kc hmem with ⟨c₀, hc₀mem, hchmono, hstmono, hsome, hdsome, hdel, hcwf⟩
        have hok := @TreeWF.kidOK _ hwf (kc.1, c₀) (by simpa [Handler.keyMap] using hc₀mem)
        refine ⟨hsome, hdsome, ?_, ?_, hdel⟩
        · intro hchg
          exact hok.2.2.1 (hchmono hchg)
        · intro hst
          exact hok.2.2.2.1 (hstmono hst)
      · intro kc hmem
        rcases hk.2.1 kc hmem with ⟨c₀, _, _, _, _, _, _, hcwf⟩
        exact hcwf
    · intro hcontra
      simp at hcontra
    · simpa [Handler.keyMap] using hk.1
  · -- commitNode, non-object principal
    intro heap p s d ch b km htype hwf heap' h' e hcommit
    simp only [commitNode, if_neg htype] at hcommit
    simp only [Prod.mk.injEq] at hcommit
    obtain ⟨he1, he2, he3⟩ := hcommit
    subst he1
    subst he3
    rw [← he2]
    exact ⟨hwf, rfl, rfl, rfl, rfl, fun hh => hh, fun hcontra => by simp at hcontra,
      List.Sublist.refl _⟩
  · -- commitKids, nil
    intro heap pv hkwf heap' km' e hck
    simp only [commitKids, Prod.mk.injEq] at hck
    obtain ⟨he1, he2, he3⟩ := hck
    subst he1
    subst he3
    rw [← he2]
    exact ⟨List.nil_sublist _, fun kc hmem => by simp at hmem,
      fun _ kc hmem => by simp at hmem⟩
  · -- commitKids, recursion on head errors
    intro heap pv k c rest r heap₁ c₁ e₀ hr ihm1 hkwf heap' km' e hck
    have hwfc := (hkwf (k, c) (List.mem_cons_self _ _)).2.2.2
    have hrd : r = if c.changed = true then commitNode heap c else (heap, c, none) := rfl
    rw [hrd] at hr
    by_cases hch : c.changed = true
    · rw [if_pos hch] at hr
      have hfacts := ihm1 hwfc heap₁ c₁ (some e₀) hr
      simp only [commitKids, hrd, if_pos hch, hr] at hck
      simp only [Prod.mk.injEq] at hck
      obtain ⟨he1, he2, he3⟩ := hck
      subst he1
      subst he3
      rw [← he2]
      refine ⟨List.Sublist.refl _, ?_, fun hcontra => by simp at hcontra⟩
      intro kc' hmem
      rcases List.mem_cons.mp hmem with hmem | hmem
      · subst hmem
        refine ⟨c, List.mem_cons_self _ _, ?_, ?_, ?_, ?_, ?_, hfacts.1⟩
        · intro hchg
          exact hch
        · intro hst
          rw [hfacts.2.2.1] at hst
          exact hst
        · rw [hfacts.2.2.1]
          exact (hkwf (k, c) (List.mem_cons_self _ _)).1
        · rw [hfacts.2.2.2.1]
          exact (hkwf (k, c) (List.mem_cons_self _ _)).2.1
        · intro hst
          rw [hfacts.2.2.1] at hst
          have := ((hkwf (k, c) (List.mem_cons_self _ _)).2.2.1 hst).2.2
          rw [this] at hch
          simp at hch
      · refine ⟨kc'.2, List.mem_cons_of_mem _ (by simpa using hmem), fun hh => hh,
          fun hh => hh, ?_, ?_, ?_, ?_⟩
        · exact (hkwf kc' (List.mem_cons_of_mem _ hmem)).1
        · exact (hkwf kc' (List.mem_cons_of_mem _ hmem)).2.1
        · exact (hkwf kc' (List.mem_cons_of_mem _ hmem)).2.2.1
        · exact (hkwf kc' (List.mem_cons_of_mem _ hmem)).2.2.2
    · rw [if_neg hch] at hr
      simp at hr
  · -- commitKids, head DELETED, principal delete succeeds: evict and continue
    intro heap pv k c rest r heap₁ c₁ hr hst heap₂ hdel ihm1 ihm2 hkwf heap' km' e hck
    have hwfc := (hkwf (k, c) (List.mem_cons_self _ _)).2.2.2
    have hrd : r = if c.changed = true then commitNode heap c else (heap, c, none) := rfl
    rw [hrd] at hr
    have hrest : KidsWF rest := fun kc hm => hkwf kc (List.mem_cons_of_mem _ hm)
    simp only [commitKids, hrd, hr, hst, hdel] at hck
    have hres := ihm2 hrest heap' km' e hck
    refine ⟨?_, ?_, ?_⟩
    · refine List.Sublist.trans hres.1 ?_
      simp only [List.map_cons]
      exact List.sublist_cons_self _ _
    · intro kc' hmem
      rcases hres.2.1 kc' hmem with ⟨c₀, hc₀, hrel⟩
      exact ⟨c₀, List.mem_cons_of_mem _ hc₀, hrel⟩
    · exact hres.2.2
  · -- commitKids, head DELETED, principal delete fails: raise
    intro heap pv k c rest r heap₁ c₁ hr hst hdel ihm1 hkwf heap' km' e hck
    have hwfc := (hkwf (k, c) (List.mem_cons_self _ _)).2.2.2
    have hrd : r = if c.changed = true then commitNode heap c else (heap, c, none) := rfl
    rw [hrd] at hr
    have hhead := commit_head_facts heap c heap₁ c₁ hwfc ihm1 hr
    simp only [commitKids, hrd, hr, hst, hdel] at hck
    simp only [Prod.mk.injEq] at hck
    obtain ⟨he1, he2, he3⟩ := hck
    subst he1
    subst he3
    rw [← he2]
    refine ⟨List.Sublist.refl _, ?_, fun hcontra => by simp at hcontra⟩
    intro kc' hmem
    rcases List.mem_cons.mp hmem with hmem | hmem
    · subst hmem
      have hcst : c.propertyState = some PState.DELETED := by
        rw [← hhead.2.2.1]
        exact hst
      have hcdel := (hkwf (k, c) (List.mem_cons_self _ _)).2.2.1 hcst
      refine ⟨c, List.mem_cons_self _ _, hhead.2.2.2.2.2.1, ?_, ?_, ?_, ?_, hhead.1⟩
      · intro hne
        rw [hcst]
        simp
      · rw [hhead.2.2.1]
        exact (hkwf (k, c) (List.mem_cons_self _ _)).1
      · rw [hhead.2.2.2.1]
        exact (hkwf (k, c) (List.mem_cons_self _ _)).2.1
      · intro _
        refine ⟨by rw [hhead.2.1]; exact hcdel.1, ?_, hhead.2.2.2.2.2.2.1.unchanged⟩
        have hsub := hhead.2.2.2.2.2.2.2
        rw [hcdel.2.1] at hsub
        simp only [List.map_nil] at hsub
        have := List.sublist_nil.mp hsub
        exact List.map_eq_nil_iff.mp this
    · refine ⟨kc'.2, List.mem_cons_of_mem _ (by simpa using hmem), fun hh => hh,
        fun hh => hh, ?_, ?_, ?_, ?_⟩
      · exact (hkwf kc' (List.mem_cons_of_mem _ hmem)).1
      · exact (hkwf kc' (List.mem_cons_of_mem _ hmem)).2.1
      · exact (hkwf kc' (List.mem_cons_of_mem _ hmem)).2.2.1
      · exact (hkwf kc' (List.mem_cons_of_mem _ hmem)).2.2.2
  · -- commitKids, head DIRTY, principal set succeeds: retain and continue
    intro heap pv k c rest r heap₁ c₁ hr hst heap₂ hset heap₃ km₃ e₃ hck₃ ihm1 ihm2
      hkwf heap' km' e hck
    have hwfc := (hkwf (k, c) (List.mem_cons_self _ _)).2.2.2
    have hrd : r = if c.changed = true then commitNode heap c else (heap, c, none) := rfl
    rw [hrd] at hr
    have hhead := commit_head_facts heap c heap₁ c₁ hwfc ihm1 hr
    have hrest : KidsWF rest := fun kc hm => hkwf kc (List.mem_cons_of_mem _ hm)
    have hres := ihm2 hrest heap₃ km₃ e₃ hck₃
    simp only [commitKids, hrd, hr, hst, hset, hck₃] at hck
    simp only [Prod.mk.injEq] at hck
    obtain ⟨he1, he2, he3⟩ := hck
    subst he1
    subst he3
    rw [← he2]
    have hc₂ := withState_fields c₁ (some PState.RETAINED)
    refine ⟨?_, ?_, ?_⟩
    · simp only [List.map_cons]
      exact List.Sublist.cons₂ _ hres.1
    · intro kc' hmem
      rcases List.mem_cons.mp hmem with hmem | hmem
      · subst hmem
        refine ⟨c, List.mem_cons_self _ _, ?_, ?_, ?_, ?_, ?_, ?_⟩
        · intro hchg
          rw [hc₂.2.2.2.1] at hchg
          exact hhead.2.2.2.2.2.1 hchg
        · intro hne
          rw [hc₂.2.1] at hne
          simp at hne
        · rw [hc₂.2.1]
          rfl
        · rw [hc₂.2.2.1, hhead.2.2.2.1]
          exact (hkwf (k, c) (List.mem_cons_self _ _)).2.1
        · intro hne
          rw [hc₂.2.1] at hne
          simp at hne
        · exact TreeWF_withState hhead.1 _
      · rcases hres.2.1 kc' (by simpa using hmem) with ⟨c₀, hc₀, hrel⟩
        exact ⟨c₀, List.mem_cons_of_mem _ hc₀, hrel⟩
    · intro he₃
      intro kc' hmem
      rcases List.mem_cons.mp hmem with hmem | hmem
      · subst hmem
        exact ⟨hc₂.2.1, Quiescent_withState hhead.2.2.2.2.2.2.1 _⟩
      · exact hres.2.2 he₃ kc' hmem
  · -- commitKids, head DIRTY, principal set fails: raise
    intro heap pv k c rest r heap₁ c₁ hr hst hset ihm1 hkwf heap' km' e hck
    have hwfc := (hkwf (k, c) (List.mem_cons_self _ _)).2.2.2
    have hrd : r = if c.changed = true then commitNode heap c else (heap, c, none) := rfl
    rw [hrd] at hr
    have hhead := commit_head_facts heap c heap₁ c₁ hwfc ihm1 hr
    simp only [commitKids, hrd, hr, hst, hset] at hck
    simp only [Prod.mk.injEq] at hck
    obtain ⟨he1, he2, he3⟩ := hck
    subst he1
    subst he3
    rw [← he2]
    refine ⟨List.Sublist.refl _, ?_, fun hcontra => by simp at hcontra⟩
    intro kc' hmem
    rcases List.mem_cons.mp hmem with hmem | hmem
    · subst hmem
      refine ⟨c, List.mem_cons_self _ _, hhead.2.2.2.2.2.1, ?_, ?_, ?_, ?_, hhead.1⟩
      · intro hne
        rw [← hhead.2.2.1, hst]
        simp
      · rw [hhead.2.2.1]
        exact (hkwf (k, c) (List.mem_cons_self _ _)).1
      · rw [hhead.2.2.2.1]
        exact (hkwf (k, c) (List.mem_cons_self _ _)).2.1
      · intro hdd
        rw [hdd] at hst
        simp at hst
    · refine ⟨kc'.2, List.mem_cons_of_mem _ (by simpa using hmem), fun hh => hh,
        fun hh => hh, ?_, ?_, ?_, ?_⟩
      · exact (hkwf kc' (List.mem_cons_of_mem _ hmem)).1
      · exact (hkwf kc' (List.mem_cons_of_mem _ hmem)).2.1
      · exact (hkwf kc' (List.mem_cons_of_mem _ hmem)).2.2.1
      · exact (hkwf kc' (List.mem_cons_of_mem _ hmem)).2.2.2
  · -- commitKids, head NEW, principal set succeeds: retain and continue
    intro heap pv k c rest r heap₁ c₁ hr hst heap₂ hset heap₃ km₃ e₃ hck₃ ihm1 ihm2
      hkwf heap' km' e hck
    have hwfc := (hkwf (k, c) (List.mem_cons_self _ _)).2.2.2
    have hrd : r = if c.changed = true then commitNode heap c else (heap, c, none) := rfl
    rw [hrd] at hr
    have hhead := commit_head_facts heap c heap₁ c₁ hwfc ihm1 hr
    have hrest : KidsWF rest := fun kc hm => hkwf kc (List.mem_cons_of_mem _ hm)
    have hres := ihm2 hrest heap₃ km₃ e₃ hck₃
    simp only [commitKids, hrd, hr, hst, hset, hck₃] at hck
    simp only [Prod.mk.injEq] at hck
    obtain ⟨he1, he2, he3⟩ := hck
    subst he1
    subst he3
    rw [← he2]
    have hc₂ := withState_fields c₁ (some PState.RETAINED)
    refine ⟨?_, ?_, ?_⟩
    · simp only [List.map_cons]
      exact List.Sublist.cons₂ _ hres.1
    · intro kc' hmem
      rcases List.mem_cons.mp hmem with hmem | hmem
      · subst hmem
        refine ⟨c, List.mem_cons_self _ _, ?_, ?_, ?_, ?_, ?_, ?_⟩
        · intro hchg
          rw [hc₂.2.2.2.1] at hchg
          exact hhead.2.2.2.2.2.1 hchg
        · intro hne
          rw [hc₂.2.1] at hne
          simp at hne
        · rw [hc₂.2.1]
          rfl
        · rw [hc₂.2.2.1, hhead.2.2.2.1]
          exact (hkwf (k, c) (List.mem_cons_self _ _)).2.1
        · intro hne
          rw [hc₂.2.1] at hne
          simp at hne
        · exact TreeWF_withState hhead.1 _
      · rcases hres.2.1 kc' (by simpa using hmem) with ⟨c₀, hc₀, hrel⟩
        exact ⟨c₀, List.mem_cons_of_mem _ hc₀, hrel⟩
    · intro he₃
      intro kc' hmem
      rcases List.mem_cons.mp hmem with hmem | hmem
      · subst hmem
        exact ⟨hc₂.2.1, Quiescent_withState hhead.2.2.2.2.2.2.1 _⟩
      · exact hres.2.2 he₃ kc' hmem
  · -- commitKids, head NEW, principal set fails: raise
    intro heap pv k c rest r heap₁ c₁ hr hst hset ihm1 hkwf heap' km' e hck
    have hwfc := (hkwf (k, c) (List.mem_cons_self _ _)).2.2.2
    have hrd : r = if c.changed = true then commitNode heap c else (heap, c, none) := rfl
    rw [hrd] at hr
    have hhead := commit_head_facts heap c heap₁ c₁ hwfc ihm1 hr
    simp only [commitKids, hrd, hr, hst, hset] at hck
    simp only [Prod.mk.injEq] at hck
    obtain ⟨he1, he2, he3⟩ := hck
    subst he1
    subst he3
    rw [← he2]
    refine ⟨List.Sublist.refl _, ?_, fun hcontra => by simp at hcontra⟩
    intro kc' hmem
    rcases List.mem_cons.mp hmem with hmem | hmem
    · subst hmem
      refine ⟨c, List.mem_cons_self _ _, hhead.2.2.2.2.2.1, ?_, ?_, ?_, ?_, hhead.1⟩
      · intro hne
        rw [← hhead.2.2.1, hst]
        simp
      · rw [hhead.2.2.1]
        exact (hkwf (k, c) (List.mem_cons_self _ _)).1
      · rw [hhead.2.2.2.1]
        exact (hkwf (k, c) (List.mem_cons_self _ _)).2.1
      · intro hdd
        rw [hdd] at hst
        simp at hst
    · refine ⟨kc'.2, List.mem_cons_of_mem _ (by simpa using hmem), fun hh => hh,
        fun hh => hh, ?_, ?_, ?_, ?_⟩
      · exact (hkwf kc' (List.mem_cons_of_mem _ hmem)).1
      · exact (hkwf kc' (List.mem_cons_of_mem _ hmem)).2.1
      · exact (hkwf kc' (List.mem_cons_of_mem _ hmem)).2.2.1
      · exact (hkwf kc' (List.mem_cons_of_mem _ hmem)).2.2.2
  · -- commitKids, head RETAINED: no action, continue
    intro heap pv k c rest r heap₁ c₁ hr heap₃ km₃ e₃ hck₃ hnd hndy hnn ihm1 ihm2
      hkwf heap' km' e hck
    have hwfc := (hkwf (k, c) (List.mem_cons_self _ _)).2.2.2
    have hrd : r = if c.changed = true then commitNode heap c else (heap, c, none) := rfl
    rw [hrd] at hr
    have hhead := commit_head_facts heap c heap₁ c₁ hwfc ihm1 hr
    have hstR : c₁.propertyState = some PState.RETAINED := by
      have hsome : c₁.propertyState.isSome = true := by
        rw [hhead.2.2.1]
        exact (hkwf (k, c) (List.mem_cons_self _ _)).1
      rcases hs : c₁.propertyState with _ | st
      · rw [hs] at hsome; simp at hsome
      · cases st with
        | RETAINED => rfl
        | NEW => exact absurd hs hnn
        | DIRTY => exact absurd hs hndy
        | DELETED => exact absurd hs hnd
    have hrest : KidsWF rest := fun kc hm => hkwf kc (List.mem_cons_of_mem _ hm)
    have hres := ihm2 hrest heap₃ km₃ e₃ hck₃
    simp only [commitKids, hrd, hr, hstR, hck₃] at hck
    simp only [Prod.mk.injEq] at hck
    obtain ⟨he1, he2, he3⟩ := hck
    subst he1
    subst he3
    rw [← he2]
    refine ⟨?_, ?_, ?_⟩
    · simp only [List.map_cons]
      exact List.Sublist.cons₂ _ hres.1
    · intro kc' hmem
      rcases List.mem_cons.mp hmem with hmem | hmem
      · subst hmem
        refine ⟨c, List.mem_cons_self _ _, hhead.2.2.2.2.2.1, ?_, ?_, ?_, ?_, hhead.1⟩
        · intro hne
          exact absurd hstR hne
        · rw [hhead.2.2.1]
          exact (hkwf (k, c) (List.mem_cons_self _ _)).1
        · rw [hhead.2.2.2.1]
          exact (hkwf (k, c) (List.mem_cons_self _ _)).2.1
        · intro hdd
          rw [hdd] at hstR
          simp at hstR
      · rcases hres.2.1 kc' (by simpa using hmem) with ⟨c₀, hc₀, hrel⟩
        exact ⟨c₀, List.mem_cons_of_mem _ hc₀, hrel⟩
    · intro he₃
      intro kc' hmem
      rcases List.mem_cons.mp hmem with hmem | hmem
      · subst hmem
        exact ⟨hstR, hhead.2.2.2.2.2.2.1⟩
      · exact hres.2.2 he₃ kc' hmem

theorem KidOK_mono {ch ch' : Bool} {c : Handler} (hok : KidOK ch c)
    (hmono : ch = true → ch' = true) : KidOK ch' c :=
  ⟨hok.1, hok.2.1, fun hc => hmono (hok.2.2.1 hc), fun hs => hmono (hok.2.2.2.1 hs),
    hok.2.2.2.2⟩

/-- Navigating a path and applying a well-formedness-preserving action keeps
the whole tree well-formed and the root's own fields, and can only turn the
root's `changed` flag on when the action reported a `setChanged`. -/
theorem atPath_TreeWF
    (act : Heap → Handler → Nat → Option (Heap × Handler × Nat × Bool))
    (hactWF : ∀ heap h clk r, TreeWF h → act heap h clk = some r → TreeWF r.2.1)
    (hactOwn : ∀ heap h clk r, act heap h clk = some r →
      r.2.1.principal = h.principal ∧ r.2.1.propertyState = h.propertyState
      ∧ r.2.1.propertyDescriptor = h.propertyDescriptor)
    (hactCh : ∀ heap h clk r, act heap h clk = some r → r.2.1.changed = true →
      (h.changed = true ∨ r.2.2.2 = true)) :
    ∀ (path : List String) (heap : Heap) (h : Handler) (clk : Nat) r,
      TreeWF h → atPath act path heap h clk = some r →
      TreeWF r.2.1 ∧ r.2.1.principal = h.principal
      ∧ r.2.1.propertyState = h.propertyState
      ∧ r.2.1.propertyDescriptor = h.propertyDescriptor
      ∧ (r.2.1.changed = true → (h.changed = true ∨ r.2.2.2 = true)) := by
  intro path
  induction path with
  | nil =>
    intro heap h clk r hwf hr
    exact ⟨hactWF heap h clk r hwf hr, (hactOwn heap h clk r hr).1,
      (hactOwn heap h clk r hr).2.1, (hactOwn heap h clk r hr).2.2,
      hactCh heap h clk r hr⟩
  | cons k rest ih =>
    intro heap h clk r hwf hr
    simp only [atPath] at hr
    rcases hg : getOrRetainProperty heap h k clk with ⟨co, h₁, clk₁⟩
    rw [hg] at hr
    cases co with
    | none => simp at hr
    | some c =>
      simp only [] at hr
      by_cases hpr : isAddr c.principal = true
      · rw [if_pos hpr] at hr
        rcases hrec : atPath act rest heap c clk₁ with _ | ⟨heap₂, c₂, clk₂, prop⟩
        · rw [hrec] at hr; simp at hr
        · rw [hrec] at hr
          simp only [Option.some.injEq] at hr
          subst hr
          have hgwf := getOrRetain_TreeWF heap h k clk (some c) h₁ clk₁ hg hwf
          have hgown := getOrRetain_own heap h k clk (some c) h₁ clk₁ hg
          have hcfound := (hgwf.2 c rfl).2
          have hcwf := (hgwf.2 c rfl).1
          have hrecf := ih heap c clk₁ ⟨heap₂, c₂, clk₂, prop⟩ hcwf hrec
          have hcmem : (k, c) ∈ h₁.keyMap := alook_mem hcfound
          have hkid := hgwf.1.kidOK hcmem
          rcases h₁ with ⟨p₁, s₁, d₁, ch₁, b₁, km₁⟩
          simp only [Handler.withKeyMap, Handler.withChanged, Handler.keyMap,
            Handler.changed, Handler.principal, Handler.propertyState,
            Handler.propertyDescriptor] at hgown hkid ⊢
          refine ⟨?_, by rw [← hgown.1], by rw [← hgown.2.1],
            by rw [← hgown.2.2.1], ?_⟩
          · refine TreeWF.mk _ _ _ _ _ _ ?_ ?_ ?_ ?_
            · exact ainsert_nodup _ _ _ (by simpa [Handler.keyMap] using hgwf.1.nodupKeys)
            · intro hpf
              exfalso
              have hno := hgwf.1.nonObj (by simpa [Handler.principal] using hpf)
              simp only [Handler.keyMap] at hno
              rw [hno.1] at hcmem
              simp [Handler.keyMap] at hcmem
            · intro kc hmem
              rcases mem_ainsert hmem with hmem | hmem
              · subst hmem
                refine ⟨?_, ?_, ?_, ?_, ?_⟩
                · rw [hrecf.2.2.1]
                  exact hkid.1
                · rw [hrecf.2.2.2.1]
                  exact hkid.2.1
                · intro hchg
                  rcases hrecf.2.2.2.2 hchg with hc | hp
                  · have hcc := hkid.2.2.1 hc
                    simp [hcc]
                  · have hpp : prop = true := by simpa using hp
                    simp [hpp]
                · intro hst
                  rw [hrecf.2.2.1] at hst
                  have := hkid.2.2.2.1 hst
                  simp [this]
                · intro hst
                  exfalso
                  rw [hrecf.2.2.1] at hst
                  have hshape := hkid.2.2.2.2 hst
                  rw [hshape.1] at hpr
                  simp [isAddr] at hpr
              · refine KidOK_mono (hgwf.1.kidOK hmem) ?_
                intro hcq
                simp only [Handler.changed] at hcq
                simp [hcq]
            · intro kc hmem
              rcases mem_ainsert hmem with hmem | hmem
              · subst hmem
                exact hrecf.1
              · exact hgwf.1.kidWF hmem
          · intro hchg
            simp only [Bool.or_eq_true] at hchg
            rcases hchg with hc | hp
            · rw [← hgown.2.2.2.1]
              exact Or.inl hc
            · exact Or.inr hp
      · rw [if_neg hpr] at hr; simp at hr

theorem hSet_own (heap : Heap) (h : Handler) (k : String) (v : JVal) (clk : Nat)
    (h' : Handler) (clk' : Nat) (hg : hSet heap h k v clk = some (h', clk')) :
    h'.principal = h.principal ∧ h'.propertyState = h.propertyState
    ∧ h'.propertyDescriptor = h.propertyDescriptor ∧ h'.birth = h.birth
    ∧ h'.changed = true := by
  rcases h with ⟨p, s, d, ch, b, km⟩
  simp only [hSet, Handler.principal] at hg
  rcases p with _ | _ | _ | _ | _ | a | _ <;> try simp at hg
  rcases halo : alook a heap with _ | o <;> rw [halo] at hg
  · simp at hg
  · simp only [Option.some.injEq, Prod.mk.injEq] at hg
    rw [← hg.1]
    exact ⟨rfl, rfl, rfl, rfl, rfl⟩

theorem hDelete_own (heap : Heap) (h : Handler) (k : String) (clk : Nat)
    (res : DelRes) (h' : Handler) (clk' : Nat)
    (hg : hDelete heap h k clk = some (res, h', clk')) :
    h'.principal = h.principal ∧ h'.propertyState = h.propertyState
    ∧ h'.propertyDescriptor = h.propertyDescriptor ∧ h'.birth = h.birth
    ∧ (res = DelRes.noProp → h'.changed = h.changed)
    ∧ (res = DelRes.deleted → h'.changed = true) := by
  simp only [hDelete] at hg
  rcases hgr : getOrRetainProperty heap h k clk with ⟨co, h₁, clk₁⟩
  rw [hgr] at hg
  have hown := getOrRetain_own heap h k clk co h₁ clk₁ hgr
  cases co with
  | none =>
    simp only [] at hg
    simp only [Option.some.injEq, Prod.mk.injEq] at hg
    rw [← hg.2.1]
    refine ⟨hown.1, hown.2.1, hown.2.2.1, hown.2.2.2.2, fun _ => hown.2.2.2.1, ?_⟩
    intro hres
    rw [← hg.1] at hres
    simp at hres
  | some c =>
    simp only [] at hg
    rcases hd : c.propertyDescriptor with _ | dd
    · rw [hd] at hg; simp at hg
    · rw [hd] at hg
      simp only [] at hg
      by_cases hcfg : dd.configurable = false
      · rw [if_pos hcfg] at hg; simp at hg
      · rw [if_neg hcfg] at hg
        simp only [Option.some.injEq, Prod.mk.injEq] at hg
        rw [← hg.2.1]
        rcases h₁ with ⟨p₁, s₁, d₁, ch₁, b₁, km₁⟩
        simp only [Handler.withKeyMap, Handler.withChanged, Handler.principal,
          Handler.propertyState, Handler.propertyDescriptor, Handler.birth,
          Handler.changed] at hown ⊢
        refine ⟨hown.1, hown.2.1, hown.2.2.1, hown.2.2.2.2, ?_, fun _ => trivial⟩
        intro hres
        rw [← hg.1] at hres
        simp at hres

theorem readAct_pres (k : String) :
    (∀ heap h clk r, TreeWF h → readAct k heap h clk = some r → TreeWF r.2.1)
    ∧ (∀ heap h clk r, readAct k heap h clk = some r →
        r.2.1.principal = h.principal ∧ r.2.1.propertyState = h.propertyState
        ∧ r.2.1.propertyDescriptor = h.propertyDescriptor)
    ∧ (∀ heap h clk r, readAct k heap h clk = some r → r.2.1.changed = true →
        (h.changed = true ∨ r.2.2.2 = true)) := by
  refine ⟨?_, ?_, ?_⟩ <;> intro heap h clk r
  · intro hwf hr
    simp only [readAct] at hr
    rcases hg : getOrRetainProperty heap h k clk with ⟨co, h₁, clk₁⟩
    rw [hg] at hr
    simp only [Option.some.injEq] at hr
    rw [← hr]
    exact (getOrRetain_TreeWF heap h k clk co h₁ clk₁ hg hwf).1
  · intro hr
    simp only [readAct] at hr
    rcases hg : getOrRetainProperty heap h k clk with ⟨co, h₁, clk₁⟩
    rw [hg] at hr
    simp only [Option.some.injEq] at hr
    rw [← hr]
    have hq := getOrRetain_own heap h k clk co h₁ clk₁ hg
    exact ⟨hq.1, hq.2.1, hq.2.2.1⟩
  · intro hr hchg
    simp only [readAct] at hr
    rcases hg : getOrRetainProperty heap h k clk with ⟨co, h₁, clk₁⟩
    rw [hg] at hr
    simp only [Option.some.injEq] at hr
    rw [← hr] at hchg
    simp only [] at hchg
    exact Or.inl (by
      rw [← (getOrRetain_own heap h k clk co h₁ clk₁ hg).2.2.2.1]
      exact hchg)

theorem writeAct_pres (k : String) (v : JVal) :
    (∀ heap h clk r, TreeWF h → writeAct k v heap h clk = some r → TreeWF r.2.1)
    ∧ (∀ heap h clk r, writeAct k v heap h clk = some r →
        r.2.1.principal = h.principal ∧ r.2.1.propertyState = h.propertyState
        ∧ r.2.1.propertyDescriptor = h.propertyDescriptor)
    ∧ (∀ heap h clk r, writeAct k v heap h clk = some r → r.2.1.changed = true →
        (h.changed = true ∨ r.2.2.2 = true)) := by
  refine ⟨?_, ?_, ?_⟩ <;> intro heap h clk r
  · intro hwf hr
    simp only [writeAct] at hr
    rcases hg : hSet heap h k v clk with _ | ⟨h', clk'⟩
    · rw [hg] at hr; simp at hr
    · rw [hg] at hr
      simp only [Option.some.injEq] at hr
      rw [← hr]
      exact (hSet_TreeWF heap h k v clk h' clk' hg hwf).1
  · intro hr
    simp only [writeAct] at hr
    rcases hg : hSet heap h k v clk with _ | ⟨h', clk'⟩
    · rw [hg] at hr; simp at hr
    · rw [hg] at hr
      simp only [Option.some.injEq] at hr
      rw [← hr]
      have hq := hSet_own heap h k v clk h' clk' hg
      exact ⟨hq.1, hq.2.1, hq.2.2.1⟩
  · intro hr hchg
    simp only [writeAct] at hr
    rcases hg : hSet heap h k v clk with _ | ⟨h', clk'⟩
    · rw [hg] at hr; simp at hr
    · rw [hg] at hr
      simp only [Option.some.injEq] at hr
      rw [← hr]
      exact Or.inr rfl

theorem delAct_pres (k : String) :
    (∀ heap h clk r, TreeWF h → delAct k heap h clk = some r → TreeWF r.2.1)
    ∧ (∀ heap h clk r, delAct k heap h clk = some r →
        r.2.1.principal = h.principal ∧ r.2.1.propertyState = h.propertyState
        ∧ r.2.1.propertyDescriptor = h.propertyDescriptor)
    ∧ (∀ heap h clk r, delAct k heap h clk = some r → r.2.1.changed = true →
        (h.changed = true ∨ r.2.2.2 = true)) := by
  refine ⟨?_, ?_, ?_⟩ <;> intro heap h clk r
  · intro hwf hr
    simp only [delAct] at hr
    rcases hg : hDelete heap h k clk with _ | ⟨res, h', clk'⟩
    · rw [hg] at hr; simp at hr
    · rw [hg] at hr
      cases res with
      | noProp =>
        simp only [Option.some.injEq] at hr
        rw [← hr]
        exact (hDelete_TreeWF heap h k clk DelRes.noProp h' clk' hg hwf).1
      | deleted =>
        simp only [Option.some.injEq] at hr
        rw [← hr]
        exact (hDelete_TreeWF heap h k clk DelRes.deleted h' clk' hg hwf).1
  · intro hr
    simp only [delAct] at hr
    rcases hg : hDelete heap h k clk with _ | ⟨res, h', clk'⟩
    · rw [hg] at hr; simp at hr
    · rw [hg] at hr
      have hq := hDelete_own heap h k clk res h' clk' hg
      cases res with
      | noProp =>
        simp only [Option.some.injEq] at hr
        rw [← hr]
        exact ⟨hq.1, hq.2.1, hq.2.2.1⟩
      | deleted =>
        simp only [Option.some.injEq] at hr
        rw [← hr]
        exact ⟨hq.1, hq.2.1, hq.2.2.1⟩
  · intro hr hchg
    simp only [delAct] at hr
    rcases hg : hDelete heap h k clk with _ | ⟨res, h', clk'⟩
    · rw [hg] at hr; simp at hr
    · rw [hg] at hr
      have hq := hDelete_own heap h k clk res h' clk' hg
      cases res with
      | noProp =>
        simp only [Option.some.injEq] at hr
        rw [← hr] at hchg
        simp only [] at hchg
        exact Or.inl (by rw [← hq.2.2.2.2.1 rfl]; exact hchg)
      | deleted =>
        simp only [Option.some.injEq] at hr
        rw [← hr]
        exact Or.inr rfl

/-- Commit preserves the node's own fields unconditionally, and a
successful commit literally writes `changed := false`. -/
theorem commitNode_own (heap : Heap) (h : Handler) (heap' : Heap) (h' : Handler)
    (e : Option MErr) (hg : commitNode heap h = (heap', h', e)) :
    h'.principal = h.principal ∧ h'.propertyState = h.propertyState
    ∧ h'.propertyDescriptor = h.propertyDescriptor ∧ h'.birth = h.birth
    ∧ (e = none → h'.changed = false) := by
  rcases h with ⟨p, s, d, ch, b, km⟩
  simp only [commitNode] at hg
  by_cases ht : typeofStr p = "object"
  · rw [if_pos ht] at hg
    rcases hk : commitKids heap p km with ⟨heap₀, km₀, e₀⟩
    rw [hk] at hg
    cases e₀ with
    | none =>
      simp only [Prod.mk.injEq] at hg
      rw [← hg.2.1]
      exact ⟨rfl, rfl, rfl, rfl, fun _ => rfl⟩
    | some e₁ =>
      simp only [Prod.mk.injEq] at hg
      rw [← hg.2.1]
      refine ⟨rfl, rfl, rfl, rfl, ?_⟩
      intro hcontra
      rw [← hg.2.2] at hcontra
      simp at hcontra
  · rw [if_neg ht] at hg
    simp only [Prod.mk.injEq] at hg
    rw [← hg.2.1]
    refine ⟨rfl, rfl, rfl, rfl, ?_⟩
    intro hcontra
    rw [← hg.2.2] at hcontra
    simp at hcontra

theorem commitAct_pres :
    (∀ heap h clk r, TreeWF h → commitAct heap h clk = some r → TreeWF r.2.1)
    ∧ (∀ heap h clk r, commitAct heap h clk = some r →
        r.2.1.principal = h.principal ∧ r.2.1.propertyState = h.propertyState
        ∧ r.2.1.propertyDescriptor = h.propertyDescriptor)
    ∧ (∀ heap h clk r, commitAct heap h clk = some r →
        r.2.1.changed = true → (h.changed = true ∨ r.2.2.2 = true)) := by
  refine ⟨?_, ?_, ?_⟩ <;> intro heap h clk r
  · intro hwf hr
    simp only [commitAct] at hr
    rcases hg : commitNode heap h with ⟨heap', h', e⟩
    rw [hg] at hr
    cases e with
    | none =>
      simp only [Option.some.injEq] at hr
      rw [← hr]
      exact (commit_TreeWF heap h hwf heap' h' none hg).1
    | some e₀ => simp at hr
  · intro hr
    simp only [commitAct] at hr
    rcases hg : commitNode heap h with ⟨heap', h', e⟩
    rw [hg] at hr
    cases e with
    | none =>
      simp only [Option.some.injEq] at hr
      rw [← hr]
      have hq := commitNode_own heap h heap' h' none hg
      exact ⟨hq.1, hq.2.1, hq.2.2.1⟩
    | some e₀ => simp at hr
  · intro hr hchg
    simp only [commitAct] at hr
    rcases hg : commitNode heap h with ⟨heap', h', e⟩
    rw [hg] at hr
    cases e with
    | none =>
      simp only [Option.some.injEq] at hr
      rw [← hr] at hchg
      simp only [] at hchg
      have hq := commitNode_own heap h heap' h' none hg
      rw [hq.2.2.2.2 rfl] at hchg
      simp at hchg
    | some e₀ => simp at hr

/-- Every step of the surface semantics preserves tree well-formedness. -/
theorem step_TreeWF (st st' : St) (op : Op) (hwf : TreeWF st.root)
    (hstep : step st op = some st') : TreeWF st'.root := by
  cases op with
  | read path k =>
    simp only [step] at hstep
    rcases hat : atPath (readAct k) path st.heap st.root st.clk with _ | r
    · rw [hat] at hstep; simp at hstep
    · rw [hat] at hstep
      simp only [Option.map_some', Option.some.injEq] at hstep
      rw [← hstep]
      exact (atPath_TreeWF (readAct k) (readAct_pres k).1 (readAct_pres k).2.1
        (readAct_pres k).2.2 path st.heap st.root st.clk r hwf hat).1
  | write path k v =>
    simp only [step] at hstep
    by_cases hwfv : v.wf = true
    · rw [if_pos hwfv] at hstep
      rcases hal : allocLit st.heap st.nextA v with ⟨heap₁, n₁, val⟩
      rw [hal] at hstep
      rcases hat : atPath (writeAct k val) path heap₁ st.root st.clk with _ | r
      · rw [hat] at hstep; simp at hstep
      · rw [hat] at hstep
        simp only [Option.map_some', Option.some.injEq] at hstep
        rw [← hstep]
        exact (atPath_TreeWF (writeAct k val) (writeAct_pres k val).1
          (writeAct_pres k val).2.1 (writeAct_pres k val).2.2 path heap₁ st.root
          st.clk r hwf hat).1
    · rw [if_neg hwfv] at hstep; simp at hstep
  | del path k =>
    simp only [step] at hstep
    rcases hat : atPath (delAct k) path st.heap st.root st.clk with _ | r
    · rw [hat] at hstep; simp at hstep
    · rw [hat] at hstep
      simp only [Option.map_some', Option.some.injEq] at hstep
      rw [← hstep]
      exact (atPath_TreeWF (delAct k) (delAct_pres k).1 (delAct_pres k).2.1
        (delAct_pres k).2.2 path st.heap st.root st.clk r hwf hat).1
  | commitAt path =>
    simp only [step] at hstep
    rcases hat : atPath commitAct path st.heap st.root st.clk with _ | r
    · rw [hat] at hstep; simp at hstep
    · rw [hat] at hstep
      simp only [Option.map_some', Option.some.injEq] at hstep
      rw [← hstep]
      exact (atPath_TreeWF commitAct commitAct_pres.1 commitAct_pres.2.1
        commitAct_pres.2.2 path st.heap st.root st.clk r hwf hat).1

theorem run_TreeWF : ∀ (ops : List Op) (st₀ st : St), TreeWF st₀.root →
    run st₀ ops = some st → TreeWF st.root := by
  intro ops
  induction ops with
  | nil =>
    intro st₀ st hwf hrun
    simp only [run, Option.some.injEq] at hrun
    rw [← hrun]
    exact hwf
  | cons op rest ih =>
    intro st₀ st hwf hrun
    simp only [run] at hrun
    rcases hstep : step st₀ op with _ | st₁
    · rw [hstep] at hrun; simp at hrun
    · rw [hstep] at hrun
      simp only [Option.some_bind] at hrun
      exact ih st₁ st (step_TreeWF st₀ st₁ op hwf hstep) hrun

theorem mkInit_TreeWF (heap₀ : Heap) (a n : Nat) : TreeWF (mkInit heap₀ a n).root :=
  TreeWF_leaf _ _ _ _

/-- Applying an action through a path leaves the action's output node at the
path position; any property the action establishes holds of that node. -/
theorem atPath_result_at
    (act : Heap → Handler → Nat → Option (Heap × Handler × Nat × Bool))
    (P : Handler → Prop)
    (hact : ∀ heap h clk r, TreeWF h → act heap h clk = some r → P r.2.1) :
    ∀ (path : List String) (heap : Heap) (h : Handler) (clk : Nat) r,
      TreeWF h → atPath act path heap h clk = some r →
      ∃ n', nodeAt r.2.1 path = some n' ∧ P n' := by
  intro path
  induction path with
  | nil =>
    intro heap h clk r hwf hr
    exact ⟨r.2.1, rfl, hact heap h clk r hwf hr⟩
  | cons k rest ih =>
    intro heap h clk r hwf hr
    simp only [atPath] at hr
    rcases hg : getOrRetainProperty heap h k clk with ⟨co, h₁, clk₁⟩
    rw [hg] at hr
    cases co with
    | none => simp at hr
    | some c =>
      simp only [] at hr
      by_cases hpr : isAddr c.principal = true
      · rw [if_pos hpr] at hr
        rcases hrec : atPath act rest heap c clk₁ with _ | ⟨heap₂, c₂, clk₂, prop⟩
        · rw [hrec] at hr; simp at hr
        · rw [hrec] at hr
          simp only [Option.some.injEq] at hr
          subst hr
          have hcwf := (getOrRetain_TreeWF heap h k clk (some c) h₁ clk₁ hg hwf).2 c rfl
          rcases ih heap c clk₁ ⟨heap₂, c₂, clk₂, prop⟩ hcwf.1 hrec with ⟨n', hn', hP⟩
          refine ⟨n', ?_, hP⟩
          simp only [nodeAt]
          rcases h₁ with ⟨p₁, s₁, d₁, ch₁, b₁, km₁⟩
          simp only [Handler.withKeyMap, Handler.withChanged, Handler.keyMap]
          rw [alook_ainsert_self]
          simpa using hn'
      · rw [if_neg hpr] at hr; simp at hr

/-- The upward-only discipline of the `changed` flag, as it actually holds:
any child that is flagged or not `RETAINED` has a flagged parent, and a
`DELETED` child is never flagged and has no subtree of its own. -/
inductive ChangedUpward : Handler → Prop where
  | mk : ∀ (p : JVal) (s : Option PState) (d : Option Desc) (ch : Bool) (b : Nat)
      (km : List (String × Handler)),
      (∀ kc, kc ∈ km →
        (kc.2.changed = true → ch = true)
        ∧ (kc.2.propertyState ≠ some PState.RETAINED → ch = true)
        ∧ (kc.2.propertyState = some PState.DELETED →
            kc.2.changed = false ∧ kc.2.keyMap = [])) →
      (∀ kc, kc ∈ km → ChangedUpward kc.2) →
      ChangedUpward (Handler.mk p s d ch b km)

theorem ChangedUpward_of_TreeWF : ∀ (h : Handler), TreeWF h → ChangedUpward h := by
  refine handler_ind (fun h => TreeWF h → ChangedUpward h) ?_
  intro p s d ch b km ih hwf
  refine ChangedUpward.mk p s d ch b km ?_ ?_
  · intro kc hmem
    have hok := hwf.kidOK hmem
    exact ⟨hok.2.2.1, hok.2.2.2.1, fun hd => ⟨(hok.2.2.2.2 hd).2.2, (hok.2.2.2.2 hd).2.1⟩⟩
  · intro kc hmem
    exact ih kc hmem (hwf.kidWF hmem)

/-- C6 amended: the `changed` flag is not an iff with "state ≠ RETAINED or a
subtree mutation": a freshly written `DIRTY`/`NEW` child and a `DELETED`
child carry `changed = false`.  What holds is: (1) in every reachable tree a
flagged or non-`RETAINED` child forces its parent's flag — the flag
information flows strictly upward — and a `DELETED` child is unflagged with
no subtree; (2) a staged write marks the written-through node and all its
ancestors along the access path; (3) so does a delete that actually staged
a deletion; (4) a successful `commit()` on a node clears that node's flag
(and its recursively committed descendants'), leaving it recursively quiet. -/
theorem changed_flag_invariant_amended :
    (∀ (heap₀ : Heap) (a n : Nat) (ops : List Op) (st : St),
      run (mkInit heap₀ a n) ops = some st → ChangedUpward st.root)
    ∧ (∀ (st st' : St) (path : List String) (k : String) (v : VLit),
        step st (Op.write path k v) = some st' → changedAlong st'.root path)
    ∧ (∀ (heap : Heap) (h : Handler) (clk : Nat) (k : String) (path : List String) r,
        atPath (delAct k) path heap h clk = some r → r.2.2.2 = true →
        changedAlong r.2.1 path)
    ∧ (∀ (heap₀ : Heap) (a n : Nat) (ops : List Op) (st st' : St) (path : List String),
        run (mkInit heap₀ a n) ops = some st →
        step st (Op.commitAt path) = some st' →
        ∃ n', nodeAt st'.root path = some n' ∧ n'.changed = false ∧ Quiescent n') := by
  refine ⟨?_, ?_, ?_, ?_⟩
  · intro heap₀ a n ops st hrun
    exact ChangedUpward_of_TreeWF st.root
      (run_TreeWF ops (mkInit heap₀ a n) st (mkInit_TreeWF heap₀ a n) hrun)
  · intro st st' path k v hstep
    simp only [step] at hstep
    by_cases hwf : v.wf = true
    · rw [if_pos hwf] at hstep
      rcases hal : allocLit st.heap st.nextA v with ⟨heap₁, n₁, val⟩
      rw [hal] at hstep
      rcases hat : atPath (writeAct k val) path heap₁ st.root st.clk with _ | ⟨heap₂, r₂, clk₂, prop⟩
      · rw [hat] at hstep; simp at hstep
      · rw [hat] at hstep
        simp only [Option.map_some', Option.some.injEq] at hstep
        have hprop : prop = true :=
          atPath_prop_true (writeAct k val) (writeAct_flag k val) path heap₁ st.root
            st.clk ⟨heap₂, r₂, clk₂, prop⟩ hat
        subst hprop
        have hch := atPath_changedAlong (writeAct k val) (writeAct_changed k val)
          path heap₁ st.root st.clk ⟨heap₂, r₂, clk₂, true⟩ hat rfl
        rw [← hstep]
        exact hch
    · rw [if_neg hwf] at hstep; simp at hstep
  · intro heap h clk k path r hat hflag
    refine atPath_changedAlong (delAct k) ?_ path heap h clk r hat hflag
    intro heap₀ h₀ clk₀ r₀ hr₀ hfl₀
    simp only [delAct] at hr₀
    rcases hg : hDelete heap₀ h₀ k clk₀ with _ | ⟨res, h₁, clk₁⟩
    · rw [hg] at hr₀; simp at hr₀
    · rw [hg] at hr₀
      cases res with
      | noProp =>
        simp only [Option.some.injEq] at hr₀
        rw [← hr₀] at hfl₀
        simp at hfl₀
      | deleted =>
        simp only [Option.some.injEq] at hr₀
        rw [← hr₀]
        exact (hDelete_own heap₀ h₀ k clk₀ DelRes.deleted h₁ clk₁ hg).2.2.2.2.2 rfl
  · intro heap₀ a n ops st st' path hrun hstep
    have hwf := run_TreeWF ops (mkInit heap₀ a n) st (mkInit_TreeWF heap₀ a n) hrun
    simp only [step] at hstep
    rcases hat : atPath commitAct path st.heap st.root st.clk with _ | r
    · rw [hat] at hstep; simp at hstep
    · rw [hat] at hstep
      simp only [Option.map_some', Option.some.injEq] at hstep
      have hres := atPath_result_at commitAct
        (fun nn => nn.changed = false ∧ Quiescent nn) ?_ path st.heap st.root st.clk
        r hwf hat
      · rcases hres with ⟨n', hn', hP⟩
        refine ⟨n', ?_, hP.1, hP.2⟩
        rw [← hstep]
        exact hn'
      · intro heapq hq clkq rq hqwf hrq
        simp only [commitAct] at hrq
        rcases hgq : commitNode heapq hq with ⟨heapc, hc, ec⟩
        rw [hgq] at hrq
        cases ec with
        | none =>
          simp only [Option.some.injEq] at hrq
          rw [← hrq]
          have hcf := commit_TreeWF heapq hq hqwf heapc hc none hgq
          exact ⟨(hcf.2.2.2.2.2.2.1 rfl).unchanged, hcf.2.2.2.2.2.2.1 rfl⟩
        | some e₀ => simp at hrq

/-- C6 witness: the amended invariants applied to the concrete single-write
run over `descHeap` and to a commit of the proto-write state. -/
theorem changed_flag_invariant_amended_witness :
    ChangedUpward dirtySt.root
    ∧ changedAlong dirtySt.root []
    ∧ (∃ n', nodeAt protoCommitSt.root [] = some n'
        ∧ n'.changed = false ∧ Quiescent n') := by
  refine ⟨?_, ?_, ?_⟩
  · exact changed_flag_invariant_amended.1 descHeap 0 1 [Op.write [] "b" (VLit.vnum 9)]
      dirtySt rfl
  · exact changed_flag_invariant_amended.2.1 (mkInit descHeap 0 1) dirtySt [] "b"
      (VLit.vnum 9) rfl
  · exact changed_flag_invariant_amended.2.2.2 protoHeap 0 1
      [Op.write [] "pk" (VLit.vnum 1)] protoSt protoCommitSt [] rfl (by
        show step protoSt (Op.commitAt []) = some protoCommitSt
        simp [protoSt, protoCommitSt, runD, run, step, atPath, commitAct, commitNode,
          commitKids, heapSet, heapDelete, reflectSet, reflectDelete, ownProp, alook,
          aupdate, ainsert, mkInit, protoHeap, protoObj, allocLit, allocProps, VLit.wf,
          writeAct, hSet, jsIn, hasOwn, protoDefault, Handler.principal, Handler.keyMap,
          Handler.withKeyMap, Handler.withChanged, Handler.changed, Handler.propertyState,
          Handler.withState, typeofStr, isAddr, getOrRetainProperty])

mutual
/-- The heap value `v` unfolds as a finite tree whose object addresses are
exactly the footprint `fp` (each counted once per occurrence). -/
inductive VTree (heap : Heap) : JVal → List Nat → Prop where
  | prim : ∀ v, (∀ a, v ≠ JVal.addr a) → VTree heap v []
  | obj : ∀ a o fp, alook a heap = some o → PTree heap o.props fp →
      VTree heap (JVal.addr a) (a :: fp)

/-- Footprints of a property list, concatenated in order. -/
inductive PTree (heap : Heap) : List (String × JProp) → List Nat → Prop where
  | nil : PTree heap [] []
  | cons : ∀ k p rest fp₁ fp₂, VTree heap p.value fp₁ → PTree heap rest fp₂ →
      PTree heap ((k, p) :: rest) (fp₁ ++ fp₂)
end

theorem VTree_unique {heap : Heap} {v : JVal} {fp fp' : List Nat}
    (h : VTree heap v fp) (h' : VTree heap v fp') : fp = fp' := by
  refine @VTree.rec heap
    (fun v fp _ => ∀ fp', VTree heap v fp' → fp = fp')
    (fun props fp _ => ∀ fp', PTree heap props fp' → fp = fp')
    ?_ ?_ ?_ ?_ v fp h fp' h'
  · intro v hprim fp' h'
    cases h' with
    | prim _ _ => rfl
    | obj a o fp ha hp => exact absurd rfl (hprim a)
  · intro a o fp ha hp ih fp' h'
    cases h' with
    | prim _ hprim => exact absurd rfl (hprim a)
    | obj a' o' fp₀ ha' hp' =>
      rw [ha] at ha'
      simp only [Option.some.injEq] at ha'
      subst ha'
      rw [ih fp₀ hp']
  · intro fp' h'
    cases h' with
    | nil => rfl
  · intro k p rest fp₁ fp₂ hv hp ihv ihp fp' h'
    cases h' with
    | cons _ _ _ fp₁' fp₂' hv' hp' =>
      rw [ihv fp₁' hv', ihp fp₂' hp']

theorem PTree_unique {heap : Heap} {props : List (String × JProp)} {fp fp' : List Nat}
    (h : PTree heap props fp) (h' : PTree heap props fp') : fp = fp' := by
  refine @PTree.rec heap
    (fun v fp _ => ∀ fp', VTree heap v fp' → fp = fp')
    (fun props fp _ => ∀ fp', PTree heap props fp' → fp = fp')
    ?_ ?_ ?_ ?_ props fp h fp' h'
  · intro v hprim fp' h'
    cases h' with
    | prim _ _ => rfl
    | obj a o fp ha hp => exact absurd rfl (hprim a)
  · intro a o fp ha hp ih fp' h'
    cases h' with
    | prim _ hprim => exact absurd rfl (hprim a)
    | obj a' o' fp₀ ha' hp' =>
      rw [ha] at ha'
      simp only [Option.some.injEq] at ha'
      subst ha'
      rw [ih fp₀ hp']
  · intro fp' h'
    cases h' with
    | nil => rfl
  · intro k p rest fp₁ fp₂ hv hp ihv ihp fp' h'
    cases h' with
    | cons _ _ _ fp₁' fp₂' hv' hp' =>
      rw [ihv fp₁' hv', ihp fp₂' hp']

/-- Value trees only depend on the heap at their footprint. -/
theorem VTree_frame {heap : Heap} {v : JVal} {fp : List Nat} (h : VTree heap v fp)
    (heap' : Heap) (hagree : ∀ b, b ∈ fp → alook b heap' = alook b heap) :
    VTree heap' v fp := by
  refine @VTree.rec heap
    (fun v fp _ => (∀ b, b ∈ fp → alook b heap' = alook b heap) → VTree heap' v fp)
    (fun props fp _ => (∀ b, b ∈ fp → alook b heap' = alook b heap) → PTree heap' props fp)
    ?_ ?_ ?_ ?_ v fp h hagree
  · intro v hprim _
    exact VTree.prim v hprim
  · intro a o fp ha hp ih hag
    refine VTree.obj a o fp ?_ (ih (fun b hb => hag b (List.mem_cons_of_mem _ hb)))
    rw [hag a (List.mem_cons_self _ _)]
    exact ha
  · intro _
    exact PTree.nil
  · intro k p rest fp₁ fp₂ hv hp ihv ihp hag
    exact PTree.cons k p rest fp₁ fp₂
      (ihv (fun b hb => hag b (List.mem_append_left _ hb)))
      (ihp (fun b hb => hag b (List.mem_append_right _ hb)))

theorem PTree_frame {heap : Heap} {props : List (String × JProp)} {fp : List Nat}
    (h : PTree heap props fp)
    (heap' : Heap) (hagree : ∀ b, b ∈ fp → alook b heap' = alook b heap) :
    PTree heap' props fp := by
  refine @PTree.rec heap
    (fun v fp _ => (∀ b, b ∈ fp → alook b heap' = alook b heap) → VTree heap' v fp)
    (fun props fp _ => (∀ b, b ∈ fp → alook b heap' = alook b heap) → PTree heap' props fp)
    ?_ ?_ ?_ ?_ props fp h hagree
  · intro v hprim _
    exact VTree.prim v hprim
  · intro a o fp ha hp ih hag
    refine VTree.obj a o fp ?_ (ih (fun b hb => hag b (List.mem_cons_of_mem _ hb)))
    rw [hag a (List.mem_cons_self _ _)]
    exact ha
  · intro _
    exact PTree.nil
  · intro k p rest fp₁ fp₂ hv hp ihv ihp hag
    exact PTree.cons k p rest fp₁ fp₂
      (ihv (fun b hb => hag b (List.mem_append_left _ hb)))
      (ihp (fun b hb => hag b (List.mem_append_right _ hb)))

/-- Decompose an object's tree at an own property. -/
theorem PTree_at_key {heap : Heap} {props : List (String × JProp)} {fp : List Nat}
    (h : PTree heap props fp) :
    ∀ (k : String) (p : JProp), alook k props = some p →
      ∃ sub, VTree heap p.value sub ∧ sub.Sublist fp := by
  refine @PTree.rec heap
    (fun _ _ _ => True)
    (fun props fp _ => ∀ (k : String) (p : JProp), alook k props = some p →
      ∃ sub, VTree heap p.value sub ∧ sub.Sublist fp)
    ?_ ?_ ?_ ?_ props fp h
  · intro _ _; trivial
  · intro _ _ _ _ _ _; trivial
  · intro k p hp; simp [alook] at hp
  · intro k₀ p₀ rest fp₁ fp₂ hv hp _ ih k p hkp
    simp only [alook] at hkp
    by_cases hk : k₀ = k
    · rw [if_pos hk] at hkp
      simp only [Option.some.injEq] at hkp
      subst hkp
      exact ⟨fp₁, hv, List.sublist_append_left _ _⟩
    · rw [if_neg hk] at hkp
      rcases ih k p hkp with ⟨sub, hsub, hss⟩
      exact ⟨sub, hsub, hss.trans (List.sublist_append_right _ _)⟩

/-- The subtree pieces of two distinct own properties are disjoint inside a
duplicate-free object footprint. -/
theorem PTree_pieces_disjoint {heap : Heap} :
    ∀ {props : List (String × JProp)} {trP : List Nat}, PTree heap props trP →
    trP.Nodup →
    ∀ (k k' : String), k ≠ k' →
    ∀ (p p' : JProp), alook k props = some p → alook k' props = some p' →
    ∀ {s s' : List Nat}, VTree heap p.value s → VTree heap p'.value s' →
    ∀ b, b ∈ s → b ∉ s' := by
  intro props
  induction props with
  | nil =>
    intro trP _ _ k k' _ p p' hk
    simp [alook] at hk
  | cons kp rest ih =>
    intro trP hpt hnd k k' hne p p' hk hk' s s' hs hs' b hb hb'
    rcases kp with ⟨k₀, p₀⟩
    cases hpt with
    | cons _ _ _ fp₁ fp₂ hv₁ hp₂ =>
      have hndisj : ∀ x, x ∈ fp₁ → x ∉ fp₂ := by
        intro x hx₁ hx₂
        rcases List.nodup_append.mp hnd with ⟨_, _, hdj⟩
        exact hdj hx₁ hx₂
      simp only [alook] at hk hk'
      by_cases h₀ : k₀ = k
      · rw [if_pos h₀] at hk
        rw [if_neg (h₀ ▸ hne)] at hk'
        simp only [Option.some.injEq] at hk
        subst hk
        have hseq : s = fp₁ := VTree_unique hs hv₁
        subst hseq
        rcases PTree_at_key hp₂ k' p' hk' with ⟨sub', hsub', hss'⟩
        have : s' = sub' := VTree_unique hs' hsub'
        subst this
        exact hndisj b hb (hss'.subset hb')
      · rw [if_neg h₀] at hk
        by_cases h₁ : k₀ = k'
        · rw [if_pos h₁] at hk'
          simp only [Option.some.injEq] at hk'
          subst hk'
          have hseq : s' = fp₁ := VTree_unique hs' hv₁
          subst hseq
          rcases PTree_at_key hp₂ k p hk with ⟨sub, hsub, hss⟩
          have : s = sub := VTree_unique hs hsub
          subst this
          exact hndisj b hb' (hss.subset hb)
        · rw [if_neg h₁] at hk'
          exact ih hp₂ ((List.nodup_append.mp hnd).2.1) k k' hne p p' hk hk'
            hs hs' b hb hb'

mutual
/-- Heap-side invariant of a handler node.  The footprint `ex` collects the
addresses of the buffered (staged, not yet committed) object trees hanging
off `DIRTY`/`NEW` children, recursively; `RETAINED` children alias their
parent's live property value, a `DELETED` child is a value-less tombstone. -/
inductive HInv (heap : Heap) : Handler → List Nat → Prop where
  | prim : ∀ p s d ch b, isAddr p = false →
      HInv heap (Handler.mk p s d ch b []) []
  | obj : ∀ a o s d ch b km ex, alook a heap = some o →
      KMInv heap o km ex → HInv heap (Handler.mk (JVal.addr a) s d ch b km) ex

/-- The per-child clauses of `HInv`, against the node's live object `o`. -/
inductive KMInv (heap : Heap) : JObj → List (String × Handler) → List Nat → Prop where
  | nil : ∀ o, KMInv heap o [] []
  | retained : ∀ o k c rest p ex₁ ex₂,
      ownProp o k = some p → p.value = c.principal →
      c.propertyState = some PState.RETAINED →
      HInv heap c ex₁ → KMInv heap o rest ex₂ →
      KMInv heap o ((k, c) :: rest) (ex₁ ++ ex₂)
  | staged : ∀ o k c rest st tr ex₁ ex₂,
      c.propertyState = some st →
      (st = PState.DIRTY ∨ st = PState.NEW) →
      (st = PState.DIRTY → jsIn o k = true) →
      (st = PState.NEW → jsIn o k = false) →
      VTree heap c.principal tr →
      HInv heap c ex₁ → KMInv heap o rest ex₂ →
      KMInv heap o ((k, c) :: rest) (tr ++ (ex₁ ++ ex₂))
  | deleted : ∀ o k c rest ex₂,
      c.propertyState = some PState.DELETED →
      KMInv heap o rest ex₂ →
      KMInv heap o ((k, c) :: rest) ex₂
end

theorem VTree_addr_inv {heap : Heap} {a : Nat} {fp : List Nat}
    (h : VTree heap (JVal.addr a) fp) :
    ∃ o trP, alook a heap = some o ∧ PTree heap o.props trP ∧ fp = a :: trP := by
  cases h with
  | prim _ hprim => exact absurd rfl (hprim a)
  | obj _ o trP ha hp => exact ⟨o, trP, ha, hp, rfl⟩

/-- The handler invariant only depends on the heap at the node's live tree
footprint plus the staged footprint. -/
theorem HInv_frame {heap : Heap} {h : Handler} {ex : List Nat} (hi : HInv heap h ex) :
    ∀ tr, VTree heap h.principal tr → ∀ (heap' : Heap),
      (∀ b, b ∈ tr ++ ex → alook b heap' = alook b heap) → HInv heap' h ex := by
  refine @HInv.rec heap
    (fun h ex _ => ∀ tr, VTree heap h.principal tr → ∀ (heap' : Heap),
      (∀ b, b ∈ tr ++ ex → alook b heap' = alook b heap) → HInv heap' h ex)
    (fun o km ex _ => ∀ a trP, alook a heap = some o → PTree heap o.props trP →
      ∀ (heap' : Heap),
      (∀ b, b ∈ a :: (trP ++ ex) → alook b heap' = alook b heap) → KMInv heap' o km ex)
    ?_ ?_ ?_ ?_ ?_ ?_ h ex hi
  · intro p s d ch b hprim _ _ heap' _
    exact HInv.prim p s d ch b hprim
  · intro a o s d ch b km ex ha hkm ih tr hv heap' hagree
    rcases VTree_addr_inv hv with ⟨o', trP, ha', hp, hfp⟩
    rw [ha] at ha'
    simp only [Option.some.injEq] at ha'
    subst ha'
    subst hfp
    refine HInv.obj a o s d ch b km ex ?_ ?_
    · rw [hagree a (by simp)]
      exact ha
    · refine ih a trP ha hp heap' ?_
      intro b hb
      refine hagree b ?_
      simp only [List.cons_append, List.mem_cons, List.mem_append] at hb ⊢
      tauto
  · intro o _ _ _ _ _ _
    exact KMInv.nil o
  · intro o k c rest p ex₁ ex₂ hop hpv hst hic hikm ihc ihkm a trP ha hp heap' hagree
    rcases PTree_at_key hp k p hop with ⟨sub, hsub, hss⟩
    refine KMInv.retained o k c rest p ex₁ ex₂ hop hpv hst ?_ ?_
    · refine ihc sub (hpv ▸ hsub) heap' ?_
      intro b hb
      refine hagree b ?_
      simp only [List.mem_append, List.mem_cons] at hb ⊢
      rcases hb with hb | hb
      · exact Or.inr (Or.inl (hss.subset hb))
      · exact Or.inr (Or.inr (Or.inl hb))
    · refine ihkm a trP ha hp heap' ?_
      intro b hb
      refine hagree b ?_
      simp only [List.mem_cons, List.mem_append] at hb ⊢
      tauto
  · intro o k c rest st tr ex₁ ex₂ hst hdn hdi hni hv hic hikm ihc ihkm a trP ha hp heap' hagree
    have hsub₁ : ∀ b, b ∈ tr ++ ex₁ → alook b heap' = alook b heap := by
      intro b hb
      refine hagree b ?_
      simp only [List.mem_append, List.mem_cons] at hb ⊢
      tauto
    refine KMInv.staged o k c rest st tr ex₁ ex₂ hst hdn hdi hni ?_ ?_ ?_
    · exact VTree_frame hv heap' (fun b hb => hsub₁ b (List.mem_append_left _ hb))
    · exact ihc tr hv heap' hsub₁
    · refine ihkm a trP ha hp heap' ?_
      intro b hb
      refine hagree b ?_
      simp only [List.mem_cons, List.mem_append] at hb ⊢
      tauto
  · intro o k c rest ex₂ hst hikm ihkm a trP ha hp heap' hagree
    exact KMInv.deleted o k c rest ex₂ hst (ihkm a trP ha hp heap' hagree)

theorem alook_eq_none_of_forall {α β : Type} [DecidableEq α] {l : List (α × β)} {k : α}
    (h : ∀ p, p ∈ l → p.1 ≠ k) : alook k l = none := by
  induction l with
  | nil => rfl
  | cons x rest ih =>
    simp only [alook]
    rw [if_neg (h x (List.mem_cons_self _ _))]
    exact ih (fun p hp => h p (List.mem_cons_of_mem _ hp))

/-- A fresh-literal allocation realizes a value tree whose footprint lies
entirely in the allocation window (assuming the heap's keys are below the
allocation pointer, as every reachable state guarantees). -/
theorem allocProps_VTree : ∀ (heap : Heap) (n : Nat) (ps : List (String × VLit)),
    (∀ p, p ∈ heap → p.1 < n) →
    ∀ heap' n' out, allocProps heap n ps = (heap', n', out) →
      ∃ fp, PTree heap' out fp ∧ fp.Nodup ∧ (∀ b, b ∈ fp → n ≤ b ∧ b < n') := by
  refine allocProps.induct
    (fun heap n l => (∀ p, p ∈ heap → p.1 < n) →
      ∀ heap' n' v, allocLit heap n l = (heap', n', v) →
        ∃ fp, VTree heap' v fp ∧ fp.Nodup ∧ (∀ b, b ∈ fp → n ≤ b ∧ b < n'))
    (fun heap n ps => (∀ p, p ∈ heap → p.1 < n) →
      ∀ heap' n' out, allocProps heap n ps = (heap', n', out) →
        ∃ fp, PTree heap' out fp ∧ fp.Nodup ∧ (∀ b, b ∈ fp → n ≤ b ∧ b < n'))
    ?_ ?_ ?_ ?_ ?_ ?_ ?_ ?_
  · intro heap n _ heap' n' v h
    simp only [allocLit, Prod.mk.injEq] at h
    obtain ⟨h1, h2, h3⟩ := h
    subst h3
    exact ⟨[], VTree.prim _ (by intro a hc; cases hc), List.nodup_nil, by simp⟩
  · intro heap n _ heap' n' v h
    simp only [allocLit, Prod.mk.injEq] at h
    obtain ⟨h1, h2, h3⟩ := h
    subst h3
    exact ⟨[], VTree.prim _ (by intro a hc; cases hc), List.nodup_nil, by simp⟩
  · intro heap n b _ heap' n' v h
    simp only [allocLit, Prod.mk.injEq] at h
    obtain ⟨h1, h2, h3⟩ := h
    subst h3
    exact ⟨[], VTree.prim _ (by intro a hc; cases hc), List.nodup_nil, by simp⟩
  · intro heap n i _ heap' n' v h
    simp only [allocLit, Prod.mk.injEq] at h
    obtain ⟨h1, h2, h3⟩ := h
    subst h3
    exact ⟨[], VTree.prim _ (by intro a hc; cases hc), List.nodup_nil, by simp⟩
  · intro heap n s _ heap' n' v h
    simp only [allocLit, Prod.mk.injEq] at h
    obtain ⟨h1, h2, h3⟩ := h
    subst h3
    exact ⟨[], VTree.prim _ (by intro a hc; cases hc), List.nodup_nil, by simp⟩
  · intro heap n props heap₁ n₁ ps hap ih hklt heap' n' v h
    rcases ih hklt heap₁ n₁ ps hap with ⟨fp, hpt, hnd, hbd⟩
    have hmono := allocProps_mono heap n props heap₁ n₁ ps hap
    simp only [allocLit, hap, Prod.mk.injEq] at h
    obtain ⟨h1, h2, h3⟩ := h
    subst h1
    subst h2
    subst h3
    have hklt₁ : ∀ p, p ∈ heap₁ → p.1 < n₁ := by
      intro p hp
      rcases hmono.2.2 p hp with hc | hc
      · exact lt_of_lt_of_le (hklt p hc) hmono.1
      · exact hc.2
    have hnone : alook n₁ heap₁ = none :=
      alook_eq_none_of_forall (fun p hp => Nat.ne_of_lt (hklt₁ p hp))
    have hagree : ∀ b, b ∈ fp → alook b (heap₁ ++ [(n₁, ⟨ps, true, protoDefault⟩)])
        = alook b heap₁ := by
      intro b hb
      rw [alook_append]
      cases hv : alook b heap₁ with
      | some o => simp
      | none =>
        have hne : (n₁ = b) = False := by
          simp only [eq_iff_iff, iff_false]
          intro hc
          have := (hbd b hb).2
          omega
        simp [alook, hne]
    refine ⟨n₁ :: fp, ?_, ?_, ?_⟩
    · refine VTree.obj n₁ ⟨ps, true, protoDefault⟩ fp ?_ ?_
      · rw [alook_append, hnone]
        simp [alook]
      · exact PTree_frame hpt _ hagree
    · exact List.nodup_cons.mpr ⟨fun hc => absurd ((hbd n₁ hc).2) (lt_irrefl n₁), hnd⟩
    · intro b hb
      rcases List.mem_cons.mp hb with hb | hb
      · subst hb
        exact ⟨hmono.1, Nat.lt_succ_self _⟩
      · exact ⟨(hbd b hb).1, Nat.lt_succ_of_lt (hbd b hb).2⟩
  · intro heap n _ heap' n' out h
    simp only [allocProps, Prod.mk.injEq] at h
    obtain ⟨h1, h2, h3⟩ := h
    subst h3
    exact ⟨[], PTree.nil, List.nodup_nil, by simp⟩
  · intro heap n k l rest heap₁ n₁ v hal heap₂ n₂ ps hap ih₁ ih₂ hklt heap' n' out h
    have m₁ := allocLit_mono heap n l heap₁ n₁ v hal
    have m₂ := allocProps_mono heap₁ n₁ rest heap₂ n₂ ps hap
    have hklt₁ : ∀ p, p ∈ heap₁ → p.1 < n₁ := by
      intro p hp
      rcases m₁.2.2 p hp with hc | hc
      · exact lt_of_lt_of_le (hklt p hc) m₁.1
      · exact hc.2
    rcases ih₁ hklt heap₁ n₁ v hal with ⟨fp₁, hv₁, hnd₁, hbd₁⟩
    rcases ih₂ hklt₁ heap₂ n₂ ps hap with ⟨fp₂, hp₂, hnd₂, hbd₂⟩
    simp only [allocProps, hal, hap, Prod.mk.injEq] at h
    obtain ⟨h1, h2, h3⟩ := h
    subst h1
    subst h2
    subst h3
    refine ⟨fp₁ ++ fp₂, ?_, ?_, ?_⟩
    · refine PTree.cons k ⟨v, true, true, true⟩ ps fp₁ fp₂ ?_ hp₂
      exact VTree_frame hv₁ heap₂ (fun b hb => m₂.2.1 b (hbd₁ b hb).2)
    · refine List.Nodup.append hnd₁ hnd₂ ?_
      intro b hb₁ hb₂
      have := (hbd₁ b hb₁).2
      have := (hbd₂ b hb₂).1
      omega
    · intro b hb
      rcases List.mem_append.mp hb with hb | hb
      · exact ⟨(hbd₁ b hb).1, lt_of_lt_of_le (hbd₁ b hb).2 m₂.1⟩
      · exact ⟨le_trans m₁.1 (hbd₂ b hb).1, (hbd₂ b hb).2⟩

theorem allocLit_VTree (heap : Heap) (n : Nat) (l : VLit)
    (hklt : ∀ p, p ∈ heap → p.1 < n)
    (heap' : Heap) (n' : Nat) (v : JVal) (hal : allocLit heap n l = (heap', n', v)) :
    ∃ fp, VTree heap' v fp ∧ fp.Nodup ∧ (∀ b, b ∈ fp → n ≤ b ∧ b < n') := by
  cases l with
  | vobj props =>
    rcases hap : allocProps heap n props with ⟨heap₁, n₁, ps⟩
    rcases allocProps_VTree heap n props hklt heap₁ n₁ ps hap with ⟨fp, hpt, hnd, hbd⟩
    have hmono := allocProps_mono heap n props heap₁ n₁ ps hap
    simp only [allocLit, hap, Prod.mk.injEq] at hal
    obtain ⟨h1, h2, h3⟩ := hal
    subst h1
    subst h2
    subst h3
    have hklt₁ : ∀ p, p ∈ heap₁ → p.1 < n₁ := by
      intro p hp
      rcases hmono.2.2 p hp with hc | hc
      · exact lt_of_lt_of_le (hklt p hc) hmono.1
      · exact hc.2
    have hnone : alook n₁ heap₁ = none :=
      alook_eq_none_of_forall (fun p hp => Nat.ne_of_lt (hklt₁ p hp))
    have hagree : ∀ b, b ∈ fp → alook b (heap₁ ++ [(n₁, ⟨ps, true, protoDefault⟩)])
        = alook b heap₁ := by
      intro b hb
      rw [alook_append]
      cases hv : alook b heap₁ with
      | some o => simp
      | none =>
        have hne : (n₁ = b) = False := by
          simp only [eq_iff_iff, iff_false]
          intro hc
          have := (hbd b hb).2
          omega
        simp [alook, hne]
    refine ⟨n₁ :: fp, ?_, ?_, ?_⟩
    · refine VTree.obj n₁ ⟨ps, true, protoDefault⟩ fp ?_ ?_
      · rw [alook_append, hnone]
        simp [alook]
      · exact PTree_frame hpt _ hagree
    · exact List.nodup_cons.mpr ⟨fun hc => absurd ((hbd n₁ hc).2) (lt_irrefl n₁), hnd⟩
    · intro b hb
      rcases List.mem_cons.mp hb with hb | hb
      · subst hb
        exact ⟨hmono.1, Nat.lt_succ_self _⟩
      · exact ⟨(hbd b hb).1, Nat.lt_succ_of_lt (hbd b hb).2⟩
  | vundef =>
    simp only [allocLit, Prod.mk.injEq] at hal
    obtain ⟨h1, h2, h3⟩ := hal
    subst h3
    exact ⟨[], VTree.prim _ (by intro a hc; cases hc), List.nodup_nil, by simp⟩
  | vnull =>
    simp only [allocLit, Prod.mk.injEq] at hal
    obtain ⟨h1, h2, h3⟩ := hal
    subst h3
    exact ⟨[], VTree.prim _ (by intro a hc; cases hc), List.nodup_nil, by simp⟩
  | vbool b' =>
    simp only [allocLit, Prod.mk.injEq] at hal
    obtain ⟨h1, h2, h3⟩ := hal
    subst h3
    exact ⟨[], VTree.prim _ (by intro a hc; cases hc), List.nodup_nil, by simp⟩
  | vnum i =>
    simp only [allocLit, Prod.mk.injEq] at hal
    obtain ⟨h1, h2, h3⟩ := hal
    subst h3
    exact ⟨[], VTree.prim _ (by intro a hc; cases hc), List.nodup_nil, by simp⟩
  | vstr s =>
    simp only [allocLit, Prod.mk.injEq] at hal
    obtain ⟨h1, h2, h3⟩ := hal
    subst h3
    exact ⟨[], VTree.prim _ (by intro a hc; cases hc), List.nodup_nil, by simp⟩

theorem alook_split {α β : Type} [DecidableEq α] {l : List (α × β)} {k : α} {c : β}
    (h : alook k l = some c) :
    ∃ l₁ l₂, l = l₁ ++ (k, c) :: l₂ ∧ ∀ p, p ∈ l₁ → p.1 ≠ k := by
  induction l with
  | nil => simp [alook] at h
  | cons x rest ih =>
    rcases x with ⟨k₀, c₀⟩
    simp only [alook] at h
    by_cases hk : k₀ = k
    · rw [if_pos hk] at h
      simp only [Option.some.injEq] at h
      subst hk
      subst h
      exact ⟨[], rest, rfl, by simp⟩
    · rw [if_neg hk] at h
      rcases ih h with ⟨l₁, l₂, heq, hne⟩
      refine ⟨(k₀, c₀) :: l₁, l₂, by rw [heq]; simp, ?_⟩
      intro p hp
      rcases List.mem_cons.mp hp with hp | hp
      · subst hp; exact hk
      · exact hne p hp

theorem ainsert_split {α β : Type} [DecidableEq α] {l₁ l₂ : List (α × β)} {k : α}
    (c c' : β) (hne : ∀ p, p ∈ l₁ → p.1 ≠ k) :
    ainsert k c' (l₁ ++ (k, c) :: l₂) = l₁ ++ (k, c') :: l₂ := by
  induction l₁ with
  | nil => simp [ainsert]
  | cons x rest ih =>
    have hx := hne x (List.mem_cons_self _ _)
    simp only [List.cons_append, ainsert, List.append_eq, if_neg hx]
    rw [ih (fun p hp => hne p (List.mem_cons_of_mem _ hp))]

theorem KMInv_append {heap : Heap} {o : JObj} :
    ∀ {km₁ ex₁}, KMInv heap o km₁ ex₁ → ∀ {km₂ ex₂}, KMInv heap o km₂ ex₂ →
      KMInv heap o (km₁ ++ km₂) (ex₁ ++ ex₂) := by
  intro km₁ ex₁ h₁
  induction km₁ generalizing ex₁ with
  | nil =>
    cases h₁ with
    | nil => intro km₂ ex₂ h₂; simpa using h₂
  | cons kc rest ih =>
    intro km₂ ex₂ h₂
    cases h₁ with
    | retained _ k c _ p exc exr hop hpv hst hic hrest =>
      have := @KMInv.retained heap o k c (rest ++ km₂) p exc (exr ++ ex₂)
        hop hpv hst hic (ih hrest h₂)
      simpa [List.append_assoc] using this
    | staged _ k c _ st tr exc exr hst hdn hdi hni hv hic hrest =>
      have := @KMInv.staged heap o k c (rest ++ km₂) st tr exc (exr ++ ex₂)
        hst hdn hdi hni hv hic (ih hrest h₂)
      simpa [List.append_assoc] using this
    | deleted _ k c _ exr hst hrest =>
      exact KMInv.deleted o k c (rest ++ km₂) _ hst (ih hrest h₂)

theorem KMInv_append_split {heap : Heap} {o : JObj} :
    ∀ (km₁ : List (String × Handler)) {km₂ ex}, KMInv heap o (km₁ ++ km₂) ex →
      ∃ ex₁ ex₂, ex = ex₁ ++ ex₂ ∧ KMInv heap o km₁ ex₁ ∧ KMInv heap o km₂ ex₂ := by
  intro km₁
  induction km₁ with
  | nil =>
    intro km₂ ex h
    exact ⟨[], ex, rfl, KMInv.nil o, h⟩
  | cons kc rest ih =>
    intro km₂ ex h
    cases h with
    | retained _ k c _ p exc exr hop hpv hst hic hrest =>
      rcases ih hrest with ⟨ex₁, ex₂, heq, h₁, h₂⟩
      subst heq
      exact ⟨exc ++ ex₁, ex₂, by simp [List.append_assoc],
        KMInv.retained o k c rest p exc ex₁ hop hpv hst hic h₁, h₂⟩
    | staged _ k c _ st tr exc exr hst hdn hdi hni hv hic hrest =>
      rcases ih hrest with ⟨ex₁, ex₂, heq, h₁, h₂⟩
      subst heq
      exact ⟨tr ++ (exc ++ ex₁), ex₂, by simp [List.append_assoc],
        KMInv.staged o k c rest st tr exc ex₁ hst hdn hdi hni hv hic h₁, h₂⟩
    | deleted _ k c _ exr hst hrest =>
      rcases ih hrest with ⟨ex₁, ex₂, heq, h₁, h₂⟩
      subst heq
      exact ⟨ex₁, ex₂, rfl, KMInv.deleted o k c rest ex₁ hst h₁, h₂⟩

/-- Frame for the child clauses alone: the staged footprint must be
preserved, and each retained child must come with a preserved live tree. -/
theorem KMInv_frame {heap heap' : Heap} {o : JObj} :
    ∀ {km ex}, KMInv heap o km ex →
    (∀ b, b ∈ ex → alook b heap' = alook b heap) →
    (∀ k c p, (k, c) ∈ km → c.propertyState = some PState.RETAINED →
      ownProp o k = some p →
      ∃ sub, VTree heap p.value sub ∧ ∀ b, b ∈ sub → alook b heap' = alook b heap) →
    KMInv heap' o km ex := by
  intro km
  induction km with
  | nil =>
    intro ex h _ _
    cases h with
    | nil => exact KMInv.nil o
  | cons kc rest ih =>
    intro ex h hex hret
    cases h with
    | retained _ k c _ p exc exr hop hpv hst hic hrest =>
      rcases hret k c p (List.mem_cons_self _ _) hst hop with ⟨sub, hsub, hsag⟩
      refine KMInv.retained o k c rest p exc exr hop hpv hst ?_ ?_
      · refine HInv_frame hic sub (hpv ▸ hsub) heap' ?_
        intro b hb
        rcases List.mem_append.mp hb with hb | hb
        · exact hsag b hb
        · exact hex b (List.mem_append_left _ hb)
      · refine ih hrest (fun b hb => hex b (List.mem_append_right _ hb)) ?_
        intro k' c' p' hmem hst' hop'
        exact hret k' c' p' (List.mem_cons_of_mem _ hmem) hst' hop'
    | staged _ k c _ st tr exc exr hst hdn hdi hni hv hic hrest =>
      have htr : ∀ b, b ∈ tr → alook b heap' = alook b heap := by
        intro b hb
        exact hex b (by simp [hb])
      have hexc : ∀ b, b ∈ exc → alook b heap' = alook b heap := by
        intro b hb
        exact hex b (by simp [hb])
      refine KMInv.staged o k c rest st tr exc exr hst hdn hdi hni
        (VTree_frame hv heap' htr) ?_ ?_
      · refine HInv_frame hic tr hv heap' ?_
        intro b hb
        rcases List.mem_append.mp hb with hb | hb
        · exact htr b hb
        · exact hexc b hb
      · refine ih hrest (fun b hb => hex b (by simp [hb])) ?_
        intro k' c' p' hmem hst' hop'
        exact hret k' c' p' (List.mem_cons_of_mem _ hmem) hst' hop'
    | deleted _ k c _ _ hst hrest =>
      refine KMInv.deleted o k c rest _ hst ?_
      refine ih hrest hex ?_
      intro k' c' p' hmem hst' hop'
      exact hret k' c' p' (List.mem_cons_of_mem _ hmem) hst' hop'

/-- Lazily materializing a key keeps the heap invariant with the same staged
footprint: the fresh child is `RETAINED` and aliases the live property. -/
theorem getOrRetain_HInv (heap : Heap) (h : Handler) (k : String) (clk : Nat)
    (co : Option Handler) (h' : Handler) (clk' : Nat)
    (hg : getOrRetainProperty heap h k clk = (co, h', clk'))
    {tr ex : List Nat} (hv : VTree heap h.principal tr) (hi : HInv heap h ex) :
    HInv heap h' ex ∧ h'.principal = h.principal
    ∧ (∀ c, co = some c → alook k h'.keyMap = some c) := by
  rcases getOrRetain_cases heap h k clk with ⟨c, hc, heq⟩ | ⟨hc, heq⟩ |
    ⟨a, o, pr, hc, hpp, halo, hop, hu, heq⟩ <;> rw [heq] at hg <;>
    simp only [Prod.mk.injEq] at hg
  · rw [← hg.2.1]
    refine ⟨hi, rfl, ?_⟩
    intro c' hc'
    rw [← hg.1] at hc'
    simp only [Option.some.injEq] at hc'
    subst hc'
    exact hc
  · rw [← hg.2.1]
    exact ⟨hi, rfl, fun c hcc => by rw [← hg.1] at hcc; simp at hcc⟩
  · rw [← hg.2.1]
    rcases h with ⟨p, s, d, ch, b, km⟩
    simp only [Handler.keyMap] at hc
    simp only [Handler.principal] at hpp ⊢
    subst hpp
    rcases VTree_addr_inv hv with ⟨o', trP, ha', hpt, hfp⟩
    rw [halo] at ha'
    simp only [Option.some.injEq] at ha'
    subst ha'
    cases hi with
    | prim _ _ _ _ _ hna => simp [isAddr] at hna
    | obj _ o₂ _ _ _ _ _ _ ha₂ hkm =>
      rw [halo] at ha₂
      simp only [Option.some.injEq] at ha₂
      subst ha₂
      rcases PTree_at_key hpt k pr hop with ⟨sub, hsub, hss⟩
      have hchild : HInv heap (Handler.mk pr.value (some PState.RETAINED)
          (some ⟨some pr.value, pr.writable, pr.enumerable, pr.configurable⟩)
          false clk []) [] := by
        rcases hval : pr.value with _ | _ | _ | _ | _ | ac | _
        case addr =>
          rw [hval] at hsub
          rcases VTree_addr_inv hsub with ⟨oc, trc, hac, _, _⟩
          exact HInv.obj ac oc _ _ _ _ [] [] hac (KMInv.nil oc)
        all_goals exact HInv.prim _ _ _ _ _ (by simp [isAddr])
      have hone : KMInv heap o [(k, Handler.mk pr.value (some PState.RETAINED)
          (some ⟨some pr.value, pr.writable, pr.enumerable, pr.configurable⟩)
          false clk [])] [] := by
        have := @KMInv.retained heap o k
          (Handler.mk pr.value (some PState.RETAINED)
            (some ⟨some pr.value, pr.writable, pr.enumerable, pr.configurable⟩)
            false clk []) [] pr [] [] hop rfl rfl hchild (KMInv.nil o)
        simpa using this
      refine ⟨?_, rfl, ?_⟩
      · simp only [Handler.withKeyMap]
        refine HInv.obj a o _ _ _ _ _ _ halo ?_
        have := KMInv_append hkm hone
        simpa using this
      · intro c hcc
        rw [← hg.1] at hcc
        simp only [Option.some.injEq] at hcc
        subst hcc
        simp only [Handler.withKeyMap, Handler.keyMap]
        rw [alook_append, hc]
        simp [alook]

/-- Replace the subtree piece of one own property: the rest of the object's
tree is untouched, so the object's tree is rebuilt around the new piece. -/
theorem PTree_replace_piece {heap heap' : Heap} :
    ∀ {props : List (String × JProp)} {trP : List Nat}, PTree heap props trP →
    trP.Nodup →
    ∀ (k : String) (p : JProp), alook k props = some p →
    ∀ {trc : List Nat}, VTree heap p.value trc →
    ∀ {trc' : List Nat}, VTree heap' p.value trc' → trc'.Nodup →
    (∀ b, b ∈ trc' → b ∈ trP → b ∈ trc) →
    (∀ b, b ∈ trP → b ∉ trc → alook b heap' = alook b heap) →
    ∃ trP', PTree heap' props trP' ∧ trP'.Nodup
      ∧ (∀ b, b ∈ trP' → (b ∈ trP ∧ b ∉ trc) ∨ b ∈ trc') := by
  intro props
  induction props with
  | nil =>
    intro trP hpt _ k p hkp
    simp [alook] at hkp
  | cons kp rest ih =>
    intro trP hpt hnd k p hkp trc hvc trc' hvc' hnd' hdisj hframe
    rcases kp with ⟨k₀, p₀⟩
    cases hpt with
    | cons _ _ _ fp₁ fp₂ hv₁ hp₂ =>
      have hndisj : ∀ b, b ∈ fp₁ → b ∉ fp₂ := by
        intro b hb₁ hb₂
        rcases List.nodup_append.mp hnd with ⟨_, _, hdj⟩
        exact hdj hb₁ hb₂
      simp only [alook] at hkp
      by_cases hk : k₀ = k
      · rw [if_pos hk] at hkp
        simp only [Option.some.injEq] at hkp
        subst hkp
        have hpieces : fp₁ = trc := VTree_unique hv₁ hvc
        subst hpieces
        have hp₂' : PTree heap' rest fp₂ := by
          refine PTree_frame hp₂ heap' ?_
          intro b hb
          exact hframe b (List.mem_append_right _ hb)
            (fun hbc => hndisj b hbc hb)
        refine ⟨trc' ++ fp₂, PTree.cons k₀ p₀ rest trc' fp₂ hvc' hp₂', ?_, ?_⟩
        · refine List.Nodup.append hnd' ((List.nodup_append.mp hnd).2.1) ?_
          intro b hb₁ hb₂
          have := hdisj b hb₁ (List.mem_append_right _ hb₂)
          exact hndisj b this hb₂
        · intro b hb
          rcases List.mem_append.mp hb with hb | hb
          · exact Or.inr hb
          · exact Or.inl ⟨List.mem_append_right _ hb, fun hbc => hndisj b hbc hb⟩
      · rw [if_neg hk] at hkp
        rcases PTree_at_key hp₂ k p hkp with ⟨sub, hsubv, hsubss⟩
        have hsubtrc : sub = trc := VTree_unique hsubv hvc
        subst hsubtrc
        rcases ih hp₂ ((List.nodup_append.mp hnd).2.1) k p hkp hsubv hvc' hnd'
          (fun b hb₁ hb₂ => hdisj b hb₁ (List.mem_append_right _ hb₂))
          (fun b hb hbc => hframe b (List.mem_append_right _ hb) hbc)
          with ⟨trP₂', hp₂', hnd₂', hss₂'⟩
        have hv₁' : VTree heap' p₀.value fp₁ := by
          refine VTree_frame hv₁ heap' ?_
          intro b hb
          refine hframe b (List.mem_append_left _ hb) ?_
          intro hbc
          exact hndisj b hb (hsubss.subset hbc)
        refine ⟨fp₁ ++ trP₂', PTree.cons k₀ p₀ rest fp₁ trP₂' hv₁' hp₂', ?_, ?_⟩
        · refine List.Nodup.append ((List.nodup_append.mp hnd).1) hnd₂' ?_
          intro b hb₁ hb₂
          rcases hss₂' b hb₂ with hb | hb
          · exact hndisj b hb₁ hb.1
          · exact hndisj b hb₁ (hsubss.subset (hdisj b hb (List.mem_append_left _ hb₁)))
        · intro b hb
          rcases List.mem_append.mp hb with hb | hb
          · refine Or.inl ⟨List.mem_append_left _ hb, ?_⟩
            intro hbc
            exact hndisj b hb (hsubss.subset hbc)
          · rcases hss₂' b hb with hc | hc
            · exact Or.inl ⟨List.mem_append_right _ hc.1, hc.2⟩
            · exact Or.inr hc

theorem nodup_parts {α : Type} {l₁ l₂ : List α} (h : (l₁ ++ l₂).Nodup) :
    l₁.Nodup ∧ l₂.Nodup ∧ ∀ b, b ∈ l₁ → b ∉ l₂ :=
  ⟨(List.nodup_append.mp h).1, (List.nodup_append.mp h).2.1,
   fun b hb hb' => (List.nodup_append.mp h).2.2 hb hb'⟩

/-- What a surface action must guarantee at the node it acts on, for the
valuetree/staging invariant to be preserved along the whole access path;
`A` is the window of fresh addresses the action may consume. -/
def ActInv (heap : Heap) (A : List Nat)
    (act : Heap → Handler → Nat → Option (Heap × Handler × Nat × Bool)) : Prop :=
  ∀ h clk heap' h' clk' flag, act heap h clk = some (heap', h', clk', flag) →
    TreeWF h → ∀ tr ex, VTree heap h.principal tr → HInv heap h ex →
    ((tr ++ ex) ++ A).Nodup →
    ∃ tr' ex', VTree heap' h'.principal tr' ∧ HInv heap' h' ex'
      ∧ h'.principal = h.principal ∧ h'.propertyState = h.propertyState
      ∧ (∀ b, b ∈ tr' ++ ex' → b ∈ (tr ++ ex) ++ A)
      ∧ (tr' ++ ex').Nodup
      ∧ (∀ b, b ∉ tr ++ ex → alook b heap' = alook b heap)

theorem atPath_NodeInv (heap : Heap) (A : List Nat)
    (act : Heap → Handler → Nat → Option (Heap × Handler × Nat × Bool))
    (hact : ActInv heap A act) :
    ∀ (path : List String) (h : Handler) (clk : Nat)
      (heap' : Heap) (h' : Handler) (clk' : Nat) (flag : Bool),
      atPath act path heap h clk = some (heap', h', clk', flag) →
      TreeWF h → ∀ tr ex, VTree heap h.principal tr → HInv heap h ex →
      ((tr ++ ex) ++ A).Nodup →
      ∃ tr' ex', VTree heap' h'.principal tr' ∧ HInv heap' h' ex'
        ∧ h'.principal = h.principal ∧ h'.propertyState = h.propertyState
        ∧ (∀ b, b ∈ tr' ++ ex' → b ∈ (tr ++ ex) ++ A)
        ∧ (tr' ++ ex').Nodup
        ∧ (∀ b, b ∉ tr ++ ex → alook b heap' = alook b heap) := by
  intro path
  induction path with
  | nil =>
    intro h clk heap' h' clk' flag hst hwf tr ex hv hi hnd
    exact hact h clk heap' h' clk' flag hst hwf tr ex hv hi hnd
  | cons k rest ih =>
    intro h clk heap' h' clk' flag hst hwf tr ex hv hi hnd
    simp only [atPath] at hst
    rcases hg : getOrRetainProperty heap h k clk with ⟨co, h₁, clk₁⟩
    rw [hg] at hst
    rcases co with _ | c
    · simp at hst
    simp only [] at hst
    by_cases haddr : isAddr c.principal = true
    case neg =>
      rw [if_neg haddr] at hst
      simp at hst
    rw [if_pos haddr] at hst
    rcases hrec : atPath act rest heap c clk₁ with _ | r
    · rw [hrec] at hst
      simp at hst
    rcases r with ⟨heap₂, c₂, clk₂, prop⟩
    rw [hrec] at hst
    simp only [Option.some.injEq, Prod.mk.injEq] at hst
    obtain ⟨hE1, hE2, hE3, hE4⟩ := hst
    subst hE1
    subst hE3
    subst hE4
    subst hE2
    have hgT := getOrRetain_TreeWF heap h k clk _ _ _ hg hwf
    have hgI := getOrRetain_HInv heap h k clk _ _ _ hg hv hi
    have hwf₁ : TreeWF h₁ := hgT.1
    have hTc : TreeWF c := (hgT.2 c rfl).1
    have hkc : alook k h₁.keyMap = some c := (hgT.2 c rfl).2
    have hi₁ : HInv heap h₁ ex := hgI.1
    have hp₁ : h₁.principal = h.principal := hgI.2.1
    cases hi₁ with
    | prim p s d ch b hna =>
      simp [Handler.keyMap, alook] at hkc
    | obj a o s d ch b km₁ exz hao hkm =>
      rw [← hp₁] at hv
      simp only [Handler.principal] at hv
      rcases VTree_addr_inv hv with ⟨o', trP, hao', hpt, htr⟩
      rw [hao] at hao'
      simp only [Option.some.injEq] at hao'
      subst hao'
      subst htr
      simp only [Handler.keyMap] at hkc
      rcases alook_split hkc with ⟨l₁, l₂, hsplit, hl₁k⟩
      subst hsplit
      rcases KMInv_append_split l₁ hkm with ⟨exA, exm, hexeq, hkmA, hkmM⟩
      subst hexeq
      have hown := getOrRetain_own heap h k clk _ _ _ hg
      have hknod : k ∉ l₂.map Prod.fst := by
        have := hwf₁.nodupKeys
        simp only [Handler.keyMap, List.map_append, List.map_cons] at this
        rcases List.nodup_append.mp this with ⟨_, hcons, _⟩
        exact (List.nodup_cons.mp hcons).1
      cases hkmM with
      | retained _ _ _ _ p exc exB hop hpv hstc hic hkmB =>
        have h0 := nodup_parts hnd
        have h1 := nodup_parts h0.1
        have h2 := List.nodup_cons.mp h1.1
        have h3 := nodup_parts h1.2.1
        have h4 := nodup_parts h3.2.1
        rcases PTree_at_key hpt k p hop with ⟨trc, htrc, htrcsub⟩
        have hvc : VTree heap c.principal trc := hpv ▸ htrc
        have hndtrc : trc.Nodup := List.Nodup.sublist htrcsub h2.2
        have hsub1 : trc.Sublist (a :: trP) :=
          htrcsub.trans (List.sublist_cons_self a trP)
        have hsub2 : exc.Sublist (exA ++ (exc ++ exB)) :=
          (List.sublist_append_left exc exB).trans (List.sublist_append_right exA _)
        have hndC0 : ((trc ++ exc) ++ A).Nodup :=
          List.Nodup.sublist ((hsub1.append hsub2).append (List.Sublist.refl A)) hnd
        rcases ih c clk₁ heap₂ c₂ clk₂ prop hrec hTc trc exc hvc hic hndC0 with
          ⟨trc', exc', hvC', hiC', hpC', hsC', hsubC', hndC', hframeC⟩
        have hexmem : ∀ b, b ∈ exA ++ (exc ++ exB) → b ∉ trc := by
          intro b hb hbc
          exact h1.2.2 b (List.mem_cons_of_mem a (htrcsub.subset hbc)) hb
        have hamem : a ∉ trc ++ exc := by
          intro hc
          rcases List.mem_append.mp hc with hc | hc
          · exact h2.1 (htrcsub.subset hc)
          · exact h1.2.2 a (List.mem_cons_self a trP)
              (List.mem_append_right _ (List.mem_append_left _ hc))
        have hao₂ : alook a heap₂ = some o := by
          rw [hframeC a hamem]
          exact hao
        have hsubC2 : ∀ b, b ∈ trc' ++ exc' → b ∈ trc ∨ b ∈ exc ∨ b ∈ A := by
          intro b hb
          have := hsubC' b hb
          rcases List.mem_append.mp this with hx | hx
          · rcases List.mem_append.mp hx with hx | hx
            · exact Or.inl hx
            · exact Or.inr (Or.inl hx)
          · exact Or.inr (Or.inr hx)
        have hdisjP : ∀ b, b ∈ trc' → b ∈ trP → b ∈ trc := by
          intro b hb hbP
          rcases hsubC2 b (List.mem_append_left _ hb) with hx | hx | hx
          · exact hx
          · exact absurd (List.mem_append_right exA (List.mem_append_left _ hx))
              (fun hc => h1.2.2 b (List.mem_cons_of_mem a hbP) hc)
          · exact absurd hx (h0.2.2 b (List.mem_append_left _ (List.mem_cons_of_mem a hbP)))
        have hframeP : ∀ b, b ∈ trP → b ∉ trc → alook b heap₂ = alook b heap := by
          intro b hbP hbc
          refine hframeC b ?_
          intro hmem
          rcases List.mem_append.mp hmem with hx | hx
          · exact hbc hx
          · exact h1.2.2 b (List.mem_cons_of_mem a hbP)
              (List.mem_append_right _ (List.mem_append_left _ hx))
        have hndC'p := nodup_parts hndC'
        have hvP2 : VTree heap₂ p.value trc' := by
          rw [hpv, ← hpC']
          exact hvC'
        rcases PTree_replace_piece hpt h2.2 k p hop htrc hvP2 hndC'p.1 hdisjP hframeP with
          ⟨trP', hpt', hndP', hssP'⟩
        have hkmA' : KMInv heap₂ o l₁ exA := by
          refine KMInv_frame hkmA ?_ ?_
          · intro b hb
            refine hframeC b ?_
            intro hmem
            rcases List.mem_append.mp hmem with hx | hx
            · exact hexmem b (List.mem_append_left _ hb) hx
            · exact h3.2.2 b hb (List.mem_append_left _ hx)
          · intro k' c' p' hmem hst' hop'
            rcases PTree_at_key hpt k' p' hop' with ⟨sub, hsubv, hsubsl⟩
            have hne' : k' ≠ k := hl₁k (k', c') hmem
            have hdisjkk := PTree_pieces_disjoint hpt h2.2 k' k hne' p' p hop' hop hsubv htrc
            refine ⟨sub, hsubv, ?_⟩
            intro b hb
            refine hframeC b ?_
            intro hmem₂
            rcases List.mem_append.mp hmem₂ with hx | hx
            · exact hdisjkk b hb hx
            · exact h1.2.2 b (List.mem_cons_of_mem a (hsubsl.subset hb))
                (List.mem_append_right _ (List.mem_append_left _ hx))
        have hkmB' : KMInv heap₂ o l₂ exB := by
          refine KMInv_frame hkmB ?_ ?_
          · intro b hb
            refine hframeC b ?_
            intro hmem
            rcases List.mem_append.mp hmem with hx | hx
            · exact hexmem b (List.mem_append_right _ (List.mem_append_right _ hb)) hx
            · exact h4.2.2 b hx hb
          · intro k' c' p' hmem hst' hop'
            rcases PTree_at_key hpt k' p' hop' with ⟨sub, hsubv, hsubsl⟩
            have hne' : k' ≠ k := by
              intro hcc
              subst hcc
              exact hknod (List.mem_map.mpr ⟨(k', c'), hmem, rfl⟩)
            have hdisjkk := PTree_pieces_disjoint hpt h2.2 k' k hne' p' p hop' hop hsubv htrc
            refine ⟨sub, hsubv, ?_⟩
            intro b hb
            refine hframeC b ?_
            intro hmem₂
            rcases List.mem_append.mp hmem₂ with hx | hx
            · exact hdisjkk b hb hx
            · exact h1.2.2 b (List.mem_cons_of_mem a (hsubsl.subset hb))
                (List.mem_append_right _ (List.mem_append_left _ hx))
        have hmid : KMInv heap₂ o ((k, c₂) :: l₂) (exc' ++ exB) :=
          KMInv.retained o k c₂ l₂ p exc' exB hop (hpv.trans hpC'.symm)
            (hsC'.trans hstc) hiC' hkmB'
        have hkm' : KMInv heap₂ o (l₁ ++ (k, c₂) :: l₂) (exA ++ (exc' ++ exB)) :=
          KMInv_append hkmA' hmid
        have hins : ainsert k c₂ (l₁ ++ (k, c) :: l₂) = l₁ ++ (k, c₂) :: l₂ :=
          ainsert_split c c₂ hl₁k
        refine ⟨a :: trP', exA ++ (exc' ++ exB), ?_, ?_, ?_, ?_, ?_, ?_, ?_⟩
        · simp only [Handler.withKeyMap, Handler.withChanged, Handler.principal]
          exact VTree.obj a o trP' hao₂ hpt'
        · simp only [Handler.withKeyMap, Handler.withChanged, Handler.keyMap,
            Handler.changed, hins]
          exact HInv.obj a o s d _ b _ _ hao₂ hkm'
        · simp only [Handler.withKeyMap, Handler.withChanged, Handler.principal]
          simpa [Handler.principal] using hp₁
        · simp only [Handler.withKeyMap, Handler.withChanged, Handler.propertyState]
          simpa [Handler.propertyState] using hown.2.1
        · intro b hb
          rcases List.mem_append.mp hb with hb | hb
          · rcases List.mem_cons.mp hb with hb | hb
            · subst hb
              exact List.mem_append_left _ (List.mem_append_left _ (List.mem_cons_self _ _))
            · rcases hssP' b hb with ⟨hbP, _⟩ | hbc
              · exact List.mem_append_left _
                  (List.mem_append_left _ (List.mem_cons_of_mem _ hbP))
              · rcases hsubC2 b (List.mem_append_left _ hbc) with hx | hx | hx
                · exact List.mem_append_left _ (List.mem_append_left _
                    (List.mem_cons_of_mem _ (htrcsub.subset hx)))
                · exact List.mem_append_left _ (List.mem_append_right _
                    (List.mem_append_right _ (List.mem_append_left _ hx)))
                · exact List.mem_append_right _ hx
          · rcases List.mem_append.mp hb with hb | hb
            · exact List.mem_append_left _
                (List.mem_append_right _ (List.mem_append_left _ hb))
            · rcases List.mem_append.mp hb with hb | hb
              · rcases hsubC2 b (List.mem_append_right _ hb) with hx | hx | hx
                · exact List.mem_append_left _ (List.mem_append_left _
                    (List.mem_cons_of_mem _ (htrcsub.subset hx)))
                · exact List.mem_append_left _ (List.mem_append_right _
                    (List.mem_append_right _ (List.mem_append_left _ hx)))
                · exact List.mem_append_right _ hx
              · exact List.mem_append_left _ (List.mem_append_right _
                  (List.mem_append_right _ (List.mem_append_right _ hb)))
        · simp only [List.cons_append]
          refine List.nodup_cons.mpr ⟨?_, ?_⟩
          · intro hc
            have hamemA : a ∈ (a :: trP) ++ (exA ++ (exc ++ exB)) :=
              List.mem_append_left _ (List.mem_cons_self _ _)
            rcases List.mem_append.mp hc with hc | hc
            · rcases hssP' a hc with ⟨hbP, _⟩ | hbc
              · exact h2.1 hbP
              · rcases hsubC2 a (List.mem_append_left _ hbc) with hx | hx | hx
                · exact h2.1 (htrcsub.subset hx)
                · exact h1.2.2 a (List.mem_cons_self a trP)
                    (List.mem_append_right _ (List.mem_append_left _ hx))
                · exact h0.2.2 a hamemA hx
            · rcases List.mem_append.mp hc with hc | hc
              · exact h1.2.2 a (List.mem_cons_self a trP) (List.mem_append_left _ hc)
              · rcases List.mem_append.mp hc with hc | hc
                · rcases hsubC2 a (List.mem_append_right _ hc) with hx | hx | hx
                  · exact h2.1 (htrcsub.subset hx)
                  · exact h1.2.2 a (List.mem_cons_self a trP)
                      (List.mem_append_right _ (List.mem_append_left _ hx))
                  · exact h0.2.2 a hamemA hx
                · exact h1.2.2 a (List.mem_cons_self a trP)
                    (List.mem_append_right _ (List.mem_append_right _ hc))
          · have htrPn : ∀ b, b ∈ trP' → b ∉ exA ++ (exc' ++ exB) := by
              intro b hb hc
              rcases hssP' b hb with ⟨hbP, hbtc⟩ | hbc
              · rcases List.mem_append.mp hc with hc | hc
                · exact h1.2.2 b (List.mem_cons_of_mem a hbP) (List.mem_append_left _ hc)
                · rcases List.mem_append.mp hc with hc | hc
                  · rcases hsubC2 b (List.mem_append_right _ hc) with hx | hx | hx
                    · exact hbtc hx
                    · exact h1.2.2 b (List.mem_cons_of_mem a hbP)
                        (List.mem_append_right _ (List.mem_append_left _ hx))
                    · exact h0.2.2 b (List.mem_append_left _ (List.mem_cons_of_mem a hbP)) hx
                  · exact h1.2.2 b (List.mem_cons_of_mem a hbP)
                      (List.mem_append_right _ (List.mem_append_right _ hc))
              · rcases List.mem_append.mp hc with hc | hc
                · rcases hsubC2 b (List.mem_append_left _ hbc) with hx | hx | hx
                  · exact hexmem b (List.mem_append_left _ hc) hx
                  · exact h3.2.2 b hc (List.mem_append_left _ hx)
                  · exact h0.2.2 b (List.mem_append_right _ (List.mem_append_left _ hc)) hx
                · rcases List.mem_append.mp hc with hc | hc
                  · exact hndC'p.2.2 b hbc hc
                  · rcases hsubC2 b (List.mem_append_left _ hbc) with hx | hx | hx
                    · exact hexmem b (List.mem_append_right _ (List.mem_append_right _ hc)) hx
                    · exact h4.2.2 b hx hc
                    · exact h0.2.2 b (List.mem_append_right _
                        (List.mem_append_right _ (List.mem_append_right _ hc))) hx
            refine List.nodup_append.mpr ⟨hndP', ?_, fun b hb hc => htrPn b hb hc⟩
            refine List.nodup_append.mpr ⟨h3.1, ?_, ?_⟩
            · refine List.nodup_append.mpr ⟨hndC'p.2.1, h4.2.1, ?_⟩
              intro b hb hc
              rcases hsubC2 b (List.mem_append_right _ hb) with hx | hx | hx
              · exact hexmem b (List.mem_append_right _ (List.mem_append_right _ hc)) hx
              · exact h4.2.2 b hx hc
              · exact h0.2.2 b (List.mem_append_right _
                  (List.mem_append_right _ (List.mem_append_right _ hc))) hx
            · intro b hb hc
              rcases List.mem_append.mp hc with hc | hc
              · rcases hsubC2 b (List.mem_append_right _ hc) with hx | hx | hx
                · exact hexmem b (List.mem_append_left _ hb) hx
                · exact h3.2.2 b hb (List.mem_append_left _ hx)
                · exact h0.2.2 b (List.mem_append_right _ (List.mem_append_left _ hb)) hx
              · exact h3.2.2 b hb (List.mem_append_right _ hc)
        · intro b hb
          refine hframeC b ?_
          intro hmem
          refine hb ?_
          rcases List.mem_append.mp hmem with hx | hx
          · exact List.mem_append_left _ (List.mem_cons_of_mem a (htrcsub.subset hx))
          · exact List.mem_append_right _ (List.mem_append_right _ (List.mem_append_left _ hx))
      | staged _ _ _ _ st trc exc exB hstc hdn hdi hni hvc hic hkmB =>
        have h0 := nodup_parts hnd
        have h1 := nodup_parts h0.1
        have h2 := List.nodup_cons.mp h1.1
        have h3 := nodup_parts h1.2.1
        have h4 := nodup_parts h3.2.1
        have h5 := nodup_parts h4.2.1
        have hsubL : (trc ++ exc).Sublist (exA ++ (trc ++ (exc ++ exB))) :=
          ((List.Sublist.refl trc).append (List.sublist_append_left exc exB)).trans
            (List.sublist_append_right exA _)
        have hndC0 : ((trc ++ exc) ++ A).Nodup :=
          List.Nodup.sublist
            ((hsubL.trans (List.sublist_append_right (a :: trP) _)).append
              (List.Sublist.refl A)) hnd
        rcases ih c clk₁ heap₂ c₂ clk₂ prop hrec hTc trc exc hvc hic hndC0 with
          ⟨trc', exc', hvC', hiC', hpC', hsC', hsubC', hndC', hframeC⟩
        have hsubC2 : ∀ b, b ∈ trc' ++ exc' → b ∈ trc ∨ b ∈ exc ∨ b ∈ A := by
          intro b hb
          have := hsubC' b hb
          rcases List.mem_append.mp this with hx | hx
          · rcases List.mem_append.mp hx with hx | hx
            · exact Or.inl hx
            · exact Or.inr (Or.inl hx)
          · exact Or.inr (Or.inr hx)
        have htrcex : ∀ b, b ∈ trc ++ exc → b ∈ exA ++ (trc ++ (exc ++ exB)) := by
          intro b hb
          rcases List.mem_append.mp hb with hb | hb
          · exact List.mem_append_right _ (List.mem_append_left _ hb)
          · exact List.mem_append_right _
              (List.mem_append_right _ (List.mem_append_left _ hb))
        have htrdisj : ∀ b, b ∈ a :: trP → b ∉ trc ++ exc := by
          intro b hb hc
          exact h1.2.2 b hb (htrcex b hc)
        have hao₂ : alook a heap₂ = some o := by
          rw [hframeC a (htrdisj a (List.mem_cons_self _ _))]
          exact hao
        have hvP' : VTree heap₂ (JVal.addr a) (a :: trP) := by
          refine VTree_frame hv heap₂ ?_
          intro b hb
          exact hframeC b (htrdisj b hb)
        have hkmA' : KMInv heap₂ o l₁ exA := by
          refine KMInv_frame hkmA ?_ ?_
          · intro b hb
            refine hframeC b ?_
            intro hmem
            rcases List.mem_append.mp hmem with hx | hx
            · exact h3.2.2 b hb (List.mem_append_left _ hx)
            · exact h3.2.2 b hb (List.mem_append_right _ (List.mem_append_left _ hx))
          · intro k' c' p' hmem hst' hop'
            rcases PTree_at_key hpt k' p' hop' with ⟨sub, hsubv, hsubsl⟩
            refine ⟨sub, hsubv, ?_⟩
            intro b hb
            exact hframeC b (htrdisj b (List.mem_cons_of_mem a (hsubsl.subset hb)))
        have hkmB' : KMInv heap₂ o l₂ exB := by
          refine KMInv_frame hkmB ?_ ?_
          · intro b hb
            refine hframeC b ?_
            intro hmem
            rcases List.mem_append.mp hmem with hx | hx
            · exact h4.2.2 b hx (List.mem_append_right _ hb)
            · exact h5.2.2 b hx hb
          · intro k' c' p' hmem hst' hop'
            rcases PTree_at_key hpt k' p' hop' with ⟨sub, hsubv, hsubsl⟩
            refine ⟨sub, hsubv, ?_⟩
            intro b hb
            exact hframeC b (htrdisj b (List.mem_cons_of_mem a (hsubsl.subset hb)))
        have hmid : KMInv heap₂ o ((k, c₂) :: l₂) (trc' ++ (exc' ++ exB)) :=
          KMInv.staged o k c₂ l₂ st trc' exc' exB (hsC'.trans hstc) hdn hdi hni
            hvC' hiC' hkmB'
        have hkm' : KMInv heap₂ o (l₁ ++ (k, c₂) :: l₂) (exA ++ (trc' ++ (exc' ++ exB))) :=
          KMInv_append hkmA' hmid
        have hins : ainsert k c₂ (l₁ ++ (k, c) :: l₂) = l₁ ++ (k, c₂) :: l₂ :=
          ainsert_split c c₂ hl₁k
        have hmemex : ∀ b, b ∈ trc ∨ b ∈ exc ∨ b ∈ exB ∨ b ∈ exA →
            b ∈ exA ++ (trc ++ (exc ++ exB)) := by
          intro b hb
          rcases hb with hb | hb | hb | hb
          · exact List.mem_append_right _ (List.mem_append_left _ hb)
          · exact List.mem_append_right _
              (List.mem_append_right _ (List.mem_append_left _ hb))
          · exact List.mem_append_right _
              (List.mem_append_right _ (List.mem_append_right _ hb))
          · exact List.mem_append_left _ hb
        have hmemold : ∀ b, b ∈ trc ∨ b ∈ exc ∨ b ∈ exB ∨ b ∈ exA →
            b ∈ (a :: trP) ++ (exA ++ (trc ++ (exc ++ exB))) :=
          fun b hb => List.mem_append_right _ (hmemex b hb)
        refine ⟨a :: trP, exA ++ (trc' ++ (exc' ++ exB)), ?_, ?_, ?_, ?_, ?_, ?_, ?_⟩
        · simp only [Handler.withKeyMap, Handler.withChanged, Handler.principal]
          exact hvP'
        · simp only [Handler.withKeyMap, Handler.withChanged, Handler.keyMap,
            Handler.changed, hins]
          exact HInv.obj a o s d _ b _ _ hao₂ hkm'
        · simp only [Handler.withKeyMap, Handler.withChanged, Handler.principal]
          simpa [Handler.principal] using hp₁
        · simp only [Handler.withKeyMap, Handler.withChanged, Handler.propertyState]
          simpa [Handler.propertyState] using hown.2.1
        · intro b hb
          rcases List.mem_append.mp hb with hb | hb
          · exact List.mem_append_left _ (List.mem_append_left _ hb)
          · rcases List.mem_append.mp hb with hb | hb
            · exact List.mem_append_left _ (hmemold b (Or.inr (Or.inr (Or.inr hb))))
            · rcases List.mem_append.mp hb with hb | hb
              · rcases hsubC2 b (List.mem_append_left _ hb) with hx | hx | hx
                · exact List.mem_append_left _ (hmemold b (Or.inl hx))
                · exact List.mem_append_left _ (hmemold b (Or.inr (Or.inl hx)))
                · exact List.mem_append_right _ hx
              · rcases List.mem_append.mp hb with hb | hb
                · rcases hsubC2 b (List.mem_append_right _ hb) with hx | hx | hx
                  · exact List.mem_append_left _ (hmemold b (Or.inl hx))
                  · exact List.mem_append_left _ (hmemold b (Or.inr (Or.inl hx)))
                  · exact List.mem_append_right _ hx
                · exact List.mem_append_left _ (hmemold b (Or.inr (Or.inr (Or.inl hb))))
        · simp only [List.cons_append]
          refine List.nodup_cons.mpr ⟨?_, ?_⟩
          · intro hc
            have hamem : a ∈ (a :: trP) ++ (exA ++ (trc ++ (exc ++ exB))) :=
              List.mem_append_left _ (List.mem_cons_self _ _)
            rcases List.mem_append.mp hc with hc | hc
            · exact h2.1 hc
            · rcases List.mem_append.mp hc with hc | hc
              · exact h1.2.2 a (List.mem_cons_self _ _) (List.mem_append_left _ hc)
              · rcases List.mem_append.mp hc with hc | hc
                · rcases hsubC2 a (List.mem_append_left _ hc) with hx | hx | hx
                  · exact h1.2.2 a (List.mem_cons_self _ _) (htrcex a (List.mem_append_left _ hx))
                  · exact h1.2.2 a (List.mem_cons_self _ _) (htrcex a (List.mem_append_right _ hx))
                  · exact h0.2.2 a hamem hx
                · rcases List.mem_append.mp hc with hc | hc
                  · rcases hsubC2 a (List.mem_append_right _ hc) with hx | hx | hx
                    · exact h1.2.2 a (List.mem_cons_self _ _) (htrcex a (List.mem_append_left _ hx))
                    · exact h1.2.2 a (List.mem_cons_self _ _) (htrcex a (List.mem_append_right _ hx))
                    · exact h0.2.2 a hamem hx
                  · exact h1.2.2 a (List.mem_cons_self _ _)
                      (hmemex a (Or.inr (Or.inr (Or.inl hc))))
          · refine List.nodup_append.mpr ⟨h2.2, ?_, ?_⟩
            · refine List.nodup_append.mpr ⟨h3.1, ?_, ?_⟩
              · refine List.nodup_append.mpr ⟨(nodup_parts hndC').1, ?_, ?_⟩
                · refine List.nodup_append.mpr ⟨(nodup_parts hndC').2.1, h5.2.1, ?_⟩
                  intro b hb hc
                  rcases hsubC2 b (List.mem_append_right _ hb) with hx | hx | hx
                  · exact h4.2.2 b hx (List.mem_append_right _ hc)
                  · exact h5.2.2 b hx hc
                  · exact h0.2.2 b (hmemold b (Or.inr (Or.inr (Or.inl hc)))) hx
                · intro b hb hc
                  rcases List.mem_append.mp hc with hc | hc
                  · exact (nodup_parts hndC').2.2 b hb hc
                  · rcases hsubC2 b (List.mem_append_left _ hb) with hx | hx | hx
                    · exact h4.2.2 b hx (List.mem_append_right _ hc)
                    · exact h5.2.2 b hx hc
                    · exact h0.2.2 b (hmemold b (Or.inr (Or.inr (Or.inl hc)))) hx
              · intro b hb hc
                have hbold : b ∈ trc ∨ b ∈ exc ∨ b ∈ A ∨ b ∈ exB := by
                  rcases List.mem_append.mp hc with hc | hc
                  · rcases hsubC2 b (List.mem_append_left _ hc) with hx | hx | hx
                    · exact Or.inl hx
                    · exact Or.inr (Or.inl hx)
                    · exact Or.inr (Or.inr (Or.inl hx))
                  · rcases List.mem_append.mp hc with hc | hc
                    · rcases hsubC2 b (List.mem_append_right _ hc) with hx | hx | hx
                      · exact Or.inl hx
                      · exact Or.inr (Or.inl hx)
                      · exact Or.inr (Or.inr (Or.inl hx))
                    · exact Or.inr (Or.inr (Or.inr hc))
                rcases hbold with hx | hx | hx | hx
                · exact h3.2.2 b hb (List.mem_append_left _ hx)
                · exact h3.2.2 b hb (List.mem_append_right _ (List.mem_append_left _ hx))
                · exact h0.2.2 b (hmemold b (Or.inr (Or.inr (Or.inr hb)))) hx
                · exact h3.2.2 b hb (List.mem_append_right _ (List.mem_append_right _ hx))
            · intro b hb hc
              have hbold : b ∈ trc ∨ b ∈ exc ∨ b ∈ A ∨ b ∈ exB ∨ b ∈ exA := by
                rcases List.mem_append.mp hc with hc | hc
                · exact Or.inr (Or.inr (Or.inr (Or.inr hc)))
                · rcases List.mem_append.mp hc with hc | hc
                  · rcases hsubC2 b (List.mem_append_left _ hc) with hx | hx | hx
                    · exact Or.inl hx
                    · exact Or.inr (Or.inl hx)
                    · exact Or.inr (Or.inr (Or.inl hx))
                  · rcases List.mem_append.mp hc with hc | hc
                    · rcases hsubC2 b (List.mem_append_right _ hc) with hx | hx | hx
                      · exact Or.inl hx
                      · exact Or.inr (Or.inl hx)
                      · exact Or.inr (Or.inr (Or.inl hx))
                    · exact Or.inr (Or.inr (Or.inr (Or.inl hc)))
              rcases hbold with hx | hx | hx | hx | hx
              · exact h1.2.2 b (List.mem_cons_of_mem a hb) (htrcex b (List.mem_append_left _ hx))
              · exact h1.2.2 b (List.mem_cons_of_mem a hb) (htrcex b (List.mem_append_right _ hx))
              · exact h0.2.2 b (List.mem_append_left _ (List.mem_cons_of_mem a hb)) hx
              · exact h1.2.2 b (List.mem_cons_of_mem a hb)
                  (hmemex b (Or.inr (Or.inr (Or.inl hx))))
              · exact h1.2.2 b (List.mem_cons_of_mem a hb) (List.mem_append_left _ hx)
        · intro b hb
          refine hframeC b ?_
          intro hmem
          exact hb (htrcex b hmem |> List.mem_append_right (a :: trP))
      | deleted _ _ _ _ _ hstc hkmB =>
        have hmem : (k, c) ∈ l₁ ++ (k, c) :: l₂ :=
          List.mem_append_right _ (List.mem_cons_self _ _)
        have hko := hwf₁.kidOK hmem
        have := (hko.2.2.2.2 hstc).1
        rw [this] at haddr
        simp [isAddr] at haddr

theorem ainsert_absent {α β : Type} [DecidableEq α] {l : List (α × β)} {k : α}
    (h : alook k l = none) (c : β) : ainsert k c l = l ++ [(k, c)] := by
  induction l with
  | nil => rfl
  | cons x rest ih =>
    simp only [alook] at h
    by_cases hk : x.1 = k
    · rw [if_pos hk] at h
      simp at h
    · rw [if_neg hk] at h
      simp only [ainsert, List.cons_append, List.append_eq]
      rw [if_neg hk, ih h]

/-- Reading a key through the surface preserves the value-tree/staging
invariant with unchanged footprints. -/
theorem readAct_ActInv (heap : Heap) (k : String) : ActInv heap [] (readAct k) := by
  intro h clk heap' h' clk' flag hr hwf tr ex hv hi hnd
  simp only [readAct] at hr
  rcases hg : getOrRetainProperty heap h k clk with ⟨co, h₁, clk₁⟩
  rw [hg] at hr
  simp only [Option.some.injEq, Prod.mk.injEq] at hr
  obtain ⟨hE1, hE2, hE3, hE4⟩ := hr
  subst hE1
  subst hE2
  subst hE3
  subst hE4
  have hgI := getOrRetain_HInv heap h k clk _ _ _ hg hv hi
  have hown := getOrRetain_own heap h k clk _ _ _ hg
  refine ⟨tr, ex, ?_, hgI.1, hgI.2.1, hown.2.1, ?_, ?_, ?_⟩
  · rw [hgI.2.1]
    exact hv
  · intro b hb
    exact List.mem_append_left _ hb
  · simpa using hnd
  · intro b _
    rfl

/-- A staged write preserves the invariant: the fresh literal tree `fpv`
becomes the buffered tree of the replacement child. -/
theorem writeAct_ActInv (heap : Heap) (k : String) (v : JVal) (fpv : List Nat)
    (hvv : VTree heap v fpv) : ActInv heap fpv (writeAct k v) := by
  intro h clk heap' h' clk' flag hr hwf tr ex hv hi hnd
  simp only [writeAct] at hr
  rcases hs : hSet heap h k v clk with _ | r
  · rw [hs] at hr
    simp at hr
  rcases r with ⟨h₂, clk₂⟩
  rw [hs] at hr
  simp only [Option.some.injEq, Prod.mk.injEq] at hr
  obtain ⟨hE1, hE2, hE3, hE4⟩ := hr
  subst hE1
  subst hE2
  subst hE3
  subst hE4
  rcases h with ⟨p, s, d, ch, b, km⟩
  simp only [hSet, Handler.principal] at hs
  rcases p with _ | _ | _ | _ | _ | a | _ <;> try simp at hs
  rcases hal : alook a heap with _ | o <;> rw [hal] at hs
  · simp at hs
  simp only [Option.some.injEq, Prod.mk.injEq] at hs
  obtain ⟨hh2, hclk2⟩ := hs
  subst hh2
  cases hi with
  | prim _ _ _ _ _ hna => simp [isAddr] at hna
  | obj _ o₂ _ _ _ _ _ exz hao hkm =>
    rw [hal] at hao
    simp only [Option.some.injEq] at hao
    subst hao
    simp only [Handler.principal] at hv
    rcases VTree_addr_inv hv with ⟨o', trP, hao', hpt, htr⟩
    rw [hal] at hao'
    simp only [Option.some.injEq] at hao'
    subst hao'
    subst htr
    have hchild : HInv heap (Handler.mk v
        (some (if jsIn o k then PState.DIRTY else PState.NEW))
        (some ⟨none, true, true, true⟩) false clk []) [] := by
      rcases hvcase : v with _ | _ | _ | _ | _ | av | _
      case addr =>
        rw [hvcase] at hvv
        rcases VTree_addr_inv hvv with ⟨ov, trv, haov, _, _⟩
        exact HInv.obj av ov _ _ _ _ [] [] haov (KMInv.nil ov)
      all_goals exact HInv.prim _ _ _ _ _ (by simp [isAddr])
    have hdn : (if jsIn o k then PState.DIRTY else PState.NEW) = PState.DIRTY
        ∨ (if jsIn o k then PState.DIRTY else PState.NEW) = PState.NEW := by
      by_cases hjs : jsIn o k <;> simp [hjs]
    have hdi : (if jsIn o k then PState.DIRTY else PState.NEW) = PState.DIRTY →
        jsIn o k = true := by
      by_cases hjs : jsIn o k <;> simp [hjs]
    have hni : (if jsIn o k then PState.DIRTY else PState.NEW) = PState.NEW →
        jsIn o k = false := by
      by_cases hjs : jsIn o k <;> simp [hjs]
    have hstate : (Handler.mk v (some (if jsIn o k then PState.DIRTY else PState.NEW))
        (some ⟨none, true, true, true⟩) false clk []).propertyState
        = some (if jsIn o k then PState.DIRTY else PState.NEW) := rfl
    have h0 := nodup_parts hnd
    have h1 := nodup_parts h0.1
    have h2 := List.nodup_cons.mp h1.1
    rcases hfind : alook k km with _ | c₀
    · -- fresh key: append the staged child at the end of the key map
      have hins := ainsert_absent hfind (Handler.mk v
        (some (if jsIn o k then PState.DIRTY else PState.NEW))
        (some ⟨none, true, true, true⟩) false clk [])
      have hone : KMInv heap o [(k, Handler.mk v
          (some (if jsIn o k then PState.DIRTY else PState.NEW))
          (some ⟨none, true, true, true⟩) false clk [])] fpv := by
        have := @KMInv.staged heap o k _ [] _ fpv [] [] hstate hdn hdi hni
          hvv hchild (KMInv.nil o)
        simpa using this
      refine ⟨a :: trP, ex ++ fpv, ?_, ?_, rfl, rfl, ?_, ?_, fun b _ => rfl⟩
      · simp only [Handler.withKeyMap, Handler.withChanged, Handler.principal]
        exact hv
      · simp only [Handler.withKeyMap, Handler.withChanged, Handler.keyMap,
          Handler.changed, hins]
        exact HInv.obj a o s d true b _ _ hal (KMInv_append hkm hone)
      · intro b hb
        rcases List.mem_append.mp hb with hb | hb
        · exact List.mem_append_left _ (List.mem_append_left _ hb)
        · rcases List.mem_append.mp hb with hb | hb
          · exact List.mem_append_left _ (List.mem_append_right _ hb)
          · exact List.mem_append_right _ hb
      · simpa [List.append_assoc] using hnd
    · -- existing key: the old child's clause is dropped, the new one inserted
      rcases alook_split hfind with ⟨l₁, l₂, hsplit, hl₁k⟩
      subst hsplit
      rcases KMInv_append_split l₁ hkm with ⟨exA, exm, hexeq, hkmA, hkmM⟩
      subst hexeq
      obtain ⟨exB, hkmB, hexBsub, hexBnd⟩ :
          ∃ exB, KMInv heap o l₂ exB ∧ (∀ b, b ∈ exB → b ∈ exm) ∧ exB.Nodup := by
        have h3 := nodup_parts h1.2.1
        cases hkmM with
        | retained _ _ _ _ p exc exB hop hpv hstc hic hkmB =>
          exact ⟨exB, hkmB, fun b hb => List.mem_append_right _ hb,
            (nodup_parts h3.2.1).2.1⟩
        | staged _ _ _ _ st trc exc exB hstc hdn' hdi' hni' hvc hic hkmB =>
          exact ⟨exB, hkmB, fun b hb => List.mem_append_right _ (List.mem_append_right _ hb),
            (nodup_parts (nodup_parts h3.2.1).2.1).2.1⟩
        | deleted _ _ _ _ _ hstc hkmB =>
          exact ⟨exm, hkmB, fun b hb => hb, h3.2.1⟩
      have hmid : KMInv heap o ((k, Handler.mk v
          (some (if jsIn o k then PState.DIRTY else PState.NEW))
          (some ⟨none, true, true, true⟩) false clk []) :: l₂) (fpv ++ exB) := by
        have := @KMInv.staged heap o k _ l₂ _ fpv [] exB hstate hdn hdi hni
          hvv hchild hkmB
        simpa using this
      have hins := @ainsert_split String Handler _ l₁ l₂ k c₀ (Handler.mk v
        (some (if jsIn o k then PState.DIRTY else PState.NEW))
        (some ⟨none, true, true, true⟩) false clk []) hl₁k
      have h3 := nodup_parts h1.2.1
      refine ⟨a :: trP, exA ++ (fpv ++ exB), ?_, ?_, rfl, rfl, ?_, ?_, fun b _ => rfl⟩
      · simp only [Handler.withKeyMap, Handler.withChanged, Handler.principal]
        exact hv
      · simp only [Handler.withKeyMap, Handler.withChanged, Handler.keyMap,
          Handler.changed, hins]
        exact HInv.obj a o s d true b _ _ hal (KMInv_append hkmA hmid)
      · intro b hb
        rcases List.mem_append.mp hb with hb | hb
        · exact List.mem_append_left _ (List.mem_append_left _ hb)
        · rcases List.mem_append.mp hb with hb | hb
          · exact List.mem_append_left _
              (List.mem_append_right _ (List.mem_append_left _ hb))
          · rcases List.mem_append.mp hb with hb | hb
            · exact List.mem_append_right _ hb
            · exact List.mem_append_left _ (List.mem_append_right _
                (List.mem_append_right _ (hexBsub b hb)))
      · simp only [List.cons_append]
        refine List.nodup_cons.mpr ⟨?_, ?_⟩
        · intro hc
          have hamem : a ∈ (a :: trP) ++ (exA ++ exm) :=
            List.mem_append_left _ (List.mem_cons_self _ _)
          rcases List.mem_append.mp hc with hc | hc
          · exact h2.1 hc
          · rcases List.mem_append.mp hc with hc | hc
            · exact h1.2.2 a (List.mem_cons_self _ _) (List.mem_append_left _ hc)
            · rcases List.mem_append.mp hc with hc | hc
              · exact h0.2.2 a hamem hc
              · exact h1.2.2 a (List.mem_cons_self _ _)
                  (List.mem_append_right _ (hexBsub a hc))
        · refine List.nodup_append.mpr ⟨h2.2, ?_, ?_⟩
          · refine List.nodup_append.mpr ⟨h3.1, ?_, ?_⟩
            · refine List.nodup_append.mpr ⟨h0.2.1, hexBnd, ?_⟩
              intro x hx hc
              exact h0.2.2 x (List.mem_append_right _
                (List.mem_append_right _ (hexBsub x hc))) hx
            · intro x hx hc
              rcases List.mem_append.mp hc with hc | hc
              · exact h0.2.2 x (List.mem_append_right _ (List.mem_append_left _ hx)) hc
              · exact h3.2.2 x hx (hexBsub x hc)
          · intro x hx hc
            rcases List.mem_append.mp hc with hc | hc
            · exact h1.2.2 x (List.mem_cons_of_mem a hx) (List.mem_append_left _ hc)
            · rcases List.mem_append.mp hc with hc | hc
              · exact h0.2.2 x (List.mem_append_left _ (List.mem_cons_of_mem a hx)) hc
              · exact h1.2.2 x (List.mem_cons_of_mem a hx)
                  (List.mem_append_right _ (hexBsub x hc))

/-- A staged delete preserves the invariant: the child collapses to a
value-less tombstone, dropping its staged footprint. -/
theorem delAct_ActInv (heap : Heap) (k : String) : ActInv heap [] (delAct k) := by
  intro h clk heap' h' clk' flag hr hwf tr ex hv hi hnd
  simp only [delAct, hDelete] at hr
  rcases hg : getOrRetainProperty heap h k clk with ⟨co, h₁, clk₁⟩
  rw [hg] at hr
  have hgI := getOrRetain_HInv heap h k clk _ _ _ hg hv hi
  have hgT := getOrRetain_TreeWF heap h k clk _ _ _ hg hwf
  have hown := getOrRetain_own heap h k clk _ _ _ hg
  rcases co with _ | c
  · simp only [Option.some.injEq, Prod.mk.injEq] at hr
    obtain ⟨hE1, hE2, hE3, hE4⟩ := hr
    subst hE1
    subst hE2
    subst hE3
    subst hE4
    refine ⟨tr, ex, ?_, hgI.1, hgI.2.1, hown.2.1, ?_, ?_, ?_⟩
    · rw [hgI.2.1]
      exact hv
    · intro x hx
      exact List.mem_append_left _ hx
    · simpa using hnd
    · intro x _
      rfl
  · simp only [] at hr
    rcases hd : c.propertyDescriptor with _ | dd <;> rw [hd] at hr
    · simp at hr
    simp only [] at hr
    by_cases hcfg : dd.configurable = false
    · rw [if_pos hcfg] at hr
      simp at hr
    rw [if_neg hcfg] at hr
    simp only [Option.some.injEq, Prod.mk.injEq] at hr
    obtain ⟨hE1, hE2, hE3, hE4⟩ := hr
    subst hE1
    subst hE2
    subst hE3
    subst hE4
    have hkc : alook k h₁.keyMap = some c := (hgT.2 c rfl).2
    have hi₁ : HInv heap h₁ ex := hgI.1
    cases hi₁ with
    | prim p s d ch b hna =>
      simp [Handler.keyMap, alook] at hkc
    | obj a o s d ch b km₁ exz hao hkm =>
      simp only [Handler.keyMap] at hkc
      rcases alook_split hkc with ⟨l₁, l₂, hsplit, hl₁k⟩
      subst hsplit
      rcases KMInv_append_split l₁ hkm with ⟨exA, exm, hexeq, hkmA, hkmM⟩
      subst hexeq
      obtain ⟨exB, hkmB, hexBsl⟩ :
          ∃ exB, KMInv heap o l₂ exB ∧ exB.Sublist exm := by
        cases hkmM with
        | retained _ _ _ _ p exc exB hop hpv hstc hic hkmB =>
          exact ⟨exB, hkmB, List.sublist_append_right exc exB⟩
        | staged _ _ _ _ st trc exc exB hstc hdn' hdi' hni' hvc hic hkmB =>
          exact ⟨exB, hkmB,
            (List.sublist_append_right exc exB).trans (List.sublist_append_right trc _)⟩
        | deleted _ _ _ _ _ hstc hkmB =>
          exact ⟨exm, hkmB, List.Sublist.refl exm⟩
      have hmid : KMInv heap o ((k, Handler.mk JVal.undef (some PState.DELETED)
          (some dd) false c.birth []) :: l₂) exB :=
        KMInv.deleted o k _ l₂ exB rfl hkmB
      have hins := @ainsert_split String Handler _ l₁ l₂ k c
        (Handler.mk JVal.undef (some PState.DELETED) (some dd) false c.birth []) hl₁k
      have hp₁ : JVal.addr a = h.principal := by
        simpa [Handler.principal] using hgI.2.1
      rw [← hp₁] at hv
      refine ⟨tr, exA ++ exB, ?_, ?_, ?_, ?_, ?_, ?_, fun x _ => rfl⟩
      · simp only [Handler.withKeyMap, Handler.withChanged, Handler.principal]
        exact hv
      · simp only [Handler.withKeyMap, Handler.withChanged, Handler.keyMap,
          Handler.changed, hins]
        exact HInv.obj a o s d true b _ _ hao (KMInv_append hkmA hmid)
      · simp only [Handler.withKeyMap, Handler.withChanged, Handler.principal]
        simpa [Handler.principal] using hp₁
      · simp only [Handler.withKeyMap, Handler.withChanged, Handler.propertyState]
        simpa [Handler.propertyState] using hown.2.1
      · intro x hx
        rcases List.mem_append.mp hx with hx | hx
        · exact List.mem_append_left _ (List.mem_append_left _ hx)
        · rcases List.mem_append.mp hx with hx | hx
          · exact List.mem_append_left _
              (List.mem_append_right _ (List.mem_append_left _ hx))
          · exact List.mem_append_left _ (List.mem_append_right _
              (List.mem_append_right _ (hexBsl.subset hx)))
      · have hnd₀ : (tr ++ (exA ++ exm)).Nodup := by simpa using hnd
        exact List.Nodup.sublist
          ((List.Sublist.refl tr).append
            ((List.Sublist.refl exA).append hexBsl)) hnd₀

theorem alook_aupdate_self {α β : Type} [DecidableEq α] {l : List (α × β)} {k : α} {v₀ : β}
    (h : alook k l = some v₀) (v : β) : alook k (aupdate k v l) = some v := by
  induction l with
  | nil => simp [alook] at h
  | cons x rest ih =>
    simp only [alook] at h
    by_cases hk : x.1 = k
    · simp [aupdate, hk, alook]
    · rw [if_neg hk] at h
      simp only [aupdate]
      rw [if_neg hk]
      simp only [alook]
      rw [if_neg hk]
      exact ih h

theorem alook_aupdate_other {α β : Type} [DecidableEq α] (l : List (α × β)) (k k' : α)
    (hne : k ≠ k') (v : β) : alook k' (aupdate k v l) = alook k' l := by
  induction l with
  | nil => rfl
  | cons x rest ih =>
    by_cases hk : x.1 = k
    · subst hk
      simp only [aupdate, if_pos rfl, alook]
      rw [if_neg hne, if_neg hne]
    · simp only [aupdate]
      rw [if_neg hk]
      simp only [alook]
      by_cases hk' : x.1 = k'
      · rw [if_pos hk', if_pos hk']
      · rw [if_neg hk', if_neg hk']
        exact ih

/-- `Reflect.set` touches only the written key: other own properties and the
prototype table are unchanged. -/
theorem reflectSet_other (o : JObj) (k : String) (v : JVal) (o' : JObj)
    (h : reflectSet o k v = some o') :
    (∀ k', k' ≠ k → ownProp o' k' = ownProp o k')
    ∧ o'.protoProps = o.protoProps ∧ o'.extensible = o.extensible
    ∧ (∀ k', k' ≠ k → jsIn o' k' = jsIn o k') := by
  simp only [reflectSet] at h
  rcases hop : ownProp o k with _ | p <;> rw [hop] at h <;> simp only [] at h
  · by_cases hext : o.extensible = true
    · rw [if_pos hext] at h
      simp only [Option.some.injEq] at h
      subst h
      refine ⟨?_, rfl, rfl, ?_⟩
      · intro k' hne
        simp only [ownProp, alook_append]
        cases hv : alook k' o.props with
        | some q => simp [ownProp, hv]
        | none =>
          simp only [ownProp, hv, alook]
          rw [if_neg (fun hc => hne hc.symm)]
      · intro k' hne
        have : ownProp ⟨o.props ++ [(k, ⟨v, true, true, true⟩)], o.extensible,
            o.protoProps⟩ k' = ownProp o k' := by
          simp only [ownProp, alook_append]
          cases hv : alook k' o.props with
          | some q => simp [hv]
          | none =>
            simp only [hv, alook]
            rw [if_neg (fun hc => hne hc.symm)]
        simp only [jsIn, hasOwn, this]
    · rw [if_neg hext] at h
      simp at h
  · by_cases hw : p.writable = true
    · rw [if_pos hw] at h
      simp only [Option.some.injEq] at h
      subst h
      refine ⟨?_, rfl, rfl, ?_⟩
      · intro k' hne
        simp only [ownProp]
        exact alook_aupdate_other o.props k k' (fun hc => hne hc.symm) _
      · intro k' hne
        simp only [jsIn, hasOwn, ownProp]
        rw [alook_aupdate_other o.props k k' (fun hc => hne hc.symm)]
    · rw [if_neg hw] at h
      simp at h

/-- `Reflect.set` stores exactly the written value under the written key. -/
theorem reflectSet_self (o : JObj) (k : String) (v : JVal) (o' : JObj)
    (h : reflectSet o k v = some o') :
    ∃ p', ownProp o' k = some p' ∧ p'.value = v := by
  simp only [reflectSet] at h
  rcases hop : ownProp o k with _ | p <;> rw [hop] at h <;> simp only [] at h
  · by_cases hext : o.extensible = true
    · rw [if_pos hext] at h
      simp only [Option.some.injEq] at h
      subst h
      refine ⟨⟨v, true, true, true⟩, ?_, rfl⟩
      simp only [ownProp, alook_append]
      simp only [ownProp] at hop
      simp [hop, alook]
    · rw [if_neg hext] at h
      simp at h
  · by_cases hw : p.writable = true
    · rw [if_pos hw] at h
      simp only [Option.some.injEq] at h
      subst h
      refine ⟨⟨v, p.writable, p.enumerable, p.configurable⟩, ?_, rfl⟩
      simp only [ownProp]
      exact alook_aupdate_self (by simpa [ownProp] using hop) _
    · rw [if_neg hw] at h
      simp at h

/-- `Reflect.deleteProperty` removes at most the deleted key. -/
theorem reflectDelete_other (o : JObj) (k : String) (o' : JObj)
    (h : reflectDelete o k = some o') :
    (∀ k', k' ≠ k → ownProp o' k' = ownProp o k')
    ∧ o'.protoProps = o.protoProps ∧ o'.extensible = o.extensible := by
  simp only [reflectDelete] at h
  rcases hop : ownProp o k with _ | p <;> rw [hop] at h <;> simp only [] at h
  · simp only [Option.some.injEq] at h
    subst h
    exact ⟨fun _ _ => rfl, rfl, rfl⟩
  · by_cases hcf : p.configurable = true
    · rw [if_pos hcf] at h
      simp only [Option.some.injEq] at h
      subst h
      refine ⟨?_, rfl, rfl⟩
      intro k' hne
      simp only [ownProp]
      clear hop
      induction o.props with
      | nil => rfl
      | cons x rest ih =>
        simp only [aremove]
        by_cases hk : x.1 = k
        · rw [if_pos hk]
          simp only [alook]
          rw [if_neg (hk ▸ (fun hc => hne hc.symm) : ¬x.1 = k')]
        · rw [if_neg hk]
          simp only [alook]
          by_cases hk' : x.1 = k'
          · rw [if_pos hk', if_pos hk']
          · rw [if_neg hk', if_neg hk']
            exact ih
    · rw [if_neg hcf] at h
      simp at h

/-- The child clauses only read the parent object at the clause keys. -/
theorem KMInv_retarget {heap : Heap} {o o' : JObj} :
    ∀ {km ex}, KMInv heap o km ex →
    (∀ k, (∃ c, (k, c) ∈ km) → ownProp o' k = ownProp o k ∧ jsIn o' k = jsIn o k) →
    KMInv heap o' km ex := by
  intro km
  induction km with
  | nil =>
    intro ex h _
    cases h with
    | nil => exact KMInv.nil o'
  | cons kc rest ih =>
    intro ex h hsame
    cases h with
    | retained _ k c _ p exc exr hop hpv hst hic hrest =>
      refine KMInv.retained o' k c rest p exc exr ?_ hpv hst hic ?_
      · rw [(hsame k ⟨c, List.mem_cons_self _ _⟩).1]
        exact hop
      · exact ih hrest (fun k' hex => hsame k' ⟨hex.choose, List.mem_cons_of_mem _ hex.choose_spec⟩)
    | staged _ k c _ st tr exc exr hst hdn hdi hni hv hic hrest =>
      refine KMInv.staged o' k c rest st tr exc exr hst hdn ?_ ?_ hv hic ?_
      · intro hd
        rw [(hsame k ⟨c, List.mem_cons_self _ _⟩).2]
        exact hdi hd
      · intro hn
        rw [(hsame k ⟨c, List.mem_cons_self _ _⟩).2]
        exact hni hn
      · exact ih hrest (fun k' hex => hsame k' ⟨hex.choose, List.mem_cons_of_mem _ hex.choose_spec⟩)
    | deleted _ k c _ _ hst hrest =>
      exact KMInv.deleted o' k c rest _ hst
        (ih hrest (fun k' hex => hsame k' ⟨hex.choose, List.mem_cons_of_mem _ hex.choose_spec⟩))

theorem HInv_withState {heap : Heap} {c : Handler} {ex : List Nat}
    (h : HInv heap c ex) (s : Option PState) : HInv heap (c.withState s) ex := by
  rcases c with ⟨p, s₀, d, ch, b, km⟩
  simp only [Handler.withState]
  cases h with
  | prim _ _ _ _ _ hna => exact HInv.prim p s d ch b hna
  | obj a o =>
    rename_i hao hkm
    exact HInv.obj a o s d ch b km ex hao hkm

theorem PTree_append {heap : Heap} :
    ∀ {l₁ : List (String × JProp)} {f₁ : List Nat}, PTree heap l₁ f₁ →
    ∀ {l₂ f₂}, PTree heap l₂ f₂ → PTree heap (l₁ ++ l₂) (f₁ ++ f₂) := by
  intro l₁
  induction l₁ with
  | nil =>
    intro f₁ h₁ l₂ f₂ h₂
    cases h₁ with
    | nil => simpa using h₂
  | cons kp rest ih =>
    intro f₁ h₁ l₂ f₂ h₂
    cases h₁ with
    | cons k p _ fp₁ fp₂ hv hp =>
      have := @PTree.cons heap k p (rest ++ l₂) fp₁ (fp₂ ++ f₂) hv (ih hp h₂)
      simpa [List.append_assoc] using this

/-- Updating the value stored under one key rebuilds the object tree with
the key's piece replaced by the new value's tree. -/
theorem PTree_aupdate {heap : Heap} :
    ∀ {props : List (String × JProp)} {trP : List Nat}, PTree heap props trP →
    trP.Nodup →
    ∀ (k : String) (p : JProp), alook k props = some p →
    ∀ {trc}, VTree heap p.value trc →
    ∀ (q : JProp) {fv}, VTree heap q.value fv → fv.Nodup →
    (∀ b, b ∈ fv → b ∉ trP) →
    ∃ trP', PTree heap (aupdate k q props) trP' ∧ trP'.Nodup
      ∧ (∀ b, b ∈ trP' → (b ∈ trP ∧ b ∉ trc) ∨ b ∈ fv) := by
  intro props
  induction props with
  | nil =>
    intro trP hpt _ k p hkp
    simp [alook] at hkp
  | cons kp rest ih =>
    intro trP hpt hnd k p hkp trc hvc q fv hfv hfnd hdisj
    rcases kp with ⟨k₀, p₀⟩
    cases hpt with
    | cons _ _ _ fp₁ fp₂ hv₁ hp₂ =>
      have hndisj : ∀ x, x ∈ fp₁ → x ∉ fp₂ := by
        intro x hx₁ hx₂
        rcases List.nodup_append.mp hnd with ⟨_, _, hdj⟩
        exact hdj hx₁ hx₂
      simp only [alook] at hkp
      by_cases hk : k₀ = k
      · rw [if_pos hk] at hkp
        simp only [Option.some.injEq] at hkp
        subst hkp
        subst hk
        have hpieces : fp₁ = trc := VTree_unique hv₁ hvc
        subst hpieces
        refine ⟨fv ++ fp₂, ?_, ?_, ?_⟩
        · simp only [aupdate, if_pos rfl]
          exact PTree.cons k₀ q rest fv fp₂ hfv hp₂
        · refine List.nodup_append.mpr ⟨hfnd, (List.nodup_append.mp hnd).2.1, ?_⟩
          intro x hx hc
          exact hdisj x hx (List.mem_append_right _ hc)
        · intro x hx
          rcases List.mem_append.mp hx with hx | hx
          · exact Or.inr hx
          · exact Or.inl ⟨List.mem_append_right _ hx, fun hc => hndisj x hc hx⟩
      · rw [if_neg hk] at hkp
        rcases PTree_at_key hp₂ k p hkp with ⟨sub, hsubv, hsubsl⟩
        have hsubtrc : sub = trc := VTree_unique hsubv hvc
        subst hsubtrc
        rcases ih hp₂ ((List.nodup_append.mp hnd).2.1) k p hkp hsubv q hfv hfnd
          (fun x hx hc => hdisj x hx (List.mem_append_right _ hc))
          with ⟨trP₂', hp₂', hnd₂', hss₂'⟩
        refine ⟨fp₁ ++ trP₂', ?_, ?_, ?_⟩
        · simp only [aupdate]
          rw [if_neg hk]
          exact PTree.cons k₀ p₀ (aupdate k q rest) fp₁ trP₂' hv₁ hp₂'
        · refine List.nodup_append.mpr ⟨(List.nodup_append.mp hnd).1, hnd₂', ?_⟩
          intro x hx hc
          rcases hss₂' x hc with ⟨hxP, _⟩ | hxf
          · exact hndisj x hx hxP
          · exact hdisj x hxf (List.mem_append_left _ hx)
        · intro x hx
          rcases List.mem_append.mp hx with hx | hx
          · exact Or.inl ⟨List.mem_append_left _ hx,
              fun hc => hndisj x hx (hsubsl.subset hc)⟩
          · rcases hss₂' x hx with ⟨hxP, hxc⟩ | hxf
            · exact Or.inl ⟨List.mem_append_right _ hxP, hxc⟩
            · exact Or.inr hxf

/-- Removing one key drops exactly that key's piece from the object tree. -/
theorem PTree_aremove {heap : Heap} :
    ∀ {props : List (String × JProp)} {trP : List Nat}, PTree heap props trP →
    trP.Nodup →
    ∀ (k : String),
    ∃ trP', PTree heap (aremove k props) trP' ∧ trP'.Nodup
      ∧ (∀ b, b ∈ trP' → b ∈ trP) := by
  intro props
  induction props with
  | nil =>
    intro trP hpt _ k
    cases hpt with
    | nil => exact ⟨[], PTree.nil, List.nodup_nil, by simp⟩
  | cons kp rest ih =>
    intro trP hpt hnd k
    rcases kp with ⟨k₀, p₀⟩
    cases hpt with
    | cons _ _ _ fp₁ fp₂ hv₁ hp₂ =>
      by_cases hk : k₀ = k
      · refine ⟨fp₂, ?_, (List.nodup_append.mp hnd).2.1, ?_⟩
        · simp only [aremove, if_pos hk]
          exact hp₂
        · intro x hx
          exact List.mem_append_right _ hx
      · rcases ih hp₂ ((List.nodup_append.mp hnd).2.1) k with ⟨trP₂', hp₂', hnd₂', hss₂'⟩
        refine ⟨fp₁ ++ trP₂', ?_, ?_, ?_⟩
        · simp only [aremove]
          rw [if_neg hk]
          exact PTree.cons k₀ p₀ (aremove k rest) fp₁ trP₂' hv₁ hp₂'
        · refine List.nodup_append.mpr ⟨(List.nodup_append.mp hnd).1, hnd₂', ?_⟩
          intro x hx hc
          rcases List.nodup_append.mp hnd with ⟨_, _, hdj⟩
          exact hdj hx (hss₂' x hc)
        · intro x hx
          rcases List.mem_append.mp hx with hx | hx
          · exact List.mem_append_left _ hx
          · exact List.mem_append_right _ (hss₂' x hx)

/-- A quiescent subtree carries no staged footprint. -/
theorem HInv_quiescent_nil : ∀ (h : Handler), Quiescent h →
    ∀ {heap : Heap} {ex : List Nat}, HInv heap h ex → ex = [] := by
  refine handler_ind (fun h => Quiescent h →
    ∀ {heap : Heap} {ex : List Nat}, HInv heap h ex → ex = []) ?_
  intro p s d ch b km ih hq heap ex hi
  cases hi with
  | prim _ _ _ _ _ hna => rfl
  | obj a o =>
    rename_i hao hkm
    have aux : ∀ (l : List (String × Handler)) (exl : List Nat),
        (∀ kc, kc ∈ l → kc ∈ km) → KMInv heap o l exl → exl = [] := by
      intro l
      induction l with
      | nil =>
        intro exl _ hk
        cases hk with
        | nil => rfl
      | cons kc rest ihl =>
        intro exl hmem hk
        cases hk with
        | retained _ k c _ pr ex₁ ex₂ hop hpv hst hic hrest =>
          have hqc : Quiescent c := hq.kid (hmem _ (List.mem_cons_self _ _))
          have h1 : ex₁ = [] := ih (k, c) (hmem _ (List.mem_cons_self _ _)) hqc hic
          have h2 : ex₂ = [] := ihl ex₂ (fun x hm => hmem _ (List.mem_cons_of_mem _ hm)) hrest
          rw [h1, h2]
          rfl
        | staged _ k c _ st tr ex₁ ex₂ hst hdn hdi hni hv hic hrest =>
          have := hq.kidState (hmem (k, c) (List.mem_cons_self _ _))
          rw [this] at hst
          simp only [Option.some.injEq] at hst
          rcases hdn with hdd | hdd <;> rw [← hst] at hdd <;> simp at hdd
        | deleted _ k c _ _ hst hrest =>
          have := hq.kidState (hmem (k, c) (List.mem_cons_self _ _))
          rw [this] at hst
          simp at hst
    exact aux km ex (fun kc hkc => hkc) hkm

/-- Commit preserves the value-tree/staging invariant: on success the node's
principal stores a live tree built from the old live tree and the buffered
trees, all staged footprints are consumed, every surviving child aliases its
committed live property, and the heap is only written at the node's old
footprint. -/
theorem aupdate_map_fst {α β : Type} [DecidableEq α] (k : α) (v : β) (l : List (α × β)) :
    (aupdate k v l).map Prod.fst = l.map Prod.fst := by
  induction l with
  | nil => rfl
  | cons x rest ih =>
    simp only [aupdate]
    by_cases hk : x.1 = k
    · rw [if_pos hk]
      simp [hk]
    · rw [if_neg hk]
      simp [ih]

theorem mem_aupdate {α β : Type} [DecidableEq α] {l : List (α × β)} {k : α} {v : β}
    {q : α × β} (h : q ∈ aupdate k v l) : q ∈ l ∨ q = (k, v) := by
  induction l with
  | nil => simp [aupdate] at h
  | cons x rest ih =>
    simp only [aupdate] at h
    by_cases hk : x.1 = k
    · rw [if_pos hk] at h
      rcases List.mem_cons.mp h with h | h
      · exact Or.inr h
      · exact Or.inl (List.mem_cons_of_mem _ h)
    · rw [if_neg hk] at h
      rcases List.mem_cons.mp h with h | h
      · exact Or.inl (h ▸ List.mem_cons_self _ _)
      · rcases ih h with h | h
        · exact Or.inl (List.mem_cons_of_mem _ h)
        · exact Or.inr h

theorem aremove_map_fst_sublist {α β : Type} [DecidableEq α] (k : α) (l : List (α × β)) :
    ((aremove k l).map Prod.fst).Sublist (l.map Prod.fst) := by
  induction l with
  | nil => exact List.Sublist.refl _
  | cons x rest ih =>
    simp only [aremove]
    by_cases hk : x.1 = k
    · rw [if_pos hk]
      simp only [List.map_cons]
      exact List.sublist_cons_self _ _
    · rw [if_neg hk]
      simp only [List.map_cons]
      exact List.Sublist.cons₂ _ ih

/-- Key-duplication-freedom of every heap object's own properties. -/
def HeapWF (heap : Heap) : Prop :=
  ∀ q, q ∈ heap → ((q.2.props.map Prod.fst).Nodup)

theorem reflectSet_HeapWF {o : JObj} {k : String} {v : JVal} {o' : JObj}
    (h : reflectSet o k v = some o')
    (hnd : (o.props.map Prod.fst).Nodup) : (o'.props.map Prod.fst).Nodup := by
  simp only [reflectSet] at h
  rcases hop : ownProp o k with _ | p <;> rw [hop] at h <;> simp only [] at h
  · by_cases hext : o.extensible = true
    · rw [if_pos hext] at h
      simp only [Option.some.injEq] at h
      subst h
      simp only [List.map_append, List.map_cons, List.map_nil]
      refine List.nodup_append.mpr ⟨hnd, List.nodup_singleton _, ?_⟩
      intro x hx hc
      simp only [List.mem_singleton] at hc
      subst hc
      rcases List.mem_map.mp hx with ⟨q, hq, hqk⟩
      have : alook x o.props = none := by simpa [ownProp] using hop
      exact alook_none_not_mem this (List.mem_map.mpr ⟨q, hq, hqk⟩)
    · rw [if_neg hext] at h
      simp at h
  · by_cases hw : p.writable = true
    · rw [if_pos hw] at h
      simp only [Option.some.injEq] at h
      subst h
      simpa [aupdate_map_fst] using hnd
    · rw [if_neg hw] at h
      simp at h

theorem reflectDelete_HeapWF {o : JObj} {k : String} {o' : JObj}
    (h : reflectDelete o k = some o')
    (hnd : (o.props.map Prod.fst).Nodup) : (o'.props.map Prod.fst).Nodup := by
  simp only [reflectDelete] at h
  rcases hop : ownProp o k with _ | p <;> rw [hop] at h <;> simp only [] at h
  · simp only [Option.some.injEq] at h
    subst h
    exact hnd
  · by_cases hcf : p.configurable = true
    · rw [if_pos hcf] at h
      simp only [Option.some.injEq] at h
      subst h
      exact List.Nodup.sublist (aremove_map_fst_sublist k o.props) hnd
    · rw [if_neg hcf] at h
      simp at h

theorem alook_aremove_self {α β : Type} [DecidableEq α] :
    ∀ {l : List (α × β)}, (l.map Prod.fst).Nodup → ∀ (k : α),
      alook k (aremove k l) = none := by
  intro l
  induction l with
  | nil =>
    intro _ k
    rfl
  | cons x rest ih =>
    intro hnd k
    rcases x with ⟨k₀, v₀⟩
    have hnd' : (k₀ :: rest.map Prod.fst).Nodup := by simpa using hnd
    simp only [aremove]
    by_cases hk : k₀ = k
    · rw [if_pos hk]
      subst hk
      refine alook_eq_none_of_forall ?_
      intro p hp hc
      exact (List.nodup_cons.mp hnd').1 (hc ▸ List.mem_map.mpr ⟨p, hp, rfl⟩)
    · rw [if_neg hk]
      simp only [alook, if_neg hk]
      exact ih (List.nodup_cons.mp hnd').2 k

theorem commit_HInv : ∀ (heap : Heap) (h : Handler), TreeWF h →
    ∀ tr ex, VTree heap h.principal tr → HInv heap h ex → (tr ++ ex).Nodup →
    ∀ heap' h' e, commitNode heap h = (heap', h', e) → e = none →
      ∃ tr', VTree heap' h'.principal tr' ∧ HInv heap' h' []
        ∧ tr'.Nodup ∧ (∀ b, b ∈ tr' → b ∈ tr ++ ex)
        ∧ (∀ b, b ∉ tr ++ ex → alook b heap' = alook b heap)
        ∧ (∀ aR oR, h.principal = JVal.addr aR → alook aR heap = some oR →
            (oR.props.map Prod.fst).Nodup →
            ∀ kD cD, (kD, cD) ∈ h.keyMap → cD.propertyState = some PState.DELETED →
              ∃ oR', alook aR heap' = some oR' ∧ ownProp oR' kD = none) := by
  refine commitNode.induct
    (fun heap h => TreeWF h → ∀ tr ex, VTree heap h.principal tr → HInv heap h ex →
      (tr ++ ex).Nodup →
      ∀ heap' h' e, commitNode heap h = (heap', h', e) → e = none →
        ∃ tr', VTree heap' h'.principal tr' ∧ HInv heap' h' []
          ∧ tr'.Nodup ∧ (∀ b, b ∈ tr' → b ∈ tr ++ ex)
          ∧ (∀ b, b ∉ tr ++ ex → alook b heap' = alook b heap)
          ∧ (∀ aR oR, h.principal = JVal.addr aR → alook aR heap = some oR →
              (oR.props.map Prod.fst).Nodup →
              ∀ kD cD, (kD, cD) ∈ h.keyMap → cD.propertyState = some PState.DELETED →
                ∃ oR', alook aR heap' = some oR' ∧ ownProp oR' kD = none))
    (fun heap pv km => KidsWF km → (km.map Prod.fst).Nodup →
      ∀ a o, pv = JVal.addr a → alook a heap = some o →
      ∀ trP exK, PTree heap o.props trP → KMInv heap o km exK →
      (a :: (trP ++ exK)).Nodup →
      ∀ heap' km' e, commitKids heap pv km = (heap', km', e) → e = none →
        ∃ o' trP', alook a heap' = some o'
          ∧ PTree heap' o'.props trP'
          ∧ trP'.Nodup
          ∧ (∀ b, b ∈ trP' → b ∈ trP ++ exK)
          ∧ KMInv heap' o' km' []
          ∧ (∀ k', (∀ c', (k', c') ∉ km) → ownProp o' k' = ownProp o k')
          ∧ o'.protoProps = o.protoProps ∧ o'.extensible = o.extensible
          ∧ (∀ b, b ≠ a → b ∉ exK →
              (∀ kc, kc ∈ km → ∀ p sub, ownProp o kc.1 = some p →
                VTree heap p.value sub → b ∉ sub) →
              alook b heap' = alook b heap)
          ∧ ((o.props.map Prod.fst).Nodup →
              ∀ kD cD, (kD, cD) ∈ km → cD.propertyState = some PState.DELETED →
                ownProp o' kD = none))
    ?_ ?_ ?_ ?_ ?_ ?_ ?_ ?_ ?_ ?_ ?_ ?_
  · -- commitNode, object principal, kids succeed
    intro heap p s d ch b km htype heap₀ km₀ hkids ih hwf tr ex hv hi hnd
      heap' h' e hcommit he
    simp only [commitNode, if_pos htype, hkids] at hcommit
    simp only [Prod.mk.injEq] at hcommit
    obtain ⟨he1, he2, he3⟩ := hcommit
    subst he1
    rw [← he2]
    cases hi with
    | prim _ _ _ _ _ hna =>
      simp only [commitKids, Prod.mk.injEq] at hkids
      obtain ⟨hk1, hk2, hk3⟩ := hkids
      subst hk1
      rw [← hk2]
      simp only [Handler.principal] at hv
      cases hv with
      | prim _ hprim =>
        refine ⟨[], VTree.prim _ hprim, HInv.prim _ _ _ _ _ hna, List.nodup_nil,
          by simp, fun x _ => rfl, ?_⟩
        intro aR oR hpr
        simp only [Handler.principal] at hpr
        rw [hpr] at hna
        simp [isAddr] at hna
      | obj a2 o2 fp ha2 hp2 =>
        simp [isAddr] at hna
    | obj a o =>
      rename_i hao hkm
      simp only [Handler.principal] at hv
      rcases VTree_addr_inv hv with ⟨o', trP, hao', hpt, htr⟩
      rw [hao] at hao'
      simp only [Option.some.injEq] at hao'
      subst hao'
      subst htr
      have hres := ih (KidsWF_of_TreeWF hwf) (by simpa [Handler.keyMap] using hwf.nodupKeys)
        a o rfl hao trP ex hpt hkm hnd heap₀ km₀ none hkids rfl
      obtain ⟨o'', trP'', hao'', hpt'', hnd'', hss'', hkmF, _, _, _, hframe'', hdelF⟩ := hres
      refine ⟨a :: trP'', ?_, ?_, ?_, ?_, ?_, ?_⟩
      · simp only [Handler.principal]
        exact VTree.obj a o'' trP'' hao'' hpt''
      · exact HInv.obj a o'' s d false b km₀ [] hao'' hkmF
      · refine List.nodup_cons.mpr ⟨?_, hnd''⟩
        intro hc
        exact (List.nodup_cons.mp hnd).1 (hss'' a hc)
      · intro x hx
        rcases List.mem_cons.mp hx with hx | hx
        · subst hx
          exact List.mem_append_left _ (List.mem_cons_self _ _)
        · rcases List.mem_append.mp (hss'' x hx) with hx' | hx'
          · exact List.mem_append_left _ (List.mem_cons_of_mem _ hx')
          · exact List.mem_append_right _ hx'
      · intro x hx
        refine hframe'' x ?_ ?_ ?_
        · intro hxa
          exact hx (hxa ▸ List.mem_append_left _ (List.mem_cons_self _ _))
        · intro hc
          exact hx (List.mem_append_right _ hc)
        · intro kc hm pp sub hop' hsv hxin
          rcases PTree_at_key hpt kc.1 pp hop' with ⟨sub₀, hsub₀, hsl₀⟩
          have hsse : sub = sub₀ := VTree_unique hsv hsub₀
          subst hsse
          exact hx (List.mem_append_left _ (List.mem_cons_of_mem _ (hsl₀.subset hxin)))
      · intro aR oR hpr hao2 hpnd kD cD hm hDel
        have haR : a = aR := by
          simpa [Handler.principal] using hpr
        subst haR
        rw [hao] at hao2
        simp only [Option.some.injEq] at hao2
        subst hao2
        exact ⟨o'', hao'', hdelF hpnd kD cD (by simpa [Handler.keyMap] using hm) hDel⟩
  · -- commitNode, object principal, kids fail
    intro heap p s d ch b km htype heap₀ km₀ e₀ hkids ih hwf tr ex hv hi hnd
      heap' h' e hcommit he
    simp only [commitNode, if_pos htype, hkids] at hcommit
    simp only [Prod.mk.injEq] at hcommit
    rw [← hcommit.2.2] at he
    simp at he
  · -- commitNode, non-object principal
    intro heap p s d ch b km htype hwf tr ex hv hi hnd heap' h' e hcommit he
    simp only [commitNode, if_neg htype] at hcommit
    simp only [Prod.mk.injEq] at hcommit
    rw [← hcommit.2.2] at he
    simp at he
  · -- commitKids, nil
    intro heap pv hkwf hknd a o hpv hao trP exK hpt hkm hnd heap' km' e hck he
    simp only [commitKids, Prod.mk.injEq] at hck
    obtain ⟨he1, he2, he3⟩ := hck
    subst he1
    rw [← he2]
    cases hkm with
    | nil =>
      refine ⟨o, trP, hao, hpt, ?_, fun b hb => List.mem_append_left _ hb,
        KMInv.nil o, fun _ _ => rfl, rfl, rfl, fun _ _ _ _ => rfl,
        fun _ kD cD hm _ => absurd hm (List.not_mem_nil _)⟩
      exact (List.nodup_append.mp ((List.nodup_cons.mp hnd).2)).1
  · -- commitKids, recursion on head errors
    intro heap pv k c rest r heap₁ c₁ e₀ hr ihm1 hkwf hknd a o hpv hao trP exK hpt hkm hnd
      heap' km' e hck he
    have hrd : r = if c.changed = true then commitNode heap c else (heap, c, none) := rfl
    rw [hrd] at hr
    by_cases hch : c.changed = true
    · rw [if_pos hch] at hr
      simp only [commitKids, hrd, if_pos hch, hr] at hck
      simp only [Prod.mk.injEq] at hck
      rw [← hck.2.2] at he
      simp at he
    · rw [if_neg hch] at hr
      simp at hr
  · -- commitKids, head DELETED, principal delete succeeds: evict and continue
    intro heap pv k c rest r heap₁ c₁ hr hst heap₂ hdel ihm1 ihm2 hkwf hknd a o hpv hao
      trP exK hpt hkm hnd heap' km' e hck he
    subst hpv
    have hrd : r = if c.changed = true then commitNode heap c else (heap, c, none) := rfl
    rw [hrd] at hr
    have hwfc : TreeWF c := (hkwf (k, c) (List.mem_cons_self _ _)).2.2.2
    have hchst : c.propertyState = some PState.DELETED ∧ heap₁ = heap ∧ c₁ = c := by
      by_cases hch : c.changed = true
      · rw [if_pos hch] at hr
        have hT := commit_TreeWF heap c hwfc heap₁ c₁ none hr
        have hcst : c.propertyState = some PState.DELETED := by
          rw [← hT.2.2.1]
          exact hst
        have hdd := (hkwf (k, c) (List.mem_cons_self _ _)).2.2.1 hcst
        rw [hdd.2.2] at hch
        simp at hch
      · rw [if_neg hch] at hr
        simp only [Prod.mk.injEq] at hr
        exact ⟨by rw [hr.2.1]; exact hst, hr.1.symm, hr.2.1.symm⟩
    obtain ⟨hcDel, hh₁, hc₁⟩ := hchst
    rw [hh₁] at hdel
    simp only [commitKids, hrd, hr, hst, hh₁, hdel] at hck
    cases hkm with
    | retained _ _ _ _ p exc exB hop hpv' hstc hic hkmB =>
      rw [hcDel] at hstc
      simp at hstc
    | staged _ _ _ _ st trc exc exB hstc hdn hdi hni hvc hic hkmB =>
      rw [hcDel] at hstc
      simp only [Option.some.injEq] at hstc
      rcases hdn with hdd | hdd <;> rw [← hstc] at hdd <;> simp at hdd
    | deleted _ _ _ _ _ hstc hkmB =>
      have h2 := List.nodup_cons.mp hnd
      have g1 := nodup_parts h2.2
      have hamem : ∀ x, x ∈ trP ++ exK → x ≠ a := by
        intro x hx hxa
        subst hxa
        exact h2.1 hx
      simp only [heapDelete, hao] at hdel
      rcases hrd2 : reflectDelete o k with _ | o₂ <;> rw [hrd2] at hdel
      · simp at hdel
      simp only [Option.map_some', Option.some.injEq] at hdel
      have hdel2 : heap₂ = aupdate a o₂ heap := hdel.symm
      subst hdel2
      obtain ⟨trP₁, hpt₁, hndP₁, hssP₁⟩ :
          ∃ trP₁, PTree heap o₂.props trP₁ ∧ trP₁.Nodup
            ∧ (∀ x, x ∈ trP₁ → x ∈ trP) := by
        simp only [reflectDelete] at hrd2
        rcases hop : ownProp o k with _ | p <;> rw [hop] at hrd2 <;> simp only [] at hrd2
        · simp only [Option.some.injEq] at hrd2
          subst hrd2
          exact ⟨trP, hpt, g1.1, fun x hx => hx⟩
        · by_cases hcf : p.configurable = true
          · rw [if_pos hcf] at hrd2
            simp only [Option.some.injEq] at hrd2
            subst hrd2
            rcases PTree_aremove hpt g1.1 k with ⟨trP₁, hpt₁, hnd₁, hss₁⟩
            exact ⟨trP₁, hpt₁, hnd₁, hss₁⟩
          · rw [if_neg hcf] at hrd2
            simp at hrd2
      have hdo := reflectDelete_other o k o₂ hrd2
      have hjs : ∀ k', k' ≠ k → jsIn o₂ k' = jsIn o k' := by
        intro k' hne
        simp only [jsIn, hasOwn, hdo.1 k' hne, hdo.2.1]
      have hano₁ : a ∉ trP₁ := fun hc => hamem a (List.mem_append_left _ (hssP₁ a hc)) rfl
      have hao₂ : alook a (aupdate a o₂ heap) = some o₂ := alook_aupdate_self hao o₂
      have hup_other : ∀ x, x ≠ a → alook x (aupdate a o₂ heap) = alook x heap := by
        intro x hx
        exact alook_aupdate_other heap a x (fun hc => hx hc.symm) o₂
      have hpt₂ : PTree (aupdate a o₂ heap) o₂.props trP₁ := by
        refine PTree_frame hpt₁ _ ?_
        intro x hx
        exact hup_other x (fun hxa => hano₁ (hxa ▸ hx))
      have hknd' : k ∉ rest.map Prod.fst :=
        (List.nodup_cons.mp (by simpa using hknd)).1
      have hkeyne : ∀ kc, kc ∈ rest → kc.1 ≠ k := by
        intro kc hm hc
        exact hknd' (hc ▸ List.mem_map.mpr ⟨kc, hm, rfl⟩)
      have hkmR : KMInv (aupdate a o₂ heap) o₂ rest exK := by
        refine KMInv_retarget (KMInv_frame hkmB ?_ ?_) ?_
        · intro x hx
          exact hup_other x (fun hxa => hamem a (hxa ▸ List.mem_append_right _ hx) rfl)
        · intro k' c' p' hm hst' hop'
          rcases PTree_at_key hpt k' p' hop' with ⟨sub, hsubv, hsubsl⟩
          refine ⟨sub, hsubv, ?_⟩
          intro x hx
          exact hup_other x
            (fun hxa => hamem a (hxa ▸ List.mem_append_left _ (hsubsl.subset hx)) rfl)
        · intro k' hex
          rcases hex with ⟨c', hm⟩
          have hne := hkeyne (k', c') hm
          exact ⟨hdo.1 k' hne, hjs k' hne⟩
      have hnd₂ : (a :: (trP₁ ++ exK)).Nodup := by
        refine List.nodup_cons.mpr ⟨?_, ?_⟩
        · intro hc
          rcases List.mem_append.mp hc with hc | hc
          · exact hano₁ hc
          · exact hamem a (List.mem_append_right _ hc) rfl
        · refine List.nodup_append.mpr ⟨hndP₁, g1.2.1, ?_⟩
          intro x hx hc
          exact g1.2.2 x (hssP₁ x hx) hc
      have hrestK : KidsWF rest := fun kc hm => hkwf kc (List.mem_cons_of_mem _ hm)
      have hrestKnd : (rest.map Prod.fst).Nodup :=
        (List.nodup_cons.mp (by simpa using hknd)).2
      have hres := ihm2 hrestK hrestKnd a o₂ rfl hao₂ trP₁ exK hpt₂ hkmR hnd₂
        heap' km' e hck he
      obtain ⟨o'', trP'', hao'', hpt'', hnd'', hss'', hkmF, hopF, hproto'',
        hext'', hframe'', hdelF⟩ := hres
      refine ⟨o'', trP'', hao'', hpt'', hnd'', ?_, hkmF, ?_, ?_, ?_, ?_, ?_⟩
      · intro x hx
        rcases List.mem_append.mp (hss'' x hx) with hx' | hx'
        · exact List.mem_append_left _ (hssP₁ x hx')
        · exact List.mem_append_right _ hx'
      · intro k' hout
        have hnk : k' ≠ k := fun hc => hout c (hc ▸ List.mem_cons_self _ _)
        rw [hopF k' (fun c' hm => hout c' (List.mem_cons_of_mem _ hm)), hdo.1 k' hnk]
      · rw [hproto'', hdo.2.1]
      · rw [hext'', hdo.2.2]
      · intro x hxa hxex hpieces
        have hx₂ : alook x (aupdate a o₂ heap) = alook x heap := hup_other x hxa
        rw [← hx₂]
        refine hframe'' x hxa hxex ?_
        intro kc hm pp sub hop' hsv hxin
        have hne := hkeyne kc hm
        have hopO : ownProp o kc.1 = some pp := by
          rw [← hdo.1 kc.1 hne]
          exact hop'
        rcases PTree_at_key hpt kc.1 pp hopO with ⟨sub₀, hsub₀, hsl₀⟩
        have hsub₀' : VTree (aupdate a o₂ heap) pp.value sub₀ := by
          refine VTree_frame hsub₀ _ ?_
          intro y hy
          exact hup_other y
            (fun hya => hamem a (hya ▸ List.mem_append_left _ (hsl₀.subset hy)) rfl)
        have hsse : sub = sub₀ := VTree_unique hsv hsub₀'
        subst hsse
        exact hpieces kc (List.mem_cons_of_mem _ hm) pp sub hopO hsub₀ hxin
      · intro hpnd kD cD hm hDel
        rcases List.mem_cons.mp hm with hm | hm
        · have hkD : kD = k := by simpa using congrArg Prod.fst hm
          rw [hkD]
          rw [hopF k (fun c'' hm'' => hkeyne (k, c'') hm'' rfl)]
          simp only [reflectDelete] at hrd2
          rcases hop : ownProp o k with _ | p <;> rw [hop] at hrd2 <;>
            simp only [] at hrd2
          · simp only [Option.some.injEq] at hrd2
            rw [← hrd2]
            exact hop
          · by_cases hcf : p.configurable = true
            · rw [if_pos hcf] at hrd2
              simp only [Option.some.injEq] at hrd2
              rw [← hrd2]
              exact alook_aremove_self hpnd k
            · rw [if_neg hcf] at hrd2
              simp at hrd2
        · exact hdelF (reflectDelete_HeapWF hrd2 hpnd) kD cD hm hDel
  · -- commitKids, head DELETED, principal delete fails
    intro heap pv k c rest r heap₁ c₁ hr hst hdel ihm1 hkwf hknd a o hpv hao
      trP exK hpt hkm hnd heap' km' e hck he
    have hrd : r = if c.changed = true then commitNode heap c else (heap, c, none) := rfl
    rw [hrd] at hr
    simp only [commitKids, hrd, hr, hst, hdel] at hck
    simp only [Prod.mk.injEq] at hck
    rw [← hck.2.2] at he
    simp at he
  · -- commitKids, head DIRTY, set succeeds
    intro heap pv k c rest r heap₁ c₁ hr hst heap₂ hset heap₃ km₃ e₃ hck₃ ihm1 ihm2
      hkwf hknd a o hpv hao trP exK hpt hkm hnd heap' km' e hck he
    subst hpv
    have hrd : r = if c.changed = true then commitNode heap c else (heap, c, none) := rfl
    rw [hrd] at hr
    simp only [commitKids, hrd, hr, hst, hset, hck₃] at hck
    simp only [Prod.mk.injEq] at hck
    obtain ⟨hE1, hE2, hE3⟩ := hck
    subst hE1
    rw [← hE3] at he
    subst he
    rw [← hE2]
    have hwfc : TreeWF c := (hkwf (k, c) (List.mem_cons_self _ _)).2.2.2
    have hchead : c₁.principal = c.principal ∧ c₁.propertyState = c.propertyState := by
      by_cases hch : c.changed = true
      · rw [if_pos hch] at hr
        have := commit_TreeWF heap c hwfc heap₁ c₁ none hr
        exact ⟨this.2.1, this.2.2.1⟩
      · rw [if_neg hch] at hr
        simp only [Prod.mk.injEq] at hr
        rw [← hr.2.1]
        exact ⟨rfl, rfl⟩
    have hcst : c.propertyState = some PState.DIRTY := by
      rw [← hchead.2]
      exact hst
    cases hkm with
    | retained _ _ _ _ p exc exB hop hpv' hstc hic hkmB =>
      rw [hcst] at hstc
      simp at hstc
    | deleted _ _ _ _ _ hstc hkmB =>
      rw [hcst] at hstc
      simp at hstc
    | staged _ _ _ _ st trc exc exB hstc hdn hdi hni hvc hic hkmB =>
      have h2 := List.nodup_cons.mp hnd
      have g1 := nodup_parts h2.2
      have g2 := nodup_parts g1.2.1
      have g3 := nodup_parts g2.2.1
      have hamem : ∀ x, x ∈ trP ++ (trc ++ (exc ++ exB)) → x ≠ a := by
        intro x hx hxa
        subst hxa
        exact h2.1 hx
      have hND : (trc ++ exc).Nodup :=
        List.Nodup.sublist
          ((List.Sublist.refl trc).append (List.sublist_append_left exc exB)) g1.2.1
      have hheadInv : ∃ trc', VTree heap₁ c₁.principal trc' ∧ HInv heap₁ c₁ []
          ∧ trc'.Nodup ∧ (∀ x, x ∈ trc' → x ∈ trc ++ exc)
          ∧ (∀ x, x ∉ trc ++ exc → alook x heap₁ = alook x heap) := by
        by_cases hch : c.changed = true
        · rw [if_pos hch] at hr
          obtain ⟨trc', hA1, hA2, hA3, hA4, hA5, _⟩ :=
            ihm1 hwfc trc exc hvc hic hND heap₁ c₁ none hr rfl
          exact ⟨trc', hA1, hA2, hA3, hA4, hA5⟩
        · rw [if_neg hch] at hr
          simp only [Prod.mk.injEq] at hr
          obtain ⟨hr1, hr2, hr3⟩ := hr
          subst hr1
          rw [← hr2]
          have hq : Quiescent c := quiescent_of_unchanged c hwfc (by simpa using hch)
          have hexc : exc = [] := HInv_quiescent_nil c hq hic
          subst hexc
          exact ⟨trc, hvc, hic, by simpa using hND,
            fun x hx => List.mem_append_left _ hx, fun x _ => rfl⟩
      obtain ⟨trc', hvC, hiC, hndC, hssC, hframeC⟩ := hheadInv
      have hssC2 : ∀ x, x ∈ trc' → x ∈ trc ++ (exc ++ exB) := by
        intro x hx
        rcases List.mem_append.mp (hssC x hx) with hx | hx
        · exact List.mem_append_left _ hx
        · exact List.mem_append_right _ (List.mem_append_left _ hx)
      have hano : a ∉ trc ++ exc := by
        intro hc
        rcases List.mem_append.mp hc with hc | hc
        · exact hamem a (List.mem_append_right _ (List.mem_append_left _ hc)) rfl
        · exact hamem a (List.mem_append_right _
            (List.mem_append_right _ (List.mem_append_left _ hc))) rfl
      have hao₁ : alook a heap₁ = some o := by
        rw [hframeC a hano]
        exact hao
      simp only [heapSet, hao₁] at hset
      rcases hrs : reflectSet o k c₁.principal with _ | o₁ <;> rw [hrs] at hset
      · simp at hset
      simp only [Option.map_some', Option.some.injEq] at hset
      have hset2 : heap₂ = aupdate a o₁ heap₁ := hset.symm
      subst hset2
      have hptA : PTree heap₁ o.props trP := by
        refine PTree_frame hpt heap₁ ?_
        intro x hx
        refine hframeC x ?_
        intro hc
        rcases List.mem_append.mp hc with hc | hc
        · exact g1.2.2 x hx (List.mem_append_left _ hc)
        · exact g1.2.2 x hx (List.mem_append_right _ (List.mem_append_left _ hc))
      have hdisjC : ∀ x, x ∈ trc' → x ∉ trP := by
        intro x hx hxP
        rcases List.mem_append.mp (hssC x hx) with hc | hc
        · exact g1.2.2 x hxP (List.mem_append_left _ hc)
        · exact g1.2.2 x hxP (List.mem_append_right _ (List.mem_append_left _ hc))
      obtain ⟨trP₁, hpt₁, hndP₁, hssP₁⟩ :
          ∃ trP₁, PTree heap₁ o₁.props trP₁ ∧ trP₁.Nodup
            ∧ (∀ x, x ∈ trP₁ → x ∈ trP ∨ x ∈ trc') := by
        simp only [reflectSet] at hrs
        rcases hop : ownProp o k with _ | p <;> rw [hop] at hrs <;> simp only [] at hrs
        · by_cases hext : o.extensible = true
          · rw [if_pos hext] at hrs
            simp only [Option.some.injEq] at hrs
            subst hrs
            have hsingle : PTree heap₁ [(k, ⟨c₁.principal, true, true, true⟩)] (trc' ++ []) :=
              PTree.cons k _ [] trc' [] hvC PTree.nil
            refine ⟨trP ++ (trc' ++ []), PTree_append hptA hsingle, ?_, ?_⟩
            · simp only [List.append_nil]
              refine List.nodup_append.mpr ⟨g1.1, hndC, ?_⟩
              intro x hx hc
              exact hdisjC x hc hx
            · intro x hx
              simp only [List.append_nil] at hx
              rcases List.mem_append.mp hx with hx | hx
              · exact Or.inl hx
              · exact Or.inr hx
          · rw [if_neg hext] at hrs
            simp at hrs
        · by_cases hw : p.writable = true
          · rw [if_pos hw] at hrs
            simp only [Option.some.injEq] at hrs
            subst hrs
            rcases PTree_at_key hptA k p hop with ⟨subk, hsubk, hsubksl⟩
            rcases PTree_aupdate hptA g1.1 k p hop hsubk
              ⟨c₁.principal, p.writable, p.enumerable, p.configurable⟩ hvC hndC hdisjC
              with ⟨trP₁, hpt₁, hnd₁, hss₁⟩
            exact ⟨trP₁, hpt₁, hnd₁,
              fun x hx => (hss₁ x hx).imp (fun hh => hh.1) (fun hh => hh)⟩
          · rw [if_neg hw] at hrs
            simp at hrs
      have hano₁ : a ∉ trP₁ := by
        intro hc
        rcases hssP₁ a hc with hc | hc
        · exact hamem a (List.mem_append_left _ hc) rfl
        · exact hano (hssC a hc)
      have hao₂ : alook a (aupdate a o₁ heap₁) = some o₁ := alook_aupdate_self hao₁ o₁
      have hup_other : ∀ x, x ≠ a → alook x (aupdate a o₁ heap₁) = alook x heap₁ := by
        intro x hx
        exact alook_aupdate_other heap₁ a x (fun hc => hx hc.symm) o₁
      have hpt₂ : PTree (aupdate a o₁ heap₁) o₁.props trP₁ := by
        refine PTree_frame hpt₁ _ ?_
        intro x hx
        exact hup_other x (fun hxa => hano₁ (hxa ▸ hx))
      have hvC₂ : VTree (aupdate a o₁ heap₁) c₁.principal trc' := by
        refine VTree_frame hvC _ ?_
        intro x hx
        exact hup_other x (fun hxa => hano (hxa ▸ hssC x hx))
      have hknd' : k ∉ rest.map Prod.fst :=
        (List.nodup_cons.mp (by simpa using hknd)).1
      have hkeyne : ∀ kc, kc ∈ rest → kc.1 ≠ k := by
        intro kc hm hc
        exact hknd' (hc ▸ List.mem_map.mpr ⟨kc, hm, rfl⟩)
      have hother := reflectSet_other o k c₁.principal o₁ hrs
      have hframe₁₂ : ∀ x, x ∉ trc ++ exc → x ≠ a →
          alook x (aupdate a o₁ heap₁) = alook x heap := by
        intro x hx hxa
        rw [hup_other x hxa]
        exact hframeC x hx
      have hkmR : KMInv (aupdate a o₁ heap₁) o₁ rest exB := by
        refine KMInv_retarget (KMInv_frame hkmB ?_ ?_) ?_
        · intro x hx
          refine hframe₁₂ x ?_ ?_
          · intro hc
            rcases List.mem_append.mp hc with hc | hc
            · exact g2.2.2 x hc (List.mem_append_right _ hx)
            · exact g3.2.2 x hc hx
          · intro hxa
            subst hxa
            exact hamem x (List.mem_append_right _ (List.mem_append_right _
              (List.mem_append_right _ hx))) rfl
        · intro k' c' p' hm hst' hop'
          rcases PTree_at_key hpt k' p' hop' with ⟨sub, hsubv, hsubsl⟩
          refine ⟨sub, hsubv, ?_⟩
          intro x hx
          refine hframe₁₂ x ?_ ?_
          · intro hc
            rcases List.mem_append.mp hc with hc | hc
            · exact g1.2.2 x (hsubsl.subset hx) (List.mem_append_left _ hc)
            · exact g1.2.2 x (hsubsl.subset hx)
                (List.mem_append_right _ (List.mem_append_left _ hc))
          · intro hxa
            exact hamem a (hxa ▸ List.mem_append_left _ (hsubsl.subset hx)) rfl
        · intro k' hex
          rcases hex with ⟨c', hm⟩
          have hne := hkeyne (k', c') hm
          exact ⟨hother.1 k' hne, hother.2.2.2 k' hne⟩
      have hnd₂ : (a :: (trP₁ ++ exB)).Nodup := by
        refine List.nodup_cons.mpr ⟨?_, ?_⟩
        · intro hc
          rcases List.mem_append.mp hc with hc | hc
          · exact hano₁ hc
          · exact hamem a (List.mem_append_right _ (List.mem_append_right _
              (List.mem_append_right _ hc))) rfl
        · refine List.nodup_append.mpr ⟨hndP₁, g3.2.1, ?_⟩
          intro x hx hc
          rcases hssP₁ x hx with hx' | hx'
          · exact g1.2.2 x hx' (List.mem_append_right _ (List.mem_append_right _ hc))
          · rcases List.mem_append.mp (hssC x hx') with hx'' | hx''
            · exact g2.2.2 x hx'' (List.mem_append_right _ hc)
            · exact g3.2.2 x hx'' hc
      have hrestK : KidsWF rest := fun kc hm => hkwf kc (List.mem_cons_of_mem _ hm)
      have hrestKnd : (rest.map Prod.fst).Nodup :=
        (List.nodup_cons.mp (by simpa using hknd)).2
      have hres := ihm2 hrestK hrestKnd a o₁ rfl hao₂ trP₁ exB hpt₂ hkmR hnd₂
        heap₃ km₃ none hck₃ rfl
      obtain ⟨o'', trP'', hao'', hpt'', hnd'', hss'', hkmF, hopF, hproto'',
        hext'', hframe'', hdelF⟩ := hres
      have hpieceT : ∀ kc, kc ∈ rest → ∀ pp sub, ownProp o₁ kc.1 = some pp →
          VTree (aupdate a o₁ heap₁) pp.value sub →
          sub.Sublist trP ∧ ownProp o kc.1 = some pp ∧ VTree heap pp.value sub := by
        intro kc hm pp sub hop' hsv
        have hne := hkeyne kc hm
        have hopO : ownProp o kc.1 = some pp := by
          rw [← hother.1 kc.1 hne]
          exact hop'
        rcases PTree_at_key hpt kc.1 pp hopO with ⟨sub₀, hsub₀, hsl₀⟩
        have hsub₀' : VTree (aupdate a o₁ heap₁) pp.value sub₀ := by
          refine VTree_frame hsub₀ _ ?_
          intro x hx
          refine hframe₁₂ x ?_ ?_
          · intro hc
            rcases List.mem_append.mp hc with hc | hc
            · exact g1.2.2 x (hsl₀.subset hx) (List.mem_append_left _ hc)
            · exact g1.2.2 x (hsl₀.subset hx)
                (List.mem_append_right _ (List.mem_append_left _ hc))
          · intro hxa
            exact hamem a (hxa ▸ List.mem_append_left _ (hsl₀.subset hx)) rfl
        have hsse : sub = sub₀ := VTree_unique hsv hsub₀'
        subst hsse
        exact ⟨hsl₀, hopO, hsub₀⟩
      have hiC₃ : HInv heap₃ c₁ [] := by
        have hiC₂ : HInv (aupdate a o₁ heap₁) c₁ [] := by
          refine HInv_frame hiC trc' hvC _ ?_
          intro x hx
          have hx' : x ∈ trc' := by simpa using hx
          exact hup_other x (fun hxa => hano (hxa ▸ hssC x hx'))
        refine HInv_frame hiC₂ trc' hvC₂ _ ?_
        intro x hx
        have hx' : x ∈ trc' := by simpa using hx
        refine hframe'' x ?_ ?_ ?_
        · intro hxa
          exact hano (hxa ▸ hssC x hx')
        · intro hc
          rcases List.mem_append.mp (hssC x hx') with hcc | hcc
          · exact g2.2.2 x hcc (List.mem_append_right _ hc)
          · exact g3.2.2 x hcc hc
        · intro kc hm pp sub hop' hsv hxin
          rcases hpieceT kc hm pp sub hop' hsv with ⟨hsl, _, _⟩
          rcases List.mem_append.mp (hssC x hx') with hcc | hcc
          · exact g1.2.2 x (hsl.subset hxin) (List.mem_append_left _ hcc)
          · exact g1.2.2 x (hsl.subset hxin)
              (List.mem_append_right _ (List.mem_append_left _ hcc))
      rcases reflectSet_self o k c₁.principal o₁ hrs with ⟨pk, hpk, hpkv⟩
      have hopk : ownProp o'' k = some pk := by
        rw [hopF k (fun c' hm => hkeyne (k, c') hm rfl)]
        exact hpk
      have hws := withState_fields c₁ (some PState.RETAINED)
      have hmid : KMInv heap₃ o'' ((k, c₁.withState (some PState.RETAINED)) :: km₃) [] := by
        have := @KMInv.retained heap₃ o'' k (c₁.withState (some PState.RETAINED))
          km₃ pk [] [] hopk (by rw [hpkv, hws.1]) hws.2.1
          (HInv_withState hiC₃ _) hkmF
        simpa using this
      refine ⟨o'', trP'', hao'', hpt'', hnd'', ?_, hmid, ?_, ?_, ?_, ?_, ?_⟩
      · intro x hx
        rcases List.mem_append.mp (hss'' x hx) with hx' | hx'
        · rcases hssP₁ x hx' with hx'' | hx''
          · exact List.mem_append_left _ hx''
          · exact List.mem_append_right _ (hssC2 x hx'')
        · exact List.mem_append_right _
            (List.mem_append_right _ (List.mem_append_right _ hx'))
      · intro k' hout
        have hnk : k' ≠ k := fun hc => hout c (hc ▸ List.mem_cons_self _ _)
        rw [hopF k' (fun c' hm => hout c' (List.mem_cons_of_mem _ hm)),
          hother.1 k' hnk]
      · rw [hproto'', hother.2.1]
      · rw [hext'', hother.2.2.1]
      · intro x hxa hxex hpieces
        have hx₂ : alook x (aupdate a o₁ heap₁) = alook x heap := by
          rw [hup_other x hxa]
          refine hframeC x ?_
          intro hc
          rcases List.mem_append.mp hc with hc | hc
          · exact hxex (List.mem_append_left _ hc)
          · exact hxex (List.mem_append_right _ (List.mem_append_left _ hc))
        rw [← hx₂]
        refine hframe'' x hxa ?_ ?_
        · intro hc
          exact hxex (List.mem_append_right _ (List.mem_append_right _ hc))
        · intro kc hm pp sub hop' hsv hxin
          rcases hpieceT kc hm pp sub hop' hsv with ⟨hsl, hopO, hsvO⟩
          exact hpieces kc (List.mem_cons_of_mem _ hm) pp sub hopO hsvO hxin
      · intro hpnd kD cD hm hDel
        rcases List.mem_cons.mp hm with hm | hm
        · have hcD : cD = c := by simpa using congrArg Prod.snd hm
          rw [hcD, hcst] at hDel
          simp at hDel
        · exact hdelF (reflectSet_HeapWF hrs hpnd) kD cD hm hDel

  · -- commitKids, head DIRTY, set fails
    intro heap pv k c rest r heap₁ c₁ hr hst hset ihm1 hkwf hknd a o hpv hao
      trP exK hpt hkm hnd heap' km' e hck he
    have hrd : r = if c.changed = true then commitNode heap c else (heap, c, none) := rfl
    rw [hrd] at hr
    simp only [commitKids, hrd, hr, hst, hset] at hck
    simp only [Prod.mk.injEq] at hck
    rw [← hck.2.2] at he
    simp at he
  · -- commitKids, head NEW, set succeeds
    intro heap pv k c rest r heap₁ c₁ hr hst heap₂ hset heap₃ km₃ e₃ hck₃ ihm1 ihm2
      hkwf hknd a o hpv hao trP exK hpt hkm hnd heap' km' e hck he
    subst hpv
    have hrd : r = if c.changed = true then commitNode heap c else (heap, c, none) := rfl
    rw [hrd] at hr
    simp only [commitKids, hrd, hr, hst, hset, hck₃] at hck
    simp only [Prod.mk.injEq] at hck
    obtain ⟨hE1, hE2, hE3⟩ := hck
    subst hE1
    rw [← hE3] at he
    subst he
    rw [← hE2]
    have hwfc : TreeWF c := (hkwf (k, c) (List.mem_cons_self _ _)).2.2.2
    have hchead : c₁.principal = c.principal ∧ c₁.propertyState = c.propertyState := by
      by_cases hch : c.changed = true
      · rw [if_pos hch] at hr
        have := commit_TreeWF heap c hwfc heap₁ c₁ none hr
        exact ⟨this.2.1, this.2.2.1⟩
      · rw [if_neg hch] at hr
        simp only [Prod.mk.injEq] at hr
        rw [← hr.2.1]
        exact ⟨rfl, rfl⟩
    have hcst : c.propertyState = some PState.NEW := by
      rw [← hchead.2]
      exact hst
    cases hkm with
    | retained _ _ _ _ p exc exB hop hpv' hstc hic hkmB =>
      rw [hcst] at hstc
      simp at hstc
    | deleted _ _ _ _ _ hstc hkmB =>
      rw [hcst] at hstc
      simp at hstc
    | staged _ _ _ _ st trc exc exB hstc hdn hdi hni hvc hic hkmB =>
      have h2 := List.nodup_cons.mp hnd
      have g1 := nodup_parts h2.2
      have g2 := nodup_parts g1.2.1
      have g3 := nodup_parts g2.2.1
      have hamem : ∀ x, x ∈ trP ++ (trc ++ (exc ++ exB)) → x ≠ a := by
        intro x hx hxa
        subst hxa
        exact h2.1 hx
      have hND : (trc ++ exc).Nodup :=
        List.Nodup.sublist
          ((List.Sublist.refl trc).append (List.sublist_append_left exc exB)) g1.2.1
      have hheadInv : ∃ trc', VTree heap₁ c₁.principal trc' ∧ HInv heap₁ c₁ []
          ∧ trc'.Nodup ∧ (∀ x, x ∈ trc' → x ∈ trc ++ exc)
          ∧ (∀ x, x ∉ trc ++ exc → alook x heap₁ = alook x heap) := by
        by_cases hch : c.changed = true
        · rw [if_pos hch] at hr
          obtain ⟨trc', hA1, hA2, hA3, hA4, hA5, _⟩ :=
            ihm1 hwfc trc exc hvc hic hND heap₁ c₁ none hr rfl
          exact ⟨trc', hA1, hA2, hA3, hA4, hA5⟩
        · rw [if_neg hch] at hr
          simp only [Prod.mk.injEq] at hr
          obtain ⟨hr1, hr2, hr3⟩ := hr
          subst hr1
          rw [← hr2]
          have hq : Quiescent c := quiescent_of_unchanged c hwfc (by simpa using hch)
          have hexc : exc = [] := HInv_quiescent_nil c hq hic
          subst hexc
          exact ⟨trc, hvc, hic, by simpa using hND,
            fun x hx => List.mem_append_left _ hx, fun x _ => rfl⟩
      obtain ⟨trc', hvC, hiC, hndC, hssC, hframeC⟩ := hheadInv
      have hssC2 : ∀ x, x ∈ trc' → x ∈ trc ++ (exc ++ exB) := by
        intro x hx
        rcases List.mem_append.mp (hssC x hx) with hx | hx
        · exact List.mem_append_left _ hx
        · exact List.mem_append_right _ (List.mem_append_left _ hx)
      have hano : a ∉ trc ++ exc := by
        intro hc
        rcases List.mem_append.mp hc with hc | hc
        · exact hamem a (List.mem_append_right _ (List.mem_append_left _ hc)) rfl
        · exact hamem a (List.mem_append_right _
            (List.mem_append_right _ (List.mem_append_left _ hc))) rfl
      have hao₁ : alook a heap₁ = some o := by
        rw [hframeC a hano]
        exact hao
      simp only [heapSet, hao₁] at hset
      rcases hrs : reflectSet o k c₁.principal with _ | o₁ <;> rw [hrs] at hset
      · simp at hset
      simp only [Option.map_some', Option.some.injEq] at hset
      have hset2 : heap₂ = aupdate a o₁ heap₁ := hset.symm
      subst hset2
      have hptA : PTree heap₁ o.props trP := by
        refine PTree_frame hpt heap₁ ?_
        intro x hx
        refine hframeC x ?_
        intro hc
        rcases List.mem_append.mp hc with hc | hc
        · exact g1.2.2 x hx (List.mem_append_left _ hc)
        · exact g1.2.2 x hx (List.mem_append_right _ (List.mem_append_left _ hc))
      have hdisjC : ∀ x, x ∈ trc' → x ∉ trP := by
        intro x hx hxP
        rcases List.mem_append.mp (hssC x hx) with hc | hc
        · exact g1.2.2 x hxP (List.mem_append_left _ hc)
        · exact g1.2.2 x hxP (List.mem_append_right _ (List.mem_append_left _ hc))
      obtain ⟨trP₁, hpt₁, hndP₁, hssP₁⟩ :
          ∃ trP₁, PTree heap₁ o₁.props trP₁ ∧ trP₁.Nodup
            ∧ (∀ x, x ∈ trP₁ → x ∈ trP ∨ x ∈ trc') := by
        simp only [reflectSet] at hrs
        rcases hop : ownProp o k with _ | p <;> rw [hop] at hrs <;> simp only [] at hrs
        · by_cases hext : o.extensible = true
          · rw [if_pos hext] at hrs
            simp only [Option.some.injEq] at hrs
            subst hrs
            have hsingle : PTree heap₁ [(k, ⟨c₁.principal, true, true, true⟩)] (trc' ++ []) :=
              PTree.cons k _ [] trc' [] hvC PTree.nil
            refine ⟨trP ++ (trc' ++ []), PTree_append hptA hsingle, ?_, ?_⟩
            · simp only [List.append_nil]
              refine List.nodup_append.mpr ⟨g1.1, hndC, ?_⟩
              intro x hx hc
              exact hdisjC x hc hx
            · intro x hx
              simp only [List.append_nil] at hx
              rcases List.mem_append.mp hx with hx | hx
              · exact Or.inl hx
              · exact Or.inr hx
          · rw [if_neg hext] at hrs
            simp at hrs
        · by_cases hw : p.writable = true
          · rw [if_pos hw] at hrs
            simp only [Option.some.injEq] at hrs
            subst hrs
            rcases PTree_at_key hptA k p hop with ⟨subk, hsubk, hsubksl⟩
            rcases PTree_aupdate hptA g1.1 k p hop hsubk
              ⟨c₁.principal, p.writable, p.enumerable, p.configurable⟩ hvC hndC hdisjC
              with ⟨trP₁, hpt₁, hnd₁, hss₁⟩
            exact ⟨trP₁, hpt₁, hnd₁,
              fun x hx => (hss₁ x hx).imp (fun hh => hh.1) (fun hh => hh)⟩
          · rw [if_neg hw] at hrs
            simp at hrs
      have hano₁ : a ∉ trP₁ := by
        intro hc
        rcases hssP₁ a hc with hc | hc
        · exact hamem a (List.mem_append_left _ hc) rfl
        · exact hano (hssC a hc)
      have hao₂ : alook a (aupdate a o₁ heap₁) = some o₁ := alook_aupdate_self hao₁ o₁
      have hup_other : ∀ x, x ≠ a → alook x (aupdate a o₁ heap₁) = alook x heap₁ := by
        intro x hx
        exact alook_aupdate_other heap₁ a x (fun hc => hx hc.symm) o₁
      have hpt₂ : PTree (aupdate a o₁ heap₁) o₁.props trP₁ := by
        refine PTree_frame hpt₁ _ ?_
        intro x hx
        exact hup_other x (fun hxa => hano₁ (hxa ▸ hx))
      have hvC₂ : VTree (aupdate a o₁ heap₁) c₁.principal trc' := by
        refine VTree_frame hvC _ ?_
        intro x hx
        exact hup_other x (fun hxa => hano (hxa ▸ hssC x hx))
      have hknd' : k ∉ rest.map Prod.fst :=
        (List.nodup_cons.mp (by simpa using hknd)).1
      have hkeyne : ∀ kc, kc ∈ rest → kc.1 ≠ k := by
        intro kc hm hc
        exact hknd' (hc ▸ List.mem_map.mpr ⟨kc, hm, rfl⟩)
      have hother := reflectSet_other o k c₁.principal o₁ hrs
      have hframe₁₂ : ∀ x, x ∉ trc ++ exc → x ≠ a →
          alook x (aupdate a o₁ heap₁) = alook x heap := by
        intro x hx hxa
        rw [hup_other x hxa]
        exact hframeC x hx
      have hkmR : KMInv (aupdate a o₁ heap₁) o₁ rest exB := by
        refine KMInv_retarget (KMInv_frame hkmB ?_ ?_) ?_
        · intro x hx
          refine hframe₁₂ x ?_ ?_
          · intro hc
            rcases List.mem_append.mp hc with hc | hc
            · exact g2.2.2 x hc (List.mem_append_right _ hx)
            · exact g3.2.2 x hc hx
          · intro hxa
            subst hxa
            exact hamem x (List.mem_append_right _ (List.mem_append_right _
              (List.mem_append_right _ hx))) rfl
        · intro k' c' p' hm hst' hop'
          rcases PTree_at_key hpt k' p' hop' with ⟨sub, hsubv, hsubsl⟩
          refine ⟨sub, hsubv, ?_⟩
          intro x hx
          refine hframe₁₂ x ?_ ?_
          · intro hc
            rcases List.mem_append.mp hc with hc | hc
            · exact g1.2.2 x (hsubsl.subset hx) (List.mem_append_left _ hc)
            · exact g1.2.2 x (hsubsl.subset hx)
                (List.mem_append_right _ (List.mem_append_left _ hc))
          · intro hxa
            exact hamem a (hxa ▸ List.mem_append_left _ (hsubsl.subset hx)) rfl
        · intro k' hex
          rcases hex with ⟨c', hm⟩
          have hne := hkeyne (k', c') hm
          exact ⟨hother.1 k' hne, hother.2.2.2 k' hne⟩
      have hnd₂ : (a :: (trP₁ ++ exB)).Nodup := by
        refine List.nodup_cons.mpr ⟨?_, ?_⟩
        · intro hc
          rcases List.mem_append.mp hc with hc | hc
          · exact hano₁ hc
          · exact hamem a (List.mem_append_right _ (List.mem_append_right _
              (List.mem_append_right _ hc))) rfl
        · refine List.nodup_append.mpr ⟨hndP₁, g3.2.1, ?_⟩
          intro x hx hc
          rcases hssP₁ x hx with hx' | hx'
          · exact g1.2.2 x hx' (List.mem_append_right _ (List.mem_append_right _ hc))
          · rcases List.mem_append.mp (hssC x hx') with hx'' | hx''
            · exact g2.2.2 x hx'' (List.mem_append_right _ hc)
            · exact g3.2.2 x hx'' hc
      have hrestK : KidsWF rest := fun kc hm => hkwf kc (List.mem_cons_of_mem _ hm)
      have hrestKnd : (rest.map Prod.fst).Nodup :=
        (List.nodup_cons.mp (by simpa using hknd)).2
      have hres := ihm2 hrestK hrestKnd a o₁ rfl hao₂ trP₁ exB hpt₂ hkmR hnd₂
        heap₃ km₃ none hck₃ rfl
      obtain ⟨o'', trP'', hao'', hpt'', hnd'', hss'', hkmF, hopF, hproto'',
        hext'', hframe'', hdelF⟩ := hres
      have hpieceT : ∀ kc, kc ∈ rest → ∀ pp sub, ownProp o₁ kc.1 = some pp →
          VTree (aupdate a o₁ heap₁) pp.value sub →
          sub.Sublist trP ∧ ownProp o kc.1 = some pp ∧ VTree heap pp.value sub := by
        intro kc hm pp sub hop' hsv
        have hne := hkeyne kc hm
        have hopO : ownProp o kc.1 = some pp := by
          rw [← hother.1 kc.1 hne]
          exact hop'
        rcases PTree_at_key hpt kc.1 pp hopO with ⟨sub₀, hsub₀, hsl₀⟩
        have hsub₀' : VTree (aupdate a o₁ heap₁) pp.value sub₀ := by
          refine VTree_frame hsub₀ _ ?_
          intro x hx
          refine hframe₁₂ x ?_ ?_
          · intro hc
            rcases List.mem_append.mp hc with hc | hc
            · exact g1.2.2 x (hsl₀.subset hx) (List.mem_append_left _ hc)
            · exact g1.2.2 x (hsl₀.subset hx)
                (List.mem_append_right _ (List.mem_append_left _ hc))
          · intro hxa
            exact hamem a (hxa ▸ List.mem_append_left _ (hsl₀.subset hx)) rfl
        have hsse : sub = sub₀ := VTree_unique hsv hsub₀'
        subst hsse
        exact ⟨hsl₀, hopO, hsub₀⟩
      have hiC₃ : HInv heap₃ c₁ [] := by
        have hiC₂ : HInv (aupdate a o₁ heap₁) c₁ [] := by
          refine HInv_frame hiC trc' hvC _ ?_
          intro x hx
          have hx' : x ∈ trc' := by simpa using hx
          exact hup_other x (fun hxa => hano (hxa ▸ hssC x hx'))
        refine HInv_frame hiC₂ trc' hvC₂ _ ?_
        intro x hx
        have hx' : x ∈ trc' := by simpa using hx
        refine hframe'' x ?_ ?_ ?_
        · intro hxa
          exact hano (hxa ▸ hssC x hx')
        · intro hc
          rcases List.mem_append.mp (hssC x hx') with hcc | hcc
          · exact g2.2.2 x hcc (List.mem_append_right _ hc)
          · exact g3.2.2 x hcc hc
        · intro kc hm pp sub hop' hsv hxin
          rcases hpieceT kc hm pp sub hop' hsv with ⟨hsl, _, _⟩
          rcases List.mem_append.mp (hssC x hx') with hcc | hcc
          · exact g1.2.2 x (hsl.subset hxin) (List.mem_append_left _ hcc)
          · exact g1.2.2 x (hsl.subset hxin)
              (List.mem_append_right _ (List.mem_append_left _ hcc))
      rcases reflectSet_self o k c₁.principal o₁ hrs with ⟨pk, hpk, hpkv⟩
      have hopk : ownProp o'' k = some pk := by
        rw [hopF k (fun c' hm => hkeyne (k, c') hm rfl)]
        exact hpk
      have hws := withState_fields c₁ (some PState.RETAINED)
      have hmid : KMInv heap₃ o'' ((k, c₁.withState (some PState.RETAINED)) :: km₃) [] := by
        have := @KMInv.retained heap₃ o'' k (c₁.withState (some PState.RETAINED))
          km₃ pk [] [] hopk (by rw [hpkv, hws.1]) hws.2.1
          (HInv_withState hiC₃ _) hkmF
        simpa using this
      refine ⟨o'', trP'', hao'', hpt'', hnd'', ?_, hmid, ?_, ?_, ?_, ?_, ?_⟩
      · intro x hx
        rcases List.mem_append.mp (hss'' x hx) with hx' | hx'
        · rcases hssP₁ x hx' with hx'' | hx''
          · exact List.mem_append_left _ hx''
          · exact List.mem_append_right _ (hssC2 x hx'')
        · exact List.mem_append_right _
            (List.mem_append_right _ (List.mem_append_right _ hx'))
      · intro k' hout
        have hnk : k' ≠ k := fun hc => hout c (hc ▸ List.mem_cons_self _ _)
        rw [hopF k' (fun c' hm => hout c' (List.mem_cons_of_mem _ hm)),
          hother.1 k' hnk]
      · rw [hproto'', hother.2.1]
      · rw [hext'', hother.2.2.1]
      · intro x hxa hxex hpieces
        have hx₂ : alook x (aupdate a o₁ heap₁) = alook x heap := by
          rw [hup_other x hxa]
          refine hframeC x ?_
          intro hc
          rcases List.mem_append.mp hc with hc | hc
          · exact hxex (List.mem_append_left _ hc)
          · exact hxex (List.mem_append_right _ (List.mem_append_left _ hc))
        rw [← hx₂]
        refine hframe'' x hxa ?_ ?_
        · intro hc
          exact hxex (List.mem_append_right _ (List.mem_append_right _ hc))
        · intro kc hm pp sub hop' hsv hxin
          rcases hpieceT kc hm pp sub hop' hsv with ⟨hsl, hopO, hsvO⟩
          exact hpieces kc (List.mem_cons_of_mem _ hm) pp sub hopO hsvO hxin
      · intro hpnd kD cD hm hDel
        rcases List.mem_cons.mp hm with hm | hm
        · have hcD : cD = c := by simpa using congrArg Prod.snd hm
          rw [hcD, hcst] at hDel
          simp at hDel
        · exact hdelF (reflectSet_HeapWF hrs hpnd) kD cD hm hDel

  · -- commitKids, head NEW, set fails
    intro heap pv k c rest r heap₁ c₁ hr hst hset ihm1 hkwf hknd a o hpv hao
      trP exK hpt hkm hnd heap' km' e hck he
    have hrd : r = if c.changed = true then commitNode heap c else (heap, c, none) := rfl
    rw [hrd] at hr
    simp only [commitKids, hrd, hr, hst, hset] at hck
    simp only [Prod.mk.injEq] at hck
    rw [← hck.2.2] at he
    simp at he
  · -- commitKids, head RETAINED: continue
    intro heap pv k c rest r heap₁ c₁ hr heap₃ km₃ e₃ hck₃ hnds hndy hnn ihm1 ihm2
      hkwf hknd a o hpv hao trP exK hpt hkm hnd heap' km' e hck he
    subst hpv
    have hrd : r = if c.changed = true then commitNode heap c else (heap, c, none) := rfl
    rw [hrd] at hr
    have hwfc : TreeWF c := (hkwf (k, c) (List.mem_cons_self _ _)).2.2.2
    have hchead : c₁.principal = c.principal ∧ c₁.propertyState = c.propertyState := by
      by_cases hch : c.changed = true
      · rw [if_pos hch] at hr
        have := commit_TreeWF heap c hwfc heap₁ c₁ none hr
        exact ⟨this.2.1, this.2.2.1⟩
      · rw [if_neg hch] at hr
        simp only [Prod.mk.injEq] at hr
        rw [← hr.2.1]
        exact ⟨rfl, rfl⟩
    have hstR : c₁.propertyState = some PState.RETAINED := by
      have hsome : c₁.propertyState.isSome = true := by
        rw [hchead.2]
        exact (hkwf (k, c) (List.mem_cons_self _ _)).1
      rcases hs : c₁.propertyState with _ | st
      · rw [hs] at hsome
        simp at hsome
      · cases st with
        | RETAINED => rfl
        | NEW => exact absurd hs hnn
        | DIRTY => exact absurd hs hndy
        | DELETED => exact absurd hs hnds
    have hcst : c.propertyState = some PState.RETAINED := by
      rw [← hchead.2]
      exact hstR
    simp only [commitKids, hrd, hr, hstR, hck₃] at hck
    simp only [Prod.mk.injEq] at hck
    obtain ⟨hE1, hE2, hE3⟩ := hck
    subst hE1
    rw [← hE3] at he
    subst he
    rw [← hE2]
    cases hkm with
    | staged _ _ _ _ st trc exc exB hstc hdn hdi hni hvc hic hkmB =>
      rw [hcst] at hstc
      simp only [Option.some.injEq] at hstc
      rcases hdn with hdd | hdd <;> rw [← hstc] at hdd <;> simp at hdd
    | deleted _ _ _ _ _ hstc hkmB =>
      rw [hcst] at hstc
      simp at hstc
    | retained _ _ _ _ p exc exB hop hpv' hstc hic hkmB =>
      have h2 := List.nodup_cons.mp hnd
      have g1 := nodup_parts h2.2
      have g3 := nodup_parts g1.2.1
      have hamem : ∀ x, x ∈ trP ++ (exc ++ exB) → x ≠ a := by
        intro x hx hxa
        subst hxa
        exact h2.1 hx
      rcases PTree_at_key hpt k p hop with ⟨subk, hsubk, hsubksl⟩
      have hndsubk : subk.Nodup := List.Nodup.sublist hsubksl g1.1
      have hvck : VTree heap c.principal subk := hpv' ▸ hsubk
      have hND : (subk ++ exc).Nodup := by
        refine List.nodup_append.mpr ⟨hndsubk, g3.1, ?_⟩
        intro x hx hc
        exact g1.2.2 x (hsubksl.subset hx) (List.mem_append_left _ hc)
      have hheadInv : ∃ trc', VTree heap₁ c₁.principal trc' ∧ HInv heap₁ c₁ []
          ∧ trc'.Nodup ∧ (∀ x, x ∈ trc' → x ∈ subk ++ exc)
          ∧ (∀ x, x ∉ subk ++ exc → alook x heap₁ = alook x heap) := by
        by_cases hch : c.changed = true
        · rw [if_pos hch] at hr
          obtain ⟨trc', hA1, hA2, hA3, hA4, hA5, _⟩ :=
            ihm1 hwfc subk exc hvck hic hND heap₁ c₁ none hr rfl
          exact ⟨trc', hA1, hA2, hA3, hA4, hA5⟩
        · rw [if_neg hch] at hr
          simp only [Prod.mk.injEq] at hr
          obtain ⟨hr1, hr2, hr3⟩ := hr
          subst hr1
          rw [← hr2]
          have hq : Quiescent c := quiescent_of_unchanged c hwfc (by simpa using hch)
          have hexc : exc = [] := HInv_quiescent_nil c hq hic
          subst hexc
          exact ⟨subk, hvck, hic, hndsubk,
            fun x hx => List.mem_append_left _ hx, fun x _ => rfl⟩
      obtain ⟨trc', hvC, hiC, hndC, hssC, hframeC⟩ := hheadInv
      have hdisjC : ∀ x, x ∈ trc' → x ∈ trP → x ∈ subk := by
        intro x hx hxP
        rcases List.mem_append.mp (hssC x hx) with hc | hc
        · exact hc
        · exact absurd (List.mem_append_left _ hc) (fun hcc => g1.2.2 x hxP hcc)
      have hvCp : VTree heap₁ p.value trc' := by
        rw [hpv', ← hchead.1]
        exact hvC
      rcases PTree_replace_piece hpt g1.1 k p hop hsubk hvCp hndC hdisjC
        (by
          intro x hxP hxk
          refine hframeC x ?_
          intro hc
          rcases List.mem_append.mp hc with hc | hc
          · exact hxk hc
          · exact g1.2.2 x hxP (List.mem_append_left _ hc))
        with ⟨trP₁, hpt₁, hndP₁, hssP₁⟩
      have hano : a ∉ subk ++ exc := by
        intro hc
        rcases List.mem_append.mp hc with hc | hc
        · exact hamem a (List.mem_append_left _ (hsubksl.subset hc)) rfl
        · exact hamem a (List.mem_append_right _ (List.mem_append_left _ hc)) rfl
      have hao₁ : alook a heap₁ = some o := by
        rw [hframeC a hano]
        exact hao
      have hknd' : k ∉ rest.map Prod.fst :=
        (List.nodup_cons.mp (by simpa using hknd)).1
      have hkeyne : ∀ kc, kc ∈ rest → kc.1 ≠ k := by
        intro kc hm hc
        exact hknd' (hc ▸ List.mem_map.mpr ⟨kc, hm, rfl⟩)
      have hpieceRest : ∀ kc, kc ∈ rest → ∀ pp sub, ownProp o kc.1 = some pp →
          VTree heap pp.value sub → ∀ x, x ∈ sub → x ∉ subk ++ exc := by
        intro kc hm pp sub hop' hsv x hx hc
        rcases List.mem_append.mp hc with hc | hc
        · exact PTree_pieces_disjoint hpt g1.1 kc.1 k (hkeyne kc hm) pp p hop' hop
            hsv hsubk x hx hc
        · exact g1.2.2 x ((PTree_at_key hpt kc.1 pp hop').choose_spec.2.subset
            (by
              have hu := VTree_unique hsv (PTree_at_key hpt kc.1 pp hop').choose_spec.1
              rw [← hu]
              exact hx))
            (List.mem_append_left _ hc)
      have hkmR : KMInv heap₁ o rest exB := by
        refine KMInv_frame hkmB ?_ ?_
        · intro x hx
          refine hframeC x ?_
          intro hc
          rcases List.mem_append.mp hc with hc | hc
          · exact g1.2.2 x (hsubksl.subset hc) (List.mem_append_right _ hx)
          · exact g3.2.2 x hc hx
        · intro k' c' p' hm hst' hop'
          rcases PTree_at_key hpt k' p' hop' with ⟨sub, hsubv, hsubsl⟩
          refine ⟨sub, hsubv, ?_⟩
          intro x hx
          exact hframeC x (hpieceRest (k', c') hm p' sub hop' hsubv x hx)
      have hnd₂ : (a :: (trP₁ ++ exB)).Nodup := by
        refine List.nodup_cons.mpr ⟨?_, ?_⟩
        · intro hc
          rcases List.mem_append.mp hc with hc | hc
          · rcases hssP₁ a hc with ⟨hcc, _⟩ | hcc
            · exact hamem a (List.mem_append_left _ hcc) rfl
            · exact hano (hssC a hcc)
          · exact hamem a (List.mem_append_right _ (List.mem_append_right _ hc)) rfl
        · refine List.nodup_append.mpr ⟨hndP₁, g3.2.1, ?_⟩
          intro x hx hc
          rcases hssP₁ x hx with ⟨hxP, _⟩ | hxc
          · exact g1.2.2 x hxP (List.mem_append_right _ hc)
          · rcases List.mem_append.mp (hssC x hxc) with hx'' | hx''
            · exact g1.2.2 x (hsubksl.subset hx'') (List.mem_append_right _ hc)
            · exact g3.2.2 x hx'' hc
      have hrestK : KidsWF rest := fun kc hm => hkwf kc (List.mem_cons_of_mem _ hm)
      have hrestKnd : (rest.map Prod.fst).Nodup :=
        (List.nodup_cons.mp (by simpa using hknd)).2
      have hres := ihm2 hrestK hrestKnd a o rfl hao₁ trP₁ exB hpt₁ hkmR hnd₂
        heap₃ km₃ none hck₃ rfl
      obtain ⟨o'', trP'', hao'', hpt'', hnd'', hss'', hkmF, hopF, hproto'',
        hext'', hframe'', hdelF⟩ := hres
      have hpieceT : ∀ kc, kc ∈ rest → ∀ pp sub, ownProp o kc.1 = some pp →
          VTree heap₁ pp.value sub →
          VTree heap pp.value sub := by
        intro kc hm pp sub hop' hsv
        rcases PTree_at_key hpt kc.1 pp hop' with ⟨sub₀, hsub₀, hsl₀⟩
        have hsub₀' : VTree heap₁ pp.value sub₀ := by
          refine VTree_frame hsub₀ _ ?_
          intro x hx
          exact hframeC x (hpieceRest kc hm pp sub₀ hop' hsub₀ x hx)
        have hsse : sub = sub₀ := VTree_unique hsv hsub₀'
        subst hsse
        exact hsub₀
      have htrcnotrest : ∀ x, x ∈ trc' →
          (∀ kc, kc ∈ rest → ∀ pp sub, ownProp o kc.1 = some pp →
            VTree heap₁ pp.value sub → x ∉ sub) := by
        intro x hx kc hm pp sub hop' hsv hxin
        exact hpieceRest kc hm pp sub hop' (hpieceT kc hm pp sub hop' hsv) x hxin (hssC x hx)
      have hiC₃ : HInv heap₃ c₁ [] := by
        refine HInv_frame hiC trc' hvC _ ?_
        intro x hx
        have hx' : x ∈ trc' := by simpa using hx
        refine hframe'' x ?_ ?_ ?_
        · intro hxa
          exact hano (hxa ▸ hssC x hx')
        · intro hc
          rcases List.mem_append.mp (hssC x hx') with hcc | hcc
          · exact g1.2.2 x (hsubksl.subset hcc) (List.mem_append_right _ hc)
          · exact g3.2.2 x hcc hc
        · exact htrcnotrest x hx'
      have hopk : ownProp o'' k = some p := by
        rw [hopF k (fun c' hm => hkeyne (k, c') hm rfl)]
        exact hop
      have hmid : KMInv heap₃ o'' ((k, c₁) :: km₃) [] := by
        have := @KMInv.retained heap₃ o'' k c₁ km₃ p [] []
          hopk (by rw [hpv', hchead.1]) hstR hiC₃ hkmF
        simpa using this
      refine ⟨o'', trP'', hao'', hpt'', hnd'', ?_, hmid, ?_, ?_, ?_, ?_, ?_⟩
      · intro x hx
        rcases List.mem_append.mp (hss'' x hx) with hx' | hx'
        · rcases hssP₁ x hx' with ⟨hxP, _⟩ | hxc
          · exact List.mem_append_left _ hxP
          · rcases List.mem_append.mp (hssC x hxc) with hx'' | hx''
            · exact List.mem_append_left _ (hsubksl.subset hx'')
            · exact List.mem_append_right _ (List.mem_append_left _ hx'')
        · exact List.mem_append_right _ (List.mem_append_right _ hx')
      · intro k' hout
        exact hopF k' (fun c' hm => hout c' (List.mem_cons_of_mem _ hm))
      · exact hproto''
      · exact hext''
      · intro x hxa hxex hpieces
        have hxsub : x ∉ subk ++ exc := by
          intro hc
          rcases List.mem_append.mp hc with hc | hc
          · exact hpieces (k, c) (List.mem_cons_self _ _) p subk hop hsubk hc
          · exact hxex (List.mem_append_left _ hc)
        rw [← hframeC x hxsub]
        refine hframe'' x hxa ?_ ?_
        · intro hc
          exact hxex (List.mem_append_right _ hc)
        · intro kc hm pp sub hop' hsv hxin
          exact hpieces kc (List.mem_cons_of_mem _ hm) pp sub hop'
            (hpieceT kc hm pp sub hop' hsv) hxin
      · intro hpnd kD cD hm hDel
        rcases List.mem_cons.mp hm with hm | hm
        · have hcD : cD = c := by simpa using congrArg Prod.snd hm
          rw [hcD, hcst] at hDel
          simp at hDel
        · exact hdelF hpnd kD cD hm hDel

/-- A successful `commit()` at a node satisfies the action obligations. -/
theorem commitAct_ActInv (heap : Heap) : ActInv heap [] commitAct := by
  intro h clk heap' h' clk' flag hr hwf tr ex hv hi hnd
  simp only [commitAct] at hr
  rcases hg : commitNode heap h with ⟨heap₀, h₀, e⟩
  rw [hg] at hr
  cases e with
  | some e₀ => simp at hr
  | none =>
    simp only [Option.some.injEq, Prod.mk.injEq] at hr
    obtain ⟨hE1, hE2, hE3, hE4⟩ := hr
    subst hE1
    subst hE2
    subst hE3
    subst hE4
    have hnd' : (tr ++ ex).Nodup := by simpa using hnd
    rcases commit_HInv heap h hwf tr ex hv hi hnd' heap₀ h₀ none hg rfl with
      ⟨tr', hv', hi', hnd'', hss', hframe', _⟩
    have hown := commitNode_own heap h heap₀ h₀ none hg
    refine ⟨tr', [], hv', hi', hown.1, hown.2.1, ?_, ?_, hframe'⟩
    · intro x hx
      simp only [List.append_nil] at hx
      exact List.mem_append_left _ (hss' x hx)
    · simpa using hnd''

/-- Commit rewrites existing heap entries in place: the address list is
unchanged and per-object key well-formedness is preserved. -/
theorem commit_heap_keys : ∀ (heap : Heap) (h : Handler),
    ∀ heap' h' e, commitNode heap h = (heap', h', e) →
      heap'.map Prod.fst = heap.map Prod.fst ∧ (HeapWF heap → HeapWF heap') := by
  refine commitNode.induct
    (fun heap h => ∀ heap' h' e, commitNode heap h = (heap', h', e) →
      heap'.map Prod.fst = heap.map Prod.fst ∧ (HeapWF heap → HeapWF heap'))
    (fun heap pv km => ∀ heap' km' e, commitKids heap pv km = (heap', km', e) →
      heap'.map Prod.fst = heap.map Prod.fst ∧ (HeapWF heap → HeapWF heap'))
    ?_ ?_ ?_ ?_ ?_ ?_ ?_ ?_ ?_ ?_ ?_ ?_
  · intro heap p s d ch b km htype heap₀ km₀ hkids ih heap' h' e hcommit
    simp only [commitNode, if_pos htype, hkids] at hcommit
    simp only [Prod.mk.injEq] at hcommit
    rw [← hcommit.1]
    exact ih heap₀ km₀ none hkids
  · intro heap p s d ch b km htype heap₀ km₀ e₀ hkids ih heap' h' e hcommit
    simp only [commitNode, if_pos htype, hkids] at hcommit
    simp only [Prod.mk.injEq] at hcommit
    rw [← hcommit.1]
    exact ih heap₀ km₀ (some e₀) hkids
  · intro heap p s d ch b km htype heap' h' e hcommit
    simp only [commitNode, if_neg htype] at hcommit
    simp only [Prod.mk.injEq] at hcommit
    rw [← hcommit.1]
    exact ⟨rfl, fun hh => hh⟩
  · intro heap pv heap' km' e hck
    simp only [commitKids, Prod.mk.injEq] at hck
    rw [← hck.1]
    exact ⟨rfl, fun hh => hh⟩
  · intro heap pv k c rest r heap₁ c₁ e₀ hr ihm1 heap' km' e hck
    have hrd : r = if c.changed = true then commitNode heap c else (heap, c, none) := rfl
    rw [hrd] at hr
    by_cases hch : c.changed = true
    · rw [if_pos hch] at hr
      simp only [commitKids, hrd, if_pos hch, hr] at hck
      simp only [Prod.mk.injEq] at hck
      rw [← hck.1]
      exact ihm1 heap₁ c₁ (some e₀) hr
    · rw [if_neg hch] at hr
      simp at hr
  · intro heap pv k c rest r heap₁ c₁ hr hst heap₂ hdel ihm1 ihm2 heap' km' e hck
    have hrd : r = if c.changed = true then commitNode heap c else (heap, c, none) := rfl
    rw [hrd] at hr
    have hhead : heap₁.map Prod.fst = heap.map Prod.fst ∧ (HeapWF heap → HeapWF heap₁) := by
      by_cases hch : c.changed = true
      · rw [if_pos hch] at hr
        exact ihm1 heap₁ c₁ none hr
      · rw [if_neg hch] at hr
        simp only [Prod.mk.injEq] at hr
        rw [← hr.1]
        exact ⟨rfl, fun hh => hh⟩
    simp only [commitKids, hrd, hr, hst, hdel] at hck
    have hres := ihm2 heap' km' e hck
    simp only [heapDelete] at hdel
    rcases pv with _ | _ | _ | _ | _ | a | _ <;> try simp at hdel
    rcases hao : alook a heap₁ with _ | o <;> rw [hao] at hdel <;>
      simp only [] at hdel
    · simp at hdel
    rcases hrd2 : reflectDelete o k with _ | o₂ <;> rw [hrd2] at hdel
    · simp at hdel
    simp only [Option.map_some', Option.some.injEq] at hdel
    have hd2 : heap₂ = aupdate a o₂ heap₁ := hdel.symm
    subst hd2
    constructor
    · rw [hres.1, aupdate_map_fst, hhead.1]
    · intro hwf
      refine hres.2 ?_
      intro q hq
      rcases mem_aupdate hq with hq | hq
      · exact hhead.2 hwf q hq
      · subst hq
        exact reflectDelete_HeapWF hrd2 (hhead.2 hwf (a, o) (alook_mem hao))
  · intro heap pv k c rest r heap₁ c₁ hr hst hdel ihm1 heap' km' e hck
    have hrd : r = if c.changed = true then commitNode heap c else (heap, c, none) := rfl
    rw [hrd] at hr
    have hhead : heap₁.map Prod.fst = heap.map Prod.fst ∧ (HeapWF heap → HeapWF heap₁) := by
      by_cases hch : c.changed = true
      · rw [if_pos hch] at hr
        exact ihm1 heap₁ c₁ none hr
      · rw [if_neg hch] at hr
        simp only [Prod.mk.injEq] at hr
        rw [← hr.1]
        exact ⟨rfl, fun hh => hh⟩
    simp only [commitKids, hrd, hr, hst, hdel] at hck
    simp only [Prod.mk.injEq] at hck
    rw [← hck.1]
    exact hhead
  · intro heap pv k c rest r heap₁ c₁ hr hst heap₂ hset heap₃ km₃ e₃ hck₃ ihm1 ihm2
      heap' km' e hck
    have hrd : r = if c.changed = true then commitNode heap c else (heap, c, none) := rfl
    rw [hrd] at hr
    have hhead : heap₁.map Prod.fst = heap.map Prod.fst ∧ (HeapWF heap → HeapWF heap₁) := by
      by_cases hch : c.changed = true
      · rw [if_pos hch] at hr
        exact ihm1 heap₁ c₁ none hr
      · rw [if_neg hch] at hr
        simp only [Prod.mk.injEq] at hr
        rw [← hr.1]
        exact ⟨rfl, fun hh => hh⟩
    simp only [commitKids, hrd, hr, hst, hset, hck₃] at hck
    simp only [Prod.mk.injEq] at hck
    rw [← hck.1]
    have hres := ihm2 heap₃ km₃ e₃ hck₃
    simp only [heapSet] at hset
    rcases pv with _ | _ | _ | _ | _ | a | _ <;> try simp at hset
    rcases hao : alook a heap₁ with _ | o <;> rw [hao] at hset <;>
      simp only [] at hset
    · simp at hset
    rcases hrs : reflectSet o k c₁.principal with _ | o₂ <;> rw [hrs] at hset
    · simp at hset
    simp only [Option.map_some', Option.some.injEq] at hset
    have hs2 : heap₂ = aupdate a o₂ heap₁ := hset.symm
    subst hs2
    constructor
    · rw [hres.1, aupdate_map_fst, hhead.1]
    · intro hwf
      refine hres.2 ?_
      intro q hq
      rcases mem_aupdate hq with hq | hq
      · exact hhead.2 hwf q hq
      · subst hq
        exact reflectSet_HeapWF hrs (hhead.2 hwf (a, o) (alook_mem hao))
  · intro heap pv k c rest r heap₁ c₁ hr hst hset ihm1 heap' km' e hck
    have hrd : r = if c.changed = true then commitNode heap c else (heap, c, none) := rfl
    rw [hrd] at hr
    have hhead : heap₁.map Prod.fst = heap.map Prod.fst ∧ (HeapWF heap → HeapWF heap₁) := by
      by_cases hch : c.changed = true
      · rw [if_pos hch] at hr
        exact ihm1 heap₁ c₁ none hr
      · rw [if_neg hch] at hr
        simp only [Prod.mk.injEq] at hr
        rw [← hr.1]
        exact ⟨rfl, fun hh => hh⟩
    simp only [commitKids, hrd, hr, hst, hset] at hck
    simp only [Prod.mk.injEq] at hck
    rw [← hck.1]
    exact hhead
  · intro heap pv k c rest r heap₁ c₁ hr hst heap₂ hset heap₃ km₃ e₃ hck₃ ihm1 ihm2
      heap' km' e hck
    have hrd : r = if c.changed = true then commitNode heap c else (heap, c, none) := rfl
    rw [hrd] at hr
    have hhead : heap₁.map Prod.fst = heap.map Prod.fst ∧ (HeapWF heap → HeapWF heap₁) := by
      by_cases hch : c.changed = true
      · rw [if_pos hch] at hr
        exact ihm1 heap₁ c₁ none hr
      · rw [if_neg hch] at hr
        simp only [Prod.mk.injEq] at hr
        rw [← hr.1]
        exact ⟨rfl, fun hh => hh⟩
    simp only [commitKids, hrd, hr, hst, hset, hck₃] at hck
    simp only [Prod.mk.injEq] at hck
    rw [← hck.1]
    have hres := ihm2 heap₃ km₃ e₃ hck₃
    simp only [heapSet] at hset
    rcases pv with _ | _ | _ | _ | _ | a | _ <;> try simp at hset
    rcases hao : alook a heap₁ with _ | o <;> rw [hao] at hset <;>
      simp only [] at hset
    · simp at hset
    rcases hrs : reflectSet o k c₁.principal with _ | o₂ <;> rw [hrs] at hset
    · simp at hset
    simp only [Option.map_some', Option.some.injEq] at hset
    have hs2 : heap₂ = aupdate a o₂ heap₁ := hset.symm
    subst hs2
    constructor
    · rw [hres.1, aupdate_map_fst, hhead.1]
    · intro hwf
      refine hres.2 ?_
      intro q hq
      rcases mem_aupdate hq with hq | hq
      · exact hhead.2 hwf q hq
      · subst hq
        exact reflectSet_HeapWF hrs (hhead.2 hwf (a, o) (alook_mem hao))
  · intro heap pv k c rest r heap₁ c₁ hr hst hset ihm1 heap' km' e hck
    have hrd : r = if c.changed = true then commitNode heap c else (heap, c, none) := rfl
    rw [hrd] at hr
    have hhead : heap₁.map Prod.fst = heap.map Prod.fst ∧ (HeapWF heap → HeapWF heap₁) := by
      by_cases hch : c.changed = true
      · rw [if_pos hch] at hr
        exact ihm1 heap₁ c₁ none hr
      · rw [if_neg hch] at hr
        simp only [Prod.mk.injEq] at hr
        rw [← hr.1]
        exact ⟨rfl, fun hh => hh⟩
    simp only [commitKids, hrd, hr, hst, hset] at hck
    simp only [Prod.mk.injEq] at hck
    rw [← hck.1]
    exact hhead
  · intro heap pv k c rest r heap₁ c₁ hr heap₃ km₃ e₃ hck₃ hnds hndy hnn ihm1 ihm2
      heap' km' e hck
    have hrd : r = if c.changed = true then commitNode heap c else (heap, c, none) := rfl
    rw [hrd] at hr
    have hhead : heap₁.map Prod.fst = heap.map Prod.fst ∧ (HeapWF heap → HeapWF heap₁) := by
      by_cases hch : c.changed = true
      · rw [if_pos hch] at hr
        exact ihm1 heap₁ c₁ none hr
      · rw [if_neg hch] at hr
        simp only [Prod.mk.injEq] at hr
        rw [← hr.1]
        exact ⟨rfl, fun hh => hh⟩
    have hstR : c₁.propertyState = some PState.RETAINED ∨ c₁.propertyState = none := by
      rcases hs : c₁.propertyState with _ | st
      · exact Or.inr rfl
      · cases st with
        | RETAINED => exact Or.inl rfl
        | NEW => exact absurd hs hnn
        | DIRTY => exact absurd hs hndy
        | DELETED => exact absurd hs hnds
    have hckred : commitKids heap pv ((k, c) :: rest)
        = (heap₃, (k, c₁) :: km₃, e₃) := by
      rcases hstR with hs | hs <;>
        simp only [commitKids, hrd, hr, hs, hck₃]
    rw [hckred] at hck
    simp only [Prod.mk.injEq] at hck
    rw [← hck.1]
    have hres := ihm2 heap₃ km₃ e₃ hck₃
    exact ⟨hres.1.trans hhead.1, fun hwf => hres.2 (hhead.2 hwf)⟩

/-- Allocating a well-formed literal only adds objects with duplicate-free
own keys (mirroring the literal's keys exactly). -/
theorem allocProps_HeapWF : ∀ (heap : Heap) (n : Nat) (ps : List (String × VLit)),
    ∀ heap' n' out, allocProps heap n ps = (heap', n', out) →
      VLit.wfProps ps = true → HeapWF heap →
      HeapWF heap' ∧ out.map Prod.fst = ps.map Prod.fst := by
  refine allocProps.induct
    (fun heap n l => ∀ heap' n' v, allocLit heap n l = (heap', n', v) →
      l.wf = true → HeapWF heap → HeapWF heap')
    (fun heap n ps => ∀ heap' n' out, allocProps heap n ps = (heap', n', out) →
      VLit.wfProps ps = true → HeapWF heap →
      HeapWF heap' ∧ out.map Prod.fst = ps.map Prod.fst)
    ?_ ?_ ?_ ?_ ?_ ?_ ?_ ?_
  · intro heap n heap' n' v h _ hwf
    simp only [allocLit, Prod.mk.injEq] at h
    rw [← h.1]
    exact hwf
  · intro heap n heap' n' v h _ hwf
    simp only [allocLit, Prod.mk.injEq] at h
    rw [← h.1]
    exact hwf
  · intro heap n b heap' n' v h _ hwf
    simp only [allocLit, Prod.mk.injEq] at h
    rw [← h.1]
    exact hwf
  · intro heap n i heap' n' v h _ hwf
    simp only [allocLit, Prod.mk.injEq] at h
    rw [← h.1]
    exact hwf
  · intro heap n sv heap' n' v h _ hwf
    simp only [allocLit, Prod.mk.injEq] at h
    rw [← h.1]
    exact hwf
  · intro heap n props heap₁ n₁ ps hap ih heap' n' v h hlwf hwf
    simp only [VLit.wf, Bool.and_eq_true, decide_eq_true_eq] at hlwf
    have hres := ih heap₁ n₁ ps hap hlwf.2 hwf
    simp only [allocLit, hap, Prod.mk.injEq] at h
    rw [← h.1]
    intro q hq
    rcases List.mem_append.mp hq with hq | hq
    · exact hres.1 q hq
    · simp only [List.mem_singleton] at hq
      subst hq
      simpa [hres.2] using hlwf.1
  · intro heap n heap' n' out h _ hwf
    simp only [allocProps, Prod.mk.injEq] at h
    obtain ⟨h1, h2, h3⟩ := h
    subst h3
    rw [← h1]
    exact ⟨hwf, by simp⟩
  · intro heap n k l rest heap₁ n₁ v hal heap₂ n₂ ps hap ih₁ ih₂ heap' n' out h hlwf hwf
    simp only [VLit.wfProps, Bool.and_eq_true] at hlwf
    have hwf₁ := ih₁ heap₁ n₁ v hal hlwf.1 hwf
    have hres := ih₂ heap₂ n₂ ps hap hlwf.2 hwf₁
    simp only [allocProps, hal, hap, Prod.mk.injEq] at h
    obtain ⟨h1, h2, h3⟩ := h
    subst h3
    rw [← h1]
    exact ⟨hres.1, by simp [hres.2]⟩

theorem allocLit_HeapWF (heap : Heap) (n : Nat) (l : VLit)
    (heap' : Heap) (n' : Nat) (v : JVal) (hal : allocLit heap n l = (heap', n', v))
    (hlwf : l.wf = true) (hwf : HeapWF heap) : HeapWF heap' := by
  cases l with
  | vobj props =>
    rcases hap : allocProps heap n props with ⟨heap₁, n₁, ps⟩
    simp only [VLit.wf, Bool.and_eq_true, decide_eq_true_eq] at hlwf
    have hres := allocProps_HeapWF heap n props heap₁ n₁ ps hap hlwf.2 hwf
    simp only [allocLit, hap, Prod.mk.injEq] at hal
    rw [← hal.1]
    intro q hq
    rcases List.mem_append.mp hq with hq | hq
    · exact hres.1 q hq
    · simp only [List.mem_singleton] at hq
      subst hq
      simpa [hres.2] using hlwf.1
  | vundef =>
    simp only [allocLit, Prod.mk.injEq] at hal
    rw [← hal.1]
    exact hwf
  | vnull =>
    simp only [allocLit, Prod.mk.injEq] at hal
    rw [← hal.1]
    exact hwf
  | vbool bb =>
    simp only [allocLit, Prod.mk.injEq] at hal
    rw [← hal.1]
    exact hwf
  | vnum ii =>
    simp only [allocLit, Prod.mk.injEq] at hal
    rw [← hal.1]
    exact hwf
  | vstr ss =>
    simp only [allocLit, Prod.mk.injEq] at hal
    rw [← hal.1]
    exact hwf

/-- The action of a path application is invoked exactly once, on the same
heap the path started from. -/
theorem atPath_act_heap
    (act : Heap → Handler → Nat → Option (Heap × Handler × Nat × Bool)) :
    ∀ (path : List String) (heap : Heap) (h : Handler) (clk : Nat) r,
      atPath act path heap h clk = some r →
      ∃ h₀ clk₀ r₀, act heap h₀ clk₀ = some r₀ ∧ r₀.1 = r.1 := by
  intro path
  induction path with
  | nil =>
    intro heap h clk r hr
    exact ⟨h, clk, r, hr, rfl⟩
  | cons k rest ih =>
    intro heap h clk r hr
    simp only [atPath] at hr
    rcases hg : getOrRetainProperty heap h k clk with ⟨co, h₁, clk₁⟩
    rw [hg] at hr
    cases co with
    | none => simp at hr
    | some c =>
      simp only [] at hr
      by_cases hpr : isAddr c.principal = true
      · rw [if_pos hpr] at hr
        rcases hrec : atPath act rest heap c clk₁ with _ | r'
        · rw [hrec] at hr
          simp at hr
        · rw [hrec] at hr
          simp only [Option.some.injEq] at hr
          rcases ih heap c clk₁ r' hrec with ⟨h₀, clk₀, r₀, hact, hre⟩
          exact ⟨h₀, clk₀, r₀, hact, by rw [hre, ← hr]⟩
      · rw [if_neg hpr] at hr
        simp at hr

/-- The global invariant of every reachable staged-view state. -/
structure StInv (st : St) : Prop where
  twf : TreeWF st.root
  heapLt : ∀ q, q ∈ st.heap → q.1 < st.nextA
  propsWF : HeapWF st.heap
  tree : ∃ tr ex, VTree st.heap st.root.principal tr ∧ HInv st.heap st.root ex
    ∧ (tr ++ ex).Nodup ∧ (∀ b, b ∈ tr ++ ex → b < st.nextA)

/-- Every step of the surface semantics preserves the global invariant. -/
theorem step_StInv (st st' : St) (op : Op) (hinv : StInv st) (hs : step st op = some st') :
    StInv st' := by
  have htwf' : TreeWF st'.root := step_TreeWF st st' op hinv.twf hs
  rcases hinv.tree with ⟨tr, ex, hv, hi, hnd, hbd⟩
  cases op with
  | read path k =>
    simp only [step] at hs
    rcases hap : atPath (readAct k) path st.heap st.root st.clk with _ | r
    · rw [hap] at hs
      simp at hs
    rcases r with ⟨heap', h', clk', flag⟩
    rw [hap] at hs
    simp only [Option.map_some', Option.some.injEq] at hs
    subst hs
    have hconst : heap' = st.heap :=
      atPath_heap_const _ (readAct_heap_const k) path _ _ _ _ hap
    subst hconst
    rcases atPath_NodeInv st.heap [] (readAct k) (readAct_ActInv st.heap k)
      path st.root st.clk _ _ _ _ hap hinv.twf tr ex hv hi (by simpa using hnd) with
      ⟨tr', ex', hv', hi', _, _, hss', hnd', _⟩
    refine ⟨htwf', hinv.heapLt, hinv.propsWF, tr', ex', hv', hi', hnd', ?_⟩
    intro b hb
    have hmem := hss' b hb
    simp only [List.append_nil] at hmem
    exact hbd b hmem
  | del path k =>
    simp only [step] at hs
    rcases hap : atPath (delAct k) path st.heap st.root st.clk with _ | r
    · rw [hap] at hs
      simp at hs
    rcases r with ⟨heap', h', clk', flag⟩
    rw [hap] at hs
    simp only [Option.map_some', Option.some.injEq] at hs
    subst hs
    have hconst : heap' = st.heap :=
      atPath_heap_const _ (delAct_heap_const k) path _ _ _ _ hap
    subst hconst
    rcases atPath_NodeInv st.heap [] (delAct k) (delAct_ActInv st.heap k)
      path st.root st.clk _ _ _ _ hap hinv.twf tr ex hv hi (by simpa using hnd) with
      ⟨tr', ex', hv', hi', _, _, hss', hnd', _⟩
    refine ⟨htwf', hinv.heapLt, hinv.propsWF, tr', ex', hv', hi', hnd', ?_⟩
    intro b hb
    have hmem := hss' b hb
    simp only [List.append_nil] at hmem
    exact hbd b hmem
  | write path k v =>
    simp only [step] at hs
    by_cases hwfv : v.wf = true
    case neg =>
      rw [if_neg hwfv] at hs
      simp at hs
    rw [if_pos hwfv] at hs
    rcases hal : allocLit st.heap st.nextA v with ⟨heap₁, n₁, val⟩
    rw [hal] at hs
    simp only [] at hs
    rcases hap : atPath (writeAct k val) path heap₁ st.root st.clk with _ | r
    · rw [hap] at hs
      simp at hs
    rcases r with ⟨heap', h', clk', flag⟩
    rw [hap] at hs
    simp only [Option.map_some', Option.some.injEq] at hs
    subst hs
    have hconst : heap' = heap₁ :=
      atPath_heap_const _ (writeAct_heap_const k val) path _ _ _ _ hap
    subst hconst
    have hmono := allocLit_mono st.heap st.nextA v heap' n₁ val hal
    have hagree : ∀ b, b ∈ tr ++ ex → alook b heap' = alook b st.heap :=
      fun b hb => hmono.2.1 b (hbd b hb)
    have hv₁ : VTree heap' st.root.principal tr :=
      VTree_frame hv heap' (fun b hb => hagree b (List.mem_append_left _ hb))
    have hi₁ : HInv heap' st.root ex := HInv_frame hi tr hv heap' hagree
    rcases allocLit_VTree st.heap st.nextA v hinv.heapLt heap' n₁ val hal with
      ⟨fpv, hfv, hfnd, hfbd⟩
    have hndA : ((tr ++ ex) ++ fpv).Nodup := by
      refine List.nodup_append.mpr ⟨hnd, hfnd, ?_⟩
      intro x hx hc
      have h1 := hbd x hx
      have h2 := (hfbd x hc).1
      omega
    rcases atPath_NodeInv heap' fpv (writeAct k val)
      (writeAct_ActInv heap' k val fpv hfv)
      path st.root st.clk _ _ _ _ hap hinv.twf tr ex hv₁ hi₁ hndA with
      ⟨tr', ex', hv', hi', _, _, hss', hnd', _⟩
    refine ⟨htwf', ?_, ?_, tr', ex', hv', hi', hnd', ?_⟩
    · intro q hq
      rcases hmono.2.2 q hq with hq' | hq'
      · exact lt_of_lt_of_le (hinv.heapLt q hq') hmono.1
      · exact hq'.2
    · exact allocLit_HeapWF st.heap st.nextA v heap' n₁ val hal hwfv hinv.propsWF
    · intro b hb
      rcases List.mem_append.mp (hss' b hb) with hb' | hb'
      · exact lt_of_lt_of_le (hbd b hb') hmono.1
      · exact (hfbd b hb').2
  | commitAt path =>
    simp only [step] at hs
    rcases hap : atPath commitAct path st.heap st.root st.clk with _ | r
    · rw [hap] at hs
      simp at hs
    rcases r with ⟨heap', h', clk', flag⟩
    rw [hap] at hs
    simp only [Option.map_some', Option.some.injEq] at hs
    subst hs
    have hkeys : heap'.map Prod.fst = st.heap.map Prod.fst
        ∧ (HeapWF st.heap → HeapWF heap') := by
      rcases atPath_act_heap commitAct path st.heap st.root st.clk _ hap with
        ⟨h₀, clk₀, r₀, hact, hre⟩
      simp only [commitAct] at hact
      rcases hg : commitNode st.heap h₀ with ⟨heap₀, h₁, e⟩
      rw [hg] at hact
      cases e with
      | some e₀ => simp at hact
      | none =>
        simp only [Option.some.injEq] at hact
        have := commit_heap_keys st.heap h₀ heap₀ h₁ none hg
        rw [← hact] at hre
        simp only [] at hre
        rw [← hre]
        exact this
    rcases atPath_NodeInv st.heap [] commitAct (commitAct_ActInv st.heap)
      path st.root st.clk _ _ _ _ hap hinv.twf tr ex hv hi (by simpa using hnd) with
      ⟨tr', ex', hv', hi', _, _, hss', hnd', _⟩
    refine ⟨htwf', ?_, hkeys.2 hinv.propsWF, tr', ex', hv', hi', hnd', ?_⟩
    · intro q hq
      have hqk : q.1 ∈ st.heap.map Prod.fst := by
        rw [← hkeys.1]
        exact List.mem_map.mpr ⟨q, hq, rfl⟩
      rcases List.mem_map.mp hqk with ⟨q₀, hq₀, hqe⟩
      rw [← hqe]
      exact hinv.heapLt q₀ hq₀
    · intro b hb
      have hmem := hss' b hb
      simp only [List.append_nil] at hmem
      exact hbd b hmem

theorem run_StInv : ∀ (ops : List Op) (st₀ st : St), StInv st₀ →
    run st₀ ops = some st → StInv st := by
  intro ops
  induction ops with
  | nil =>
    intro st₀ st hinv hr
    simp only [run, Option.some.injEq] at hr
    rw [← hr]
    exact hinv
  | cons op rest ih =>
    intro st₀ st hinv hr
    simp only [run] at hr
    rcases hstep : step st₀ op with _ | st₁
    · rw [hstep] at hr
      simp at hr
    · rw [hstep] at hr
      simp only [Option.some_bind] at hr
      exact ih st₁ st (step_StInv st₀ st₁ op hinv hstep) hr

mutual
/-- Fueled computation of the live value tree rooted at a value: the
executable companion of `VTree`, used to check initial heaps. -/
def buildVT : Nat → Heap → JVal → Option (List Nat)
  | 0, _, _ => none
  | fuel + 1, heap, JVal.addr a =>
    match alook a heap with
    | some o => (buildProps fuel heap o.props).map (fun fp => a :: fp)
    | none => none
  | _ + 1, _, _ => some []
termination_by fuel _ _ => (fuel, 0)

def buildProps : Nat → Heap → List (String × JProp) → Option (List Nat)
  | _, _, [] => some []
  | fuel, heap, (_, p) :: rest =>
    (buildVT fuel heap p.value).bind fun fp₁ =>
      (buildProps fuel heap rest).map fun fp₂ => fp₁ ++ fp₂
termination_by fuel _ l => (fuel, l.length + 1)
end

theorem buildVT_sound : ∀ (fuel : Nat) (heap : Heap) (v : JVal) (fp : List Nat),
    buildVT fuel heap v = some fp → VTree heap v fp := by
  have main : ∀ (fuel : Nat),
      (∀ (heap : Heap) (v : JVal) (fp : List Nat),
        buildVT fuel heap v = some fp → VTree heap v fp)
      ∧ (∀ (heap : Heap) (l : List (String × JProp)) (fp : List Nat),
        buildProps fuel heap l = some fp → PTree heap l fp) := by
    intro fuel
    induction fuel with
    | zero =>
      constructor
      · intro heap v fp h
        simp [buildVT] at h
      · intro heap l fp h
        induction l generalizing fp with
        | nil =>
          simp only [buildProps, Option.some.injEq] at h
          rw [← h]
          exact PTree.nil
        | cons kp rest ih =>
          rcases kp with ⟨k, p⟩
          simp only [buildProps, buildVT] at h
          simp at h
    | succ m ih =>
      constructor
      · intro heap v fp h
        rcases v with _ | _ | bb | ii | ss | a | ff
        case addr =>
          simp only [buildVT] at h
          rcases hao : alook a heap with _ | o <;> rw [hao] at h <;>
            (try simp only [] at h)
          · simp at h
          rcases hbp : buildProps m heap o.props with _ | fp₂ <;> rw [hbp] at h
          · simp at h
          simp only [Option.map_some', Option.some.injEq] at h
          rw [← h]
          exact VTree.obj a o fp₂ hao (ih.2 heap o.props fp₂ hbp)
        all_goals
          simp only [buildVT, Option.some.injEq] at h
        all_goals rw [← h]
        all_goals exact VTree.prim _ (by intro x hc; cases hc)
      · intro heap l fp h
        induction l generalizing fp with
        | nil =>
          simp only [buildProps, Option.some.injEq] at h
          rw [← h]
          exact PTree.nil
        | cons kp rest ihl =>
          rcases kp with ⟨k, p⟩
          simp only [buildProps] at h
          rcases hbv : buildVT (m + 1) heap p.value with _ | fp₁ <;> rw [hbv] at h
          · simp at h
          rcases hbp : buildProps (m + 1) heap rest with _ | fp₂ <;> rw [hbp] at h
          · simp at h
          simp only [Option.some_bind, Option.map_some', Option.some.injEq] at h
          rw [← h]
          refine PTree.cons k p rest fp₁ fp₂ ?_ (ihl fp₂ hbp)
          -- buildVT at fuel m+1: this IS the outer fuel, use the first component
          exact (by
            rcases hpv : p.value with _ | _ | bb | ii | ss | a | ff <;> rw [hpv] at hbv
            case addr =>
              simp only [buildVT] at hbv
              rcases hao : alook a heap with _ | o <;> rw [hao] at hbv <;>
                (try simp only [] at hbv)
              · simp at hbv
              rcases hbp₂ : buildProps m heap o.props with _ | fp₃ <;> rw [hbp₂] at hbv
              · simp at hbv
              simp only [Option.map_some', Option.some.injEq] at hbv
              rw [← hbv]
              exact VTree.obj a o fp₃ hao (ih.2 heap o.props fp₃ hbp₂)
            all_goals
              simp only [buildVT, Option.some.injEq] at hbv
            all_goals rw [← hbv]
            all_goals exact VTree.prim _ (by intro x hc; cases hc))
  intro fuel heap v fp h
  exact (main fuel).1 heap v fp h

/-- Executable check that an initial heap is a valid staging target: keys
below the allocation pointer, duplicate-free own keys everywhere, and an
acyclic (finite, duplicate-free) live tree under the root address. -/
def initOK (heap₀ : Heap) (a n : Nat) : Bool :=
  heap₀.all (fun q => decide (q.1 < n) && decide ((q.2.props.map Prod.fst).Nodup)) &&
  (match buildVT (heap₀.length + 1) heap₀ (JVal.addr a) with
   | some fp => decide fp.Nodup && fp.all (fun b => decide (b < n))
   | none => false)

theorem initOK_StInv (heap₀ : Heap) (a n : Nat) (hok : initOK heap₀ a n = true) :
    StInv (mkInit heap₀ a n) := by
  simp only [initOK, Bool.and_eq_true, List.all_eq_true] at hok
  rcases hbv : buildVT (heap₀.length + 1) heap₀ (JVal.addr a) with _ | fp <;>
    rw [hbv] at hok
  · simp at hok
  simp only [Bool.and_eq_true, decide_eq_true_eq, List.all_eq_true] at hok
  have hvt := buildVT_sound _ _ _ _ hbv
  rcases VTree_addr_inv hvt with ⟨o, trP, hao, hpt, hfp⟩
  refine ⟨mkInit_TreeWF heap₀ a n, ?_, ?_, fp, [], ?_, ?_, ?_, ?_⟩
  · intro q hq
    exact (hok.1 q hq).1
  · intro q hq
    exact (hok.1 q hq).2
  · simpa [mkInit, Handler.principal] using hvt
  · simp only [mkInit]
    exact HInv.obj a o none none false 0 [] [] hao (KMInv.nil o)
  · simpa using hok.2.1
  · intro b hb
    simp only [List.append_nil] at hb
    exact hok.2.2 b hb

/-- Every state reachable by consumer operations from a `middleman` over a
valid initial heap satisfies the global invariant. -/
theorem reachable_StInv (heap₀ : Heap) (a n : Nat) (ops : List Op) (st : St)
    (hok : initOK heap₀ a n = true) (hr : run (mkInit heap₀ a n) ops = some st) :
    StInv st :=
  run_StInv ops (mkInit heap₀ a n) st (initOK_StInv heap₀ a n hok) hr

/-- The per-child processing step of `commitKids` keeps the child's
`principal` and `propertyState` fields. -/
theorem commit_step_own (heap : Heap) (c : Handler) (heap₁ : Heap) (c₁ : Handler)
    (e : Option MErr)
    (hr : (if c.changed = true then commitNode heap c else (heap, c, none))
      = (heap₁, c₁, e)) :
    c₁.principal = c.principal ∧ c₁.propertyState = c.propertyState := by
  by_cases hch : c.changed = true
  · rw [if_pos hch] at hr
    have hown := commitNode_own heap c heap₁ c₁ e hr
    exact ⟨hown.1, hown.2.1⟩
  · rw [if_neg hch] at hr
    simp only [Prod.mk.injEq] at hr
    rw [← hr.2.1]
    exact ⟨rfl, rfl⟩

/-- Pre/post key-map correspondence of `commit`: every surviving child key
existed before the commit and keeps the pre-commit child's principal value,
and on a successful commit every `DELETED` child's key is evicted from the
key map. -/
theorem commit_corr : ∀ (heap : Heap) (h : Handler),
    ∀ heap' h' e, commitNode heap h = (heap', h', e) →
      (∀ kc', kc' ∈ h'.keyMap → ∃ c₀, (kc'.1, c₀) ∈ h.keyMap ∧ kc'.2.principal = c₀.principal)
      ∧ (e = none → (h.keyMap.map Prod.fst).Nodup →
          ∀ k c, (k, c) ∈ h.keyMap → c.propertyState = some PState.DELETED →
            ∀ c', (k, c') ∉ h'.keyMap) := by
  refine commitNode.induct
    (fun heap h => ∀ heap' h' e, commitNode heap h = (heap', h', e) →
      (∀ kc', kc' ∈ h'.keyMap → ∃ c₀, (kc'.1, c₀) ∈ h.keyMap ∧ kc'.2.principal = c₀.principal)
      ∧ (e = none → (h.keyMap.map Prod.fst).Nodup →
          ∀ k c, (k, c) ∈ h.keyMap → c.propertyState = some PState.DELETED →
            ∀ c', (k, c') ∉ h'.keyMap))
    (fun heap pv km => ∀ heap' km' e, commitKids heap pv km = (heap', km', e) →
      (∀ kc', kc' ∈ km' → ∃ c₀, (kc'.1, c₀) ∈ km ∧ kc'.2.principal = c₀.principal)
      ∧ (e = none → (km.map Prod.fst).Nodup →
          ∀ k c, (k, c) ∈ km → c.propertyState = some PState.DELETED →
            ∀ c', (k, c') ∉ km'))
    ?_ ?_ ?_ ?_ ?_ ?_ ?_ ?_ ?_ ?_ ?_ ?_
  · intro heap p s d ch b km htype heap₀ km₀ hkids ih heap' h' e hcommit
    simp only [commitNode, if_pos htype, hkids] at hcommit
    simp only [Prod.mk.injEq] at hcommit
    rw [← hcommit.2.1]
    simp only [Handler.keyMap]
    have hres := ih heap₀ km₀ none hkids
    exact ⟨hres.1, fun _ hnd => hres.2 rfl hnd⟩
  · intro heap p s d ch b km htype heap₀ km₀ e₀ hkids ih heap' h' e hcommit
    simp only [commitNode, if_pos htype, hkids] at hcommit
    simp only [Prod.mk.injEq] at hcommit
    rw [← hcommit.2.1]
    simp only [Handler.keyMap]
    have hres := ih heap₀ km₀ (some e₀) hkids
    refine ⟨hres.1, ?_⟩
    intro he
    rw [← hcommit.2.2] at he
    simp at he
  · intro heap p s d ch b km htype heap' h' e hcommit
    simp only [commitNode, if_neg htype] at hcommit
    simp only [Prod.mk.injEq] at hcommit
    rw [← hcommit.2.1]
    simp only [Handler.keyMap]
    refine ⟨fun kc' hm => ⟨kc'.2, by simpa using hm, rfl⟩, ?_⟩
    intro he
    rw [← hcommit.2.2] at he
    simp at he
  · intro heap pv heap' km' e hck
    simp only [commitKids, Prod.mk.injEq] at hck
    rw [← hck.2.1]
    exact ⟨fun kc' hm => by simp at hm, fun _ _ k c hm => by simp at hm⟩
  · intro heap pv k c rest r heap₁ c₁ e₀ hr ihm1 heap' km' e hck
    have hrd : r = if c.changed = true then commitNode heap c else (heap, c, none) := rfl
    rw [hrd] at hr
    have hpe := commit_step_own heap c heap₁ c₁ (some e₀) hr
    simp only [commitKids, hrd, hr] at hck
    simp only [Prod.mk.injEq] at hck
    rw [← hck.2.1]
    refine ⟨?_, ?_⟩
    · intro kc' hm
      rcases List.mem_cons.mp hm with hm | hm
      · subst hm
        exact ⟨c, List.mem_cons_self _ _, hpe.1⟩
      · exact ⟨kc'.2, List.mem_cons_of_mem _ (by simpa using hm), rfl⟩
    · intro he
      rw [← hck.2.2] at he
      simp at he
  · intro heap pv k c rest r heap₁ c₁ hr hst heap₂ hdel ihm1 ihm2 heap' km' e hck
    have hrd : r = if c.changed = true then commitNode heap c else (heap, c, none) := rfl
    rw [hrd] at hr
    simp only [commitKids, hrd, hr, hst, hdel] at hck
    have hres := ihm2 heap' km' e hck
    refine ⟨?_, ?_⟩
    · intro kc' hm
      rcases hres.1 kc' hm with ⟨c₀, hc₀, hpe'⟩
      exact ⟨c₀, List.mem_cons_of_mem _ hc₀, hpe'⟩
    · intro he hnd k' c' hm hst' c'' hm''
      have hknotrest : k ∉ rest.map Prod.fst :=
        (List.nodup_cons.mp (by simpa using hnd)).1
      rcases List.mem_cons.mp hm with hm | hm
      · have hke : k' = k := by simpa using congrArg Prod.fst hm
        subst hke
        rcases hres.1 (k', c'') hm'' with ⟨c₀, hc₀, _⟩
        exact hknotrest (List.mem_map.mpr ⟨(k', c₀), hc₀, rfl⟩)
      · exact hres.2 he (List.nodup_cons.mp (by simpa using hnd)).2 k' c' hm hst' c'' hm''
  · intro heap pv k c rest r heap₁ c₁ hr hst hdel ihm1 heap' km' e hck
    have hrd : r = if c.changed = true then commitNode heap c else (heap, c, none) := rfl
    rw [hrd] at hr
    have hpe := commit_step_own heap c heap₁ c₁ none hr
    simp only [commitKids, hrd, hr, hst, hdel] at hck
    simp only [Prod.mk.injEq] at hck
    rw [← hck.2.1]
    refine ⟨?_, ?_⟩
    · intro kc' hm
      rcases List.mem_cons.mp hm with hm | hm
      · subst hm
        exact ⟨c, List.mem_cons_self _ _, hpe.1⟩
      · exact ⟨kc'.2, List.mem_cons_of_mem _ (by simpa using hm), rfl⟩
    · intro he
      rw [← hck.2.2] at he
      simp at he
  · intro heap pv k c rest r heap₁ c₁ hr hst heap₂ hset heap₃ km₃ e₃ hck₃ ihm1 ihm2
      heap' km' e hck
    have hrd : r = if c.changed = true then commitNode heap c else (heap, c, none) := rfl
    rw [hrd] at hr
    have hpe := commit_step_own heap c heap₁ c₁ none hr
    simp only [commitKids, hrd, hr, hst, hset, hck₃] at hck
    simp only [Prod.mk.injEq] at hck
    rw [← hck.2.1]
    have hres := ihm2 heap₃ km₃ e₃ hck₃
    refine ⟨?_, ?_⟩
    · intro kc' hm
      rcases List.mem_cons.mp hm with hm | hm
      · subst hm
        refine ⟨c, List.mem_cons_self _ _, ?_⟩
        rw [(withState_fields c₁ (some PState.RETAINED)).1]
        exact hpe.1
      · rcases hres.1 kc' hm with ⟨c₀, hc₀, hpe'⟩
        exact ⟨c₀, List.mem_cons_of_mem _ hc₀, hpe'⟩
    · intro he hnd k' c' hm hst' c'' hm''
      rw [← hck.2.2] at he
      have hknotrest : k ∉ rest.map Prod.fst :=
        (List.nodup_cons.mp (by simpa using hnd)).1
      rcases List.mem_cons.mp hm with hm | hm
      · have hce : c' = c := by simpa using congrArg Prod.snd hm
        subst hce
        rw [← hpe.2, hst] at hst'
        simp at hst'
      · rcases List.mem_cons.mp hm'' with hm'' | hm''
        · have hke : k' = k := by simpa using congrArg Prod.fst hm''
          have hkm : k' ∈ rest.map Prod.fst := List.mem_map.mpr ⟨(k', c'), hm, rfl⟩
          rw [hke] at hkm
          exact hknotrest hkm
        · exact hres.2 he (List.nodup_cons.mp (by simpa using hnd)).2 k' c' hm hst' c'' hm''
  · intro heap pv k c rest r heap₁ c₁ hr hst hset ihm1 heap' km' e hck
    have hrd : r = if c.changed = true then commitNode heap c else (heap, c, none) := rfl
    rw [hrd] at hr
    have hpe := commit_step_own heap c heap₁ c₁ none hr
    simp only [commitKids, hrd, hr, hst, hset] at hck
    simp only [Prod.mk.injEq] at hck
    rw [← hck.2.1]
    refine ⟨?_, ?_⟩
    · intro kc' hm
      rcases List.mem_cons.mp hm with hm | hm
      · subst hm
        exact ⟨c, List.mem_cons_self _ _, hpe.1⟩
      · exact ⟨kc'.2, List.mem_cons_of_mem _ (by simpa using hm), rfl⟩
    · intro he
      rw [← hck.2.2] at he
      simp at he
  · intro heap pv k c rest r heap₁ c₁ hr hst heap₂ hset heap₃ km₃ e₃ hck₃ ihm1 ihm2
      heap' km' e hck
    have hrd : r = if c.changed = true then commitNode heap c else (heap, c, none) := rfl
    rw [hrd] at hr
    have hpe := commit_step_own heap c heap₁ c₁ none hr
    simp only [commitKids, hrd, hr, hst, hset, hck₃] at hck
    simp only [Prod.mk.injEq] at hck
    rw [← hck.2.1]
    have hres := ihm2 heap₃ km₃ e₃ hck₃
    refine ⟨?_, ?_⟩
    · intro kc' hm
      rcases List.mem_cons.mp hm with hm | hm
      · subst hm
        refine ⟨c, List.mem_cons_self _ _, ?_⟩
        rw [(withState_fields c₁ (some PState.RETAINED)).1]
        exact hpe.1
      · rcases hres.1 kc' hm with ⟨c₀, hc₀, hpe'⟩
        exact ⟨c₀, List.mem_cons_of_mem _ hc₀, hpe'⟩
    · intro he hnd k' c' hm hst' c'' hm''
      rw [← hck.2.2] at he
      have hknotrest : k ∉ rest.map Prod.fst :=
        (List.nodup_cons.mp (by simpa using hnd)).1
      rcases List.mem_cons.mp hm with hm | hm
      · have hce : c' = c := by simpa using congrArg Prod.snd hm
        subst hce
        rw [← hpe.2, hst] at hst'
        simp at hst'
      · rcases List.mem_cons.mp hm'' with hm'' | hm''
        · have hke : k' = k := by simpa using congrArg Prod.fst hm''
          have hkm : k' ∈ rest.map Prod.fst := List.mem_map.mpr ⟨(k', c'), hm, rfl⟩
          rw [hke] at hkm
          exact hknotrest hkm
        · exact hres.2 he (List.nodup_cons.mp (by simpa using hnd)).2 k' c' hm hst' c'' hm''
  · intro heap pv k c rest r heap₁ c₁ hr hst hset ihm1 heap' km' e hck
    have hrd : r = if c.changed = true then commitNode heap c else (heap, c, none) := rfl
    rw [hrd] at hr
    have hpe := commit_step_own heap c heap₁ c₁ none hr
    simp only [commitKids, hrd, hr, hst, hset] at hck
    simp only [Prod.mk.injEq] at hck
    rw [← hck.2.1]
    refine ⟨?_, ?_⟩
    · intro kc' hm
      rcases List.mem_cons.mp hm with hm | hm
      · subst hm
        exact ⟨c, List.mem_cons_self _ _, hpe.1⟩
      · exact ⟨kc'.2, List.mem_cons_of_mem _ (by simpa using hm), rfl⟩
    · intro he
      rw [← hck.2.2] at he
      simp at he
  · intro heap pv k c rest r heap₁ c₁ hr heap₃ km₃ e₃ hck₃ hnds hndy hnn ihm1 ihm2
      heap' km' e hck
    have hrd : r = if c.changed = true then commitNode heap c else (heap, c, none) := rfl
    rw [hrd] at hr
    have hpe := commit_step_own heap c heap₁ c₁ none hr
    have hstR : c₁.propertyState = some PState.RETAINED ∨ c₁.propertyState = none := by
      rcases hs : c₁.propertyState with _ | st
      · exact Or.inr rfl
      · cases st with
        | RETAINED => exact Or.inl rfl
        | NEW => exact absurd hs hnn
        | DIRTY => exact absurd hs hndy
        | DELETED => exact absurd hs hnds
    have hckred : commitKids heap pv ((k, c) :: rest)
        = (heap₃, (k, c₁) :: km₃, e₃) := by
      rcases hstR with hs | hs <;>
        simp only [commitKids, hrd, hr, hs, hck₃]
    rw [hckred] at hck
    simp only [Prod.mk.injEq] at hck
    rw [← hck.2.1]
    have hres := ihm2 heap₃ km₃ e₃ hck₃
    refine ⟨?_, ?_⟩
    · intro kc' hm
      rcases List.mem_cons.mp hm with hm | hm
      · subst hm
        exact ⟨c, List.mem_cons_self _ _, hpe.1⟩
      · rcases hres.1 kc' hm with ⟨c₀, hc₀, hpe'⟩
        exact ⟨c₀, List.mem_cons_of_mem _ hc₀, hpe'⟩
    · intro he hnd k' c' hm hst' c'' hm''
      rw [← hck.2.2] at he
      have hknotrest : k ∉ rest.map Prod.fst :=
        (List.nodup_cons.mp (by simpa using hnd)).1
      rcases List.mem_cons.mp hm with hm | hm
      · have hce : c' = c := by simpa using congrArg Prod.snd hm
        subst hce
        rw [← hpe.2] at hst'
        rcases hstR with hs | hs <;> rw [hs] at hst' <;> simp at hst'
      · rcases List.mem_cons.mp hm'' with hm'' | hm''
        · have hke : k' = k := by simpa using congrArg Prod.fst hm''
          have hkm : k' ∈ rest.map Prod.fst := List.mem_map.mpr ⟨(k', c'), hm, rfl⟩
          rw [hke] at hkm
          exact hknotrest hkm
        · exact hres.2 he (List.nodup_cons.mp (by simpa using hnd)).2 k' c' hm hst' c'' hm''

/-- The invariant clause for the first key-map entry at a given key. -/
theorem KMInv_lookup {heap : Heap} {o : JObj} :
    ∀ {km : List (String × Handler)} {ex : List Nat}, KMInv heap o km ex →
    ∀ {k : String} {c : Handler}, alook k km = some c →
      (∃ p ex₁, ownProp o k = some p ∧ p.value = c.principal
        ∧ c.propertyState = some PState.RETAINED ∧ HInv heap c ex₁)
      ∨ (∃ st tr ex₁, c.propertyState = some st
        ∧ (st = PState.DIRTY ∨ st = PState.NEW)
        ∧ (st = PState.DIRTY → jsIn o k = true)
        ∧ (st = PState.NEW → jsIn o k = false)
        ∧ VTree heap c.principal tr ∧ HInv heap c ex₁)
      ∨ c.propertyState = some PState.DELETED := by
  intro km
  induction km with
  | nil =>
    intro ex _ k c hc
    simp [alook] at hc
  | cons kc rest ih =>
    intro ex hkm k c hc
    rcases kc with ⟨k₀, c₀⟩
    simp only [alook] at hc
    by_cases hk : k₀ = k
    · rw [if_pos hk] at hc
      simp only [Option.some.injEq] at hc
      subst hk
      subst hc
      cases hkm with
      | retained _ _ _ _ p exc exr hop hpv hst hic hrest =>
        exact Or.inl ⟨p, exc, hop, hpv, hst, hic⟩
      | staged _ _ _ _ st tr exc exr hst hdn hdi hni hv hic hrest =>
        exact Or.inr (Or.inl ⟨st, tr, exc, hst, hdn, hdi, hni, hv, hic⟩)
      | deleted _ _ _ _ exr hst hrest =>
        exact Or.inr (Or.inr hst)
    · rw [if_neg hk] at hc
      cases hkm with
      | retained _ _ _ _ p exc exr hop hpv hst hic hrest => exact ih hrest hc
      | staged _ _ _ _ st tr exc exr hst hdn hdi hni hv hic hrest => exact ih hrest hc
      | deleted _ _ _ _ exr hst hrest => exact ih hrest hc

/-- The per-node invariant carried down the handler tree: structurally
well-formed, with a realizable live value tree and a heap-side invariant. -/
def NodeInv (heap : Heap) (h : Handler) : Prop :=
  TreeWF h ∧ (∃ tr, VTree heap h.principal tr) ∧ (∃ ex, HInv heap h ex)

/-- `NodeInv` descends through `alook` on the key map. -/
theorem NodeInv_child {heap : Heap} {h : Handler} (hni : NodeInv heap h)
    {k : String} {c : Handler} (hc : alook k h.keyMap = some c) : NodeInv heap c := by
  rcases hni with ⟨hwf, ⟨tr, hv⟩, ⟨ex, hi⟩⟩
  have hcwf : TreeWF c := hwf.kidWF (alook_mem hc)
  cases hi with
  | prim p s d ch b hprim =>
    simp [Handler.keyMap, alook] at hc
  | obj a o s d ch b km ex ha hkm =>
    simp only [Handler.keyMap] at hc
    rcases KMInv_lookup hkm hc with ⟨p, ex₁, hop, hpv, hst, hic⟩ |
        ⟨st, trc, ex₁, hst, hdn, hdi, hni', hvc, hic⟩ | hdel
    · refine ⟨hcwf, ?_, ⟨ex₁, hic⟩⟩
      rcases VTree_addr_inv hv with ⟨o', trP, ha', hp, hfp⟩
      rw [ha] at ha'
      simp only [Option.some.injEq] at ha'
      subst ha'
      rcases PTree_at_key hp k p hop with ⟨sub, hsub, _⟩
      rw [hpv] at hsub
      exact ⟨sub, hsub⟩
    · exact ⟨hcwf, ⟨trc, hvc⟩, ⟨ex₁, hic⟩⟩
    · have htomb := (hwf.kidOK (alook_mem hc)).2.2.2.2 hdel
      rcases c with ⟨cp, cs, cd, cch, cb, ckm⟩
      simp only [Handler.principal, Handler.keyMap] at htomb
      refine ⟨hcwf, ?_, ?_⟩
      · rw [show (Handler.mk cp cs cd cch cb ckm).principal = cp from rfl, htomb.1]
        exact ⟨[], VTree.prim JVal.undef (fun a => by simp)⟩
      · rw [htomb.2.1]
        refine ⟨[], HInv.prim cp cs cd cch cb ?_⟩
        rw [htomb.1]
        rfl

/-- `NodeInv` holds at every path-addressed node below an invariant node. -/
theorem nodeAt_NodeInv {heap : Heap} :
    ∀ (path : List String) {h h' : Handler}, NodeInv heap h →
      nodeAt h path = some h' → NodeInv heap h' := by
  intro path
  induction path with
  | nil =>
    intro h h' hni hn
    simp only [nodeAt, Option.some.injEq] at hn
    rw [← hn]
    exact hni
  | cons k rest ih =>
    intro h h' hni hn
    simp only [nodeAt] at hn
    rcases hc : alook k h.keyMap with _ | c <;> rw [hc] at hn
    · simp at hn
    · exact ih (NodeInv_child hni hc) hn

theorem alook_of_mem_nodup {α β : Type} [DecidableEq α] :
    ∀ {l : List (α × β)}, (l.map Prod.fst).Nodup →
      ∀ {k : α} {v : β}, (k, v) ∈ l → alook k l = some v := by
  intro l
  induction l with
  | nil =>
    intro _ k v hm
    simp at hm
  | cons x rest ih =>
    intro hnd k v hm
    rcases x with ⟨k₀, v₀⟩
    rcases List.mem_cons.mp hm with hm | hm
    · rw [Prod.mk.injEq] at hm
      rcases hm with ⟨h1, h2⟩
      subst h1
      subst h2
      simp [alook]
    · have hnd' : (k₀ :: rest.map Prod.fst).Nodup := by simpa using hnd
      have hk : k₀ ≠ k := by
        intro he
        subst he
        exact (List.nodup_cons.mp hnd').1 (List.mem_map.mpr ⟨(k₀, v), hm, rfl⟩)
      simp only [alook, if_neg hk]
      exact ih (List.nodup_cons.mp hnd').2 hm

/-- Under the invariant a `NEW` child's key is nowhere on the live object:
neither an own key nor prototype-provided. -/
theorem KMInv_new_mem {heap : Heap} {o : JObj} :
    ∀ {km : List (String × Handler)} {ex : List Nat}, KMInv heap o km ex →
      ∀ kc, kc ∈ km → kc.2.propertyState = some PState.NEW →
        jsIn o kc.1 = false := by
  intro km
  induction km with
  | nil =>
    intro ex _ kc hm
    simp at hm
  | cons kc₀ rest ih =>
    intro ex hkm kc hm hnew
    cases hkm with
    | retained _ k c _ p exc exr hop hpv hst hic hrest =>
      rcases List.mem_cons.mp hm with hm | hm
      · subst hm
        have hnew' : c.propertyState = some PState.NEW := hnew
        rw [hst] at hnew'
        simp at hnew'
      · exact ih hrest kc hm hnew
    | staged _ k c _ st tr exc exr hst hdn hdi hni hv hic hrest =>
      rcases List.mem_cons.mp hm with hm | hm
      · subst hm
        have hnew' : c.propertyState = some PState.NEW := hnew
        rw [hst] at hnew'
        simp only [Option.some.injEq] at hnew'
        exact hni hnew'
      · exact ih hrest kc hm hnew
    | deleted _ k c _ exr hst hrest =>
      rcases List.mem_cons.mp hm with hm | hm
      · subst hm
        have hnew' : c.propertyState = some PState.NEW := hnew
        rw [hst] at hnew'
        simp at hnew'
      · exact ih hrest kc hm hnew

/-- The enumeration contract in the claim's own words: the principal's
own-key list with the keys of `DELETED` children removed, followed by the
keys of the `NEW` children that are not own keys, in key-map order. -/
def ownKeysSpec (heap : Heap) (h : Handler) : List String :=
  match h.principal with
  | JVal.addr a =>
    match alook a heap with
    | some o =>
      ((reflectOwnKeys o).filter fun k =>
        match alook k h.keyMap with
        | some c => decide (c.propertyState ≠ some PState.DELETED)
        | none => true)
      ++ ((h.keyMap.filter fun kc =>
            decide (kc.2.propertyState = some PState.NEW) && !(hasOwn o kc.1)).map Prod.fst)
    | none => []
  | _ => []

/-- Under the node invariant the `ownKeys` trap coincides with the claim's
own-key reading: the trap filters the appended part by `!(key in target)`,
but a `NEW` child's key is never own nor prototype-provided, so both filters
keep exactly the `NEW` children. -/
theorem hOwnKeys_spec {heap : Heap} {h : Handler} (hni : NodeInv heap h) :
    hOwnKeys heap h = ownKeysSpec heap h := by
  rcases hni with ⟨hwf, _, ⟨ex, hi⟩⟩
  cases hi with
  | prim p s d ch b hprim =>
    rcases p with _ | _ | _ | _ | _ | a | _ <;>
      simp [hOwnKeys, ownKeysSpec, Handler.principal] <;> simp [isAddr] at hprim
  | obj a o s d ch b km ex ha hkm =>
    simp only [hOwnKeys, ownKeysSpec, Handler.principal, Handler.keyMap, ha]
    congr 1
    apply congrArg
    apply List.filter_congr
    intro kc hm
    by_cases hnew : kc.2.propertyState = some PState.NEW
    · have hji := KMInv_new_mem hkm kc hm hnew
      have hho : hasOwn o kc.1 = false := by
        simp only [jsIn, Bool.or_eq_false_iff] at hji
        exact hji.1
      rw [show jsIn o kc.1 = false from by
            simpa using KMInv_new_mem hkm kc hm hnew, hho]
    · simp [hnew]

/-- Under the node invariant a `DELETED` child's key is invisible to the
enumeration and membership traps. -/
theorem deleted_absent {heap : Heap} {h : Handler} (hni : NodeInv heap h)
    {k : String} {c : Handler} (hc : alook k h.keyMap = some c)
    (hdel : c.propertyState = some PState.DELETED) :
    k ∉ hOwnKeys heap h ∧ hHas heap h k = false := by
  have hhas : hHas heap h k = false := by
    simp only [hHas, hc, hdel]
    simp
  refine ⟨?_, hhas⟩
  rcases hni with ⟨hwf, _, ⟨ex, hi⟩⟩
  cases hi with
  | prim p s d ch b hprim =>
    simp [Handler.keyMap, alook] at hc
  | obj a o s d ch b km ex ha hkm =>
    simp only [Handler.keyMap] at hc
    simp only [hOwnKeys, Handler.principal, Handler.keyMap, ha]
    intro hmem
    rcases List.mem_append.mp hmem with hmem | hmem
    · rcases List.mem_filter.mp hmem with ⟨_, hpred⟩
      simp only [hc] at hpred
      simp [hdel] at hpred
    · rcases List.mem_map.mp hmem with ⟨kc, hkc, hfst⟩
      rcases List.mem_filter.mp hkc with ⟨hkcm, hpred⟩
      have hkc2 : alook k km = some kc.2 := by
        have := alook_of_mem_nodup (by simpa [Handler.keyMap] using hwf.nodupKeys)
          (show (k, kc.2) ∈ km from by
            rw [← hfst]
            simpa using hkcm)
        exact this
      rw [hc] at hkc2
      simp only [Option.some.injEq] at hkc2
      rw [← hkc2, hdel] at hpred
      simp at hpred

/-- C5 (corrected): in every reachable state and at every path-addressed
node, the `ownKeys` trap enumerates exactly the principal's own-key list
with the keys of `DELETED` children removed, followed by the keys of the
`NEW` children in key-map order — the order keys were first staged, an
in-place re-write keeping a key's position, not the order the current child
nodes were created — and a `DELETED` child's key is absent from both the
enumeration and the `has` membership test. -/
theorem own_keys_enumeration_amended (heap₀ : Heap) (a n : Nat) (ops : List Op)
    (st : St) (path : List String) (h : Handler)
    (hok : initOK heap₀ a n = true) (hr : run (mkInit heap₀ a n) ops = some st)
    (hn : nodeAt st.root path = some h) :
    hOwnKeys st.heap h = ownKeysSpec st.heap h
    ∧ (∀ k c, alook k h.keyMap = some c → c.propertyState = some PState.DELETED →
        k ∉ hOwnKeys st.heap h ∧ hHas st.heap h k = false) := by
  have hst := reachable_StInv heap₀ a n ops st hok hr
  rcases hst.tree with ⟨tr, ex, hv, hi, _, _⟩
  have hroot : NodeInv st.heap st.root := ⟨hst.twf, ⟨tr, hv⟩, ⟨ex, hi⟩⟩
  have hnode := nodeAt_NodeInv path hroot hn
  exact ⟨hOwnKeys_spec hnode, fun k c hc hdel => deleted_absent hnode hc hdel⟩

/-- A concrete principal for exercising the enumeration contract. -/
def c5Heap : Heap :=
  [(0, ⟨[("x", ⟨JVal.jnum 1, true, true, true⟩), ("y", ⟨JVal.jnum 2, true, true, true⟩)],
        true, protoDefault⟩)]

def c5Ops : List Op := [Op.write [] "z" (VLit.vnum 3), Op.del [] "y"]

/-- `c5Heap` after staging `z = 3` (a `NEW` key) and `delete y`. -/
def c5St : St := runD (mkInit c5Heap 0 1) c5Ops

/-- The C5 contract evaluated on a concrete reachable state carrying a `NEW`
key `z` and a `DELETED` key `y`. -/
theorem own_keys_enumeration_amended_witness :
    (initOK c5Heap 0 1 = true
      ∧ run (mkInit c5Heap 0 1) c5Ops = some c5St
      ∧ nodeAt c5St.root [] = some c5St.root)
    ∧ hOwnKeys c5St.heap c5St.root = ownKeysSpec c5St.heap c5St.root
    ∧ (∀ k c, alook k c5St.root.keyMap = some c →
        c.propertyState = some PState.DELETED →
        k ∉ hOwnKeys c5St.heap c5St.root ∧ hHas c5St.heap c5St.root k = false) :=
by
  have hok : initOK c5Heap 0 1 = true := by
    simp [initOK, c5Heap, buildVT, buildProps, alook, protoDefault]
  refine ⟨⟨hok, by rfl, rfl⟩, ?_, ?_⟩
  · exact (own_keys_enumeration_amended c5Heap 0 1 c5Ops c5St [] c5St.root
      hok (by rfl) rfl).1
  · exact (own_keys_enumeration_amended c5Heap 0 1 c5Ops c5St [] c5St.root
      hok (by rfl) rfl).2

/-- The `testPrincipalEqual` body over an optional parent link, as the
source branches: the root (no `parentHandler`) answers `true` without
comparing anything; any other node re-reads
`Reflect.get(parentHandler.principal, propertyName)` from the live heap and
compares it by identity with its own buffered principal. -/
def testPrincipalEqual (heap : Heap) : Option (Handler × String) → Handler → Bool
  | none, _ => true
  | some (ph, k), self => tpeNode heap ph.principal k self

/-- Under the node invariant an existing `RETAINED` child passes the
principal test: its buffered principal aliases the live own value. -/
theorem retained_tpe {heap : Heap} {h : Handler} (hni : NodeInv heap h)
    {k : String} {c : Handler} (hc : alook k h.keyMap = some c)
    (hret : c.propertyState = some PState.RETAINED) :
    ∀ clk, hTPE heap h clk k = (some true, h, clk) := by
  intro clk
  rcases hni with ⟨hwf, _, ⟨ex, hi⟩⟩
  cases hi with
  | prim p s d ch b hprim =>
    simp [Handler.keyMap, alook] at hc
  | obj a o s d ch b km ex ha hkm =>
    simp only [Handler.keyMap] at hc
    have halias : liveGet heap (JVal.addr a) k = c.principal := by
      rcases KMInv_lookup hkm hc with ⟨p, ex₁, hop, hpv, _, _⟩ |
          ⟨st, trc, ex₁, hst, hdn, _, _, _, _⟩ | hdel
      · simp only [liveGet, ha, reflectGet, hop]
        exact hpv
      · rw [hret] at hst
        simp only [Option.some.injEq] at hst
        rcases hdn with hdn | hdn <;> rw [← hst] at hdn <;> simp at hdn
      · rw [hret] at hdel
        simp at hdel
    simp only [hTPE, getOrRetainProperty, Handler.keyMap, hc]
    simp [tpeNode, Handler.principal, halias]

/-- C7 (confirmed): the principal test a) is constantly `true` at the root
(no parent to compare against), b) at a non-root node answers `true` exactly
when the live value re-read from the parent's principal is identical to the
node's buffered principal; consequently c) an untouched (`RETAINED`) child
of any reachable node tests `true`, d) a child staged by a write whose value
differs from the live one tests `false` while uncommitted, e) after an
error-free commit at the root every surviving child tests `true` again, and
f) an external mutation of the heap that changes the live value under an
existing child makes the test answer `false` while returning the node
untouched — its `changed` flag is not flipped. -/
theorem test_principal_equal_semantics (heap₀ : Heap) (a n : Nat) (ops : List Op)
    (st : St) (path : List String) (h : Handler)
    (hok : initOK heap₀ a n = true) (hr : run (mkInit heap₀ a n) ops = some st)
    (hn : nodeAt st.root path = some h) :
    (∀ (heap' : Heap) (self : Handler), testPrincipalEqual heap' none self = true)
    ∧ (∀ (heap' : Heap) (ph : Handler) (k : String) (self : Handler),
        testPrincipalEqual heap' (some (ph, k)) self = true
          ↔ liveGet heap' ph.principal k = self.principal)
    ∧ (∀ k c, alook k h.keyMap = some c → c.propertyState = some PState.RETAINED →
        ∀ clk, hTPE st.heap h clk k = (some true, h, clk))
    ∧ (∀ (heap' : Heap) (h₁ h₂ : Handler) (k : String) (v : JVal) (clk clk' : Nat),
        hSet heap' h₁ k v clk = some (h₂, clk') →
        liveGet heap' h₁.principal k ≠ v →
        (hTPE heap' h₂ clk' k).1 = some false)
    ∧ (∀ st', step st (Op.commitAt []) = some st' →
        ∀ k c, alook k st'.root.keyMap = some c →
          ∀ clk, hTPE st'.heap st'.root clk k = (some true, st'.root, clk))
    ∧ (∀ (heap' : Heap) k c, alook k h.keyMap = some c →
        liveGet heap' h.principal k ≠ c.principal →
        ∀ clk, hTPE heap' h clk k = (some false, h, clk)) := by
  have hstI := reachable_StInv heap₀ a n ops st hok hr
  have hroot : NodeInv st.heap st.root := by
    rcases hstI.tree with ⟨tr, ex, hv, hi, _, _⟩
    exact ⟨hstI.twf, ⟨tr, hv⟩, ⟨ex, hi⟩⟩
  have hnode := nodeAt_NodeInv path hroot hn
  refine ⟨?_, ?_, ?_, ?_, ?_, ?_⟩
  · intro heap' self
    rfl
  · intro heap' ph k self
    simp [testPrincipalEqual, tpeNode]
  · intro k c hc hret clk
    exact retained_tpe hnode hc hret clk
  · intro heap' h₁ h₂ k v clk clk' hset hne
    rcases h₁ with ⟨p, s, d, ch, b, km⟩
    simp only [Handler.principal] at hset hne
    simp only [hSet, Handler.principal] at hset
    rcases p with _ | _ | _ | _ | _ | pa | _ <;> try simp at hset
    rcases hao : alook pa heap' with _ | o <;> rw [hao] at hset
    · simp at hset
    · simp only [Option.some.injEq, Prod.mk.injEq] at hset
      rcases hset with ⟨hh₂, hclk⟩
      rw [← hh₂]
      simp only [hTPE, getOrRetainProperty, Handler.withKeyMap, Handler.withChanged,
        Handler.keyMap, alook_ainsert_self, Handler.principal, tpeNode]
      simp [hne]
  · intro st' hs k c hc clk
    have hstI' := step_StInv st st' (Op.commitAt []) hstI hs
    simp only [step] at hs
    rw [show atPath commitAct [] st.heap st.root st.clk
          = commitAct st.heap st.root st.clk from rfl] at hs
    rcases hcn : commitNode st.heap st.root with ⟨heap₂, h₂, e⟩
    simp only [commitAct, hcn] at hs
    cases e with
    | some e₀ => simp at hs
    | none =>
      simp only [Option.map_some', Option.some.injEq] at hs
      have hq : Quiescent h₂ :=
        (commit_TreeWF st.heap st.root hstI.twf heap₂ h₂ none hcn).2.2.2.2.2.2.1 rfl
      have hroot' : st'.root = h₂ := by
        rw [← hs]
      have hret : c.propertyState = some PState.RETAINED := by
        rw [hroot'] at hc
        cases hq with
        | mk p s d b km hretk hqk =>
          exact hretk (k, c) (alook_mem (by simpa [Handler.keyMap] using hc))
      have hroot'' : NodeInv st'.heap st'.root := by
        rcases hstI'.tree with ⟨tr, ex, hv, hi, _, _⟩
        exact ⟨hstI'.twf, ⟨tr, hv⟩, ⟨ex, hi⟩⟩
      exact retained_tpe hroot'' hc hret clk
  · intro heap' k c hc hne clk
    simp only [hTPE, getOrRetainProperty, hc]
    simp [tpeNode, hne]

/-- `c5Heap` after the single surface read of `x`, which lazily materializes
a `RETAINED` child for `x`. -/
def c7St : St := runD (mkInit c5Heap 0 1) [Op.read [] "x"]

/-- The C7 semantics evaluated on a concrete reachable state with a
`RETAINED` child. -/
theorem test_principal_equal_semantics_witness :
    (initOK c5Heap 0 1 = true
      ∧ run (mkInit c5Heap 0 1) [Op.read [] "x"] = some c7St
      ∧ nodeAt c7St.root [] = some c7St.root)
    ∧ ((∀ (heap' : Heap) (self : Handler), testPrincipalEqual heap' none self = true)
    ∧ (∀ (heap' : Heap) (ph : Handler) (k : String) (self : Handler),
        testPrincipalEqual heap' (some (ph, k)) self = true
          ↔ liveGet heap' ph.principal k = self.principal)
    ∧ (∀ k c, alook k c7St.root.keyMap = some c →
        c.propertyState = some PState.RETAINED →
        ∀ clk, hTPE c7St.heap c7St.root clk k = (some true, c7St.root, clk))
    ∧ (∀ (heap' : Heap) (h₁ h₂ : Handler) (k : String) (v : JVal) (clk clk' : Nat),
        hSet heap' h₁ k v clk = some (h₂, clk') →
        liveGet heap' h₁.principal k ≠ v →
        (hTPE heap' h₂ clk' k).1 = some false)
    ∧ (∀ st', step c7St (Op.commitAt []) = some st' →
        ∀ k c, alook k st'.root.keyMap = some c →
          ∀ clk, hTPE st'.heap st'.root clk k = (some true, st'.root, clk))
    ∧ (∀ (heap' : Heap) k c, alook k c7St.root.keyMap = some c →
        liveGet heap' c7St.root.principal k ≠ c.principal →
        ∀ clk, hTPE heap' c7St.root clk k = (some false, c7St.root, clk))) := by
  have hok : initOK c5Heap 0 1 = true := by
    simp [initOK, c5Heap, buildVT, buildProps, alook, protoDefault]
  exact ⟨⟨hok, by rfl, rfl⟩,
    test_principal_equal_semantics c5Heap 0 1 [Op.read [] "x"] c7St [] c7St.root
      hok (by rfl) rfl⟩

/-- Under the node invariant an existing `RETAINED` child's buffered
principal is exactly the live value of its key. -/
theorem retained_alias {heap : Heap} {h : Handler} (hni : NodeInv heap h)
    {k : String} {c : Handler} (hc : alook k h.keyMap = some c)
    (hret : c.propertyState = some PState.RETAINED) :
    liveGet heap h.principal k = c.principal := by
  rcases hni with ⟨hwf, _, ⟨ex, hi⟩⟩
  cases hi with
  | prim p s d ch b hprim =>
    simp [Handler.keyMap, alook] at hc
  | obj a o s d ch b km ex ha hkm =>
    simp only [Handler.keyMap] at hc
    rcases KMInv_lookup hkm hc with ⟨p, ex₁, hop, hpv, _, _⟩ |
        ⟨st, trc, ex₁, hst, hdn, _, _, _, _⟩ | hdel
    · simp only [Handler.principal, liveGet, ha, reflectGet, hop]
      exact hpv
    · rw [hret] at hst
      simp only [Option.some.injEq] at hst
      rcases hdn with hdn | hdn <;> rw [← hst] at hdn <;> simp at hdn
    · rw [hret] at hdel
      simp at hdel

/-- The per-key loop of the quiescent mirror: over a duplicate-free object,
reading each own key through the surface (all children `RETAINED`) equals
reading it straight from the property list. -/
theorem serKeys_mirror (fuel : Nat) (heap : Heap)
    (ih : ∀ (h : Handler), Quiescent h → (∃ ex, HInv heap h ex) →
      serializeStaged fuel heap h = serializeObj fuel heap h.principal)
    (o : JObj) (h : Handler) {ex : List Nat}
    (hkmInv : KMInv heap o h.keyMap ex)
    (hq : ∀ kc, kc ∈ h.keyMap → kc.2.propertyState = some PState.RETAINED)
    (hqk : ∀ kc, kc ∈ h.keyMap → Quiescent kc.2) :
    ∀ (l : List (String × JProp)), (∀ kp, kp ∈ l → alook kp.1 o.props = some kp.2) →
      serKeys fuel heap o h (l.map Prod.fst) = serProps fuel heap l := by
  intro l
  induction l with
  | nil =>
    intro _
    simp [serKeys, serProps]
  | cons kp rest ihl =>
    intro hsub
    rcases kp with ⟨k, p⟩
    have hkp : alook k o.props = some p := hsub (k, p) (List.mem_cons_self _ _)
    have htail := ihl (fun kp hm => hsub kp (List.mem_cons_of_mem _ hm))
    simp only [List.map_cons, serKeys, serProps]
    rcases hc : alook k h.keyMap with _ | c
    · have hrg : reflectGet o k = p.value := by
        simp [reflectGet, ownProp, hkp]
      simp only []
      rw [hrg, htail]
    · have hm := alook_mem hc
      have hret := hq (k, c) hm
      rcases KMInv_lookup hkmInv hc with ⟨p₀, ex₁, hop, hpv, _, hic⟩ |
          ⟨st, tr, ex₁, hst, hdn, _, _, _, _⟩ | hdel
      · have hpp : p₀ = p := by
          rw [show ownProp o k = alook k o.props from rfl, hkp] at hop
          simpa using hop.symm
        have hser := ih c (hqk (k, c) hm) ⟨ex₁, hic⟩
        simp only []
        rw [hser, ← hpv, hpp, htail]
      · rw [hret] at hst
        simp only [Option.some.injEq] at hst
        rcases hdn with hdn | hdn <;> rw [← hst] at hdn <;> simp at hdn
      · rw [hret] at hdel
        simp at hdel

/-- On a recursively quiet node the staged serialization and the live
serialization of the principal agree: the `ownKeys` trap enumerates exactly
the own keys and every child aliases its live value. -/
theorem serializeStaged_quiescent : ∀ (fuel : Nat) (heap : Heap), HeapWF heap →
    ∀ (h : Handler), Quiescent h → (∃ ex, HInv heap h ex) →
      serializeStaged fuel heap h = serializeObj fuel heap h.principal := by
  intro fuel
  induction fuel with
  | zero =>
    intro heap _ h _ _
    simp [serializeStaged, serializeObj]
  | succ fuel ihf =>
    intro heap hwfH h hq hex
    rcases hex with ⟨ex, hi⟩
    cases hi with
    | prim p s d ch b hprim =>
      rcases p with _ | _ | _ | _ | _ | a | _ <;>
        simp [serializeStaged, serializeObj, Handler.principal] <;>
        simp [isAddr] at hprim
    | obj a o s d ch b km ex ha hkm =>
      cases hq with
      | mk _ _ _ _ _ hretk hqkk =>
        have hqch : ∀ kc, kc ∈ (Handler.mk (JVal.addr a) s d false b km).keyMap →
            kc.2.propertyState = some PState.RETAINED := by
          intro kc hm
          exact hretk kc (by simpa [Handler.keyMap] using hm)
        have hqkch : ∀ kc, kc ∈ (Handler.mk (JVal.addr a) s d false b km).keyMap →
            Quiescent kc.2 := by
          intro kc hm
          exact hqkk kc (by simpa [Handler.keyMap] using hm)
        have hkeys : hOwnKeys heap (Handler.mk (JVal.addr a) s d false b km)
            = reflectOwnKeys o := by
          simp only [hOwnKeys, Handler.principal, Handler.keyMap, ha]
          have h1 : (reflectOwnKeys o).filter (fun k => match alook k km with
              | some c => decide (c.propertyState ≠ some PState.DELETED)
              | none => true) = reflectOwnKeys o := by
            refine List.filter_eq_self.mpr ?_
            intro k hk
            rcases hck : alook k km with _ | c
            · simp [hck]
            · have hrc := hretk (k, c) (alook_mem hck)
              simp only at hrc
              simp [hck, hrc]
          have h2 : (km.filter fun kc =>
              decide (kc.2.propertyState = some PState.NEW) && !(jsIn o kc.1)) = [] := by
            refine List.filter_eq_nil_iff.mpr ?_
            intro kc hm
            have hrc := hretk kc hm
            simp [hrc]
          rw [h1, h2]
          simp
        have hnd : (o.props.map Prod.fst).Nodup := hwfH (a, o) (alook_mem ha)
        have hmirror := serKeys_mirror fuel heap
          (fun h' hq' hex' => ihf heap hwfH h' hq' hex')
          o (Handler.mk (JVal.addr a) s d false b km) hkm hqch hqkch o.props
          (fun kp hm => alook_of_mem_nodup hnd
            (show (kp.1, kp.2) ∈ o.props from by simpa using hm))
        simp only [serializeStaged, serializeObj, Handler.principal, ha, hkeys]
        rw [show reflectOwnKeys o = o.props.map Prod.fst from rfl, hmirror]

/-- A node with at least one child has an object principal resolvable in the
heap. -/
theorem HInv_principal_addr {heap : Heap} {h : Handler} {ex : List Nat}
    (hi : HInv heap h ex) {k : String} {c : Handler}
    (hc : alook k h.keyMap = some c) :
    ∃ a o, h.principal = JVal.addr a ∧ alook a heap = some o := by
  cases hi with
  | prim p s d ch b hprim =>
    simp [Handler.keyMap, alook] at hc
  | obj a o s d ch b km ex ha hkm =>
    exact ⟨a, o, rfl, ha⟩

/-- C2 (corrected): after an error-free `commit()` at the root of a
reachable state, a) every surviving child sits at a key the key map already
had, is `RETAINED`, keeps its pre-commit buffered principal value, and that
value is now the live value of the key on the principal; b) every `DELETED`
child is evicted: its key has no node, no own property on the live
principal, and the `$propertyState` query answers `undefined`; c) the
committed node is recursively quiet (`changed` cleared everywhere, every
child `RETAINED`); d) the staged view's serialized form and the principal's
serialized form coincide on the committed state at every fuel.  The claim's
pre/post serialization equality is stated on the committed state because it
fails across the commit: a `DIRTY` prototype-shadowing child is absent from
the staged enumeration yet materializes as a fresh own key. -/
theorem commit_convergence_amended (heap₀ : Heap) (a n : Nat) (ops : List Op)
    (st st' : St)
    (hok : initOK heap₀ a n = true) (hr : run (mkInit heap₀ a n) ops = some st)
    (hcm : step st (Op.commitAt []) = some st') :
    (∀ k c', alook k st'.root.keyMap = some c' →
        ∃ c₀, alook k st.root.keyMap = some c₀ ∧ c'.principal = c₀.principal
          ∧ c'.propertyState = some PState.RETAINED
          ∧ liveGet st'.heap st'.root.principal k = c₀.principal)
    ∧ (∀ k c, alook k st.root.keyMap = some c →
        c.propertyState = some PState.DELETED →
          alook k st'.root.keyMap = none
          ∧ (∃ a' o', st'.root.principal = JVal.addr a'
              ∧ alook a' st'.heap = some o' ∧ ownProp o' k = none)
          ∧ (∀ clk, (hPropState st'.heap st'.root clk k).1 = none))
    ∧ Quiescent st'.root
    ∧ (∀ fuel, serializeStaged fuel st'.heap st'.root
        = serializeObj fuel st'.heap st'.root.principal) := by
  have hstI := reachable_StInv heap₀ a n ops st hok hr
  have hstI' := step_StInv st st' (Op.commitAt []) hstI hcm
  simp only [step] at hcm
  rw [show atPath commitAct [] st.heap st.root st.clk
        = commitAct st.heap st.root st.clk from rfl] at hcm
  rcases hcn : commitNode st.heap st.root with ⟨heap₂, h₂, e⟩
  simp only [commitAct, hcn] at hcm
  cases e with
  | some e₀ => simp at hcm
  | none =>
    simp only [Option.map_some', Option.some.injEq] at hcm
    have hheap' : st'.heap = heap₂ := by rw [← hcm]
    have hroot' : st'.root = h₂ := by rw [← hcm]
    have hq : Quiescent h₂ :=
      (commit_TreeWF st.heap st.root hstI.twf heap₂ h₂ none hcn).2.2.2.2.2.2.1 rfl
    have hnode' : NodeInv st'.heap st'.root := by
      rcases hstI'.tree with ⟨tr, ex, hv, hi, _, _⟩
      exact ⟨hstI'.twf, ⟨tr, hv⟩, ⟨ex, hi⟩⟩
    have hcorr := commit_corr st.heap st.root heap₂ h₂ none hcn
    refine ⟨?_, ?_, ?_, ?_⟩
    · intro k c' hc'
      have hc'2 : alook k h₂.keyMap = some c' := by
        rw [← hroot']
        exact hc'
      rcases hcorr.1 (k, c') (alook_mem hc'2) with ⟨c₀, hc₀m, hpe⟩
      have hc₀ : alook k st.root.keyMap = some c₀ :=
        alook_of_mem_nodup hstI.twf.nodupKeys hc₀m
      have hret : c'.propertyState = some PState.RETAINED := by
        cases hq with
        | mk p s d b km hretk hqk =>
          exact hretk (k, c') (alook_mem (by simpa [Handler.keyMap] using hc'2))
      refine ⟨c₀, hc₀, hpe, hret, ?_⟩
      rw [← hpe]
      exact retained_alias hnode' hc' hret
    · intro k c hc hdel
      have hcev := hcorr.2 rfl hstI.twf.nodupKeys k c (alook_mem hc) hdel
      have hnone : alook k h₂.keyMap = none := by
        refine alook_eq_none_of_forall ?_
        intro p hp hpk
        have hmem : (p.1, p.2) ∈ h₂.keyMap := by simpa using hp
        rw [hpk] at hmem
        exact hcev p.2 hmem
      rcases hstI.tree with ⟨tr, ex, hv, hi, hnd, _⟩
      rcases HInv_principal_addr hi hc with ⟨aR, oR, hpr, haoR⟩
      have hpnd : (oR.props.map Prod.fst).Nodup :=
        hstI.propsWF (aR, oR) (alook_mem haoR)
      rcases commit_HInv st.heap st.root hstI.twf tr ex hv hi hnd
          heap₂ h₂ none hcn rfl with ⟨tr', _, _, _, _, _, hdelc⟩
      rcases hdelc aR oR hpr haoR hpnd k c (alook_mem hc) hdel with ⟨oR', haoR', hopn⟩
      have hpr₂ : h₂.principal = JVal.addr aR := by
        rw [(commitNode_own st.heap st.root heap₂ h₂ none hcn).1, hpr]
      refine ⟨by rw [hroot']; exact hnone,
        ⟨aR, oR', by rw [hroot']; exact hpr₂, by rw [hheap']; exact haoR', hopn⟩, ?_⟩
      intro clk
      rw [hroot', hheap']
      simp only [hPropState, getOrRetainProperty, hnone, hpr₂, haoR', hopn]
    · rw [hroot']
      exact hq
    · intro fuel
      rcases hstI'.tree with ⟨tr2, ex2, hv2, hi2, _, _⟩
      refine serializeStaged_quiescent fuel st'.heap hstI'.propsWF st'.root ?_ ⟨ex2, hi2⟩
      rw [hroot']
      exact hq

/-- `c5St` after an error-free `commit()` at the root. -/
def c2St : St := runD c5St [Op.commitAt []]

/-- The C2 contract evaluated on a concrete commit: `z` was `NEW`, `y` was
`DELETED`; after the commit `z` survives as `RETAINED` own key and `y` is
gone everywhere. -/
theorem commit_convergence_amended_witness :
    (initOK c5Heap 0 1 = true
      ∧ run (mkInit c5Heap 0 1) c5Ops = some c5St
      ∧ step c5St (Op.commitAt []) = some c2St)
    ∧ ((∀ k c', alook k c2St.root.keyMap = some c' →
        ∃ c₀, alook k c5St.root.keyMap = some c₀ ∧ c'.principal = c₀.principal
          ∧ c'.propertyState = some PState.RETAINED
          ∧ liveGet c2St.heap c2St.root.principal k = c₀.principal)
    ∧ (∀ k c, alook k c5St.root.keyMap = some c →
        c.propertyState = some PState.DELETED →
          alook k c2St.root.keyMap = none
          ∧ (∃ a' o', c2St.root.principal = JVal.addr a'
              ∧ alook a' c2St.heap = some o' ∧ ownProp o' k = none)
          ∧ (∀ clk, (hPropState c2St.heap c2St.root clk k).1 = none))
    ∧ Quiescent c2St.root
    ∧ (∀ fuel, serializeStaged fuel c2St.heap c2St.root
        = serializeObj fuel c2St.heap c2St.root.principal)) := by
  have hok : initOK c5Heap 0 1 = true := by
    simp [initOK, c5Heap, buildVT, buildProps, alook, protoDefault]
  have hcm : step c5St (Op.commitAt []) = some c2St := by
    simp [c2St, c5St, c5Ops, c5Heap, runD, run, step, atPath, commitAct, commitNode,
      commitKids, heapSet, heapDelete, reflectSet, reflectDelete, ownProp, alook,
      aupdate, aremove, ainsert, mkInit, allocLit, allocProps, VLit.wf, writeAct,
      delAct, hSet, hDelete, getOrRetainProperty, jsIn, hasOwn, protoDefault,
      Handler.principal, Handler.keyMap, Handler.withKeyMap, Handler.withChanged,
      Handler.changed, Handler.propertyState, Handler.withState,
      Handler.propertyDescriptor, Handler.birth, typeofStr, isAddr]
  exact ⟨⟨hok, by rfl, hcm⟩,
    commit_convergence_amended c5Heap 0 1 c5Ops c5St c2St hok (by rfl) hcm⟩
